import Mathlib

/-!
# Weighted LCA / sparse-table RMQ (`src/rmq_lca/weighted_lca.cc`)

A shallow embedding of the two structs of `weighted_lca.cc` and a verification
development over it.

Conventions of the embedding.
* `std::vector<T>` is `List T`; C++ `int` and the weight type `T_weight`
  (`int64_t` in `main`) are `Int`.  Values are assumed to stay inside the machine
  range, so no wrap-around is modelled.
* `vec[i]` is the fallible read `rd vec i` and `vec[i] = x` the fallible write
  `wr vec i x`: an index outside `0 .. size-1` (undefined behaviour in C++) and a
  failing `assert` are both the result `none`.
* The recursive functions `dfs` and `tour_dfs` and the `while` loop of
  `get_kth_ancestor` take a fuel argument; running out of fuel is `none`.
* `std::sort` is a parameter: a `StdSort` is any function satisfying the contract
  of `std::sort` (the result is a permutation of the input, ordered by the
  comparator); nothing is assumed about the order of equal elements.
* The member functions take the state of the object as an argument.  `init` works on
  the state `prev` that the object has when it is called; the theorems about a built
  structure hold for `build` after `init(adj)` on every such `prev`, a new object
  (`fresh`) or one used before.
-/

set_option autoImplicit false

/-! ## Definitions -/

/-- Fallible read `vec[i]`. -/
def rd {α : Type} (vec : List α) (i : Int) : Option α :=
  if 0 ≤ i then vec[i.toNat]? else none

/-- Fallible write `vec[i] = x`. -/
def wr {α : Type} (vec : List α) (i : Int) (x : α) : Option (List α) :=
  if 0 ≤ i ∧ i.toNat < vec.length then some (vec.set i.toNat x) else none

/-- The contract of `std::sort` for a comparator `lt`: the result is a permutation of
the input, and for a comparator that compares an integer key the result is ordered by
that key.  The relative order of elements with equal keys is left open. -/
structure StdSort where
  sort : {α : Type} → (α → α → Bool) → List α → List α
  perm : ∀ {α : Type} (lt : α → α → Bool) (l : List α), (sort lt l).Perm l
  sorted : ∀ {α : Type} (key : α → Int) (l : List α),
    (sort (fun a b => decide (key a < key b)) l).Pairwise (fun a b => key a ≤ key b)

/-! ## `struct RMQ` -/

/-- `template<typename T, bool maximum_mode> struct RMQ` with `T = int`; the template
flag `maximum_mode` is a field. -/
structure RMQ where
  maximum_mode : Bool
  n : Int
  values : List Int
  range_low : List (List Int)
deriving DecidableEq, Repr

namespace RMQ

/-- The number of halvings that bring `x` below 2, at most `fuel` of them:
`31 - __builtin_clz(x)` for a 32-bit `x > 0` when `fuel = 32`. -/
def highest_bit_loop : Nat → Nat → Nat
  | 0, _ => 0
  | fuel + 1, x => if x < 2 then 0 else highest_bit_loop fuel (x / 2) + 1

/-- `static int highest_bit(unsigned x)`: the argument is converted to a 32-bit
unsigned value first. -/
def highest_bit (x : Int) : Int :=
  let u := (x % 4294967296).toNat
  if u = 0 then -1 else (highest_bit_loop 32 u : Int)

/-- `int better_index(int a, int b) const`. -/
def better_index (r : RMQ) (a b : Int) : Option Int := do
  let va ← rd r.values a
  let vb ← rd r.values b
  pure (if (if r.maximum_mode then decide (vb < va) else decide (va < vb)) then a else b)

/-- The inner loop of `build` for one level `k ≥ 1`, from index `i` on, `cnt` iterations:
`range_low[k][i] = better_index(range_low[k-1][i], range_low[k-1][i + (1 << (k-1))])`. -/
def build_row (r : RMQ) (prev : List Int) (k : Nat) : Nat → Int → Option (List Int)
  | 0, _ => some []
  | cnt + 1, i => do
    let x ← rd prev i
    let y ← rd prev (i + 2 ^ (k - 1))
    let b ← r.better_index x y
    let tl ← build_row r prev k cnt (i + 1)
    pure (b :: tl)

/-- The outer loop of `build`, levels `k, k+1, ...` (`cnt` of them); `rows` holds the
levels `0 .. k-1` already built. -/
def build_levels (r : RMQ) : Nat → Nat → List (List Int) → Option (List (List Int))
  | 0, _, rows => some rows
  | cnt + 1, k, rows => do
    let prev ← rows[k - 1]?
    let row ← build_row r prev k (r.n - 2 ^ k + 1).toNat 0
    build_levels r cnt (k + 1) (rows ++ [row])

/-- `void build(const vector<T> &_values)`. -/
def build (maximum_mode : Bool) (_values : List Int) : Option RMQ :=
  let n : Int := _values.length
  let levels := highest_bit n + 1
  let r : RMQ := { maximum_mode := maximum_mode, n := n, values := _values, range_low := [] }
  if levels ≤ 0 then some r
  else do
    let row0 := (List.range _values.length).map Int.ofNat
    let rows ← build_levels r (levels.toNat - 1) 1 [row0]
    pure { r with range_low := rows }

/-- `int query_index(int a, int b) const`; the `assert` is a failure. -/
def query_index (r : RMQ) (a b : Int) : Option Int :=
  if 0 ≤ a ∧ a < b ∧ b ≤ r.n then do
    let level := highest_bit (b - a)
    let row ← rd r.range_low level
    let x ← rd row a
    let y ← rd row (b - 2 ^ level.toNat)
    r.better_index x y
  else none

/-- `T query_value(int a, int b) const`. -/
def query_value (r : RMQ) (a b : Int) : Option Int := do
  let i ← r.query_index a b
  rd r.values i

end RMQ

/-! ## `struct weighted_LCA` -/

/-- `struct edge`. -/
structure edge where
  node : Int
  weight : Int
deriving DecidableEq, Repr

/-- `template<typename T_weight> struct weighted_LCA` with `T_weight = Int`. -/
structure weighted_LCA where
  n : Int
  adj : List (List edge)
  parent : List Int
  depth : List Int
  subtree_size : List Int
  weight_depth : List Int
  up_weight : List Int
  euler : List Int
  first_occurrence : List Int
  tour_start : List Int
  tour_end : List Int
  postorder : List Int
  tour_list : List Int
  rev_tour_list : List Int
  heavy_root : List Int
  rmq : RMQ
  built : Bool
  tour : Int
  post_tour : Int
deriving DecidableEq, Repr

namespace weighted_LCA

/-- `vector::resize(n)`: the first `n` entries are kept, missing entries are
value-initialised (`x`). -/
def resize {α : Type} (vec : List α) (n : Nat) (x : α) : List α :=
  vec.take n ++ List.replicate (n - vec.length) x

/-- The data members as the constructors find them: `n = 0`, empty vectors and a
default-constructed `RMQ`.  The members `built`, `tour` and `post_tour` have no
initialiser; they are taken as `false` and 0 here, `init` sets `built` and `build` sets
the two counters before they are read. -/
def fresh : weighted_LCA :=
  { n := 0, adj := [], parent := [], depth := [], subtree_size := [], weight_depth := [],
    up_weight := [], euler := [], first_occurrence := [], tour_start := [], tour_end := [],
    postorder := [], tour_list := [], rev_tour_list := [], heavy_root := [],
    rmq := { maximum_mode := false, n := 0, values := [], range_low := [] },
    built := false, tour := 0, post_tour := 0 }

/-- `void init(int _n)`: `adj` and `up_weight` are assigned, the other per-node vectors
are resized, so entries of an earlier use below `n` stay; `euler`, `rev_tour_list` and
`rmq` are not touched. -/
def init (st : weighted_LCA) (_n : Int) : weighted_LCA :=
  { st with
    n := _n
    adj := List.replicate _n.toNat []
    parent := resize st.parent _n.toNat 0
    depth := resize st.depth _n.toNat 0
    subtree_size := resize st.subtree_size _n.toNat 0
    weight_depth := resize st.weight_depth _n.toNat 0
    up_weight := List.replicate _n.toNat 0
    first_occurrence := resize st.first_occurrence _n.toNat 0
    tour_start := resize st.tour_start _n.toNat 0
    tour_end := resize st.tour_end _n.toNat 0
    postorder := resize st.postorder _n.toNat 0
    tour_list := resize st.tour_list _n.toNat 0
    heavy_root := resize st.heavy_root _n.toNat 0
    built := false }

/-- `void init(const vector<vector<edge>> &_adj)`. -/
def init_adj (st : weighted_LCA) (_adj : List (List edge)) : weighted_LCA :=
  { init st (_adj.length : Int) with adj := _adj }

/-- `weighted_LCA(int _n = 0)`. -/
def new (_n : Int) : weighted_LCA := init fresh _n

/-- `weighted_LCA(const vector<vector<edge>> &_adj)`. -/
def new_adj (_adj : List (List edge)) : weighted_LCA := init_adj fresh _adj

/-- `void add_edge(int a, int b, T_weight weight)`. -/
def add_edge (st : weighted_LCA) (a b weight : Int) : Option weighted_LCA := do
  let ra ← rd st.adj a
  let adj1 ← wr st.adj a (ra ++ [⟨b, weight⟩])
  let rb ← rd adj1 b
  let adj2 ← wr adj1 b (rb ++ [⟨a, weight⟩])
  pure { st with adj := adj2 }

/-- `int degree(int v) const`. -/
def degree (st : weighted_LCA) (v : Int) : Option Int := do
  let row ← rd st.adj v
  if st.built then do
    let p ← rd st.parent v
    pure ((row.length : Int) + (if 0 ≤ p then 1 else 0))
  else pure (row.length : Int)

/-- The body of `erase_edge` on one adjacency row: the first entry whose node is `to`
is overwritten by the last entry and the last entry is popped. -/
def erase_row (row : List edge) (dst : Int) : List edge :=
  match row.findIdx? (fun e => e.node == dst) with
  | none => row
  | some i => (row.set i (row.getLastD ⟨-1, 0⟩)).dropLast

/-- `void erase_edge(int from, int to)`. -/
def erase_edge (st : weighted_LCA) (frm dst : Int) : Option weighted_LCA := do
  let row ← rd st.adj frm
  let adj ← wr st.adj frm (erase_row row dst)
  pure { st with adj := adj }

/-- The comparator key of the heavy-light reordering: `subtree_size[x]`. -/
def ssz (st : weighted_LCA) (x : Int) : Int := (rd st.subtree_size x).getD 0

/-- The `for (edge &e : adj[node])` loop of `dfs`; `call` is the recursive call.
The loop runs over the entries of `adj[node]` as they are when the loop starts: on a
forest no call made inside the loop touches `adj[node]`. -/
def dfs_children (call : weighted_LCA → Int → Int → Int → Option weighted_LCA)
    (node weight : Int) : weighted_LCA → List edge → Option weighted_LCA
  | st, [] => some st
  | st, e :: es => do
    let uw ← wr st.up_weight e.node e.weight
    let st1 ← call { st with up_weight := uw } e.node node (weight + e.weight)
    let sn ← rd st1.subtree_size node
    let se ← rd st1.subtree_size e.node
    let ss ← wr st1.subtree_size node (sn + se)
    dfs_children call node weight { st1 with subtree_size := ss } es

/-- `void dfs(int node, int par, T_weight weight)`; `fuel` bounds the recursion depth. -/
def dfs (S : StdSort) : Nat → weighted_LCA → Int → Int → Int → Option weighted_LCA
  | 0, _, _, _, _ => none
  | fuel + 1, st, node, par, weight => do
    let parent ← wr st.parent node par
    let d ← if par < 0 then some 0 else (rd st.depth par).map (· + 1)
    let depth ← wr st.depth node d
    let subtree_size ← wr st.subtree_size node 1
    let weight_depth ← wr st.weight_depth node weight
    let st0 : weighted_LCA := { st with parent := parent, depth := depth }
    let st0 : weighted_LCA := { st0 with subtree_size := subtree_size, weight_depth := weight_depth }
    let st1 ← erase_edge st0 node par
    let es ← rd st1.adj node
    let st2 ← dfs_children (dfs S fuel) node weight st1 es
    let row ← rd st2.adj node
    let adj ← wr st2.adj node
      (S.sort (fun a b => decide (ssz st2 b.node < ssz st2 a.node)) row)
    pure { st2 with adj := adj }

/-- The `for (edge &e : adj[node])` loop of `tour_dfs`; `call` is the recursive call. -/
def tour_children (call : weighted_LCA → Int → Bool → Option weighted_LCA)
    (node : Int) : weighted_LCA → Bool → List edge → Option weighted_LCA
  | st, _, [] => some st
  | st, heavy_child, e :: es => do
    let st1 ← call st e.node heavy_child
    tour_children call node { st1 with euler := st1.euler ++ [node] } false es

/-- `void tour_dfs(int node, bool heavy)`; `fuel` bounds the recursion depth. -/
def tour_dfs : Nat → weighted_LCA → Int → Bool → Option weighted_LCA
  | 0, _, _, _ => none
  | fuel + 1, st, node, heavy => do
    let hr ← if heavy then (do let p ← rd st.parent node; rd st.heavy_root p) else some node
    let heavy_root ← wr st.heavy_root node hr
    let first_occurrence ← wr st.first_occurrence node (st.euler.length : Int)
    let tour_list ← wr st.tour_list st.tour node
    let tour_start ← wr st.tour_start node st.tour
    let st0 : weighted_LCA := { st with heavy_root := heavy_root, euler := st.euler ++ [node] }
    let st0 : weighted_LCA := { st0 with first_occurrence := first_occurrence }
    let st0 : weighted_LCA := { st0 with tour_list := tour_list, tour_start := tour_start }
    let st1 : weighted_LCA := { st0 with tour := st.tour + 1 }
    let es ← rd st1.adj node
    let st2 ← tour_children (tour_dfs fuel) node st1 true es
    let tour_end ← wr st2.tour_end node st2.tour
    let postorder ← wr st2.postorder node st2.post_tour
    let st3 : weighted_LCA := { st2 with tour_end := tour_end, postorder := postorder }
    pure { st3 with post_tour := st2.post_tour + 1 }

/-- The first `for` loop of `build`, from index `i` on, `cnt` iterations:
`if (i != root && parent[i] < 0) dfs(i, -1, 0)`. -/
def build_dfs_loop (S : StdSort) (fuel : Nat) (root : Int) :
    Nat → Int → weighted_LCA → Option weighted_LCA
  | 0, _, st => some st
  | cnt + 1, i, st => do
    let st1 ← if i ≠ root then (do
        let p ← rd st.parent i
        if p < 0 then dfs S fuel st i (-1) 0 else some st)
      else some st
    build_dfs_loop S fuel root cnt (i + 1) st1

/-- The second `for` loop of `build`, from index `i` on, `cnt` iterations:
`if (parent[i] < 0) { tour_dfs(i, false); euler.push_back(-1); }`. -/
def build_tour_loop (fuel : Nat) : Nat → Int → weighted_LCA → Option weighted_LCA
  | 0, _, st => some st
  | cnt + 1, i, st => do
    let p ← rd st.parent i
    let st1 ← if p < 0 then (do
        let st2 ← tour_dfs fuel st i false
        pure { st2 with euler := st2.euler ++ [-1] })
      else some st
    build_tour_loop fuel cnt (i + 1) st1

/-- The loop filling `euler_depths`: `node < 0 ? node : depth[node]`. -/
def euler_depths (st : weighted_LCA) : List Int → Option (List Int)
  | [] => some []
  | node :: rest => do
    let d ← if node < 0 then some node else rd st.depth node
    let tl ← euler_depths st rest
    pure (d :: tl)

/-- `void build(int root = -1, bool build_rmq = true)`.  The recursion depth of `dfs`
and `tour_dfs` on a forest is at most the number of nodes, so the fuel `n + 1` is
never used up on a forest. -/
def build (S : StdSort) (st : weighted_LCA) (root : Int) (build_rmq : Bool) :
    Option weighted_LCA := do
  let fuel := st.n.toNat + 1
  let st0 : weighted_LCA := { st with parent := List.replicate st.n.toNat (-1) }
  let st1 ← if 0 ≤ root ∧ root < st0.n then dfs S fuel st0 root (-1) 0 else some st0
  let st2 ← build_dfs_loop S fuel root st1.n.toNat 0 st1
  let st3 ← build_tour_loop fuel st2.n.toNat 0 { st2 with tour := 0, post_tour := 0, euler := [] }
  let st4 : weighted_LCA := { st3 with rev_tour_list := st3.tour_list.reverse }
  if (st4.euler.length : Int) = 2 * st4.n then do
    let ed ← euler_depths st4 st4.euler
    let rmq ← if build_rmq then RMQ.build false ed else some st4.rmq
    pure { st4 with rmq := rmq, built := true }
  else none

/-- `operator<` of `std::pair<T_weight, int>`. -/
def pair_lt (a b : Int × Int) : Bool :=
  decide (a.1 < b.1) || (!decide (b.1 < a.1) && decide (a.2 < b.2))

/-- `operator<` of `std::pair<T_weight, std::array<int, 2>>`. -/
def triple_lt (a b : Int × Int × Int) : Bool :=
  decide (a.1 < b.1) || (!decide (b.1 < a.1) && pair_lt a.2 b.2)

/-- `std::max` on `std::pair<T_weight, int>`. -/
def pair_max (a b : Int × Int) : Int × Int := if pair_lt a b then b else a

/-- `std::max` on `std::pair<T_weight, std::array<int, 2>>`. -/
def triple_max (a b : Int × Int × Int) : Int × Int × Int := if triple_lt a b then b else a

/-- The `for (int node : euler)` loop of `get_diameter`. -/
def diameter_loop (st : weighted_LCA) :
    List Int → Int × Int → Int × Int → Int × Int × Int → Option (Int × Int × Int)
  | [], _, _, uxv_max => some uxv_max
  | node :: rest, u_max, ux_max, uxv_max =>
    if node < 0 then some uxv_max
    else do
      let wd ← rd st.weight_depth node
      let u1 := pair_max u_max (wd, node)
      let ux1 := pair_max ux_max (u1.1 - 2 * wd, u1.2)
      let uxv1 := triple_max uxv_max (ux1.1 + wd, ux1.2, node)
      diameter_loop st rest u1 ux1 uxv1

/-- `pair<T_weight, array<int, 2>> get_diameter() const`. -/
def get_diameter (st : weighted_LCA) : Option (Int × Int × Int) :=
  if st.built then diameter_loop st st.euler (-1, -1) (-1, -1) (-1, -1, -1) else none

/-- `int get_lca(int a, int b) const`. -/
def get_lca (st : weighted_LCA) (a b : Int) : Option Int := do
  let a1 ← rd st.first_occurrence a
  let b1 ← rd st.first_occurrence b
  let i ← if b1 < a1 then st.rmq.query_index b1 (a1 + 1) else st.rmq.query_index a1 (b1 + 1)
  rd st.euler i

/-- `bool is_ancestor(int a, int b) const`. -/
def is_ancestor (st : weighted_LCA) (a b : Int) : Option Bool := do
  let sa ← rd st.tour_start a
  let sb ← rd st.tour_start b
  if sa ≤ sb then do
    let ea ← rd st.tour_end a
    pure (decide (sb < ea))
  else pure false

/-- `bool on_path(int x, int a, int b) const`. -/
def on_path (st : weighted_LCA) (x a b : Int) : Option Bool := do
  let xa ← st.is_ancestor x a
  let first ← if xa then some true else st.is_ancestor x b
  if first then do
    let l ← st.get_lca a b
    st.is_ancestor l x
  else pure false

/-- `int get_dist(int a, int b) const`. -/
def get_dist (st : weighted_LCA) (a b : Int) : Option Int := do
  let da ← rd st.depth a
  let db ← rd st.depth b
  let l ← st.get_lca a b
  let dl ← rd st.depth l
  pure (da + db - 2 * dl)

/-- `T_weight get_weighted_dist(int a, int b) const`. -/
def get_weighted_dist (st : weighted_LCA) (a b : Int) : Option Int := do
  let wa ← rd st.weight_depth a
  let wb ← rd st.weight_depth b
  let l ← st.get_lca a b
  let wl ← rd st.weight_depth l
  pure (wa + wb - 2 * wl)

/-- `int child_ancestor(int a, int b) const`; the four `assert`s are failures. -/
def child_ancestor (st : weighted_LCA) (a b : Int) : Option Int :=
  if a = b then none
  else do
    let ab ← st.is_ancestor a b
    if ab then do
      let fa ← rd st.first_occurrence a
      let fb ← rd st.first_occurrence b
      let i ← st.rmq.query_index fa (fb + 1)
      let child ← rd st.euler (i + 1)
      let p ← rd st.parent child
      if p = a then do
        let cb ← st.is_ancestor child b
        if cb then some child else none
      else none
    else none

/-- The `while (a >= 0)` loop of `get_kth_ancestor`, at most `fuel` iterations. -/
def kth_ancestor_loop (st : weighted_LCA) : Nat → Int → Int → Option Int
  | 0, _, _ => none
  | fuel + 1, a, k =>
    if 0 ≤ a then do
      let root ← rd st.heavy_root a
      let dr ← rd st.depth root
      let da ← rd st.depth a
      if dr ≤ da - k then do
        let ts ← rd st.tour_start a
        rd st.tour_list (ts - k)
      else do
        let p ← rd st.parent root
        kth_ancestor_loop st fuel p (k - (da - dr + 1))
    else some a

/-- `int get_kth_ancestor(int a, int k) const`.  Every iteration of the loop moves to a
strict ancestor, so on a built forest `n + 1` iterations are never used up. -/
def get_kth_ancestor (st : weighted_LCA) (a k : Int) : Option Int :=
  kth_ancestor_loop st (st.n.toNat + 1) a k

/-- `int get_kth_node_on_path(int a, int b, int k) const`; the `assert` is a failure. -/
def get_kth_node_on_path (st : weighted_LCA) (a b k : Int) : Option Int := do
  let anc ← st.get_lca a b
  let da ← rd st.depth a
  let db ← rd st.depth b
  let dc ← rd st.depth anc
  let first_half := da - dc
  let second_half := db - dc
  if 0 ≤ k ∧ k ≤ first_half + second_half then
    if k < first_half then st.get_kth_ancestor a k
    else st.get_kth_ancestor b (first_half + second_half - k)
  else none

/-- `int get_common_node(int a, int b, int c) const`. -/
def get_common_node (st : weighted_LCA) (a b c : Int) : Option Int := do
  let x ← st.get_lca a b
  let y ← st.get_lca b c
  let z ← st.get_lca c a
  pure (Int.xor (Int.xor x y) z)

/-- `array<int, 2> get_center() const`. -/
def get_center (st : weighted_LCA) : Option (Int × Int) := do
  let diam ← st.get_diameter
  let length := diam.1
  let a := diam.2.1
  let b := diam.2.2
  let c1 ← st.get_kth_node_on_path a b (Int.tdiv length 2)
  let c2 ← st.get_kth_node_on_path a b (Int.tdiv (length + 1) 2)
  pure (c1, c2)

/-- The comparator `compare_tour` of `compress_tree`, with fallible reads. -/
def compare_tour (st : weighted_LCA) (a b : Int) : Option Bool := do
  let sa ← rd st.tour_start a
  let sb ← rd st.tour_start b
  pure (decide (sa < sb))

/-- The key compared by `compare_tour`: `tour_start[x]`. -/
def tsk (st : weighted_LCA) (x : Int) : Int := (rd st.tour_start x).getD 0

/-- `std::sort(first, last, compare_tour)`: a range of fewer than two elements is not
compared at all; otherwise every element is compared, which reads `tour_start` at it. -/
def sort_tour (S : StdSort) (st : weighted_LCA) (l : List Int) : Option (List Int) :=
  if l.length < 2 then some l
  else if l.all (fun x => (rd st.tour_start x).isSome) then
    some (S.sort (fun a b => decide (tsk st a < tsk st b)) l)
  else none

/-- `std::inplace_merge` on the two sorted runs `xs`, `ys`: the stable merge, which takes
from the second run only an element that compares less than the head of the first. -/
def merge_tour (st : weighted_LCA) : List Int → List Int → Option (List Int)
  | [], ys => some ys
  | x :: xs, [] => some (x :: xs)
  | x :: xs, y :: ys => do
    let c ← compare_tour st y x
    if c then do
      let tl ← merge_tour st (x :: xs) ys
      pure (y :: tl)
    else do
      let tl ← merge_tour st xs (y :: ys)
      pure (x :: tl)

/-- `std::unique`: of every run of equal consecutive elements the first is kept. -/
def unique : List Int → List Int
  | [] => []
  | [x] => [x]
  | x :: y :: rest => if x = y then unique (y :: rest) else x :: unique (y :: rest)

/-- The loop `for (i = 0; i < k - 1; i++) nodes.push_back(get_lca(nodes[i], nodes[i + 1]))`
over the sorted input. -/
def adjacent_lcas (st : weighted_LCA) : List Int → Option (List Int)
  | [] => some []
  | [_] => some []
  | x :: y :: rest => do
    let l ← st.get_lca x y
    let tl ← adjacent_lcas st (y :: rest)
    pure (l :: tl)

/-- The loop `for (i = 1; i < size; i++) result.emplace_back(nodes[i], get_lca(nodes[i], nodes[i - 1]))`;
`prev` is `nodes[i - 1]`. -/
def compress_links (st : weighted_LCA) (prev : Int) : List Int → Option (List (Int × Int))
  | [] => some []
  | x :: rest => do
    let l ← st.get_lca x prev
    let tl ← compress_links st x rest
    pure ((x, l) :: tl)

/-- `vector<pair<int, int>> compress_tree(vector<int> nodes) const`. -/
def compress_tree (S : StdSort) (st : weighted_LCA) (nodes : List Int) :
    Option (List (Int × Int)) :=
  match nodes with
  | [] => some []
  | _ :: _ => do
    let sorted ← sort_tour S st nodes
    let lcas ← adjacent_lcas st sorted
    let lcas_sorted ← sort_tour S st lcas
    let merged ← merge_tour st sorted lcas_sorted
    match unique merged with
    | [] => none
    | first :: rest => do
      let links ← compress_links st first rest
      pure ((first, -1) :: links)

end weighted_LCA

/-- Insertion sort as one implementation of the `std::sort` contract. -/
def insertion_sort : StdSort where
  sort := fun lt l => List.insertionSort (fun a b => lt b a = false) l
  perm := fun lt l => List.perm_insertionSort _ l
  sorted := by
    intro α key l
    have h := @List.sorted_insertionSort α (fun a b => decide (key b < key a) = false) _
      ⟨fun a b => by simp only [decide_eq_false_iff_not, not_lt]; exact le_total _ _⟩
      ⟨fun a b c hab hbc => by
        simp only [decide_eq_false_iff_not, not_lt] at *; exact le_trans hab hbc⟩ l
    exact h.imp (fun hab => by simpa using hab)

/-! ## Specification-level definitions -/

/-- A rooted, ordered forest of weighted nodes: `cons v w kids rest` is a tree with root
`v`, the weight `w` of the edge above `v` and the children `kids`, followed by the
trees `rest`. -/
inductive Forest where
  | nil : Forest
  | cons (v : Int) (w : Int) (kids : Forest) (rest : Forest) : Forest
deriving DecidableEq, Repr

namespace Forest

/-- The number of nodes. -/
def size : Forest → Nat
  | nil => 0
  | cons _ _ kids rest => 1 + size kids + size rest

/-- The nodes, in preorder. -/
def labels : Forest → List Int
  | nil => []
  | cons v _ kids rest => v :: (labels kids ++ labels rest)

/-- The number of levels. -/
def height : Forest → Nat
  | nil => 0
  | cons _ _ kids rest => max (height kids + 1) (height rest)

/-- The roots with the weights of the edges above them. -/
def topEdges : Forest → List edge
  | nil => []
  | cons v w _ rest => ⟨v, w⟩ :: topEdges rest

/-- The trees of the forest as a list of (root, weight, children). -/
def trees : Forest → List (Int × Int × Forest)
  | nil => []
  | cons v w kids rest => (v, w, kids) :: trees rest

/-- The forest made of a list of trees. -/
def ofTrees : List (Int × Int × Forest) → Forest
  | [] => nil
  | (v, w, kids) :: ts => cons v w kids (ofTrees ts)

/-- The roots. -/
def roots : Forest → List Int
  | nil => []
  | cons v _ _ rest => v :: roots rest

end Forest

/-- The adjacency rows `adj` are those of the forest `F` hanging below the node `par`
(`par < 0` for a forest of whole trees): the row of every node lists, in some order,
the edge to its parent and the edges to its children, with their weights. -/
def Realizes (adj : List (List edge)) : Forest → Int → Prop
  | .nil, _ => True
  | .cons v w kids rest, par =>
    (∃ row, rd adj v = some row ∧
      row.Perm ((if 0 ≤ par then [(⟨par, w⟩ : edge)] else []) ++ kids.topEdges)) ∧
    Realizes adj kids v ∧ Realizes adj rest par

/-- The adjacency rows `adj` describe a forest on the nodes `0 .. adj.length - 1`: they
are, up to the order inside each row, the rows of some rooted forest on these nodes. -/
def IsForest (adj : List (List edge)) : Prop :=
  ∃ F : Forest, F.labels.Perm ((List.range adj.length).map Int.ofNat) ∧ Realizes adj F (-1)

/-- Two nodes are joined by a walk along edges of the adjacency rows `adj`. -/
def Connected (adj : List (List edge)) (a b : Int) : Prop :=
  Relation.ReflTransGen (fun x y => ∃ row, rd adj x = some row ∧ ∃ e ∈ row, e.node = y) a b

namespace weighted_LCA

/-- One parent link: `parent[a]`, and `-1` from `-1` or from a node without entry. -/
def parent_of (st : weighted_LCA) (a : Int) : Int :=
  if a < 0 then -1 else (rd st.parent a).getD (-1)

/-- Following the parent link `k` times from `a`; `-1` is absorbing. -/
def kth_parent (st : weighted_LCA) : Nat → Int → Int
  | 0, a => a
  | k + 1, a => kth_parent st k (parent_of st a)

/-- The node `c` is reached from `a` by following parent links zero or more times. -/
def IsAnc (st : weighted_LCA) (c a : Int) : Prop := ∃ k : Nat, kth_parent st k a = c

/-- Every per-node vector of the structure has `n` entries. -/
def Sized (st : weighted_LCA) (n : Nat) : Prop :=
  st.n = n ∧ st.adj.length = n ∧ st.parent.length = n ∧ st.depth.length = n ∧
  st.subtree_size.length = n ∧ st.weight_depth.length = n ∧ st.up_weight.length = n ∧
  st.first_occurrence.length = n ∧ st.tour_start.length = n ∧ st.tour_end.length = n ∧
  st.postorder.length = n ∧ st.tour_list.length = n ∧ st.heavy_root.length = n

/-- The vector `f` has the same entries in `st1` as in `st` outside the nodes `L`. -/
def Fr {α : Type} (f : weighted_LCA → List α) (st st1 : weighted_LCA) (L : List Int) : Prop :=
  ∀ x : Int, x ∉ L → rd (f st1) x = rd (f st) x

/-- The rooting pass has left the ordered forest `F` below `par` in the structure: `d` is
the depth of the roots of `F` and `wdp` the weighted depth of `par`. -/
def Rep (st : weighted_LCA) : Forest → Int → Int → Int → Prop
  | .nil, _, _, _ => True
  | .cons v w kids rest, par, d, wdp =>
    (rd st.parent v = some par ∧ rd st.depth v = some d ∧
      rd st.weight_depth v = some (wdp + w) ∧ rd st.up_weight v = some w ∧
      rd st.subtree_size v = some (1 + kids.size) ∧ rd st.adj v = some kids.topEdges) ∧
    Rep st kids v (d + 1) (wdp + w) ∧ Rep st rest par d wdp

/-- The tour pass has laid out the ordered forest `F` below `par` from position `e0` of
`euler` and position `p0` of `tour_list` on; `hv` says whether the first root is the
heavy child of `par`. -/
def Tour (st : weighted_LCA) : Forest → Int → Bool → Int → Int → Prop
  | .nil, _, _, _, _ => True
  | .cons v _ kids rest, par, hv, e0, p0 =>
    (rd st.first_occurrence v = some e0 ∧ rd st.euler e0 = some v ∧
      rd st.euler (e0 + 1 + 2 * kids.size) = some par ∧
      rd st.tour_start v = some p0 ∧ rd st.tour_list p0 = some v ∧
      rd st.tour_end v = some (p0 + 1 + kids.size) ∧
      rd st.heavy_root v = (if hv then rd st.heavy_root par else some v)) ∧
    Tour st kids v true (e0 + 1) (p0 + 1) ∧
    Tour st rest par false (e0 + 2 + 2 * kids.size) (p0 + 1 + kids.size)

/-- The layout of the built structure over the ordered forest `F` whose roots are the
children of `par` (`par = -1` for the trees of the whole forest): `d` is the depth of the
roots of `F`, `wdp` the weighted depth of `par`, `hv` says whether the first root is the
heavy child of `par`, `e0` is the position in `euler` and `p0` the position in
`tour_list` at which `F` starts. -/
def Lay (st : weighted_LCA) : Forest → Int → Int → Int → Bool → Int → Int → Prop
  | .nil, _, _, _, _, _, _ => True
  | .cons v w kids rest, par, d, wdp, hv, e0, p0 =>
    (rd st.parent v = some par ∧ rd st.depth v = some d ∧
      rd st.weight_depth v = some (wdp + w) ∧ rd st.up_weight v = some w ∧
      rd st.subtree_size v = some (1 + kids.size) ∧ rd st.adj v = some kids.topEdges) ∧
    (rd st.first_occurrence v = some e0 ∧ rd st.euler e0 = some v ∧
      rd st.euler (e0 + 1 + 2 * kids.size) = some par ∧
      rd st.tour_start v = some p0 ∧ rd st.tour_list p0 = some v ∧
      rd st.tour_end v = some (p0 + 1 + kids.size) ∧
      rd st.heavy_root v = (if hv then rd st.heavy_root par else some v)) ∧
    Lay st kids v (d + 1) (wdp + w) true (e0 + 1) (p0 + 1) ∧
    Lay st rest par d wdp false (e0 + 2 + 2 * kids.size) (p0 + 1 + kids.size)

end weighted_LCA

namespace RMQ

/-- Index `i` of `[a, b)` holds the minimum of `vals` over `[a, b)`, and is the last
index of the range that does. -/
def IsLastMin (vals : List Int) (a b i : Int) : Prop :=
  a ≤ i ∧ i < b ∧ ∃ vi, rd vals i = some vi ∧
    ∀ j vj, a ≤ j → j < b → rd vals j = some vj → vi ≤ vj ∧ (vj = vi → j ≤ i)

/-- Row `k` of the sparse table: entry `i` is the last minimum of `[i, i + 2^k)`. -/
def RowOK (vals : List Int) (k : Nat) (row : List Int) : Prop :=
  (row.length : Int) = (vals.length : Int) - 2 ^ k + 1 ∧
  ∀ i : Int, 0 ≤ i → i + 2 ^ k ≤ vals.length →
    ∃ b, rd row i = some b ∧ IsLastMin vals i (i + 2 ^ k) b

/-- The sparse table of a built `RMQ`. -/
def TableOK (r : RMQ) : Prop :=
  r.maximum_mode = false ∧ r.n = r.values.length ∧
  ∀ (L : Nat), (2 : Int) ^ L ≤ r.values.length →
    ∃ row, rd r.range_low L = some row ∧ RowOK r.values L row

end RMQ

namespace weighted_LCA

/-- The rooting-pass vectors of `st1` agree with those of `st` at the node `x`. -/
def Agree (st st1 : weighted_LCA) (x : Int) : Prop :=
  rd st1.parent x = rd st.parent x ∧ rd st1.depth x = rd st.depth x ∧
  rd st1.weight_depth x = rd st.weight_depth x ∧ rd st1.up_weight x = rd st.up_weight x ∧
  rd st1.subtree_size x = rd st.subtree_size x ∧ rd st1.adj x = rd st.adj x

end weighted_LCA

namespace Forest

/-- The trees of the forest stand in the order of non-increasing size. -/
def TopSorted (F : Forest) : Prop :=
  F.trees.Pairwise (fun s t => t.2.2.size ≤ s.2.2.size)

/-- The children of every node of the forest stand in the order of non-increasing
subtree size. -/
def KidsSorted : Forest → Prop
  | nil => True
  | cons _ _ kids rest => TopSorted kids ∧ KidsSorted kids ∧ KidsSorted rest

end Forest

namespace weighted_LCA

/-- The specification of `dfs` with `fuel` levels of recursion on a subtree that the
adjacency rows realise below `node`. -/
def DfsSpec (S : StdSort) (n : Nat) (fuel : Nat) : Prop :=
  ∀ (st : weighted_LCA) (node par weight w d : Int) (K : Forest),
    Sized st n →
    (∃ row, rd st.adj node = some row ∧
      row.Perm ((if 0 ≤ par then [(⟨par, w⟩ : edge)] else []) ++ K.topEdges)) →
    Realizes st.adj K node →
    (node :: K.labels).Nodup →
    (∀ x ∈ node :: K.labels, 0 ≤ x ∧ x < n) →
    par ∉ K.labels →
    (if par < 0 then d = 0 else ∃ dp, rd st.depth par = some dp ∧ d = dp + 1) →
    K.height + 1 ≤ fuel →
    ∃ (st1 : weighted_LCA) (K1 : Forest), dfs S fuel st node par weight = some st1 ∧
      Sized st1 n ∧ K1.labels.Perm K.labels ∧ Realizes st.adj K1 node ∧
      (∃ row, rd st.adj node = some row ∧
        row.Perm ((if 0 ≤ par then [(⟨par, w⟩ : edge)] else []) ++ K1.topEdges)) ∧
      (rd st1.parent node = some par ∧ rd st1.depth node = some d ∧
        rd st1.weight_depth node = some weight ∧
        rd st1.subtree_size node = some (1 + K1.size) ∧
        rd st1.adj node = some K1.topEdges) ∧
      (Rep st1 K1 node (d + 1) weight ∧ K1.TopSorted ∧ K1.KidsSorted) ∧
      (Fr weighted_LCA.parent st st1 (node :: K.labels) ∧
        Fr weighted_LCA.depth st st1 (node :: K.labels) ∧
        Fr weighted_LCA.weight_depth st st1 (node :: K.labels) ∧
        Fr weighted_LCA.adj st st1 (node :: K.labels) ∧
        Fr weighted_LCA.subtree_size st st1 (node :: K.labels) ∧
        Fr weighted_LCA.up_weight st st1 K.labels)

/-- The specification of the loop over the children in `dfs`. -/
def LoopSpec (S : StdSort) (n : Nat) (fuel : Nat) : Prop :=
  ∀ (G : Forest) (st : weighted_LCA) (node weight d s : Int),
    Sized st n → Realizes st.adj G node →
    (node :: G.labels).Nodup →
    (∀ x ∈ node :: G.labels, 0 ≤ x ∧ x < n) →
    rd st.depth node = some d → rd st.subtree_size node = some s →
    G.height ≤ fuel →
    ∃ (st1 : weighted_LCA) (G1 : Forest),
      dfs_children (dfs S fuel) node weight st G.topEdges = some st1 ∧
      Sized st1 n ∧ G1.topEdges = G.topEdges ∧ G1.labels.Perm G.labels ∧
      Realizes st.adj G1 node ∧ (Rep st1 G1 node (d + 1) weight ∧ G1.KidsSorted) ∧
      rd st1.subtree_size node = some (s + G1.size) ∧
      (Fr weighted_LCA.parent st st1 G.labels ∧
        Fr weighted_LCA.depth st st1 G.labels ∧
        Fr weighted_LCA.weight_depth st st1 G.labels ∧
        Fr weighted_LCA.adj st st1 G.labels ∧
        Fr weighted_LCA.subtree_size st st1 (node :: G.labels) ∧
        Fr weighted_LCA.up_weight st st1 G.labels)

end weighted_LCA

namespace Forest

/-- The trees of `F` followed by the trees of `G`. -/
def append : Forest → Forest → Forest
  | nil, G => G
  | cons v w kids rest, G => cons v w kids (append rest G)

end Forest

namespace weighted_LCA

/-- The state between two calls of `dfs` in `build`: the trees `D` are rooted, the trees
`T` are still untouched. -/
def Inv1 (adj0 : List (List edge)) (n : Nat) (st : weighted_LCA) (D T : Forest) : Prop :=
  Sized st n ∧ (D.labels ++ T.labels).Perm ((List.range n).map Int.ofNat) ∧
  Realizes adj0 D (-1) ∧ Realizes adj0 T (-1) ∧ Rep st D (-1) 0 0 ∧
  (∀ x ∈ T.labels, rd st.parent x = some (-1) ∧ rd st.adj x = rd adj0 x ∧
    rd st.up_weight x = some 0) ∧
  (∀ e ∈ D.topEdges, e.weight = 0) ∧ D.KidsSorted

/-- The vectors written by the rooting pass are the same in `st1` as in `st`. -/
def SameRooting (st st1 : weighted_LCA) : Prop :=
  st1.adj = st.adj ∧ st1.parent = st.parent ∧ st1.depth = st.depth ∧
  st1.subtree_size = st.subtree_size ∧ st1.weight_depth = st.weight_depth ∧
  st1.up_weight = st.up_weight

/-- The frame of the tour pass over the nodes `L`, started at position `p0` of
`tour_list` with `k` nodes to place: what lies outside is untouched and `euler` only
grows. -/
def TourFrame (st st1 : weighted_LCA) (L : List Int) (p0 : Int) (k : Nat) : Prop :=
  SameRooting st st1 ∧
  (∀ j : Int, j < st.euler.length → rd st1.euler j = rd st.euler j) ∧
  (∀ j : Int, (j < p0 ∨ p0 + k ≤ j) → rd st1.tour_list j = rd st.tour_list j) ∧
  Fr weighted_LCA.first_occurrence st st1 L ∧ Fr weighted_LCA.tour_start st st1 L ∧
  Fr weighted_LCA.tour_end st st1 L ∧ Fr weighted_LCA.heavy_root st st1 L

/-- The specification of `tour_dfs` with `fuel` levels of recursion on the subtree
`K` below `node`. -/
def TourSpec (n : Nat) (fuel : Nat) : Prop :=
  ∀ (st : weighted_LCA) (node par d wdp : Int) (heavy : Bool) (K : Forest),
    Sized st n → rd st.adj node = some K.topEdges → rd st.parent node = some par →
    (heavy = true → 0 ≤ par ∧ par < n) →
    Rep st K node d wdp →
    (node :: K.labels).Nodup → (∀ x ∈ node :: K.labels, 0 ≤ x ∧ x < n) →
    0 ≤ st.tour → st.tour + 1 + K.size ≤ n → K.height + 1 ≤ fuel →
    ∃ st1 : weighted_LCA, tour_dfs fuel st node heavy = some st1 ∧ Sized st1 n ∧
      (st1.euler.length : Int) = st.euler.length + 1 + 2 * K.size ∧
      st1.tour = st.tour + 1 + K.size ∧
      (rd st1.first_occurrence node = some (st.euler.length : Int) ∧
        rd st1.euler st.euler.length = some node ∧
        rd st1.tour_start node = some st.tour ∧ rd st1.tour_list st.tour = some node ∧
        rd st1.tour_end node = some (st.tour + 1 + K.size) ∧
        rd st1.heavy_root node = (if heavy then rd st.heavy_root par else some node)) ∧
      Tour st1 K node true (st.euler.length + 1) (st.tour + 1) ∧
      TourFrame st st1 (node :: K.labels) st.tour (1 + K.size)

/-- The specification of the loop over the children in `tour_dfs`. -/
def TourLoopSpec (n : Nat) (fuel : Nat) : Prop :=
  ∀ (G : Forest) (st : weighted_LCA) (node d wdp : Int) (hv : Bool),
    Sized st n → Rep st G node d wdp → 0 ≤ node → node < n →
    (node :: G.labels).Nodup → (∀ x ∈ G.labels, 0 ≤ x ∧ x < n) →
    0 ≤ st.tour → st.tour + G.size ≤ n → G.height ≤ fuel →
    ∃ st1 : weighted_LCA,
      tour_children (tour_dfs fuel) node st hv G.topEdges = some st1 ∧ Sized st1 n ∧
      (st1.euler.length : Int) = st.euler.length + 2 * G.size ∧
      st1.tour = st.tour + G.size ∧
      Tour st1 G node hv st.euler.length st.tour ∧
      TourFrame st st1 G.labels st.tour G.size

/-- The structure `st` is the result of `build` on the adjacency rows `adj`, rooted and
ordered as the forest `F`. -/
def BuiltOn (adj : List (List edge)) (st : weighted_LCA) (F : Forest) : Prop :=
  Sized st adj.length ∧ F.labels.Perm ((List.range adj.length).map Int.ofNat) ∧
  Realizes adj F (-1) ∧ F.roots.Pairwise (· < ·) ∧ Lay st F (-1) 0 0 false 0 0 ∧
  (st.euler.length : Int) = 2 * adj.length ∧ st.built = true ∧ st.tour = adj.length ∧
  RMQ.TableOK st.rmq ∧ euler_depths st st.euler = some st.rmq.values ∧
  (st.rmq.values.length : Int) < 2147483648 ∧ (∀ e ∈ F.topEdges, e.weight = 0) ∧
  F.KidsSorted

/-- The entry `depth[x]` (0 when there is none). -/
def dep (st : weighted_LCA) (x : Int) : Int := (rd st.depth x).getD 0

/-- The entry `weight_depth[x]` (0 when there is none). -/
def wd (st : weighted_LCA) (x : Int) : Int := (rd st.weight_depth x).getD 0

/-- The entry `up_weight[x]` (0 when there is none). -/
def uw (st : weighted_LCA) (x : Int) : Int := (rd st.up_weight x).getD 0

/-- The entry `first_occurrence[x]` (0 when there is none). -/
def fo (st : weighted_LCA) (x : Int) : Int := (rd st.first_occurrence x).getD 0

/-- The last position of `x` in the Euler tour: `first_occurrence[x] + 2 * (subtree_size[x] - 1)`. -/
def lo (st : weighted_LCA) (x : Int) : Int := fo st x + 2 * (ssz st x - 1)

/-- The entry `tour_end[x]` (0 when there is none). -/
def te (st : weighted_LCA) (x : Int) : Int := (rd st.tour_end x).getD 0

/-- The entry `heavy_root[x]` (0 when there is none). -/
def hr (st : weighted_LCA) (x : Int) : Int := (rd st.heavy_root x).getD 0

end weighted_LCA

/-- The star with centre 0 and leaves 1, 2, 3 of weights 5, 3, 7. -/
def star_adj : List (List edge) :=
  [[⟨1, 5⟩, ⟨2, 3⟩, ⟨3, 7⟩], [⟨0, 5⟩], [⟨0, 3⟩], [⟨0, 7⟩]]

/-- Two components: the edge 0 - 1 of weight 5 and the edge 2 - 3 of weight 3. -/
def two_components_adj : List (List edge) :=
  [[⟨1, 5⟩], [⟨0, 5⟩], [⟨3, 3⟩], [⟨2, 3⟩]]

/-- The edges `es` form a walk from `a` to `b` along the adjacency rows `adj`: each edge
is taken from the row of the node reached so far and leads to the next node. -/
def IsWalk (adj : List (List edge)) : Int → List edge → Int → Prop
  | a, [], b => a = b
  | a, e :: es, b => (∃ row, rd adj a = some row ∧ e ∈ row) ∧ IsWalk adj e.node es b

/-- The edges `es` form a path from `a` to `b`: a walk that visits no node twice. -/
def IsPath (adj : List (List edge)) (a : Int) (es : List edge) (b : Int) : Prop :=
  IsWalk adj a es b ∧ (a :: es.map (fun e => e.node)).Nodup

namespace weighted_LCA

/-- The edges followed from `x` up `k` parent links. -/
def up_edges (st : weighted_LCA) : Nat → Int → List edge
  | 0, _ => []
  | k + 1, x => ⟨parent_of st x, uw st x⟩ :: up_edges st k (parent_of st x)

/-- The edges followed from the `k`-th ancestor of `b` down to `b`. -/
def down_edges (st : weighted_LCA) : Nat → Int → List edge
  | 0, _ => []
  | k + 1, b => down_edges st k (parent_of st b) ++ [⟨b, uw st b⟩]

/-- The state of the scan of `get_diameter` after the first `t` positions of the Euler
tour: `um` is the largest weighted depth and a node that has it, `uxm` the largest
`weight_depth[u] - 2 * weight_depth[x]` over positions in this order with such a `u`, and
`uxvm` the largest `weight_depth[u] - 2 * weight_depth[x] + weight_depth[v]` over
positions in this order with such `u` and `v`. -/
def DiamInv (st : weighted_LCA) (t : Int) (um uxm : Int × Int) (uxvm : Int × Int × Int) :
    Prop :=
  (∀ i x, 0 ≤ i → i < t → rd st.euler i = some x → wd st x ≤ um.1) ∧
  (∃ i, 0 ≤ i ∧ i < t ∧ rd st.euler i = some um.2 ∧ wd st um.2 = um.1) ∧
  (∀ i j x y, 0 ≤ i → i ≤ j → j < t → rd st.euler i = some x → rd st.euler j = some y →
    wd st x - 2 * wd st y ≤ uxm.1) ∧
  (∃ i j y, 0 ≤ i ∧ i ≤ j ∧ j < t ∧ rd st.euler i = some uxm.2 ∧ rd st.euler j = some y ∧
    wd st uxm.2 - 2 * wd st y = uxm.1) ∧
  (∀ i j k x y z, 0 ≤ i → i ≤ j → j ≤ k → k < t → rd st.euler i = some x →
    rd st.euler j = some y → rd st.euler k = some z →
    wd st x - 2 * wd st y + wd st z ≤ uxvm.1) ∧
  (∃ i j k y, 0 ≤ i ∧ i ≤ j ∧ j ≤ k ∧ k < t ∧ rd st.euler i = some uxvm.2.1 ∧
    rd st.euler j = some y ∧ rd st.euler k = some uxvm.2.2 ∧
    wd st uxvm.2.1 - 2 * wd st y + wd st uxvm.2.2 = uxvm.1)

/-- The path 0 - 1 - 2 with edges of weight 1. -/
def path_adj : List (List edge) := [[⟨1, 1⟩], [⟨0, 1⟩, ⟨2, 1⟩], [⟨1, 1⟩]]

/-- The structure of the path 0 - 1 - 2 after `build()` followed by `init(3)`. -/
def rebuilt_path : Option weighted_LCA :=
  (build insertion_sort (init_adj fresh path_adj) (-1) true).map (fun st => init st 3)

end weighted_LCA

namespace Forest

/-- The node `x` occurs in the forest with the forest `K` of its children. -/
def HasNode (x : Int) (K : Forest) : Forest → Prop
  | nil => False
  | cons v _ kids rest => (v = x ∧ kids = K) ∨ HasNode x K kids ∨ HasNode x K rest

/-- The Euler tour of the forest hanging below `par`: every tree is entered at its root,
the root is repeated after each of its children, and the tree is followed by `par`. -/
def tourOf : Forest → Int → List Int
  | nil, _ => []
  | cons v _ kids rest, par => v :: (tourOf kids v ++ par :: tourOf rest par)

end Forest

namespace weighted_LCA

/-- The nodes whose parent link is `v`, in increasing order; for `v = -1` these are the
roots of the components. -/
def children (st : weighted_LCA) (v : Int) : List Int :=
  ((List.range st.parent.length).map Int.ofNat).filter
    (fun c => decide (rd st.parent c = some v))

end weighted_LCA

/-! ## Theorems -/

theorem rd_some_iff {α : Type} (vec : List α) (i : Int) (x : α) :
    rd vec i = some x ↔ 0 ≤ i ∧ vec[i.toNat]? = some x := by
  unfold rd
  by_cases h : 0 ≤ i <;> simp [h]

theorem rd_bounds {α : Type} {vec : List α} {i : Int} {x : α} (h : rd vec i = some x) :
    0 ≤ i ∧ i < vec.length := by
  rw [rd_some_iff] at h
  obtain ⟨h0, h1⟩ := h
  have := List.getElem?_eq_some_iff.1 h1
  obtain ⟨hlt, _⟩ := this
  omega

theorem rd_of_bounds {α : Type} (vec : List α) (i : Int) (h0 : 0 ≤ i) (h1 : i < vec.length) :
    ∃ x, rd vec i = some x := by
  have hlt : i.toNat < vec.length := by omega
  exact ⟨vec[i.toNat], by rw [rd_some_iff]; exact ⟨h0, List.getElem?_eq_getElem hlt⟩⟩

theorem rd_neg {α : Type} (vec : List α) (i : Int) (h : i < 0) : rd vec i = none := by
  unfold rd
  simp [show ¬ (0 ≤ i) by omega]

theorem rd_none_of_le {α : Type} (vec : List α) (i : Int) (h : (vec.length : Int) ≤ i) :
    rd vec i = none := by
  unfold rd
  by_cases h0 : 0 ≤ i
  · simp only [h0, if_true]
    exact List.getElem?_eq_none (by omega)
  · simp [h0]

theorem wr_some_iff {α : Type} (vec : List α) (i : Int) (x : α) (vec1 : List α) :
    wr vec i x = some vec1 ↔ (0 ≤ i ∧ i < vec.length) ∧ vec1 = vec.set i.toNat x := by
  unfold wr
  by_cases h : 0 ≤ i ∧ i.toNat < vec.length
  · have h2 : 0 ≤ i ∧ i < (vec.length : Int) := ⟨h.1, by omega⟩
    simp only [h, if_true, Option.some.injEq, h2, true_and, and_self]
    exact eq_comm
  · have h2 : ¬ (0 ≤ i ∧ i < (vec.length : Int)) := by
      intro h3; apply h; exact ⟨h3.1, by omega⟩
    simp [h, h2]

theorem wr_of_bounds {α : Type} (vec : List α) (i : Int) (x : α) (h0 : 0 ≤ i)
    (h1 : i < vec.length) : wr vec i x = some (vec.set i.toNat x) := by
  rw [wr_some_iff]; exact ⟨⟨h0, h1⟩, rfl⟩

theorem wr_length {α : Type} {vec : List α} {i : Int} {x : α} {vec1 : List α}
    (h : wr vec i x = some vec1) : vec1.length = vec.length := by
  rw [wr_some_iff] at h
  rw [h.2, List.length_set]

theorem wr_bounds {α : Type} {vec : List α} {i : Int} {x : α} {vec1 : List α}
    (h : wr vec i x = some vec1) : 0 ≤ i ∧ i < vec.length := by
  rw [wr_some_iff] at h
  exact h.1

theorem rd_wr_same {α : Type} {vec : List α} {i : Int} {x : α} {vec1 : List α}
    (h : wr vec i x = some vec1) : rd vec1 i = some x := by
  rw [wr_some_iff] at h
  obtain ⟨⟨h0, h1⟩, rfl⟩ := h
  rw [rd_some_iff]
  refine ⟨h0, ?_⟩
  rw [List.getElem?_set]
  have : i.toNat < vec.length := by omega
  simp [this]

theorem rd_wr_ne {α : Type} {vec : List α} {i j : Int} {x : α} {vec1 : List α}
    (h : wr vec i x = some vec1) (hne : j ≠ i) : rd vec1 j = rd vec j := by
  rw [wr_some_iff] at h
  obtain ⟨⟨h0, h1⟩, rfl⟩ := h
  unfold rd
  by_cases hj : 0 ≤ j
  · simp only [hj, if_true]
    rw [List.getElem?_set]
    have : ¬ (i.toNat = j.toNat) := by omega
    simp [this]
  · simp [hj]

theorem rd_wr {α : Type} {vec : List α} {i : Int} {x : α} {vec1 : List α}
    (h : wr vec i x = some vec1) (j : Int) :
    rd vec1 j = if j = i then some x else rd vec j := by
  by_cases hj : j = i
  · subst hj; simp [rd_wr_same h]
  · simp [hj, rd_wr_ne h hj]

theorem rd_append_left {α : Type} (l m : List α) (i : Int) (h : i < l.length) :
    rd (l ++ m) i = rd l i := by
  unfold rd
  by_cases h0 : 0 ≤ i
  · simp only [h0, if_true]
    exact List.getElem?_append_left (by omega)
  · simp [h0]

theorem rd_append_right {α : Type} (l m : List α) (i : Int) (h : (l.length : Int) ≤ i) :
    rd (l ++ m) i = rd m (i - l.length) := by
  unfold rd
  have h0 : 0 ≤ i := by omega
  have h1 : 0 ≤ i - (l.length : Int) := by omega
  simp only [h0, h1, if_true]
  rw [List.getElem?_append_right (by omega)]
  congr 1
  omega

theorem rd_append_one {α : Type} (l : List α) (x : α) (i : Int) :
    rd (l ++ [x]) i = if i = l.length then some x else rd l i := by
  by_cases h : i < l.length
  · rw [rd_append_left _ _ _ h]
    simp [show i ≠ (l.length : Int) by omega]
  · rw [rd_append_right _ _ _ (by omega)]
    by_cases h2 : i = l.length
    · subst h2; simp [rd]
    · simp only [h2, if_false]
      rw [rd_none_of_le l i (by omega)]
      unfold rd
      have : 0 ≤ i - (l.length : Int) := by omega
      simp only [this, if_true]
      have h3 : (i - (l.length : Int)).toNat = (i - (l.length : Int)).toNat - 1 + 1 := by omega
      rw [h3]
      simp

theorem rd_replicate {α : Type} (n : Nat) (x : α) (i : Int) (h0 : 0 ≤ i) (h1 : i < n) :
    rd (List.replicate n x) i = some x := by
  rw [rd_some_iff]
  refine ⟨h0, ?_⟩
  rw [List.getElem?_replicate]
  simp [show i.toNat < n by omega]

theorem rd_cons_zero {α : Type} (x : α) (l : List α) : rd (x :: l) 0 = some x := by
  simp [rd]

theorem rd_cons_succ {α : Type} (x : α) (l : List α) (i : Int) (h : 0 ≤ i) :
    rd (x :: l) (i + 1) = rd l i := by
  unfold rd
  have : 0 ≤ i + 1 := by omega
  simp only [h, this, if_true]
  have h2 : (i + 1).toNat = i.toNat + 1 := by omega
  rw [h2]
  simp

namespace RMQ

theorem highest_bit_loop_spec (fuel u : Nat) (hu : 0 < u) (hlt : u < 2 ^ fuel) :
    2 ^ highest_bit_loop fuel u ≤ u ∧ u < 2 ^ (highest_bit_loop fuel u + 1) := by
  induction fuel generalizing u with
  | zero => simp at hlt; omega
  | succ f ih =>
    unfold highest_bit_loop
    by_cases h2 : u < 2
    · simp only [h2, if_true]
      constructor
      · simpa using hu
      · simpa using h2
    · simp only [h2, if_false]
      have hdiv : u / 2 < 2 ^ f := by
        rw [Nat.div_lt_iff_lt_mul (by norm_num)]
        rw [pow_succ] at hlt
        exact hlt
      obtain ⟨h3, h4⟩ := ih (u / 2) (by omega) hdiv
      constructor
      · rw [pow_succ]; omega
      · rw [pow_succ]; omega

theorem highest_bit_spec (x : Int) (h0 : 0 < x) (h1 : x < 4294967296) :
    ∃ L : Nat, highest_bit x = L ∧ (2 : Int) ^ L ≤ x ∧ x < 2 ^ (L + 1) := by
  unfold highest_bit
  have hmod : x % 4294967296 = x := Int.emod_eq_of_lt (by omega) h1
  simp only [hmod]
  have hne : x.toNat ≠ 0 := by omega
  simp only [hne, if_false]
  refine ⟨highest_bit_loop 32 x.toNat, rfl, ?_⟩
  obtain ⟨h3, h4⟩ := highest_bit_loop_spec 32 x.toNat (by omega) (by norm_num; omega)
  have hx : x = (x.toNat : Int) := by omega
  constructor
  · rw [hx]; exact_mod_cast h3
  · rw [hx]; exact_mod_cast h4

theorem better_index_spec (r : RMQ) (hm : r.maximum_mode = false) (a m2 m1 b x y : Int)
    (hx : IsLastMin r.values a m1 x) (hy : IsLastMin r.values m2 b y)
    (h1 : a ≤ m2) (h2 : m2 ≤ m1) (h3 : m1 ≤ b) :
    ∃ z, r.better_index x y = some z ∧ IsLastMin r.values a b z := by
  obtain ⟨hx1, hx2, vx, hvx, hxmin⟩ := hx
  obtain ⟨hy1, hy2, vy, hvy, hymin⟩ := hy
  unfold better_index
  simp only [hvx, hvy, hm, Option.bind_eq_bind, Option.some_bind, Option.pure_def,
    Bool.false_eq_true, if_false]
  by_cases hlt : vx < vy
  · simp only [hlt, decide_True, if_true]
    refine ⟨x, rfl, hx1, by omega, vx, hvx, ?_⟩
    intro j vj hj1 hj2 hvj
    by_cases hj : j < m1
    · exact hxmin j vj hj1 hj hvj
    · have := hymin j vj (by omega) hj2 hvj
      constructor
      · omega
      · intro h; omega
  · simp only [hlt, decide_False, Bool.false_eq_true, if_false]
    refine ⟨y, rfl, by omega, hy2, vy, hvy, ?_⟩
    intro j vj hj1 hj2 hvj
    by_cases hj : m2 ≤ j
    · exact hymin j vj hj hj2 hvj
    · have := hxmin j vj hj1 (by omega) hvj
      constructor
      · omega
      · intro h; omega

theorem build_row_spec (r : RMQ) (hm : r.maximum_mode = false) (prev : List Int) (k : Nat)
    (hk : 1 ≤ k) (hprev : RowOK r.values (k - 1) prev) (cnt : Nat) (i : Int) (hi : 0 ≤ i)
    (hcnt : i + cnt + 2 ^ k ≤ (r.values.length : Int) + 1) :
    ∃ row, build_row r prev k cnt i = some row ∧ row.length = cnt ∧
      ∀ j : Int, 0 ≤ j → j < cnt →
        ∃ b, rd row j = some b ∧ IsLastMin r.values (i + j) (i + j + 2 ^ k) b := by
  induction cnt generalizing i with
  | zero =>
    refine ⟨[], rfl, rfl, ?_⟩
    intro j h0 h1; simp at h1; omega
  | succ c ih =>
    have hpow : (2 : Int) ^ k = 2 ^ (k - 1) + 2 ^ (k - 1) := by
      have : k = (k - 1) + 1 := by omega
      rw [this, pow_succ]; simp; ring
    have hpos : (0 : Int) < 2 ^ (k - 1) := by positivity
    push_cast at hcnt
    obtain ⟨x, hx, hxb⟩ := hprev.2 i hi (by omega)
    obtain ⟨y, hy, hyb⟩ := hprev.2 (i + 2 ^ (k - 1)) (by omega) (by omega)
    obtain ⟨z, hz, hzb⟩ := better_index_spec r hm i (i + 2 ^ (k - 1)) (i + 2 ^ (k - 1))
      (i + 2 ^ (k - 1) + 2 ^ (k - 1)) x y hxb hyb (by omega) (by omega) (by omega)
    obtain ⟨tl, htl, hlen, hspec⟩ := ih (i + 1) (by omega) (by omega)
    refine ⟨z :: tl, ?_, by simp [hlen], ?_⟩
    · unfold build_row
      simp [hx, hy, hz, htl]
    · intro j h0 h1
      by_cases hj : j = 0
      · subst hj
        refine ⟨z, rd_cons_zero _ _, ?_⟩
        rw [hpow]
        simpa [add_assoc] using hzb
      · obtain ⟨b, hb, hbb⟩ := hspec (j - 1) (by omega) (by push_cast at h1; omega)
        refine ⟨b, ?_, ?_⟩
        · have := rd_cons_succ z tl (j - 1) (by omega)
          simpa using this.trans hb
        · have e : i + 1 + (j - 1) = i + j := by ring
          rwa [e] at hbb

theorem rowOK_zero (vals : List Int) :
    RowOK vals 0 ((List.range vals.length).map Int.ofNat) := by
  constructor
  · simp
  · intro i h0 h1
    simp only [pow_zero] at h1 ⊢
    have hlt : i.toNat < vals.length := by omega
    refine ⟨i, ?_, le_refl _, by omega, ?_⟩
    · rw [rd_some_iff]
      refine ⟨h0, ?_⟩
      rw [List.getElem?_map, List.getElem?_range hlt]
      simp only [Option.map_some', Int.ofNat_eq_coe, Option.some.injEq]
      omega
    · obtain ⟨v, hv⟩ := rd_of_bounds vals i h0 (by omega)
      refine ⟨v, hv, ?_⟩
      intro j vj hj1 hj2 hvj
      have : j = i := by omega
      subst this
      rw [hv] at hvj
      injection hvj with e
      subst e
      exact ⟨le_refl _, fun _ => le_refl _⟩

theorem build_levels_spec (r : RMQ) (hm : r.maximum_mode = false)
    (hn : r.n = r.values.length) (cnt k : Nat) (rows : List (List Int)) (hk : 1 ≤ k)
    (hlen : rows.length = k)
    (hrows : ∀ j : Nat, j < k → ∃ row, rows[j]? = some row ∧ RowOK r.values j row)
    (hfit : (2 : Int) ^ (k + cnt - 1) ≤ r.values.length) :
    ∃ rows1, build_levels r cnt k rows = some rows1 ∧ rows1.length = k + cnt ∧
      ∀ j : Nat, j < k + cnt → ∃ row, rows1[j]? = some row ∧ RowOK r.values j row := by
  induction cnt generalizing k rows with
  | zero => exact ⟨rows, rfl, by simpa using hlen, by simpa using hrows⟩
  | succ c ih =>
    obtain ⟨prev, hprev, hprevOK⟩ := hrows (k - 1) (by omega)
    have hle : (2 : Int) ^ k ≤ r.values.length := by
      refine le_trans ?_ hfit
      exact pow_le_pow_right₀ (by norm_num) (by omega)
    obtain ⟨row, hrow, hrlen, hrspec⟩ := build_row_spec r hm prev k hk hprevOK
      (r.n - 2 ^ k + 1).toNat 0 (le_refl _) (by rw [hn]; omega)
    have hrowOK : RowOK r.values k row := by
      constructor
      · rw [hrlen, hn]; omega
      · intro i h0 h1
        obtain ⟨b, hb, hbb⟩ := hrspec i h0 (by rw [hn]; omega)
        exact ⟨b, hb, by simpa using hbb⟩
    obtain ⟨rows1, h1, h2, h3⟩ := ih (k + 1) (rows ++ [row]) (by omega) (by simp [hlen])
      (by
        intro j hj
        by_cases hjk : j < k
        · obtain ⟨rw1, e1, e2⟩ := hrows j hjk
          exact ⟨rw1, by rw [List.getElem?_append_left (by omega)]; exact e1, e2⟩
        · have : j = k := by omega
          subst this
          refine ⟨row, ?_, hrowOK⟩
          rw [List.getElem?_append_right (by omega)]
          simp [hlen])
      (by
        have : k + 1 + c - 1 = k + (c + 1) - 1 := by omega
        rw [this]; exact hfit)
    refine ⟨rows1, ?_, by omega, ?_⟩
    · unfold build_levels
      simp only [hprev, hrow, Option.bind_eq_bind, Option.some_bind]
      exact h1
    · intro j hj
      exact h3 j (by omega)

theorem table_build_spec (vals : List Int) (hlt : (vals.length : Int) < 2147483648) :
    ∃ r, build false vals = some r ∧ r.values = vals ∧ TableOK r := by
  unfold build
  by_cases h0 : vals.length = 0
  · have hnil : vals = [] := List.length_eq_zero.1 h0
    subst hnil
    refine ⟨{ maximum_mode := false, n := 0, values := [], range_low := [] },
      by simp [highest_bit], rfl, rfl, rfl, ?_⟩
    intro L hL
    simp only [List.length_nil, Nat.cast_zero] at hL
    have : (0 : Int) < 2 ^ L := by positivity
    omega
  · obtain ⟨L, hL, hL1, hL2⟩ := highest_bit_spec (vals.length : Int) (by omega) (by omega)
    simp only [hL]
    have hpos : ¬ ((L : Int) + 1 ≤ 0) := by omega
    simp only [hpos, if_false]
    have hcnt : ((L : Int) + 1).toNat - 1 = L := by omega
    rw [hcnt]
    obtain ⟨rows1, h1, h2, h3⟩ := build_levels_spec
      { maximum_mode := false, n := vals.length, values := vals, range_low := [] } rfl rfl
      L 1 [(List.range vals.length).map Int.ofNat] (le_refl _) rfl
      (by
        intro j hj
        have : j = 0 := by omega
        subst this
        exact ⟨_, rfl, rowOK_zero vals⟩)
      (by simpa using hL1)
    refine ⟨{ maximum_mode := false, n := vals.length, values := vals, range_low := rows1 },
      by simp only [h1, Option.bind_eq_bind, Option.some_bind, Option.pure_def], rfl,
      rfl, rfl, ?_⟩
    intro K hK
    have hKL : K < 1 + L := by
      by_contra hcon
      have : (2 : Int) ^ (L + 1) ≤ 2 ^ K := pow_le_pow_right₀ (by norm_num) (by omega)
      simp only at hK
      omega
    obtain ⟨row, e1, e2⟩ := h3 K hKL
    refine ⟨row, ?_, e2⟩
    rw [rd_some_iff]
    exact ⟨by omega, by simpa using e1⟩

theorem query_index_spec (r : RMQ) (hr : TableOK r) (hlt : (r.values.length : Int) < 2147483648)
    (a b : Int) (h0 : 0 ≤ a) (h1 : a < b) (h2 : b ≤ r.values.length) :
    ∃ i, r.query_index a b = some i ∧ IsLastMin r.values a b i := by
  obtain ⟨hm, hn, htab⟩ := hr
  unfold query_index
  have hcond : 0 ≤ a ∧ a < b ∧ b ≤ r.n := ⟨h0, h1, by rw [hn]; exact h2⟩
  simp only [hcond, and_self, if_true]
  obtain ⟨L, hL, hL1, hL2⟩ := highest_bit_spec (b - a) (by omega) (by omega)
  obtain ⟨row, hrow, hlen, hspec⟩ := htab L (by omega)
  obtain ⟨x, hx, hxb⟩ := hspec a h0 (by omega)
  obtain ⟨y, hy, hyb⟩ := hspec (b - 2 ^ L) (by omega) (by omega)
  have hpow : (2 : Int) ^ (L + 1) = 2 ^ L + 2 ^ L := by rw [pow_succ]; ring
  have e : b - 2 ^ L + 2 ^ L = b := by ring
  rw [e] at hyb
  obtain ⟨z, hz, hzb⟩ := better_index_spec r hm a (b - 2 ^ L) (a + 2 ^ L) b x y hxb hyb
    (by omega) (by omega) (by omega)
  refine ⟨z, ?_, hzb⟩
  simp only [hL, hrow, Int.toNat_ofNat, hx, hy, Option.bind_eq_bind, Option.some_bind]
  exact hz

end RMQ

theorem perm_map_lift {α β : Type} (f : α → β) {l2 m : List β} (h : l2.Perm m) :
    ∀ l1 : List α, m = l1.map f → ∃ l3 : List α, l3.Perm l1 ∧ l3.map f = l2 := by
  induction h with
  | nil =>
    intro l1 h1
    have : l1 = [] := by simpa using h1.symm
    subst this
    exact ⟨[], List.Perm.refl _, rfl⟩
  | cons x _ ih =>
    intro l1 h1
    cases l1 with
    | nil => simp at h1
    | cons a t =>
      simp only [List.map_cons, List.cons.injEq] at h1
      obtain ⟨t3, ht, hm⟩ := ih t h1.2
      exact ⟨a :: t3, ht.cons a, by simp [hm, h1.1]⟩
  | swap x y l =>
    intro l1 h1
    cases l1 with
    | nil => simp at h1
    | cons a t =>
      cases t with
      | nil => simp at h1
      | cons b u =>
        simp only [List.map_cons, List.cons.injEq] at h1
        refine ⟨b :: a :: u, List.Perm.swap _ _ _, ?_⟩
        simp [h1.1, h1.2.1, h1.2.2]
  | trans _ _ ih1 ih2 =>
    intro l1 h1
    obtain ⟨l4, hl4, hm4⟩ := ih2 l1 h1
    obtain ⟨l5, hl5, hm5⟩ := ih1 l4 hm4.symm
    exact ⟨l5, hl5.trans hl4, hm5⟩

namespace Forest

theorem ofTrees_trees (F : Forest) : ofTrees (trees F) = F := by
  induction F with
  | nil => rfl
  | cons v w kids rest _ ih2 => simp [trees, ofTrees, ih2]

theorem trees_ofTrees (ts : List (Int × Int × Forest)) : trees (ofTrees ts) = ts := by
  induction ts with
  | nil => rfl
  | cons t ts ih =>
    obtain ⟨v, w, kids⟩ := t
    simp [trees, ofTrees, ih]

theorem topEdges_eq_map (F : Forest) :
    topEdges F = (trees F).map (fun t => (⟨t.1, t.2.1⟩ : edge)) := by
  induction F with
  | nil => rfl
  | cons v w kids rest _ ih2 => simp [trees, topEdges, ih2]

theorem roots_eq_map (F : Forest) : roots F = (trees F).map (fun t => t.1) := by
  induction F with
  | nil => rfl
  | cons v w kids rest _ ih2 => simp [trees, roots, ih2]

theorem roots_eq_topEdges (F : Forest) : roots F = (topEdges F).map (fun e => e.node) := by
  induction F with
  | nil => rfl
  | cons v w kids rest _ ih2 => simp [topEdges, roots, ih2]

theorem labels_eq_bind (F : Forest) :
    labels F = (trees F).flatMap (fun t => t.1 :: labels t.2.2) := by
  induction F with
  | nil => rfl
  | cons v w kids rest _ ih2 => simp [trees, labels, ih2]

theorem size_eq_sum (F : Forest) :
    size F = ((trees F).map (fun t => 1 + size t.2.2)).sum := by
  induction F with
  | nil => rfl
  | cons v w kids rest _ ih2 => simp [trees, size, ih2]

theorem height_le_iff (F : Forest) (h : Nat) :
    height F ≤ h ↔ ∀ t ∈ trees F, height t.2.2 + 1 ≤ h := by
  induction F with
  | nil => simp [height, trees]
  | cons v w kids rest _ ih2 => simp [trees, height, ih2]

theorem labels_perm {F G : Forest} (h : (trees F).Perm (trees G)) :
    (labels F).Perm (labels G) := by
  rw [labels_eq_bind, labels_eq_bind]
  exact h.flatMap_right _

theorem size_perm {F G : Forest} (h : (trees F).Perm (trees G)) : size F = size G := by
  rw [size_eq_sum, size_eq_sum]
  exact (h.map _).sum_eq

theorem topEdges_perm {F G : Forest} (h : (trees F).Perm (trees G)) :
    (topEdges F).Perm (topEdges G) := by
  rw [topEdges_eq_map, topEdges_eq_map]
  exact h.map _

theorem height_perm {F G : Forest} (h : (trees F).Perm (trees G)) : height F = height G := by
  apply le_antisymm
  · rw [height_le_iff]; intro t ht
    exact (height_le_iff G _).1 (le_refl _) t (h.mem_iff.1 ht)
  · rw [height_le_iff]; intro t ht
    exact (height_le_iff F _).1 (le_refl _) t (h.mem_iff.2 ht)

theorem size_eq_length_labels (F : Forest) : size F = (labels F).length := by
  induction F with
  | nil => rfl
  | cons v w kids rest ih1 ih2 => simp [size, labels, ih1, ih2]; omega

theorem roots_subset_labels (F : Forest) : ∀ x ∈ roots F, x ∈ labels F := by
  induction F with
  | nil => simp [roots]
  | cons v w kids rest _ ih2 =>
    intro x hx
    simp only [roots, List.mem_cons] at hx
    simp only [labels, List.mem_cons, List.mem_append]
    rcases hx with h | h
    · exact Or.inl h
    · exact Or.inr (Or.inr (ih2 x h))

/-- Exists a forest with the top edges in a prescribed permuted order. -/
theorem exists_reorder (G : Forest) (es : List edge) (h : es.Perm (topEdges G)) :
    ∃ G1 : Forest, (trees G1).Perm (trees G) ∧ topEdges G1 = es := by
  rw [topEdges_eq_map] at h
  obtain ⟨ts, hts, hm⟩ := perm_map_lift _ h (trees G) rfl
  refine ⟨ofTrees ts, by rw [trees_ofTrees]; exact hts, ?_⟩
  rw [topEdges_eq_map, trees_ofTrees]; exact hm

end Forest

theorem realizes_iff (adj : List (List edge)) (F : Forest) (par : Int) :
    Realizes adj F par ↔ ∀ t ∈ F.trees,
      (∃ row, rd adj t.1 = some row ∧
        row.Perm ((if 0 ≤ par then [(⟨par, t.2.1⟩ : edge)] else []) ++ t.2.2.topEdges)) ∧
      Realizes adj t.2.2 t.1 := by
  induction F with
  | nil => simp [Realizes, Forest.trees]
  | cons v w kids rest _ ih2 =>
    simp only [Realizes, Forest.trees, List.mem_cons, forall_eq_or_imp, ih2]
    tauto

theorem realizes_perm (adj : List (List edge)) {F G : Forest} (par : Int)
    (h : F.trees.Perm G.trees) : Realizes adj F par ↔ Realizes adj G par := by
  rw [realizes_iff, realizes_iff]
  constructor
  · intro hF t ht; exact hF t (h.mem_iff.2 ht)
  · intro hG t ht; exact hG t (h.mem_iff.1 ht)

theorem realizes_congr {adj adj1 : List (List edge)} (F : Forest) (par : Int)
    (h : ∀ x ∈ F.labels, rd adj1 x = rd adj x) (hF : Realizes adj F par) :
    Realizes adj1 F par := by
  induction F generalizing par with
  | nil => trivial
  | cons v w kids rest ih1 ih2 =>
    simp only [Realizes] at hF ⊢
    simp only [Forest.labels, List.mem_cons, List.mem_append] at h
    obtain ⟨h1, h2, h3⟩ := hF
    refine ⟨?_, ih1 v (fun x hx => h x (Or.inr (Or.inl hx))) h2,
      ih2 par (fun x hx => h x (Or.inr (Or.inr hx))) h3⟩
    rw [h v (Or.inl rfl)]
    exact h1

namespace weighted_LCA

theorem rep_iff (st : weighted_LCA) (F : Forest) (par d wdp : Int) :
    Rep st F par d wdp ↔ ∀ t ∈ F.trees,
      (rd st.parent t.1 = some par ∧ rd st.depth t.1 = some d ∧
        rd st.weight_depth t.1 = some (wdp + t.2.1) ∧ rd st.up_weight t.1 = some t.2.1 ∧
        rd st.subtree_size t.1 = some (1 + t.2.2.size) ∧
        rd st.adj t.1 = some t.2.2.topEdges) ∧
      Rep st t.2.2 t.1 (d + 1) (wdp + t.2.1) := by
  induction F with
  | nil => simp [Rep, Forest.trees]
  | cons v w kids rest _ ih2 =>
    simp only [Rep, Forest.trees, List.mem_cons, forall_eq_or_imp, ih2]
    tauto

theorem rep_perm (st : weighted_LCA) {F G : Forest} (par d wdp : Int)
    (h : F.trees.Perm G.trees) : Rep st F par d wdp ↔ Rep st G par d wdp := by
  rw [rep_iff, rep_iff]
  constructor
  · intro hF t ht; exact hF t (h.mem_iff.2 ht)
  · intro hG t ht; exact hG t (h.mem_iff.1 ht)

theorem rep_congr {st st1 : weighted_LCA} (F : Forest) (par d wdp : Int)
    (h : ∀ x ∈ F.labels, Agree st st1 x) (hF : Rep st F par d wdp) :
    Rep st1 F par d wdp := by
  induction F generalizing par d wdp with
  | nil => trivial
  | cons v w kids rest ih1 ih2 =>
    simp only [Rep] at hF ⊢
    simp only [Forest.labels, List.mem_cons, List.mem_append] at h
    obtain ⟨h1, h2, h3⟩ := hF
    refine ⟨?_, ih1 _ _ _ (fun x hx => h x (Or.inr (Or.inl hx))) h2,
      ih2 _ _ _ (fun x hx => h x (Or.inr (Or.inr hx))) h3⟩
    obtain ⟨a1, a2, a3, a4, a5, a6⟩ := h v (Or.inl rfl)
    rw [a1, a2, a3, a4, a5, a6]
    exact h1

end weighted_LCA

theorem set_last_dropLast_perm {α : Type} (a b : List α) (x d : α) :
    (((a ++ x :: b).set a.length ((a ++ x :: b).getLastD d)).dropLast).Perm (a ++ b) := by
  rcases List.eq_nil_or_concat b with hb | ⟨b1, l, hb⟩
  · subst hb
    have h1 : (a ++ [x]).getLastD d = x := by simp
    rw [h1]
    have h2 : (a ++ [x]).set a.length x = a ++ [x] := by
      rw [List.set_append_right _ _ (le_refl _)]; simp
    rw [h2]
    simp
  · rw [List.concat_eq_append] at hb
    subst hb
    have e : a ++ x :: (b1 ++ [l]) = (a ++ x :: b1) ++ [l] := by simp
    have h1 : (a ++ x :: (b1 ++ [l])).getLastD d = l := by
      rw [e, List.getLastD_eq_getLast?, List.getLast?_append]; simp
    rw [h1]
    have h2 : (a ++ x :: (b1 ++ [l])).set a.length l = (a ++ l :: b1) ++ [l] := by
      rw [List.set_append_right _ _ (le_refl _)]; simp
    rw [h2, List.dropLast_concat]
    have : (a ++ l :: b1).Perm (a ++ (b1 ++ [l])) := by
      apply List.Perm.append_left
      exact (List.perm_append_singleton l b1).symm
    exact this

theorem erase_row_perm (row L : List edge) (par w : Int)
    (h : row.Perm (⟨par, w⟩ :: L)) (hL : ∀ e ∈ L, e.node ≠ par) :
    (weighted_LCA.erase_row row par).Perm L := by
  unfold weighted_LCA.erase_row
  have hmem : (⟨par, w⟩ : edge) ∈ row := h.mem_iff.2 (List.mem_cons_self _ _)
  have hex : ∃ e ∈ row, (fun e : edge => e.node == par) e = true := ⟨_, hmem, by simp⟩
  cases hfi : row.findIdx? (fun e => e.node == par) with
  | none =>
    rw [List.findIdx?_eq_none_iff] at hfi
    have := hfi _ hmem
    simp at this
  | some i =>
    simp only
    rw [List.findIdx?_eq_some_iff_getElem] at hfi
    obtain ⟨hi, hp, _⟩ := hfi
    have hx : row[i] = ⟨par, w⟩ := by
      have hm : row[i] ∈ (⟨par, w⟩ : edge) :: L := h.mem_iff.1 (List.getElem_mem hi)
      rcases List.mem_cons.1 hm with h1 | h1
      · exact h1
      · exact absurd (by simpa using hp) (hL _ h1)
    have hsplit : row = row.take i ++ row[i] :: row.drop (i + 1) := by
      conv_lhs => rw [← List.take_append_drop i row]
      rw [List.drop_eq_getElem_cons hi]
    have hlen : (row.take i).length = i := by simp; omega
    have key := set_last_dropLast_perm (row.take i) (row.drop (i + 1)) row[i] ⟨-1, 0⟩
    rw [← hsplit, hlen] at key
    refine key.trans ?_
    have h2 : (row[i] :: (row.take i ++ row.drop (i + 1))).Perm (⟨par, w⟩ :: L) := by
      refine List.Perm.trans ?_ h
      conv_rhs => rw [hsplit]
      exact List.perm_middle.symm
    rw [hx] at h2
    exact (List.Perm.cons_inv h2)

theorem erase_row_none (row : List edge) (par : Int) (h : ∀ e ∈ row, e.node ≠ par) :
    weighted_LCA.erase_row row par = row := by
  unfold weighted_LCA.erase_row
  have : row.findIdx? (fun e => e.node == par) = none := by
    rw [List.findIdx?_eq_none_iff]
    intro e he
    simpa using h e he
  rw [this]

namespace Forest

theorem kidsSorted_iff (F : Forest) :
    KidsSorted F ↔ ∀ t ∈ F.trees, TopSorted t.2.2 ∧ KidsSorted t.2.2 := by
  induction F with
  | nil => simp [KidsSorted, trees]
  | cons v w kids rest _ ih2 =>
    simp only [KidsSorted, trees, List.mem_cons, forall_eq_or_imp, ih2]
    tauto

theorem kidsSorted_perm {F G : Forest} (h : F.trees.Perm G.trees) :
    KidsSorted F ↔ KidsSorted G := by
  rw [kidsSorted_iff, kidsSorted_iff]
  constructor
  · intro hF t ht; exact hF t (h.mem_iff.2 ht)
  · intro hG t ht; exact hG t (h.mem_iff.1 ht)

end Forest

namespace weighted_LCA

theorem Fr.same {α : Type} (f : weighted_LCA → List α) (st : weighted_LCA) (L : List Int) :
    Fr f st st L := fun _ _ => rfl

theorem Fr.of_eq {α : Type} {f : weighted_LCA → List α} {st st1 : weighted_LCA} (L : List Int)
    (h : f st1 = f st) : Fr f st st1 L := fun _ _ => by rw [h]

theorem Fr.compose {α : Type} {f : weighted_LCA → List α} {a b c : weighted_LCA}
    {L1 L2 L : List Int} (h1 : Fr f a b L1) (h2 : Fr f b c L2)
    (hs1 : ∀ x, x ∈ L1 → x ∈ L) (hs2 : ∀ x, x ∈ L2 → x ∈ L) : Fr f a c L := by
  intro x hx
  rw [h2 x (fun h => hx (hs2 x h)), h1 x (fun h => hx (hs1 x h))]

theorem Fr.of_wr {α : Type} {f : weighted_LCA → List α} {st st1 : weighted_LCA}
    {i : Int} {v : α} (L : List Int) (h : wr (f st) i v = some (f st1)) (hi : i ∈ L) :
    Fr f st st1 L := by
  intro x hx
  exact rd_wr_ne h (fun e => hx (e ▸ hi))

theorem dfsSpec_zero (S : StdSort) (n : Nat) : DfsSpec S n 0 := by
  intro st node par weight w d K _ _ _ _ _ _ _ h
  omega

theorem sized_up_weight {st : weighted_LCA} {n : Nat} (h : Sized st n) (uw : List Int)
    (hl : uw.length = st.up_weight.length) : Sized { st with up_weight := uw } n := by
  obtain ⟨h1, h2, h3, h4, h5, h6, h7, h8, h9, h10, h11, h12, h13⟩ := h
  exact ⟨h1, h2, h3, h4, h5, h6, by simpa [hl] using h7, h8, h9, h10, h11, h12, h13⟩

theorem sized_subtree_size {st : weighted_LCA} {n : Nat} (h : Sized st n) (ss : List Int)
    (hl : ss.length = st.subtree_size.length) : Sized { st with subtree_size := ss } n := by
  obtain ⟨h1, h2, h3, h4, h5, h6, h7, h8, h9, h10, h11, h12, h13⟩ := h
  exact ⟨h1, h2, h3, h4, by simpa [hl] using h5, h6, h7, h8, h9, h10, h11, h12, h13⟩

theorem sized_adj {st : weighted_LCA} {n : Nat} (h : Sized st n) (a : List (List edge))
    (hl : a.length = st.adj.length) : Sized { st with adj := a } n := by
  obtain ⟨h1, h2, h3, h4, h5, h6, h7, h8, h9, h10, h11, h12, h13⟩ := h
  exact ⟨h1, by simpa [hl] using h2, h3, h4, h5, h6, h7, h8, h9, h10, h11, h12, h13⟩

theorem loopSpec_of_dfsSpec (S : StdSort) (n fuel : Nat) (hdfs : DfsSpec S n fuel) :
    LoopSpec S n fuel := by
  intro G
  induction G with
  | nil =>
    intro st node weight d s hsz _ _ _ _ hs _
    refine ⟨st, Forest.nil, rfl, hsz, rfl, List.Perm.refl _, trivial, ⟨trivial, trivial⟩, ?_,
      Fr.same _ _ _, Fr.same _ _ _, Fr.same _ _ _, Fr.same _ _ _, Fr.same _ _ _, Fr.same _ _ _⟩
    simpa [Forest.size] using hs
  | cons v w kids rest _ ih =>
    intro st node weight d s hsz hreal hnd hrange hd hs hh
    -- unpack the hypotheses
    simp only [Realizes] at hreal
    obtain ⟨hrow, hrealK, hrealR⟩ := hreal
    have hnode0 : 0 ≤ node := (hrange node (List.mem_cons_self _ _)).1
    simp only [hnode0, if_true] at hrow
    simp only [Forest.labels, List.nodup_cons, List.mem_cons, List.mem_append, not_or,
      List.nodup_append] at hnd
    obtain ⟨⟨hnv, hnK, hnR⟩, ⟨hvK, hvR⟩, hKnd, hRnd, hdisj⟩ := hnd
    have hvr : 0 ≤ v ∧ v < n := hrange v (by simp [Forest.labels])
    simp only [Forest.height] at hh
    -- the write of up_weight
    have huwlen : st.up_weight.length = n := hsz.2.2.2.2.2.2.1
    obtain ⟨uw, huw⟩ : ∃ uw, wr st.up_weight v w = some uw :=
      ⟨_, wr_of_bounds st.up_weight v w hvr.1 (by rw [huwlen]; exact hvr.2)⟩
    -- the recursive call
    have hszA : Sized { st with up_weight := uw } n :=
      sized_up_weight hsz _ (wr_length huw)
    obtain ⟨st1, K1, hcall, hsz1, hK1perm, hK1real, hK1row, hK1node, ⟨hK1rep, hK1ts, hK1ks⟩,
      hfr1⟩ :=
      hdfs { st with up_weight := uw } v node (weight + w) w (d + 1)
        kids hszA (by simpa [hnode0] using hrow) hrealK
        (by simp [hvK, hKnd])
        (by
          intro x hx
          apply hrange x
          simp only [List.mem_cons] at hx
          simp only [Forest.labels, List.mem_cons, List.mem_append]
          tauto)
        hnK
        (by simp only [show ¬ node < 0 by omega, if_false]; exact ⟨d, hd, rfl⟩)
        (by omega)
    obtain ⟨hfp1, hfd1, hfw1, hfa1, hfs1, hfu1⟩ := hfr1
    obtain ⟨hn1, hn2, hn3, hn4, hn5⟩ := hK1node
    have hnodeNot : node ∉ v :: kids.labels := by
      simp only [List.mem_cons, not_or]; exact ⟨hnv, hnK⟩
    have hsn : rd st1.subtree_size node = some s := by
      rw [hfs1 node hnodeNot]; exact hs
    have hsslen : st1.subtree_size.length = n := hsz1.2.2.2.2.1
    obtain ⟨ss, hss⟩ : ∃ ss, wr st1.subtree_size node (s + ((1 + K1.size : Nat) : Int)) = some ss :=
      ⟨_, wr_of_bounds st1.subtree_size node (s + ((1 + K1.size : Nat) : Int)) hnode0
        (by rw [hsslen]; exact (hrange node (List.mem_cons_self _ _)).2)⟩
    have hszB : Sized { st1 with subtree_size := ss } n :=
      sized_subtree_size hsz1 _ (wr_length hss)
    -- rest of the loop
    have hrestNot : ∀ x ∈ rest.labels, x ∉ v :: kids.labels := by
      intro x hx
      simp only [List.mem_cons, not_or]
      refine ⟨fun e => hvR (e ▸ hx), fun hk => hdisj hk hx⟩
    obtain ⟨st2, R1, hloop, hsz2, hR1top, hR1perm, hR1real, ⟨hR1rep, hR1ks⟩, hR1ss, hfr2⟩ :=
      ih { st1 with subtree_size := ss }
        node weight d (s + ((1 + K1.size : Nat) : Int)) hszB
        (realizes_congr rest node (fun x hx => hfa1 x (hrestNot x hx)) hrealR)
        (by simp [hnR, hRnd])
        (by
          intro x hx
          apply hrange x
          simp only [List.mem_cons] at hx
          simp only [Forest.labels, List.mem_cons, List.mem_append]
          tauto)
        (by rw [← hd]; exact hfd1 node hnodeNot)
        (rd_wr_same hss)
        (by omega)
    obtain ⟨hfp2, hfd2, hfw2, hfa2, hfs2, hfu2⟩ := hfr2
    have hK1mem : ∀ x, x ∈ K1.labels ↔ x ∈ kids.labels := fun x => hK1perm.mem_iff
    have hR1mem : ∀ x, x ∈ R1.labels ↔ x ∈ rest.labels := fun x => hR1perm.mem_iff
    refine ⟨st2, Forest.cons v w K1 R1, ?_, hsz2, ?_, ?_, ?_, ?_, ?_, ?_⟩
    · -- the computation
      simp only [Forest.topEdges, dfs_children, huw, hcall, hsn, hn4, hss,
        Option.bind_eq_bind, Option.some_bind, Option.pure_def]
      exact hloop
    · simp [Forest.topEdges, hR1top]
    · simp only [Forest.labels]
      exact (hK1perm.append hR1perm).cons v
    · -- Realizes
      simp only [Realizes]
      refine ⟨by simpa [hnode0] using hK1row, hK1real, ?_⟩
      refine realizes_congr R1 node (fun x hx => ?_) hR1real
      exact (hfa1 x (hrestNot x ((hR1mem x).1 hx))).symm
    · -- Rep
      refine ⟨?_, hK1ts, hK1ks, hR1ks⟩
      simp only [Rep]
      have hv2 : v ∉ rest.labels := hvR
      have hvn : v ∉ node :: rest.labels := by
        simp only [List.mem_cons, not_or]; exact ⟨fun e => hnv e.symm, hvR⟩
      refine ⟨⟨?_, ?_, ?_, ?_, ?_, ?_⟩, ?_, hR1rep⟩
      · rw [hfp2 v hv2]; exact hn1
      · rw [hfd2 v hv2]; exact hn2
      · rw [hfw2 v hv2]; exact hn3
      · rw [hfu2 v hv2, hfu1 v hvK]; exact rd_wr_same huw
      · rw [hfs2 v hvn]
        have : rd ss v = rd st1.subtree_size v := rd_wr_ne hss (fun e => hnv e.symm)
        simp only [this]; exact hn4
      · rw [hfa2 v hv2]; exact hn5
      · refine rep_congr K1 _ _ _ (fun x hx => ?_) hK1rep
        have hxK : x ∈ kids.labels := (hK1mem x).1 hx
        have hxR : x ∉ rest.labels := fun h => hdisj hxK h
        have hxn : x ∉ node :: rest.labels := by
          simp only [List.mem_cons, not_or]; exact ⟨fun e => hnK (e ▸ hxK), hxR⟩
        refine ⟨hfp2 x hxR, hfd2 x hxR, hfw2 x hxR, hfu2 x hxR, ?_, hfa2 x hxR⟩
        rw [hfs2 x hxn]
        exact rd_wr_ne hss (fun e => hnK (e ▸ hxK))
    · rw [hR1ss]
      simp only [Forest.size]
      congr 1
      push_cast
      ring
    · -- frames
      have sub1 : ∀ x, x ∈ v :: kids.labels → x ∈ (Forest.cons v w kids rest).labels := by
        intro x hx
        simp only [List.mem_cons] at hx
        simp only [Forest.labels, List.mem_cons, List.mem_append]; tauto
      have sub2 : ∀ x, x ∈ rest.labels → x ∈ (Forest.cons v w kids rest).labels := by
        intro x hx
        simp only [Forest.labels, List.mem_cons, List.mem_append]; tauto
      refine ⟨Fr.compose hfp1 hfp2 sub1 sub2, Fr.compose hfd1 hfd2 sub1 sub2,
        Fr.compose hfw1 hfw2 sub1 sub2, Fr.compose hfa1 hfa2 sub1 sub2, ?_, ?_⟩
      · intro x hx
        simp only [Forest.labels, List.mem_cons, List.mem_append, not_or] at hx
        obtain ⟨hxn, hxv, hxK, hxR⟩ := hx
        rw [hfs2 x (by simp only [List.mem_cons, not_or]; exact ⟨hxn, hxR⟩)]
        have : rd ss x = rd st1.subtree_size x := rd_wr_ne hss hxn
        simp only [this]
        exact hfs1 x (by simp only [List.mem_cons, not_or]; exact ⟨hxv, hxK⟩)
      · intro x hx
        simp only [Forest.labels, List.mem_cons, List.mem_append, not_or] at hx
        obtain ⟨hxv, hxK, hxR⟩ := hx
        rw [hfu2 x hxR, hfu1 x hxK]
        exact rd_wr_ne huw hxv

theorem topEdges_node_mem (K : Forest) : ∀ e ∈ K.topEdges, e.node ∈ K.labels := by
  intro e he
  apply Forest.roots_subset_labels
  rw [Forest.roots_eq_topEdges]
  exact List.mem_map_of_mem _ he

theorem dfsSpec_succ (S : StdSort) (n fuel : Nat) (hloop : LoopSpec S n fuel) :
    DfsSpec S n (fuel + 1) := by
  intro st node par weight w d K hsz hrow hreal hnd hrange hpar hd hh
  obtain ⟨row, hrd, hperm⟩ := hrow
  obtain ⟨hs1, hs2, hs3, hs4, hs5, hs6, hs7, hs8, hs9, hs10, hs11, hs12, hs13⟩ := hsz
  have hnr : 0 ≤ node ∧ node < n := hrange node (List.mem_cons_self _ _)
  have hnK : node ∉ K.labels := (List.nodup_cons.1 hnd).1
  have hKnd : K.labels.Nodup := (List.nodup_cons.1 hnd).2
  -- prologue writes
  obtain ⟨pa, hpa⟩ : ∃ pa, wr st.parent node par = some pa :=
    ⟨_, wr_of_bounds _ _ _ hnr.1 (by rw [hs3]; exact hnr.2)⟩
  have hdval : (if par < 0 then some 0 else (rd st.depth par).map (· + 1)) = some d := by
    by_cases hp : par < 0
    · simp only [hp, if_true] at hd ⊢; rw [hd]
    · simp only [hp, if_false] at hd ⊢
      obtain ⟨dp, hdp, e⟩ := hd
      rw [hdp, e]; rfl
  obtain ⟨de, hde⟩ : ∃ de, wr st.depth node d = some de :=
    ⟨_, wr_of_bounds _ _ _ hnr.1 (by rw [hs4]; exact hnr.2)⟩
  obtain ⟨ss, hss⟩ : ∃ ss, wr st.subtree_size node 1 = some ss :=
    ⟨_, wr_of_bounds _ _ _ hnr.1 (by rw [hs5]; exact hnr.2)⟩
  obtain ⟨wd, hwd⟩ : ∃ wd, wr st.weight_depth node weight = some wd :=
    ⟨_, wr_of_bounds _ _ _ hnr.1 (by rw [hs6]; exact hnr.2)⟩
  obtain ⟨ad, had⟩ : ∃ ad, wr st.adj node (erase_row row par) = some ad :=
    ⟨_, wr_of_bounds _ _ _ hnr.1 (by rw [hs2]; exact hnr.2)⟩
  -- the row after erasing the parent edge
  have hes : (erase_row row par).Perm K.topEdges := by
    by_cases hp : 0 ≤ par
    · simp only [hp, if_true, List.singleton_append] at hperm
      exact erase_row_perm row _ par w hperm
        (fun e he h => hpar (h ▸ topEdges_node_mem K e he))
    · simp only [hp, if_false, List.nil_append] at hperm
      rw [erase_row_none]
      · exact hperm
      · intro e he h
        have hmem : e.node ∈ K.labels := topEdges_node_mem K e (hperm.mem_iff.1 he)
        have := (hrange e.node (List.mem_cons_of_mem _ hmem)).1
        omega
  obtain ⟨G, hGtrees, hGtop⟩ := Forest.exists_reorder K _ hes
  have hGlab : G.labels.Perm K.labels := Forest.labels_perm hGtrees
  have hGmem : ∀ x, x ∈ G.labels ↔ x ∈ K.labels := fun x => hGlab.mem_iff
  -- the state before the loop
  let st0 : weighted_LCA := { st with parent := pa, depth := de }
  let st0b : weighted_LCA := { st0 with subtree_size := ss, weight_depth := wd }
  let stA : weighted_LCA := { st0b with adj := ad }
  have hszA : Sized stA n :=
    ⟨hs1, by rw [← hs2]; exact wr_length had, by rw [← hs3]; exact wr_length hpa,
      by rw [← hs4]; exact wr_length hde, by rw [← hs5]; exact wr_length hss,
      by rw [← hs6]; exact wr_length hwd, hs7, hs8, hs9, hs10, hs11, hs12, hs13⟩
  have hadjA : ∀ x ∈ G.labels, rd stA.adj x = rd st.adj x := by
    intro x hx
    exact rd_wr_ne had (fun e => hnK (e ▸ (hGmem x).1 hx))
  obtain ⟨st2, G1, hrun, hsz2, hG1top, hG1perm, hG1real, ⟨hG1rep, hG1ks⟩, hG1ss, hfr⟩ :=
    hloop G stA node weight d 1 hszA
      (realizes_congr G node hadjA ((realizes_perm st.adj node hGtrees).2 hreal))
      (by
        rw [List.nodup_cons]
        exact ⟨fun h => hnK ((hGmem node).1 h), hGlab.nodup_iff.2 hKnd⟩)
      (by
        intro x hx
        apply hrange x
        simp only [List.mem_cons] at hx ⊢
        rcases hx with h | h
        · exact Or.inl h
        · exact Or.inr ((hGmem x).1 h))
      (rd_wr_same hde) (rd_wr_same hss)
      (by rw [Forest.height_perm hGtrees]; omega)
  obtain ⟨hfp, hfd, hfw, hfa, hfs, hfu⟩ := hfr
  have hnG : node ∉ G.labels := fun h => hnK ((hGmem node).1 h)
  have hrow2 : rd st2.adj node = some (erase_row row par) := by
    rw [hfa node hnG]; exact rd_wr_same had
  obtain ⟨ad2, had2⟩ : ∃ ad2, wr st2.adj node
      (S.sort (fun a b => decide (ssz st2 b.node < ssz st2 a.node)) (erase_row row par))
      = some ad2 :=
    ⟨_, wr_of_bounds _ _ _ hnr.1 (by rw [hsz2.2.1]; exact hnr.2)⟩
  have hsorted : (S.sort (fun a b => decide (ssz st2 b.node < ssz st2 a.node))
      (erase_row row par)).Perm G1.topEdges := by
    rw [hG1top, hGtop]
    exact S.perm _ _
  obtain ⟨K1, hK1trees, hK1top⟩ := Forest.exists_reorder G1 _ hsorted
  have hK1lab : K1.labels.Perm K.labels :=
    ((Forest.labels_perm hK1trees).trans hG1perm).trans hGlab
  have hK1mem : ∀ x, x ∈ K1.labels ↔ x ∈ K.labels := fun x => hK1lab.mem_iff
  have hG1mem : ∀ x, x ∈ G1.labels ↔ x ∈ K.labels := fun x => (hG1perm.trans hGlab).mem_iff
  have hK1topK : K1.topEdges.Perm K.topEdges := by
    rw [hK1top]; exact (S.perm _ _).trans hes
  refine ⟨{ st2 with adj := ad2 }, K1, ?_, sized_adj hsz2 _ (wr_length had2), hK1lab, ?_, ?_,
    ?_, ?_, ?_⟩
  · -- the computation
    rw [hGtop] at hrun
    have hrdA : rd ad node = some (erase_row row par) := rd_wr_same had
    by_cases hp : par < 0
    · simp only [hp, if_true] at hd
      subst hd
      simp only [dfs, hpa, hp, if_true, hde, hss, hwd, erase_edge, hrd, had, hrdA,
        Option.bind_eq_bind, Option.some_bind, Option.pure_def]
      simp only [stA, st0b, st0] at hrun
      simp only [hrun, Option.some_bind, hrow2, had2]
    · simp only [hp, if_false] at hd
      obtain ⟨dp, hdp, e⟩ := hd
      subst e
      simp only [dfs, hpa, hp, if_false, hdp, Option.map_some', hde, hss, hwd, erase_edge, hrd,
        had, hrdA, Option.bind_eq_bind, Option.some_bind, Option.pure_def]
      simp only [stA, st0b, st0] at hrun
      simp only [hrun, Option.some_bind, hrow2, had2]
  · -- Realizes
    rw [realizes_perm st.adj node hK1trees]
    refine realizes_congr G1 node (fun x hx => ?_) hG1real
    exact (rd_wr_ne had (fun e => hnK (e ▸ (hG1mem x).1 hx))).symm
  · exact ⟨row, hrd, hperm.trans (List.Perm.append_left _ hK1topK.symm)⟩
  · -- the node itself
    refine ⟨?_, ?_, ?_, ?_, ?_⟩
    · show rd st2.parent node = some par
      rw [hfp node hnG]; exact rd_wr_same hpa
    · show rd st2.depth node = some d
      rw [hfd node hnG]; exact rd_wr_same hde
    · show rd st2.weight_depth node = some weight
      rw [hfw node hnG]; exact rd_wr_same hwd
    · show rd st2.subtree_size node = some ((1 + K1.size : Nat) : Int)
      rw [hG1ss, Forest.size_perm hK1trees]
      push_cast; rfl
    · show rd ad2 node = some K1.topEdges
      rw [hK1top]; exact rd_wr_same had2
  · -- Rep
    refine ⟨?_, ?_, (Forest.kidsSorted_perm hK1trees).2 hG1ks⟩
    swap
    · -- the sorted row
      have hK1rep : Rep st2 K1 node (d + 1) weight := (rep_perm _ _ _ _ hK1trees).2 hG1rep
      have hfun : (fun a b : edge => decide (ssz st2 b.node < ssz st2 a.node)) =
          (fun a b : edge => decide (-ssz st2 a.node < -ssz st2 b.node)) := by
        funext a b
        exact decide_eq_decide.2 (by constructor <;> intro h <;> linarith)
      have hpw := S.sorted (fun e : edge => -ssz st2 e.node) (erase_row row par)
      rw [← hfun, ← hK1top, Forest.topEdges_eq_map, List.pairwise_map] at hpw
      refine hpw.imp_of_mem ?_
      intro s t hs ht hst
      have e1 := ((rep_iff _ _ _ _ _).1 hK1rep s hs).1.2.2.2.2.1
      have e2 := ((rep_iff _ _ _ _ _).1 hK1rep t ht).1.2.2.2.2.1
      simp only [ssz, e1, e2, Option.getD_some, Option.bind_eq_bind, Option.some_bind,
        Option.pure_def] at hst
      push_cast at hst
      omega
    rw [rep_perm _ _ _ _ hK1trees]
    refine rep_congr G1 _ _ _ (fun x hx => ?_) hG1rep
    refine ⟨rfl, rfl, rfl, rfl, rfl, ?_⟩
    exact rd_wr_ne had2 (fun e => hnK (e ▸ (hG1mem x).1 hx))
  · -- frames
    have key : ∀ x, x ∉ node :: K.labels → x ≠ node ∧ x ∉ G.labels := by
      intro x hx
      simp only [List.mem_cons, not_or] at hx
      exact ⟨hx.1, fun h => hx.2 ((hGmem x).1 h)⟩
    refine ⟨?_, ?_, ?_, ?_, ?_, ?_⟩
    · intro x hx
      obtain ⟨h1, h2⟩ := key x hx
      show rd st2.parent x = rd st.parent x
      rw [hfp x h2]; exact rd_wr_ne hpa h1
    · intro x hx
      obtain ⟨h1, h2⟩ := key x hx
      show rd st2.depth x = rd st.depth x
      rw [hfd x h2]; exact rd_wr_ne hde h1
    · intro x hx
      obtain ⟨h1, h2⟩ := key x hx
      show rd st2.weight_depth x = rd st.weight_depth x
      rw [hfw x h2]; exact rd_wr_ne hwd h1
    · intro x hx
      obtain ⟨h1, h2⟩ := key x hx
      show rd ad2 x = rd st.adj x
      rw [rd_wr_ne had2 h1, hfa x h2]; exact rd_wr_ne had h1
    · intro x hx
      obtain ⟨h1, h2⟩ := key x hx
      show rd st2.subtree_size x = rd st.subtree_size x
      rw [hfs x (by simp only [List.mem_cons, not_or]; exact ⟨h1, h2⟩)]
      exact rd_wr_ne hss h1
    · intro x hx
      show rd st2.up_weight x = rd st.up_weight x
      rw [hfu x (fun h => hx ((hGmem x).1 h))]

theorem dfs_spec (S : StdSort) (n : Nat) : ∀ fuel, DfsSpec S n fuel := by
  intro fuel
  induction fuel with
  | zero => exact dfsSpec_zero S n
  | succ f ih => exact dfsSpec_succ S n f (loopSpec_of_dfsSpec S n f ih)

end weighted_LCA

namespace Forest

theorem trees_append (F G : Forest) : trees (append F G) = trees F ++ trees G := by
  induction F with
  | nil => rfl
  | cons v w kids rest _ ih2 => simp [append, trees, ih2]

theorem kidsSorted_append (F G : Forest) :
    KidsSorted (append F G) ↔ KidsSorted F ∧ KidsSorted G := by
  induction F with
  | nil => simp [append, KidsSorted]
  | cons v w kids rest _ ih2 => simp only [append, KidsSorted, ih2]; tauto

theorem topEdges_append (F G : Forest) : topEdges (append F G) = topEdges F ++ topEdges G := by
  induction F with
  | nil => rfl
  | cons v w kids rest _ ih2 => simp [append, topEdges, ih2]

theorem labels_append (F G : Forest) : labels (append F G) = labels F ++ labels G := by
  induction F with
  | nil => rfl
  | cons v w kids rest _ ih2 => simp [append, labels, ih2]

theorem roots_append (F G : Forest) : roots (append F G) = roots F ++ roots G := by
  induction F with
  | nil => rfl
  | cons v w kids rest _ ih2 => simp [append, roots, ih2]

theorem size_append (F G : Forest) : size (append F G) = size F + size G := by
  rw [size_eq_length_labels, labels_append, List.length_append, ← size_eq_length_labels,
    ← size_eq_length_labels]

theorem height_le_size (F : Forest) : height F ≤ size F := by
  induction F with
  | nil => simp [height, size]
  | cons v w kids rest ih1 ih2 => simp only [height, size]; omega

end Forest

theorem realizes_append (adj : List (List edge)) (F G : Forest) (par : Int) :
    Realizes adj (Forest.append F G) par ↔ Realizes adj F par ∧ Realizes adj G par := by
  induction F with
  | nil => simp [Forest.append, Realizes]
  | cons v w kids rest _ ih2 => simp only [Forest.append, Realizes, ih2]; tauto

namespace weighted_LCA

theorem rep_append (st : weighted_LCA) (F G : Forest) (par d wdp : Int) :
    Rep st (Forest.append F G) par d wdp ↔ Rep st F par d wdp ∧ Rep st G par d wdp := by
  induction F with
  | nil => simp [Forest.append, Rep]
  | cons v w kids rest _ ih2 => simp only [Forest.append, Rep, ih2]; tauto

end weighted_LCA

/-- Re-rooting: a node `v` below `r` can be made the root of the tree of `r`. -/
theorem reroot (adj : List (List edge)) : ∀ (K : Forest) (r : Int) (L : Forest) (v : Int),
    0 ≤ r → (∀ x ∈ K.labels, 0 ≤ x) →
    (∃ row, rd adj r = some row ∧ row.Perm (K.topEdges ++ L.topEdges)) →
    Realizes adj K r → Realizes adj L r → v ∈ K.labels →
    ∃ K1 : Forest, Realizes adj (Forest.cons v 0 K1 Forest.nil) (-1) ∧
      (v :: K1.labels).Perm (r :: (K.labels ++ L.labels)) := by
  intro K
  induction K with
  | nil => intro r L v _ _ _ _ _ hv; simp [Forest.labels] at hv
  | cons c w Kc R ih1 ih2 =>
    intro r L v hr hpos hrow hK hL hv
    obtain ⟨row, hrd, hperm⟩ := hrow
    simp only [Realizes, hr, if_true] at hK
    obtain ⟨⟨rowc, hrdc, hpermc⟩, hKc, hR⟩ := hK
    have hc : 0 ≤ c := hpos c (by simp [Forest.labels])
    -- `r` as a child of `c`
    have hU : Realizes adj (Forest.cons r w (Forest.append R L) Forest.nil) c := by
      simp only [Realizes, hc, if_true, and_true]
      refine ⟨⟨row, hrd, ?_⟩, (realizes_append adj R L r).2 ⟨hR, hL⟩⟩
      rw [Forest.topEdges_append]
      simpa [Forest.topEdges] using hperm
    simp only [Forest.labels, List.mem_cons, List.mem_append] at hv
    rcases hv with hv | hv | hv
    · -- v = c
      subst hv
      refine ⟨Forest.append Kc (Forest.cons r w (Forest.append R L) Forest.nil), ?_, ?_⟩
      · simp only [Realizes, and_true]
        refine ⟨⟨rowc, hrdc, ?_⟩, (realizes_append adj _ _ _).2 ⟨hKc, hU⟩⟩
        rw [Forest.topEdges_append]
        simp only [show ¬ (0 : Int) ≤ -1 by omega, if_false, List.nil_append, Forest.topEdges]
        refine hpermc.trans ?_
        simp only [List.singleton_append]
        exact (List.perm_append_singleton _ _).symm
      · rw [List.perm_iff_count]
        intro a
        simp only [Forest.labels_append, Forest.labels, List.count_cons, List.count_append,
          List.count_nil]
        omega
    · -- v below c
      obtain ⟨K1, h1, h2⟩ := ih1 c (Forest.cons r w (Forest.append R L) Forest.nil) v hc
        (fun x hx => hpos x (by simp [Forest.labels, hx]))
        ⟨rowc, hrdc, by
          refine hpermc.trans ?_
          simp only [Forest.topEdges, List.singleton_append]
          exact (List.perm_append_singleton _ _).symm⟩
        hKc hU hv
      refine ⟨K1, h1, h2.trans ?_⟩
      rw [List.perm_iff_count]
      intro a
      simp only [Forest.labels_append, Forest.labels, List.count_cons, List.count_append,
        List.count_nil]
      omega
    · -- v below a later sibling
      obtain ⟨K1, h1, h2⟩ := ih2 r (Forest.cons c w Kc L) v hr
        (fun x hx => hpos x (by simp [Forest.labels, hx]))
        ⟨row, hrd, by
          refine hperm.trans ?_
          simp only [Forest.topEdges, List.cons_append]
          exact List.perm_middle.symm⟩
        hR
        (by
          simp only [Realizes, hr, if_true]
          exact ⟨⟨rowc, hrdc, hpermc⟩, hKc, hL⟩)
        hv
      refine ⟨K1, h1, h2.trans ?_⟩
      rw [List.perm_iff_count]
      intro a
      simp only [Forest.labels, List.count_cons, List.count_append]
      omega

/-- Every node of a realised forest of whole trees can be made the root of its tree. -/
theorem reroot_top (adj : List (List edge)) : ∀ (F : Forest) (v : Int),
    (∀ x ∈ F.labels, 0 ≤ x) → Realizes adj F (-1) → v ∈ F.labels →
    ∃ (K1 T1 : Forest), Realizes adj (Forest.cons v 0 K1 Forest.nil) (-1) ∧
      Realizes adj T1 (-1) ∧ (v :: (K1.labels ++ T1.labels)).Perm F.labels := by
  intro F
  induction F with
  | nil => intro v _ _ hv; simp [Forest.labels] at hv
  | cons r w K R _ ih2 =>
    intro v hpos hF hv
    simp only [Realizes, show ¬ (0 : Int) ≤ -1 by omega, if_false, List.nil_append] at hF
    obtain ⟨⟨row, hrd, hperm⟩, hK, hR⟩ := hF
    simp only [Forest.labels, List.mem_cons, List.mem_append] at hv
    rcases hv with hv | hv | hv
    · subst hv
      refine ⟨K, R, ?_, hR, List.Perm.refl _⟩
      simp only [Realizes, show ¬ (0 : Int) ≤ -1 by omega, if_false, List.nil_append, and_true]
      exact ⟨⟨row, hrd, hperm⟩, hK⟩
    · obtain ⟨K1, h1, h2⟩ := reroot adj K r Forest.nil v (hpos r (by simp [Forest.labels]))
        (fun x hx => hpos x (by simp [Forest.labels, hx]))
        ⟨row, hrd, by simpa [Forest.topEdges] using hperm⟩ hK trivial hv
      refine ⟨K1, R, h1, hR, ?_⟩
      have h3 : (v :: K1.labels ++ R.labels).Perm ((r :: (K.labels ++ Forest.nil.labels)) ++ R.labels) :=
        h2.append_right _
      simpa [Forest.labels] using h3
    · obtain ⟨K1, T1, h1, h2, h3⟩ := ih2 v (fun x hx => hpos x (by simp [Forest.labels, hx])) hR hv
      refine ⟨K1, Forest.cons r w K T1, h1, ?_, ?_⟩
      · simp only [Realizes, show ¬ (0 : Int) ≤ -1 by omega, if_false, List.nil_append]
        exact ⟨⟨row, hrd, hperm⟩, hK, h2⟩
      · rw [List.perm_iff_count] at h3 ⊢
        intro a
        have := h3 a
        simp only [Forest.labels, List.count_cons, List.count_append] at this ⊢
        omega

namespace weighted_LCA

theorem mem_range_map (n : Nat) (x : Int) :
    x ∈ (List.range n).map Int.ofNat ↔ 0 ≤ x ∧ x < n := by
  simp only [List.mem_map, List.mem_range, Int.ofNat_eq_coe]
  constructor
  · rintro ⟨a, ha, rfl⟩; omega
  · intro h; exact ⟨x.toNat, by omega, by omega⟩

theorem nodup_range_map (n : Nat) : ((List.range n).map Int.ofNat).Nodup := by
  apply List.Nodup.map
  · intro a b h; simpa using h
  · exact List.nodup_range n

theorem rep_parent_cases (st : weighted_LCA) : ∀ (G : Forest) (par d wdp : Int),
    Rep st G par d wdp → (∀ y ∈ G.labels, 0 ≤ y) → ∀ x ∈ G.labels,
    (x ∈ G.roots ∧ rd st.parent x = some par) ∨ (∃ p, 0 ≤ p ∧ rd st.parent x = some p) := by
  intro G
  induction G with
  | nil => intro _ _ _ _ _ x hx; simp [Forest.labels] at hx
  | cons v w K R ih1 ih2 =>
    intro par d wdp hrep hpos x hx
    simp only [Rep] at hrep
    obtain ⟨hv, hK, hR⟩ := hrep
    simp only [Forest.labels, List.mem_cons, List.mem_append] at hx
    rcases hx with hx | hx | hx
    · subst hx
      exact Or.inl ⟨by simp [Forest.roots], hv.1⟩
    · rcases ih1 _ _ _ hK (fun y hy => hpos y (by simp [Forest.labels, hy])) x hx with h | h
      · exact Or.inr ⟨v, hpos v (by simp [Forest.labels]), h.2⟩
      · exact Or.inr h
    · rcases ih2 _ _ _ hR (fun y hy => hpos y (by simp [Forest.labels, hy])) x hx with h | h
      · exact Or.inl ⟨by simp [Forest.roots, h.1], h.2⟩
      · exact Or.inr h

theorem process_tree (S : StdSort) (adj0 : List (List edge)) (n : Nat) (st : weighted_LCA)
    (D T : Forest) (v : Int) (hinv : Inv1 adj0 n st D T) (hv : v ∈ T.labels) :
    ∃ (st1 : weighted_LCA) (K1 T1 : Forest), dfs S (n + 1) st v (-1) 0 = some st1 ∧
      Inv1 adj0 n st1 (Forest.append D (Forest.cons v 0 K1 Forest.nil)) T1 ∧
      (∀ x ∈ T1.labels, x ∈ T.labels ∧ x ≠ v) := by
  obtain ⟨hsz, hperm, hDreal, hTreal, hDrep, hT, hDw, hDks⟩ := hinv
  have hnd : (D.labels ++ T.labels).Nodup := hperm.nodup_iff.2 (nodup_range_map n)
  have hrange : ∀ x ∈ D.labels ++ T.labels, 0 ≤ x ∧ x < n :=
    fun x hx => (mem_range_map n x).1 (hperm.mem_iff.1 hx)
  have hlen : (D.labels ++ T.labels).length = n := by
    rw [hperm.length_eq]; simp
  obtain ⟨hDnd, hTnd, hdisj⟩ := List.nodup_append.1 hnd
  obtain ⟨K0, T1, hK0real, hT1real, hperm2⟩ := reroot_top adj0 T v
    (fun x hx => (hrange x (List.mem_append_right _ hx)).1) hTreal hv
  have hmemT : ∀ x, x ∈ v :: (K0.labels ++ T1.labels) ↔ x ∈ T.labels :=
    fun x => hperm2.mem_iff
  have hnd2 : (v :: (K0.labels ++ T1.labels)).Nodup := hperm2.nodup_iff.2 hTnd
  have hlen2 : (v :: (K0.labels ++ T1.labels)).length = T.labels.length := hperm2.length_eq
  obtain ⟨hvn, hnd3⟩ := List.nodup_cons.1 hnd2
  obtain ⟨hK0nd, hT1nd, hdisj2⟩ := List.nodup_append.1 hnd3
  simp only [List.mem_append, not_or] at hvn
  have hK0T : ∀ x ∈ K0.labels, x ∈ T.labels :=
    fun x hx => (hmemT x).1 (by simp [hx])
  have hT1T : ∀ x ∈ T1.labels, x ∈ T.labels :=
    fun x hx => (hmemT x).1 (by simp [hx])
  simp only [Realizes, show ¬ (0 : Int) ≤ -1 by omega, if_false, List.nil_append,
    and_true] at hK0real
  obtain ⟨⟨row, hrd, hrowperm⟩, hK0r⟩ := hK0real
  have hsize : K0.size + 1 ≤ n := by
    rw [Forest.size_eq_length_labels]
    simp only [List.length_cons, List.length_append] at hlen2 hlen
    omega
  obtain ⟨st1, K1, hrun, hsz1, hK1perm, hK1real, hK1row, hK1node, ⟨hK1rep, hK1ts, hK1ks⟩, hfr⟩ :=
    dfs_spec S n (n + 1) st v (-1) 0 0 0 K0 hsz
      ⟨row, by rw [(hT v hv).2.1]; exact hrd, by simpa using hrowperm⟩
      (realizes_congr K0 v (fun x hx => (hT x (hK0T x hx)).2.1) hK0r)
      (List.nodup_cons.2 ⟨hvn.1, hK0nd⟩)
      (by
        intro x hx
        apply hrange x
        apply List.mem_append_right
        simp only [List.mem_cons] at hx
        rcases hx with h | h
        · rw [h]; exact hv
        · exact hK0T x h)
      (fun h => by
        have := (hrange (-1) (List.mem_append_right _ (hK0T _ h))).1
        omega)
      (by simp)
      (by have := Forest.height_le_size K0; omega)
  obtain ⟨hfp, hfd, hfw, hfa, hfs, hfu⟩ := hfr
  obtain ⟨hn1, hn2, hn3, hn4, hn5⟩ := hK1node
  have hK1mem : ∀ x, x ∈ K1.labels ↔ x ∈ K0.labels := fun x => hK1perm.mem_iff
  have hDnot : ∀ x ∈ D.labels, x ∉ v :: K0.labels := by
    intro x hx h
    simp only [List.mem_cons] at h
    rcases h with h | h
    · exact hdisj hx (h ▸ hv)
    · exact hdisj hx (hK0T x h)
  have hT1not : ∀ x ∈ T1.labels, x ∉ v :: K0.labels := by
    intro x hx h
    simp only [List.mem_cons] at h
    rcases h with h | h
    · exact hvn.2 (h ▸ hx)
    · exact hdisj2 h hx
  have hnot2 : ∀ x, x ∉ v :: K0.labels → x ∉ K0.labels :=
    fun x hx h => hx (List.mem_cons_of_mem _ h)
  refine ⟨st1, K1, T1, hrun, ⟨hsz1, ?_, ?_, hT1real, ?_, ?_, ?_, ?_⟩, ?_⟩
  · -- labels
    refine List.Perm.trans ?_ hperm
    rw [Forest.labels_append]
    simp only [Forest.labels, List.append_nil, List.append_assoc]
    apply List.Perm.append_left
    refine List.Perm.trans ?_ hperm2
    simp only [List.cons_append]
    exact ((hK1perm.append_right _).cons v)
  · -- Realizes of the processed trees
    rw [realizes_append]
    refine ⟨hDreal, ?_⟩
    simp only [Realizes, show ¬ (0 : Int) ≤ -1 by omega, if_false, List.nil_append, and_true]
    obtain ⟨row1, hrd1, hrow1⟩ := hK1row
    refine ⟨⟨row1, by rw [← (hT v hv).2.1]; exact hrd1, by simpa using hrow1⟩, ?_⟩
    refine realizes_congr K1 v (fun x hx => ?_) hK1real
    exact ((hT x (hK0T x ((hK1mem x).1 hx))).2.1).symm
  · -- Rep
    rw [rep_append]
    constructor
    · refine rep_congr D _ _ _ (fun x hx => ?_) hDrep
      have h1 := hDnot x hx
      exact ⟨hfp x h1, hfd x h1, hfw x h1, hfu x (hnot2 x h1), hfs x h1, hfa x h1⟩
    · simp only [Rep, and_true]
      refine ⟨⟨hn1, hn2, by simpa using hn3, ?_, hn4, hn5⟩, by simpa using hK1rep⟩
      rw [hfu v hvn.1]
      exact (hT v hv).2.2
  · -- the untouched trees
    intro x hx
    have h1 := hT1not x hx
    obtain ⟨a1, a2, a3⟩ := hT x (hT1T x hx)
    refine ⟨by rw [hfp x h1]; exact a1, by rw [hfa x h1]; exact a2,
      by rw [hfu x (hnot2 x h1)]; exact a3⟩
  · -- the weights above the roots
    intro e he
    rw [Forest.topEdges_append] at he
    simp only [Forest.topEdges, List.mem_append, List.mem_singleton] at he
    rcases he with h | h
    · exact hDw e h
    · rw [h]
  · -- the order of the children
    rw [Forest.kidsSorted_append]
    exact ⟨hDks, hK1ts, hK1ks, trivial⟩
  · intro x hx
    exact ⟨hT1T x hx, fun e => hvn.2 (e ▸ hx)⟩

theorem build_dfs_loop_spec (S : StdSort) (adj0 : List (List edge)) (n : Nat) (root : Int) :
    ∀ (cnt : Nat) (i : Int) (st : weighted_LCA) (D T : Forest),
    Inv1 adj0 n st D T → (∀ x ∈ T.labels, i ≤ x) → (∀ x ∈ D.roots, x < i ∨ x = root) →
    (0 ≤ root → root < n → root ∈ D.labels) → 0 ≤ i → i + cnt = n →
    ∃ (st1 : weighted_LCA) (D1 : Forest),
      build_dfs_loop S (n + 1) root cnt i st = some st1 ∧ Inv1 adj0 n st1 D1 Forest.nil := by
  intro cnt
  induction cnt with
  | zero =>
    intro i st D T hinv hTi _ _ _ hin
    have hTnil : T.labels = [] := by
      rw [List.eq_nil_iff_forall_not_mem]
      intro x hx
      have h1 := hTi x hx
      have h2 := (mem_range_map n x).1 (hinv.2.1.mem_iff.1 (List.mem_append_right _ hx))
      simp at hin
      omega
    have hT : T = Forest.nil := by
      cases T with
      | nil => rfl
      | cons _ _ _ _ => simp [Forest.labels] at hTnil
    subst hT
    exact ⟨st, D, rfl, hinv⟩
  | succ c ih =>
    intro i st D T hinv hTi hDr hroot hi hin
    have hinv0 := hinv
    obtain ⟨hsz, hperm, hDreal, hTreal, hDrep, hT, hDw, _⟩ := hinv
    have hnd : (D.labels ++ T.labels).Nodup := hperm.nodup_iff.2 (nodup_range_map n)
    obtain ⟨hDnd, hTnd, hdisj⟩ := List.nodup_append.1 hnd
    have hilt : i < n := by push_cast at hin; omega
    have himem : i ∈ D.labels ++ T.labels := hperm.mem_iff.2 ((mem_range_map n i).2 ⟨hi, hilt⟩)
    have hDpos : ∀ y ∈ D.labels, 0 ≤ y := fun y hy =>
      ((mem_range_map n y).1 (hperm.mem_iff.1 (List.mem_append_left _ hy))).1
    have hskip : ∀ (T2 : Forest), i ∉ T.labels → T2 = T →
        ∃ (st1 : weighted_LCA) (D1 : Forest),
          build_dfs_loop S (n + 1) root c (i + 1) st = some st1 ∧
          Inv1 adj0 n st1 D1 Forest.nil := by
      intro T2 hiT _
      refine ih (i + 1) st D T hinv0 ?_ ?_ hroot (by omega) (by push_cast at hin ⊢; omega)
      · intro x hx
        have := hTi x hx
        have : x ≠ i := fun e => hiT (e ▸ hx)
        omega
      · intro x hx
        rcases hDr x hx with h | h
        · exact Or.inl (by omega)
        · exact Or.inr h
    unfold build_dfs_loop
    by_cases hir : i = root
    · -- the root given to `build` is skipped
      simp only [hir, ne_eq, not_true_eq_false, if_false, Option.bind_eq_bind, Option.some_bind]
      have hrD : root ∈ D.labels := hroot (by omega) (by omega)
      have := hskip T (fun h => hdisj hrD (hir ▸ h)) rfl
      rw [hir] at this
      exact this
    · simp only [ne_eq, hir, not_false_eq_true, if_true, Option.bind_eq_bind]
      obtain ⟨p, hp⟩ := rd_of_bounds st.parent i hi (by rw [hsz.2.2.1]; exact hilt)
      simp only [hp, Option.some_bind]
      by_cases hpneg : p < 0
      · simp only [hpneg, if_true]
        -- `i` is a node of an untouched tree
        have hiT : i ∈ T.labels := by
          rcases List.mem_append.1 himem with h | h
          · exfalso
            rcases rep_parent_cases st D _ _ _ hDrep hDpos i h with h1 | ⟨q, hq0, hq⟩
            · rcases hDr i h1.1 with h2 | h2
              · omega
              · exact hir h2
            · rw [hp] at hq
              injection hq with e
              omega
          · exact h
        obtain ⟨st1, K1, T1, hrun, hinv1, hT1⟩ := process_tree S adj0 n st D T i hinv0 hiT
        simp only [hrun, Option.some_bind]
        refine ih (i + 1) st1 _ T1 hinv1 ?_ ?_ ?_ (by omega) (by push_cast at hin ⊢; omega)
        · intro x hx
          have := hTi x (hT1 x hx).1
          have := (hT1 x hx).2
          omega
        · intro x hx
          rw [Forest.roots_append] at hx
          simp only [Forest.roots, List.mem_append, List.mem_singleton] at hx
          rcases hx with h | h
          · rcases hDr x h with h2 | h2
            · exact Or.inl (by omega)
            · exact Or.inr h2
          · exact Or.inl (by omega)
        · intro h1 h2
          rw [Forest.labels_append]
          exact List.mem_append_left _ (hroot h1 h2)
      · simp only [hpneg, if_false, Option.some_bind]
        refine hskip T (fun h => ?_) rfl
        have := (hT i h).1
        rw [hp] at this
        injection this with e
        omega

theorem SameRooting.same_rooting (st : weighted_LCA) : SameRooting st st :=
  ⟨rfl, rfl, rfl, rfl, rfl, rfl⟩

theorem SameRooting.compose_rooting {a b c : weighted_LCA} (h1 : SameRooting a b)
    (h2 : SameRooting b c) : SameRooting a c := by
  unfold SameRooting at h1 h2 ⊢
  refine ⟨?_, ?_, ?_, ?_, ?_, ?_⟩
  · rw [h2.1, h1.1]
  · rw [h2.2.1, h1.2.1]
  · rw [h2.2.2.1, h1.2.2.1]
  · rw [h2.2.2.2.1, h1.2.2.2.1]
  · rw [h2.2.2.2.2.1, h1.2.2.2.2.1]
  · rw [h2.2.2.2.2.2, h1.2.2.2.2.2]

theorem rep_sameRooting {st st1 : weighted_LCA} (h : SameRooting st st1) (G : Forest)
    (par d wdp : Int) (hG : Rep st G par d wdp) : Rep st1 G par d wdp := by
  obtain ⟨a1, a2, a3, a4, a5, a6⟩ := h
  refine rep_congr G par d wdp (fun x _ => ?_) hG
  exact ⟨by rw [a2], by rw [a3], by rw [a5], by rw [a6], by rw [a4], by rw [a1]⟩

theorem tour_congr {st st1 : weighted_LCA} : ∀ (G : Forest) (par : Int) (hv : Bool)
    (e0 p0 : Int),
    (∀ x ∈ G.labels, rd st1.first_occurrence x = rd st.first_occurrence x ∧
      rd st1.tour_start x = rd st.tour_start x ∧ rd st1.tour_end x = rd st.tour_end x ∧
      rd st1.heavy_root x = rd st.heavy_root x) →
    (hv = true → rd st1.heavy_root par = rd st.heavy_root par) →
    (∀ j : Int, e0 ≤ j → j < e0 + 2 * G.size → rd st1.euler j = rd st.euler j) →
    (∀ j : Int, p0 ≤ j → j < p0 + G.size → rd st1.tour_list j = rd st.tour_list j) →
    Tour st G par hv e0 p0 → Tour st1 G par hv e0 p0 := by
  intro G
  induction G with
  | nil => intro _ _ _ _ _ _ _ _ _; trivial
  | cons v w K R ih1 ih2 =>
    intro par hv e0 p0 hlab hpar heul htl hT
    simp only [Tour] at hT ⊢
    simp only [Forest.labels, List.mem_cons, List.mem_append] at hlab
    simp only [Forest.size] at heul htl
    obtain ⟨⟨t1, t2, t3, t4, t5, t6, t7⟩, hK, hR⟩ := hT
    obtain ⟨l1, l2, l3, l4⟩ := hlab v (Or.inl rfl)
    refine ⟨⟨by rw [l1]; exact t1, ?_, ?_, by rw [l2]; exact t4, ?_, by rw [l3]; exact t6,
      ?_⟩, ?_, ?_⟩
    · rw [heul e0 (le_refl _) (by push_cast; omega)]; exact t2
    · rw [heul _ (by omega) (by push_cast; omega)]; exact t3
    · rw [htl p0 (le_refl _) (by push_cast; omega)]; exact t5
    · rw [l4, t7]
      cases hv with
      | false => simp
      | true => simp [hpar rfl]
    · exact ih1 v true (e0 + 1) (p0 + 1) (fun x hx => hlab x (Or.inr (Or.inl hx)))
        (fun _ => l4)
        (fun j h1 h2 => heul j (by omega) (by push_cast; omega))
        (fun j h1 h2 => htl j (by omega) (by push_cast; omega)) hK
    · exact ih2 par false _ _ (fun x hx => hlab x (Or.inr (Or.inr hx)))
        (fun h => by simp at h)
        (fun j h1 h2 => heul j (by omega) (by push_cast; omega))
        (fun j h1 h2 => htl j (by omega) (by push_cast; omega)) hR

theorem tourSpec_zero (n : Nat) : TourSpec n 0 := by
  intro st node par d wdp heavy K _ _ _ _ _ _ _ _ _ h
  omega

theorem sized_euler {st : weighted_LCA} {n : Nat} (h : Sized st n) (e : List Int) :
    Sized { st with euler := e } n := h

/-- One iteration of a tour loop followed by the rest of the loop: the layouts of the
first tree and of the remaining trees combine to the layout of the whole forest. -/
theorem tour_combine (st st1 st2 : weighted_LCA) (node : Int) (hv : Bool) (v w : Int)
    (K R : Forest)
    (hnv : ¬ node = v) (hnK : node ∉ K.labels) (hnR : node ∉ R.labels)
    (hvK : v ∉ K.labels) (hvR : v ∉ R.labels)
    (hdisj : ∀ ⦃a : Int⦄, a ∈ K.labels → a ∈ R.labels → False)
    (hlen1 : (st1.euler.length : Int) = st.euler.length + 1 + 2 * K.size)
    (htour1 : st1.tour = st.tour + 1 + K.size)
    (hnode : rd st1.first_occurrence v = some (st.euler.length : Int) ∧
        rd st1.euler st.euler.length = some v ∧
        rd st1.tour_start v = some st.tour ∧ rd st1.tour_list st.tour = some v ∧
        rd st1.tour_end v = some (st.tour + 1 + K.size) ∧
        rd st1.heavy_root v = (if hv then rd st.heavy_root node else some v))
    (hKtour : Tour st1 K v true (st.euler.length + 1) (st.tour + 1))
    (hfr1 : TourFrame st st1 (v :: K.labels) st.tour (1 + K.size))
    (hlen2 : (st2.euler.length : Int) = ((st1.euler ++ [node]).length : Int) + 2 * R.size)
    (htour2 : st2.tour = st1.tour + R.size)
    (hRtour : Tour st2 R node false ((st1.euler ++ [node]).length : Int) st1.tour)
    (hsame2 : SameRooting st1 st2)
    (heul2 : ∀ j : Int, j < ((st1.euler ++ [node]).length : Int) →
      rd st2.euler j = rd (st1.euler ++ [node]) j)
    (htl2 : ∀ j : Int, (j < st1.tour ∨ st1.tour + R.size ≤ j) →
      rd st2.tour_list j = rd st1.tour_list j)
    (hffo2 : Fr weighted_LCA.first_occurrence st1 st2 R.labels)
    (hfts2 : Fr weighted_LCA.tour_start st1 st2 R.labels)
    (hfte2 : Fr weighted_LCA.tour_end st1 st2 R.labels)
    (hfhr2 : Fr weighted_LCA.heavy_root st1 st2 R.labels) :
    (st2.euler.length : Int) = st.euler.length + 2 * (Forest.cons v w K R).size ∧
    st2.tour = st.tour + (Forest.cons v w K R).size ∧
    Tour st2 (Forest.cons v w K R) node hv st.euler.length st.tour ∧
    TourFrame st st2 (Forest.cons v w K R).labels st.tour (Forest.cons v w K R).size := by
  obtain ⟨f1, f2, f3, f4, f5, f6⟩ := hnode
  obtain ⟨hsame1, heul1, htl1, hffo1, hfts1, hfte1, hfhr1⟩ := hfr1
  simp only [List.length_append, List.length_singleton] at hlen2 heul2 hRtour
  push_cast at hlen2 heul2 hRtour
  have hnodeNot1 : node ∉ v :: K.labels := by
    simp only [List.mem_cons, not_or]; exact ⟨hnv, hnK⟩
  have heulA : ∀ j : Int, j < (st1.euler.length : Int) →
      rd st2.euler j = rd st1.euler j := by
    intro j hj
    rw [heul2 j (by linarith), rd_append_left _ _ _ hj]
  have hKs : (0 : Int) ≤ K.size := Int.natCast_nonneg _
  have hRs : (0 : Int) ≤ R.size := Int.natCast_nonneg _
  refine ⟨?_, ?_, ?_, ?_⟩
  · simp only [Forest.size]; push_cast; linarith
  · rw [htour2]; simp only [Forest.size]; rw [htour1]; push_cast; ring
  · -- Tour
    simp only [Tour]
    refine ⟨⟨?_, ?_, ?_, ?_, ?_, ?_, ?_⟩, ?_, ?_⟩
    · rw [hffo2 v hvR]; exact f1
    · rw [heulA _ (by linarith)]; exact f2
    · rw [heul2 _ (by linarith)]
      have e : (st.euler.length : Int) + 1 + 2 * K.size = (st1.euler.length : Int) := by
        linarith
      rw [e, rd_append_one]; simp
    · rw [hfts2 v hvR]; exact f3
    · rw [htl2 _ (Or.inl (by rw [htour1]; linarith))]; exact f4
    · rw [hfte2 v hvR]; exact f5
    · rw [hfhr2 v hvR, f6]
      cases hv with
      | false => simp
      | true =>
        simp only [if_true]
        rw [hfhr2 node hnR, hfhr1 node hnodeNot1]
    · refine @tour_congr st1 st2 K v true _ _ (fun x hx => ?_) (fun _ => hfhr2 v hvR)
        (fun j h1 h2 => heulA j (by linarith))
        (fun j h1 h2 => htl2 j (Or.inl (by rw [htour1]; linarith))) hKtour
      have hxR : x ∉ R.labels := fun h => hdisj hx h
      exact ⟨hffo2 x hxR, hfts2 x hxR, hfte2 x hxR, hfhr2 x hxR⟩
    · have e1 : (st.euler.length : Int) + 2 + 2 * K.size = (st1.euler.length : Int) + 1 := by
        linarith
      have e2 : st.tour + 1 + (K.size : Int) = st1.tour := htour1.symm
      rw [e1, e2]
      exact hRtour
  · -- frame
    have sub1 : ∀ x, x ∈ v :: K.labels → x ∈ (Forest.cons v w K R).labels := by
      intro x hx
      simp only [List.mem_cons] at hx
      simp only [Forest.labels, List.mem_cons, List.mem_append]; tauto
    have sub2 : ∀ x, x ∈ R.labels → x ∈ (Forest.cons v w K R).labels := by
      intro x hx
      simp only [Forest.labels, List.mem_cons, List.mem_append]; tauto
    refine ⟨SameRooting.compose_rooting hsame1 hsame2, ?_, ?_, Fr.compose hffo1 hffo2 sub1 sub2,
      Fr.compose hfts1 hfts2 sub1 sub2, Fr.compose hfte1 hfte2 sub1 sub2,
      Fr.compose hfhr1 hfhr2 sub1 sub2⟩
    · intro j hj
      rw [heulA j (by linarith)]
      exact heul1 j hj
    · intro j hj
      simp only [Forest.size] at hj
      push_cast at hj
      rw [htl2 j (by rw [htour1]; omega)]
      exact htl1 j (by push_cast; omega)

theorem tourLoopSpec_of_tourSpec (n fuel : Nat) (hspec : TourSpec n fuel) :
    TourLoopSpec n fuel := by
  intro G
  induction G with
  | nil =>
    intro st node d wdp hv hsz _ _ _ _ _ _ _ _
    refine ⟨st, rfl, hsz, by simp [Forest.size], by simp [Forest.size], trivial,
      SameRooting.same_rooting st, fun _ _ => rfl, fun _ _ => rfl, Fr.same _ _ _, Fr.same _ _ _,
      Fr.same _ _ _, Fr.same _ _ _⟩
  | cons v w K R _ ih =>
    intro st node d wdp hv hsz hrep hnode0 hnoden hnd hrange htour0 htourn hh
    simp only [Rep] at hrep
    obtain ⟨⟨r1, r2, r3, r4, r5, r6⟩, hKrep, hRrep⟩ := hrep
    simp only [Forest.labels, List.nodup_cons, List.mem_cons, List.mem_append, not_or,
      List.nodup_append] at hnd
    obtain ⟨⟨hnv, hnK, hnR⟩, ⟨hvK, hvR⟩, hKnd, hRnd, hdisj⟩ := hnd
    simp only [Forest.height] at hh
    simp only [Forest.size] at htourn
    push_cast at htourn
    have hvr : 0 ≤ v ∧ v < n := hrange v (by simp [Forest.labels])
    have hKs : (0 : Int) ≤ K.size := Int.natCast_nonneg _
    have hRs : (0 : Int) ≤ R.size := Int.natCast_nonneg _
    obtain ⟨st1, hrun, hsz1, hlen1, htour1, hnode, hKtour, hfr1⟩ :=
      hspec st v node (d + 1) (wdp + w) hv K hsz r6 r1 (fun _ => ⟨hnode0, hnoden⟩) hKrep
        (by simp [hvK, hKnd])
        (by
          intro x hx
          simp only [List.mem_cons] at hx
          rcases hx with h | h
          · rw [h]; exact hvr
          · exact hrange x (by simp [Forest.labels, h]))
        htour0 (by linarith) (by omega)
    -- the rest of the loop
    have hsameB : SameRooting st { st1 with euler := st1.euler ++ [node] } :=
      SameRooting.compose_rooting hfr1.1 ⟨rfl, rfl, rfl, rfl, rfl, rfl⟩
    obtain ⟨st2, hloop, hsz2, hlen2, htour2, hRtour, hfr2⟩ :=
      ih { st1 with euler := st1.euler ++ [node] } node d wdp false (sized_euler hsz1 _)
        (rep_sameRooting hsameB R _ _ _ hRrep) hnode0 hnoden
        (by simp [hnR, hRnd])
        (fun x hx => hrange x (by simp [Forest.labels, hx]))
        (by show 0 ≤ st1.tour; linarith)
        (by show st1.tour + R.size ≤ n; linarith)
        (by omega)
    obtain ⟨hsame2, heul2, htl2, hffo2, hfts2, hfte2, hfhr2⟩ := hfr2
    obtain ⟨c1, c2, c3, c4⟩ := tour_combine st st1 st2 node hv v w K R hnv hnK hnR hvK hvR
      hdisj hlen1 htour1 hnode hKtour hfr1 hlen2 htour2 hRtour hsame2 heul2 htl2 hffo2 hfts2
      hfte2 hfhr2
    refine ⟨st2, ?_, hsz2, c1, c2, c3, c4⟩
    simp only [Forest.topEdges, tour_children, hrun, Option.bind_eq_bind, Option.some_bind]
    exact hloop

theorem Sized.fo {st : weighted_LCA} {n : Nat} (h : Sized st n) :
    st.first_occurrence.length = n := h.2.2.2.2.2.2.2.1

theorem Sized.ts {st : weighted_LCA} {n : Nat} (h : Sized st n) :
    st.tour_start.length = n := h.2.2.2.2.2.2.2.2.1

theorem Sized.te {st : weighted_LCA} {n : Nat} (h : Sized st n) :
    st.tour_end.length = n := h.2.2.2.2.2.2.2.2.2.1

theorem Sized.po {st : weighted_LCA} {n : Nat} (h : Sized st n) :
    st.postorder.length = n := h.2.2.2.2.2.2.2.2.2.2.1

theorem Sized.tl {st : weighted_LCA} {n : Nat} (h : Sized st n) :
    st.tour_list.length = n := h.2.2.2.2.2.2.2.2.2.2.2.1

theorem Sized.hr {st : weighted_LCA} {n : Nat} (h : Sized st n) :
    st.heavy_root.length = n := h.2.2.2.2.2.2.2.2.2.2.2.2

theorem tourSpec_succ (n fuel : Nat) (hloop : TourLoopSpec n fuel) : TourSpec n (fuel + 1) := by
  intro st node par d wdp heavy K hsz hadj hparent hheavy hrep hnd hrange htour0 htourn hh
  have hs8 := hsz.fo
  have hs9 := hsz.ts
  have hs12 := hsz.tl
  have hs13 := hsz.hr
  have hnr : 0 ≤ node ∧ node < n := hrange node (List.mem_cons_self _ _)
  have hnK : node ∉ K.labels := (List.nodup_cons.1 hnd).1
  -- the value written to heavy_root
  obtain ⟨hr, hhr, hhrval⟩ : ∃ hr, (if heavy then
      (do let p ← rd st.parent node; rd st.heavy_root p) else some node) = some hr ∧
      some hr = (if heavy then rd st.heavy_root par else some node) := by
    cases heavy with
    | false => exact ⟨node, by simp, by simp⟩
    | true =>
      obtain ⟨h0, h1⟩ := hheavy rfl
      obtain ⟨x, hx⟩ := rd_of_bounds st.heavy_root par h0 (by rw [hs13]; exact h1)
      exact ⟨x, by simp [hparent, hx], by simp [hx]⟩
  obtain ⟨hrv, hhrw⟩ : ∃ v, wr st.heavy_root node hr = some v :=
    ⟨_, wr_of_bounds _ _ _ hnr.1 (by rw [hs13]; exact hnr.2)⟩
  obtain ⟨fo, hfo⟩ : ∃ v, wr st.first_occurrence node (st.euler.length : Int) = some v :=
    ⟨_, wr_of_bounds _ _ _ hnr.1 (by rw [hs8]; exact hnr.2)⟩
  obtain ⟨tl, htl⟩ : ∃ v, wr st.tour_list st.tour node = some v :=
    ⟨_, wr_of_bounds _ _ _ htour0 (by rw [hs12]; linarith [Int.natCast_nonneg K.size])⟩
  obtain ⟨ts, hts⟩ : ∃ v, wr st.tour_start node st.tour = some v :=
    ⟨_, wr_of_bounds _ _ _ hnr.1 (by rw [hs9]; exact hnr.2)⟩
  obtain ⟨stA, hA⟩ : ∃ s : weighted_LCA, s =
      { n := st.n, adj := st.adj, parent := st.parent,
        depth := st.depth, subtree_size := st.subtree_size, weight_depth := st.weight_depth,
        up_weight := st.up_weight, euler := st.euler ++ [node], first_occurrence := fo,
        tour_start := ts, tour_end := st.tour_end, postorder := st.postorder, tour_list := tl,
        rev_tour_list := st.rev_tour_list, heavy_root := hrv, rmq := st.rmq, built := st.built,
        tour := st.tour + 1, post_tour := st.post_tour } := ⟨_, rfl⟩
  have hAeuler : stA.euler = st.euler ++ [node] := by rw [hA]
  have hAtour : stA.tour = st.tour + 1 := by rw [hA]
  have hAfo : stA.first_occurrence = fo := by rw [hA]
  have hAts : stA.tour_start = ts := by rw [hA]
  have hAtl : stA.tour_list = tl := by rw [hA]
  have hAhr : stA.heavy_root = hrv := by rw [hA]
  have hszA : Sized stA n := by
    rw [hA]
    obtain ⟨g1, g2, g3, g4, g5, g6, g7, g8, g9, g10, g11, g12, g13⟩ := hsz
    exact ⟨g1, g2, g3, g4, g5, g6, g7, by rw [← g8]; exact wr_length hfo,
      by rw [← g9]; exact wr_length hts, g10, g11, by rw [← g12]; exact wr_length htl,
      by rw [← g13]; exact wr_length hhrw⟩
  clear hs8 hs9 hs12 hs13
  have hsameA : SameRooting st stA := by rw [hA]; exact ⟨rfl, rfl, rfl, rfl, rfl, rfl⟩
  obtain ⟨st2, hrun, hsz2, hlen2, htour2, hKtour, hfr2⟩ :=
    hloop K stA node d wdp true hszA (rep_sameRooting hsameA K _ _ _ hrep) hnr.1 hnr.2 hnd
      (fun x hx => hrange x (List.mem_cons_of_mem _ hx))
      (by rw [hAtour]; omega) (by rw [hAtour]; omega) (by omega)
  obtain ⟨hsame2, heul2, htl2, hffo2, hfts2, hfte2, hfhr2⟩ := hfr2
  have hlenA : (stA.euler.length : Int) = st.euler.length + 1 := by
    rw [hAeuler]; simp
  have htourA : stA.tour = st.tour + 1 := hAtour
  rw [hlenA] at hlen2 heul2
  rw [htourA] at htour2 htl2 hKtour
  rw [hlenA] at hKtour
  obtain ⟨te, hte⟩ : ∃ v, wr st2.tour_end node st2.tour = some v :=
    ⟨_, wr_of_bounds _ _ _ hnr.1 (by rw [hsz2.te]; exact hnr.2)⟩
  obtain ⟨po, hpo⟩ : ∃ v, wr st2.postorder node st2.post_tour = some v :=
    ⟨_, wr_of_bounds _ _ _ hnr.1 (by rw [hsz2.po]; exact hnr.2)⟩
  obtain ⟨stF, hF⟩ : ∃ s : weighted_LCA, s =
      { n := st2.n, adj := st2.adj,
        parent := st2.parent, depth := st2.depth, subtree_size := st2.subtree_size,
        weight_depth := st2.weight_depth, up_weight := st2.up_weight, euler := st2.euler,
        first_occurrence := st2.first_occurrence, tour_start := st2.tour_start, tour_end := te,
        postorder := po, tour_list := st2.tour_list, rev_tour_list := st2.rev_tour_list,
        heavy_root := st2.heavy_root, rmq := st2.rmq, built := st2.built, tour := st2.tour,
        post_tour := st2.post_tour + 1 } := ⟨_, rfl⟩
  have hFeuler : stF.euler = st2.euler := by rw [hF]
  have hFtour : stF.tour = st2.tour := by rw [hF]
  have hFfo : stF.first_occurrence = st2.first_occurrence := by rw [hF]
  have hFts : stF.tour_start = st2.tour_start := by rw [hF]
  have hFtl : stF.tour_list = st2.tour_list := by rw [hF]
  have hFhr : stF.heavy_root = st2.heavy_root := by rw [hF]
  have hFte : stF.tour_end = te := by rw [hF]
  have hsameF : SameRooting st2 stF := by rw [hF]; exact ⟨rfl, rfl, rfl, rfl, rfl, rfl⟩
  have hszF : Sized stF n := by
    rw [hF]
    obtain ⟨g1, g2, g3, g4, g5, g6, g7, g8, g9, g10, g11, g12, g13⟩ := hsz2
    exact ⟨g1, g2, g3, g4, g5, g6, g7, g8, g9, by rw [← g10]; exact wr_length hte,
      by rw [← g11]; exact wr_length hpo, g12, g13⟩
  have hadjA : rd stA.adj node = some K.topEdges := by rw [hsameA.1]; exact hadj
  rw [← hAfo] at hfo
  rw [← hAts] at hts
  rw [← hAtl] at htl
  rw [← hAhr] at hhrw
  refine ⟨stF, ?_, hszF, ?_, ?_, ⟨?_, ?_, ?_, ?_, ?_, ?_⟩, ?_, ?_⟩
  · -- the computation
    subst hF
    subst hA
    cases heavy with
    | false =>
      simp only [Bool.false_eq_true, if_false, Option.some.injEq] at hhr
      subst hhr
      simp only [tour_dfs, Bool.false_eq_true, if_false, hhrw, hfo, htl, hts, hadjA, hrun,
        hte, hpo, Option.bind_eq_bind, Option.some_bind, Option.pure_def]
    | true =>
      simp only [if_true, Option.bind_eq_bind] at hhr
      simp only [tour_dfs, if_true, hhr, hhrw, hfo, htl, hts, hadjA, hrun,
        hte, hpo, Option.bind_eq_bind, Option.some_bind, Option.pure_def]
  · rw [hFeuler, hlen2]
  · rw [hFtour, htour2]
  · rw [hFfo, hffo2 node hnK]; exact rd_wr_same hfo
  · rw [hFeuler, heul2 _ (by omega), hAeuler, rd_append_one]; simp
  · rw [hFts, hfts2 node hnK]; exact rd_wr_same hts
  · rw [hFtl, htl2 _ (Or.inl (by omega))]; exact rd_wr_same htl
  · rw [hFte, rd_wr_same hte, htour2]
  · rw [hFhr, hfhr2 node hnK, ← hhrval]; exact rd_wr_same hhrw
  · -- Tour of the children
    refine @tour_congr st2 stF K node true _ _ (fun x hx => ⟨by rw [hFfo], by rw [hFts], ?_,
      by rw [hFhr]⟩) (fun _ => by rw [hFhr]) (fun _ _ _ => by rw [hFeuler])
      (fun _ _ _ => by rw [hFtl]) hKtour
    rw [hFte]
    exact rd_wr_ne hte (fun e => hnK (e ▸ hx))
  · -- frame
    refine ⟨SameRooting.compose_rooting hsameA (SameRooting.compose_rooting hsame2 hsameF), ?_, ?_, ?_, ?_, ?_, ?_⟩
    · intro j hj
      rw [hFeuler, heul2 j (by omega), hAeuler]
      exact rd_append_left _ _ _ hj
    · intro j hj
      rw [hFtl, htl2 j (by push_cast at hj; omega)]
      exact rd_wr_ne htl (by push_cast at hj; omega)
    · intro x hx
      simp only [List.mem_cons, not_or] at hx
      show rd stF.first_occurrence x = _
      rw [hFfo, hffo2 x hx.2]; exact rd_wr_ne hfo hx.1
    · intro x hx
      simp only [List.mem_cons, not_or] at hx
      show rd stF.tour_start x = _
      rw [hFts, hfts2 x hx.2]; exact rd_wr_ne hts hx.1
    · intro x hx
      simp only [List.mem_cons, not_or] at hx
      show rd stF.tour_end x = _
      rw [hFte, rd_wr_ne hte hx.1, hfte2 x hx.2, hA]
    · intro x hx
      simp only [List.mem_cons, not_or] at hx
      show rd stF.heavy_root x = _
      rw [hFhr, hfhr2 x hx.2]; exact rd_wr_ne hhrw hx.1

theorem tour_spec (n : Nat) : ∀ fuel, TourSpec n fuel := by
  intro fuel
  induction fuel with
  | zero => exact tourSpec_zero n
  | succ f ih => exact tourSpec_succ n f (tourLoopSpec_of_tourSpec n f ih)

theorem lay_of_rep_tour (st : weighted_LCA) : ∀ (G : Forest) (par d wdp : Int) (hv : Bool)
    (e0 p0 : Int), Rep st G par d wdp → Tour st G par hv e0 p0 →
    Lay st G par d wdp hv e0 p0 := by
  intro G
  induction G with
  | nil => intro _ _ _ _ _ _ _ _; trivial
  | cons v w K R ih1 ih2 =>
    intro par d wdp hv e0 p0 hR hT
    simp only [Rep] at hR
    simp only [Tour] at hT
    simp only [Lay]
    exact ⟨hR.1, hT.1, ih1 _ _ _ _ _ _ hR.2.1 hT.2.1, ih2 _ _ _ _ _ _ hR.2.2 hT.2.2⟩

theorem lay_rep (st : weighted_LCA) : ∀ (G : Forest) (par d wdp : Int) (hv : Bool)
    (e0 p0 : Int), Lay st G par d wdp hv e0 p0 → Rep st G par d wdp := by
  intro G
  induction G with
  | nil => intro _ _ _ _ _ _ _; trivial
  | cons v w K R ih1 ih2 =>
    intro par d wdp hv e0 p0 hL
    simp only [Lay] at hL
    simp only [Rep]
    exact ⟨hL.1, ih1 _ _ _ _ _ _ hL.2.2.1, ih2 _ _ _ _ _ _ hL.2.2.2⟩

theorem lay_tour (st : weighted_LCA) : ∀ (G : Forest) (par d wdp : Int) (hv : Bool)
    (e0 p0 : Int), Lay st G par d wdp hv e0 p0 → Tour st G par hv e0 p0 := by
  intro G
  induction G with
  | nil => intro _ _ _ _ _ _ _; trivial
  | cons v w K R ih1 ih2 =>
    intro par d wdp hv e0 p0 hL
    simp only [Lay] at hL
    simp only [Tour]
    exact ⟨hL.2.1, ih1 _ _ _ _ _ _ hL.2.2.1, ih2 _ _ _ _ _ _ hL.2.2.2⟩

theorem rep_root_parent (st : weighted_LCA) : ∀ (G : Forest) (par d wdp : Int),
    Rep st G par d wdp → ∀ x ∈ G.roots, rd st.parent x = some par := by
  intro G
  induction G with
  | nil => intro _ _ _ _ x hx; simp [Forest.roots] at hx
  | cons v w K R _ ih2 =>
    intro par d wdp hR x hx
    simp only [Rep] at hR
    simp only [Forest.roots, List.mem_cons] at hx
    rcases hx with h | h
    · rw [h]; exact hR.1.1
    · exact ih2 _ _ _ hR.2.2 x h

theorem build_tour_loop_spec (n : Nat) : ∀ (cnt : Nat) (i : Int) (st : weighted_LCA)
    (R : Forest), Sized st n → Rep st R (-1) 0 0 → R.labels.Nodup →
    (∀ x ∈ R.labels, 0 ≤ x ∧ x < n) → R.roots.Pairwise (· < ·) → (∀ r ∈ R.roots, i ≤ r) →
    (∀ x p, i ≤ x → x < n → rd st.parent x = some p → p < 0 → x ∈ R.roots) →
    0 ≤ st.tour → st.tour + R.size ≤ n → 0 ≤ i → i + cnt = n →
    ∃ st1 : weighted_LCA, build_tour_loop (n + 1) cnt i st = some st1 ∧ Sized st1 n ∧
      (st1.euler.length : Int) = st.euler.length + 2 * R.size ∧
      st1.tour = st.tour + R.size ∧
      Tour st1 R (-1) false st.euler.length st.tour ∧
      TourFrame st st1 R.labels st.tour R.size := by
  intro cnt
  induction cnt with
  | zero =>
    intro i st R hsz hrep hnd hrange hsorted hroots hpar htour0 htourn hi hin
    have hR : R = Forest.nil := by
      cases R with
      | nil => rfl
      | cons r w K R1 =>
        exfalso
        have h1 := hroots r (by simp [Forest.roots])
        have h2 := (hrange r (by simp [Forest.labels])).2
        simp at hin
        omega
    subst hR
    exact ⟨st, rfl, hsz, by simp [Forest.size], by simp [Forest.size], trivial,
      SameRooting.same_rooting st, fun _ _ => rfl, fun _ _ => rfl, Fr.same _ _ _, Fr.same _ _ _,
      Fr.same _ _ _, Fr.same _ _ _⟩
  | succ c ih =>
    intro i st R hsz hrep hnd hrange hsorted hroots hpar htour0 htourn hi hin
    have hilt : i < n := by push_cast at hin; omega
    obtain ⟨p, hp⟩ := rd_of_bounds st.parent i hi (by rw [hsz.2.2.1]; exact hilt)
    unfold build_tour_loop
    simp only [hp, Option.bind_eq_bind, Option.some_bind]
    by_cases hpneg : p < 0
    · simp only [hpneg, if_true]
      have hiR : i ∈ R.roots := hpar i p (le_refl _) hilt hp hpneg
      cases R with
      | nil => simp [Forest.roots] at hiR
      | cons r w K R1 =>
        simp only [Forest.roots, List.pairwise_cons] at hsorted
        have hir : i = r := by
          simp only [Forest.roots, List.mem_cons] at hiR
          rcases hiR with h | h
          · exact h
          · have h1 := hsorted.1 i h
            have h2 := hroots r (by simp [Forest.roots])
            omega
        subst hir
        simp only [Rep] at hrep
        obtain ⟨⟨r1, r2, r3, r4, r5, r6⟩, hKrep, hRrep⟩ := hrep
        simp only [Forest.labels, List.nodup_cons, List.mem_append, not_or,
          List.nodup_append] at hnd
        obtain ⟨⟨hvK, hvR⟩, hKnd, hRnd, hdisj⟩ := hnd
        simp only [Forest.size] at htourn
        push_cast at htourn
        have hKs : (0 : Int) ≤ K.size := Int.natCast_nonneg _
        have hRs : (0 : Int) ≤ R1.size := Int.natCast_nonneg _
        have hKh := Forest.height_le_size K
        have hKn : K.size + 1 ≤ n := by omega
        obtain ⟨st1, hrun, hsz1, hlen1, htour1, hnode, hKtour, hfr1⟩ :=
          tour_spec n (n + 1) st i (-1) 1 (0 + w) false K hsz r6 r1 (fun h => by simp at h)
            hKrep (by simp [hvK, hKnd])
            (by
              intro x hx
              simp only [List.mem_cons] at hx
              rcases hx with h | h
              · rw [h]; exact ⟨hi, hilt⟩
              · exact hrange x (by simp [Forest.labels, h]))
            htour0 (by linarith) (by omega)
        have hsameB : SameRooting st { st1 with euler := st1.euler ++ [-1] } :=
          SameRooting.compose_rooting hfr1.1 ⟨rfl, rfl, rfl, rfl, rfl, rfl⟩
        obtain ⟨st2, hloop, hsz2, hlen2, htour2, hRtour, hfr2⟩ :=
          ih (i + 1) { st1 with euler := st1.euler ++ [-1] } R1 (sized_euler hsz1 _)
            (rep_sameRooting hsameB R1 _ _ _ hRrep) hRnd
            (fun x hx => hrange x (by simp [Forest.labels, hx]))
            hsorted.2
            (fun x hx => by have := hsorted.1 x hx; omega)
            (by
              intro x q h1 h2 h3 h4
              have h5 : rd st.parent x = some q := by rw [← hsameB.2.1]; exact h3
              have := hpar x q (by omega) h2 h5 h4
              simp only [Forest.roots, List.mem_cons] at this
              rcases this with h | h
              · omega
              · exact h)
            (by show 0 ≤ st1.tour; linarith)
            (by show st1.tour + R1.size ≤ n; linarith)
            (by omega) (by push_cast at hin ⊢; omega)
        obtain ⟨hsame2, heul2, htl2, hffo2, hfts2, hfte2, hfhr2⟩ := hfr2
        have hneg : ∀ x ∈ (Forest.cons i w K R1).labels, ¬ (-1 : Int) = x := by
          intro x hx e
          have := (hrange x hx).1
          omega
        obtain ⟨c1, c2, c3, c4⟩ := tour_combine st st1 st2 (-1) false i w K R1
          (hneg i (by simp [Forest.labels]))
          (fun h => hneg _ (by simp [Forest.labels, h]) rfl)
          (fun h => hneg _ (by simp [Forest.labels, h]) rfl)
          hvK hvR hdisj hlen1 htour1 hnode hKtour hfr1 hlen2 htour2 hRtour hsame2 heul2 htl2
          hffo2 hfts2 hfte2 hfhr2
        refine ⟨st2, ?_, hsz2, c1, c2, c3, c4⟩
        simp only [hrun, Option.some_bind, Option.pure_def]
        exact hloop
    · simp only [hpneg, if_false, Option.some_bind]
      have hiR : i ∉ R.roots := by
        intro h
        have := rep_root_parent st R _ _ _ hrep i h
        rw [hp] at this
        injection this with e
        omega
      exact ih (i + 1) st R hsz hrep hnd hrange hsorted
        (fun r hr => by
          have := hroots r hr
          have : r ≠ i := fun e => hiR (e ▸ hr)
          omega)
        (fun x q h1 h2 h3 h4 => hpar x q (by omega) h2 h3 h4)
        htour0 htourn (by omega) (by push_cast at hin ⊢; omega)

theorem exists_sorted_roots (D : Forest) (hnd : D.roots.Nodup) :
    ∃ F : Forest, F.trees.Perm D.trees ∧ F.roots.Pairwise (· < ·) := by
  let r : (Int × Int × Forest) → (Int × Int × Forest) → Prop := fun a b => a.1 ≤ b.1
  have htot : IsTotal (Int × Int × Forest) r := ⟨fun a b => le_total a.1 b.1⟩
  have htr : IsTrans (Int × Int × Forest) r := ⟨fun a b c h1 h2 => le_trans h1 h2⟩
  have hperm := List.perm_insertionSort r D.trees
  have hsorted := List.sorted_insertionSort r D.trees
  refine ⟨Forest.ofTrees (List.insertionSort r D.trees), ?_, ?_⟩
  · rw [Forest.trees_ofTrees]; exact hperm
  · rw [Forest.roots_eq_map, Forest.trees_ofTrees]
    have hnd2 : ((List.insertionSort r D.trees).map (fun t => t.1)).Nodup := by
      have : ((List.insertionSort r D.trees).map (fun t => t.1)).Perm D.roots := by
        rw [Forest.roots_eq_map]; exact hperm.map _
      exact this.nodup_iff.2 hnd
    have hle : ((List.insertionSort r D.trees).map (fun t => t.1)).Pairwise (· ≤ ·) := by
      rw [List.pairwise_map]
      exact hsorted
    have := hle.and hnd2
    exact this.imp (fun h => lt_of_le_of_ne h.1 h.2)

theorem tour_euler_entries (st : weighted_LCA) : ∀ (G : Forest) (par : Int) (hv : Bool)
    (e0 p0 : Int), Tour st G par hv e0 p0 → ∀ j : Int, e0 ≤ j → j < e0 + 2 * G.size →
    ∃ x, rd st.euler j = some x ∧ (x = par ∨ x ∈ G.labels) := by
  intro G
  induction G with
  | nil =>
    intro par hv e0 p0 _ j h1 h2
    simp [Forest.size] at h2
    omega
  | cons v w K R ih1 ih2 =>
    intro par hv e0 p0 hT j h1 h2
    simp only [Tour] at hT
    obtain ⟨⟨t1, t2, t3, t4, t5, t6, t7⟩, hK, hR⟩ := hT
    simp only [Forest.size] at h2
    push_cast at h2
    by_cases c1 : j = e0
    · subst c1
      exact ⟨v, t2, Or.inr (by simp [Forest.labels])⟩
    by_cases c2 : j < e0 + 1 + 2 * K.size
    · obtain ⟨x, hx, hx2⟩ := ih1 v true (e0 + 1) (p0 + 1) hK j (by omega) (by omega)
      refine ⟨x, hx, Or.inr ?_⟩
      simp only [Forest.labels, List.mem_cons, List.mem_append]
      rcases hx2 with h | h
      · exact Or.inl h
      · exact Or.inr (Or.inl h)
    by_cases c3 : j = e0 + 1 + 2 * K.size
    · subst c3
      exact ⟨par, t3, Or.inl rfl⟩
    · obtain ⟨x, hx, hx2⟩ := ih2 par false _ _ hR j (by omega) (by omega)
      refine ⟨x, hx, ?_⟩
      rcases hx2 with h | h
      · exact Or.inl h
      · right
        simp only [Forest.labels, List.mem_cons, List.mem_append]
        exact Or.inr (Or.inr h)

theorem euler_depths_spec (st : weighted_LCA) : ∀ (l : List Int),
    (∀ x ∈ l, x < 0 ∨ ∃ d, rd st.depth x = some d) →
    ∃ ed, euler_depths st l = some ed ∧ ed.length = l.length ∧
      ∀ (j : Int) (x : Int), rd l j = some x →
        rd ed j = (if x < 0 then some x else rd st.depth x) := by
  intro l
  induction l with
  | nil =>
    intro _
    refine ⟨[], rfl, rfl, ?_⟩
    intro j x h
    simp [rd] at h
  | cons a l ih =>
    intro h
    obtain ⟨ed, h1, h2, h3⟩ := ih (fun x hx => h x (List.mem_cons_of_mem _ hx))
    obtain ⟨d, hd⟩ : ∃ d, (if a < 0 then some a else rd st.depth a) = some d := by
      rcases h a (List.mem_cons_self _ _) with h4 | ⟨d, h4⟩
      · exact ⟨a, by simp [h4]⟩
      · by_cases c : a < 0
        · exact ⟨a, by simp [c]⟩
        · exact ⟨d, by simp [c, h4]⟩
    refine ⟨d :: ed, ?_, by simp [h2], ?_⟩
    · simp only [euler_depths, h1, Option.bind_eq_bind, Option.some_bind, Option.pure_def]
      by_cases c : a < 0
      · simp only [c, if_true, Option.some.injEq] at hd ⊢
        rw [hd]
      · simp only [c, if_false] at hd ⊢
        rw [hd]; rfl
    · intro j x hj
      have hj0 := (rd_bounds hj).1
      by_cases c : j = 0
      · subst c
        rw [rd_cons_zero] at hj ⊢
        injection hj with e
        subst e
        exact hd.symm
      · have e : j = (j - 1) + 1 := by ring
        rw [e, rd_cons_succ _ _ _ (by omega)] at hj ⊢
        exact h3 _ x hj

theorem resize_length {α : Type} (vec : List α) (n : Nat) (x : α) :
    (resize vec n x).length = n := by
  simp only [resize, List.length_append, List.length_take, List.length_replicate]
  omega

theorem sized_init_adj (prev : weighted_LCA) (adj : List (List edge)) :
    Sized (init_adj prev adj) adj.length := by
  simp [Sized, init_adj, init, resize_length]

theorem rd_mem {α : Type} {l : List α} {j : Int} {x : α} (h : rd l j = some x) : x ∈ l := by
  rw [rd_some_iff] at h
  obtain ⟨hlt, e⟩ := List.getElem?_eq_some_iff.1 h.2
  exact e ▸ List.getElem_mem hlt

theorem euler_depths_congr (st st1 : weighted_LCA) (h : st1.depth = st.depth) :
    ∀ l : List Int, euler_depths st1 l = euler_depths st l := by
  intro l
  induction l with
  | nil => rfl
  | cons a l ih => simp only [euler_depths, ih, h]

theorem build_spec (S : StdSort) (prev : weighted_LCA) (adj : List (List edge)) (root : Int)
    (hF : IsForest adj) (hsmall : 2 * (adj.length : Int) < 2147483648) :
    ∃ (st : weighted_LCA) (F : Forest),
      build S (init_adj prev adj) root true = some st ∧ BuiltOn adj st F := by
  obtain ⟨F0, hperm0, hreal0⟩ := hF
  have hszI := sized_init_adj prev adj
  have hnI : (init_adj prev adj).n = (adj.length : Int) := hszI.1
  have hrangeF0 : ∀ x ∈ F0.labels, 0 ≤ x ∧ x < adj.length :=
    fun x hx => (mem_range_map _ x).1 (hperm0.mem_iff.1 hx)
  -- the state after `parent.assign(n, -1)`
  obtain ⟨st0, h0⟩ : ∃ s : weighted_LCA, s =
      { init_adj prev adj with parent := List.replicate (init_adj prev adj).n.toNat (-1) } := ⟨_, rfl⟩
  have h0n : st0.n = (adj.length : Int) := by rw [h0]; exact hnI
  have h0adj : st0.adj = adj := by rw [h0]; rfl
  have h0par : st0.parent = List.replicate adj.length (-1) := by
    rw [h0]; show List.replicate (init_adj prev adj).n.toNat (-1 : Int) = _
    rw [hnI]; simp
  have h0uw : st0.up_weight = List.replicate adj.length 0 := by
    rw [h0]; simp [init_adj, init]
  have hsz0 : Sized st0 adj.length := by
    obtain ⟨g1, g2, g3, g4, g5, g6, g7, g8, g9, g10, g11, g12, g13⟩ := hszI
    rw [h0]
    exact ⟨g1, g2, by
      show (List.replicate (init_adj prev adj).n.toNat (-1 : Int)).length = _
      rw [hnI]; simp, g4, g5, g6, g7, g8, g9, g10, g11, g12, g13⟩
  have hinv0 : Inv1 adj adj.length st0 Forest.nil F0 := by
    refine ⟨hsz0, by simpa [Forest.labels] using hperm0, trivial, hreal0, trivial, ?_,
      fun e he => by simp [Forest.topEdges] at he, trivial⟩
    intro x hx
    obtain ⟨hx0, hx1⟩ := hrangeF0 x hx
    refine ⟨?_, by rw [h0adj], ?_⟩
    · rw [h0par]; exact rd_replicate _ _ _ hx0 hx1
    · rw [h0uw]; exact rd_replicate _ _ _ hx0 hx1
  -- the optional call `dfs(root, -1, 0)`
  obtain ⟨st1, D1, T1, hstep1, hinv1, hD1roots, hD1root⟩ : ∃ (st1 : weighted_LCA)
      (D1 T1 : Forest),
      (if 0 ≤ root ∧ root < st0.n then dfs S (adj.length + 1) st0 root (-1) 0 else some st0)
        = some st1 ∧ Inv1 adj adj.length st1 D1 T1 ∧ (∀ x ∈ D1.roots, x = root) ∧
      (0 ≤ root → root < adj.length → root ∈ D1.labels) := by
    by_cases hr : 0 ≤ root ∧ root < st0.n
    · have hrT : root ∈ F0.labels :=
        hperm0.mem_iff.2 ((mem_range_map _ root).2 ⟨hr.1, by rw [← h0n]; exact hr.2⟩)
      obtain ⟨s1, K1, T1, hrun, hinv, _⟩ := process_tree S adj adj.length st0 Forest.nil F0 root
        hinv0 hrT
      refine ⟨s1, _, T1, by simp only [hr, and_self, if_true]; exact hrun, hinv, ?_, ?_⟩
      · intro x hx
        simpa [Forest.append, Forest.roots] using hx
      · intro _ _
        simp [Forest.append, Forest.labels]
    · refine ⟨st0, Forest.nil, F0, by simp only [hr, if_false], hinv0, ?_, ?_⟩
      · intro x hx; simp [Forest.roots] at hx
      · intro h1 h2
        exact absurd ⟨h1, by rw [h0n]; exact h2⟩ hr
  have h1n : st1.n = (adj.length : Int) := hinv1.1.1
  -- the rooting loop
  obtain ⟨st2, D, hstep2, hinv2⟩ := build_dfs_loop_spec S adj adj.length root adj.length 0 st1
    D1 T1 hinv1
    (fun x hx => ((mem_range_map _ x).1 (hinv1.2.1.mem_iff.1 (List.mem_append_right _ hx))).1)
    (fun x hx => Or.inr (hD1roots x hx)) hD1root (le_refl _) (by simp)
  obtain ⟨hsz2, hDperm, hDreal, _, hDrep, _, hDw, hDks⟩ := hinv2
  simp only [Forest.labels, List.append_nil] at hDperm
  have h2n : st2.n = (adj.length : Int) := hsz2.1
  have hDnd : D.labels.Nodup := hDperm.nodup_iff.2 (nodup_range_map _)
  have hDrootsnd : D.roots.Nodup := by
    have hsub : D.roots.Sublist D.labels := by
      clear hDnd hDrep hDreal hDperm hDw hDks
      induction D with
      | nil => exact List.Sublist.refl _
      | cons v w K R _ ih2 =>
        simp only [Forest.roots, Forest.labels]
        exact (ih2.trans (List.sublist_append_right _ _)).cons₂ v
    exact hsub.nodup hDnd
  -- order the trees by their roots
  obtain ⟨F, hFtrees, hFsorted⟩ := exists_sorted_roots D hDrootsnd
  have hFperm : F.labels.Perm ((List.range adj.length).map Int.ofNat) :=
    (Forest.labels_perm hFtrees).trans hDperm
  have hFreal : Realizes adj F (-1) := (realizes_perm adj (-1) hFtrees).2 hDreal
  have hFrep : Rep st2 F (-1) 0 0 := (rep_perm st2 (-1) 0 0 hFtrees).2 hDrep
  have hFrange : ∀ x ∈ F.labels, 0 ≤ x ∧ x < adj.length :=
    fun x hx => (mem_range_map _ x).1 (hFperm.mem_iff.1 hx)
  have hFnd : F.labels.Nodup := hFperm.nodup_iff.2 (nodup_range_map _)
  have hFsize : F.size = adj.length := by
    rw [Forest.size_eq_length_labels, hFperm.length_eq]; simp
  -- the tour loop
  obtain ⟨stT, hT⟩ : ∃ s : weighted_LCA, s =
      { st2 with tour := 0, post_tour := 0, euler := [] } := ⟨_, rfl⟩
  have hTsame : SameRooting st2 stT := by rw [hT]; exact ⟨rfl, rfl, rfl, rfl, rfl, rfl⟩
  have hTsz : Sized stT adj.length := by rw [hT]; exact hsz2
  have hTtour : stT.tour = 0 := by rw [hT]
  have hTeuler : stT.euler = [] := by rw [hT]
  obtain ⟨st3, hstep3, hsz3, hlen3, htour3, hTour3, hfr3⟩ :=
    build_tour_loop_spec adj.length adj.length 0 stT F hTsz
      (rep_sameRooting hTsame F _ _ _ hFrep) hFnd hFrange hFsorted
      (fun r hr => (hFrange r (Forest.roots_subset_labels F r hr)).1)
      (by
        intro x p h1 h2 h3 h4
        have hx : x ∈ F.labels := hFperm.mem_iff.2 ((mem_range_map _ x).2 ⟨h1, h2⟩)
        rw [hTsame.2.1] at h3
        rcases rep_parent_cases st2 F _ _ _ hFrep (fun y hy => (hFrange y hy).1) x hx with
          h | ⟨q, hq0, hq⟩
        · exact h.1
        · rw [h3] at hq
          injection hq with e
          omega)
      (by rw [hTtour]) (by rw [hTtour, hFsize]; simp) (le_refl _) (by simp)
  rw [hTeuler] at hlen3 hTour3
  rw [hTtour] at htour3 hTour3
  simp only [List.length_nil, Nat.cast_zero, zero_add] at hlen3 hTour3 htour3
  rw [hFsize] at hlen3 htour3
  have hsame3 : SameRooting st2 st3 := SameRooting.compose_rooting hTsame hfr3.1
  have hrep3 : Rep st3 F (-1) 0 0 := rep_sameRooting hsame3 F _ _ _ hFrep
  -- the depths along the tour
  have hentries : ∀ x ∈ st3.euler, x < 0 ∨ ∃ d, rd st3.depth x = some d := by
    intro x hx
    obtain ⟨k, hk, hkx⟩ := List.getElem_of_mem hx
    have hrdk : rd st3.euler (k : Int) = some x := by
      rw [rd_some_iff]
      exact ⟨by omega, by simp [List.getElem?_eq_getElem hk, hkx]⟩
    obtain ⟨y, hy, hy2⟩ := tour_euler_entries st3 F (-1) false 0 0 hTour3 k (by omega)
      (by rw [hFsize]; omega)
    rw [hrdk] at hy
    injection hy with e
    subst e
    rcases hy2 with h | h
    · left; omega
    · right
      obtain ⟨h1, h2⟩ := hFrange x h
      exact rd_of_bounds _ _ h1 (by rw [hsz3.2.2.2.1]; exact h2)
  obtain ⟨st4, h4⟩ : ∃ s : weighted_LCA, s =
      { st3 with rev_tour_list := st3.tour_list.reverse } := ⟨_, rfl⟩
  have h4euler : st4.euler = st3.euler := by rw [h4]
  have h4depth : st4.depth = st3.depth := by rw [h4]
  have h4n : st4.n = (adj.length : Int) := by rw [h4]; exact hsz3.1
  obtain ⟨ed, hed, hedlen, _⟩ := euler_depths_spec st4 st4.euler
    (by rw [h4euler, h4depth]; exact hentries)
  have hedlen2 : (ed.length : Int) = 2 * adj.length := by
    rw [hedlen, h4euler]; exact hlen3
  obtain ⟨r, hr, hrvals, hrtab⟩ := RMQ.table_build_spec ed (by rw [hedlen2]; exact hsmall)
  obtain ⟨stF, hstF⟩ : ∃ s : weighted_LCA, s = { st4 with rmq := r, built := true } :=
    ⟨_, rfl⟩
  have hFsame : SameRooting st3 stF := by
    rw [hstF, h4]; exact ⟨rfl, rfl, rfl, rfl, rfl, rfl⟩
  refine ⟨stF, F, ?_, ?_⟩
  · -- the computation
    have hlenok : (st3.euler.length : Int) = 2 * st3.n := by
      rw [hsz3.1]; exact hlen3
    have hed2 : euler_depths { st3 with rev_tour_list := st3.tour_list.reverse } st3.euler
        = some ed := by
      rw [← h4, ← h4euler]; exact hed
    have e0 : (init_adj prev adj).n.toNat + 1 = adj.length + 1 := by rw [hnI]; simp
    have e1 : st1.n.toNat = adj.length := by rw [h1n]; simp
    have e2 : st2.n.toNat = adj.length := by rw [h2n]; simp
    have e3 : st0.n.toNat = adj.length := by rw [h0n]; simp
    rw [h0n, ← hnI] at hstep1
    unfold build
    by_cases hc : 0 ≤ root ∧ root < (init_adj prev adj).n
    · simp only [hc, and_self, if_true] at hstep1
      simp only [e0, ← h0, hc, and_self, if_true, hstep1, Option.bind_eq_bind,
        Option.some_bind, e1, hstep2, e2, ← hT, hstep3, hlenok, hed2, hr, Option.pure_def]
      rw [hstF, h4]
    · simp only [hc, if_false, Option.some.injEq] at hstep1
      subst hstep1
      simp only [e0, ← h0, hc, if_false, Option.bind_eq_bind,
        Option.some_bind, e1, hstep2, e2, ← hT, hstep3, hlenok, if_true, hed2, hr,
        Option.pure_def]
      rw [hstF, h4]
  · -- the built structure
    have hTourF : Tour stF F (-1) false 0 0 := by
      refine @tour_congr st3 stF F (-1) false 0 0 (fun x _ => ?_) (fun h => by simp at h)
        (fun _ _ _ => by rw [hstF, h4]) (fun _ _ _ => by rw [hstF, h4]) hTour3
      rw [hstF, h4]
      exact ⟨rfl, rfl, rfl, rfl⟩
    refine ⟨by rw [hstF, h4]; exact hsz3, hFperm, hFreal, hFsorted,
      lay_of_rep_tour stF F _ _ _ _ _ _ (rep_sameRooting hFsame F _ _ _ hrep3) hTourF,
      by rw [hstF, h4]; exact hlen3, by rw [hstF], by rw [hstF, h4]; exact htour3, ?_, ?_, ?_,
      fun e he => hDw e ((Forest.topEdges_perm hFtrees).mem_iff.1 he),
      (Forest.kidsSorted_perm hFtrees).2 hDks⟩
    · rw [hstF]; exact hrtab
    · have : euler_depths stF stF.euler = euler_depths st4 st4.euler := by
        rw [euler_depths_congr st4 stF (by rw [hstF]), hstF]
      rw [this, hed, hstF]
      show some ed = some r.values
      rw [hrvals]
    · rw [hstF]
      show (r.values.length : Int) < _
      rw [hrvals, hedlen2]; exact hsmall

theorem parent_of_eq {st : weighted_LCA} {x p : Int} (hx : 0 ≤ x)
    (h : rd st.parent x = some p) : parent_of st x = p := by
  unfold parent_of
  simp [show ¬ x < 0 by omega, h]

theorem parent_of_neg (st : weighted_LCA) {x : Int} (hx : x < 0) : parent_of st x = -1 := by
  unfold parent_of
  simp [hx]

theorem kth_parent_succ (st : weighted_LCA) (k : Nat) (a : Int) :
    kth_parent st (k + 1) a = parent_of st (kth_parent st k a) := by
  induction k generalizing a with
  | zero => rfl
  | succ k ih =>
    show kth_parent st (k + 1) (parent_of st a) = _
    rw [ih]
    rfl

theorem kth_parent_add (st : weighted_LCA) (j k : Nat) (a : Int) :
    kth_parent st (j + k) a = kth_parent st j (kth_parent st k a) := by
  induction j with
  | zero => simp [kth_parent]
  | succ j ih =>
    rw [Nat.add_right_comm, kth_parent_succ, ih, ← kth_parent_succ]

theorem kth_parent_neg_one (st : weighted_LCA) (k : Nat) : kth_parent st k (-1) = -1 := by
  induction k with
  | zero => rfl
  | succ k ih =>
    show kth_parent st k (parent_of st (-1)) = -1
    rw [parent_of_neg st (by omega)]
    exact ih

theorem IsAnc.refl (st : weighted_LCA) (a : Int) : IsAnc st a a := ⟨0, rfl⟩

theorem IsAnc.trans {st : weighted_LCA} {a b c : Int} (h1 : IsAnc st a b) (h2 : IsAnc st b c) :
    IsAnc st a c := by
  obtain ⟨j, hj⟩ := h1
  obtain ⟨k, hk⟩ := h2
  exact ⟨j + k, by rw [kth_parent_add, hk, hj]⟩

theorem IsAnc.parent (st : weighted_LCA) (a : Int) : IsAnc st (parent_of st a) a := ⟨1, rfl⟩

/-- The facts of the layout at one node. -/
theorem lay_node (st : weighted_LCA) : ∀ (G : Forest) (par d wdp : Int) (hv : Bool)
    (e0 p0 : Int), Lay st G par d wdp hv e0 p0 → (∀ x ∈ G.labels, 0 ≤ x) →
    ∀ x ∈ G.labels,
      (rd st.euler (fo st x) = some x ∧ rd st.tour_list (tsk st x) = some x ∧
        te st x = tsk st x + ssz st x ∧ 1 ≤ ssz st x ∧
        rd st.euler (lo st x + 1) = some (parent_of st x)) ∧
      (e0 ≤ fo st x ∧ lo st x + 2 ≤ e0 + 2 * G.size ∧ p0 ≤ tsk st x ∧
        te st x ≤ p0 + G.size ∧ d ≤ dep st x) ∧
      ((x ∈ G.roots ∧ parent_of st x = par ∧ dep st x = d ∧ wd st x = wdp + uw st x) ∨
        (parent_of st x ∈ G.labels ∧ dep st x = dep st (parent_of st x) + 1 ∧
          wd st x = wd st (parent_of st x) + uw st x ∧
          fo st (parent_of st x) < fo st x ∧ lo st x < lo st (parent_of st x) ∧
          tsk st (parent_of st x) < tsk st x ∧ te st x ≤ te st (parent_of st x))) := by
  intro G
  induction G with
  | nil => intro _ _ _ _ _ _ _ _ x hx; simp [Forest.labels] at hx
  | cons v w K R ih1 ih2 =>
    intro par d wdp hv e0 p0 hL hpos x hx
    simp only [Lay] at hL
    obtain ⟨⟨r1, r2, r3, r4, r5, r6⟩, ⟨t1, t2, t3, t4, t5, t6, t7⟩, hK, hR⟩ := hL
    have hv0 : 0 ≤ v := hpos v (by simp [Forest.labels])
    have hKs : (0 : Int) ≤ K.size := Int.natCast_nonneg _
    have hRs : (0 : Int) ≤ R.size := Int.natCast_nonneg _
    have efo : fo st v = e0 := by simp [fo, t1]
    have ess : ssz st v = 1 + K.size := by simp [ssz, r5]
    have elo : lo st v = e0 + 2 * K.size := by rw [lo, efo, ess]; ring
    have ets : tsk st v = p0 := by simp [tsk, t4]
    have ete : te st v = p0 + 1 + K.size := by simp [te, t6]
    have epar : parent_of st v = par := parent_of_eq hv0 r1
    have edep : dep st v = d := by simp [dep, r2]
    have ewd : wd st v = wdp + w := by simp [wd, r3]
    have euw : uw st v = w := by simp [uw, r4]
    simp only [Forest.labels, List.mem_cons, List.mem_append] at hx
    simp only [Forest.size]
    push_cast
    rcases hx with hx | hx | hx
    · subst hx
      refine ⟨⟨by rw [efo]; exact t2, by rw [ets]; exact t5, by rw [ete, ets, ess]; ring,
        by rw [ess]; linarith, ?_⟩, ⟨by rw [efo], by rw [elo]; linarith, by rw [ets],
        by rw [ete]; linarith, by rw [edep]⟩, Or.inl ⟨by simp [Forest.roots], epar, edep,
        by rw [ewd, euw]⟩⟩
      rw [elo, epar]
      have e : e0 + 2 * (K.size : Int) + 1 = e0 + 1 + 2 * K.size := by ring
      rw [e]; exact t3
    · obtain ⟨h1, ⟨g1, g2, g3, g4, g5⟩, h3⟩ := ih1 v (d + 1) (wdp + w) true (e0 + 1) (p0 + 1) hK
        (fun y hy => hpos y (by simp [Forest.labels, hy])) x hx
      refine ⟨h1, ⟨by linarith, by linarith, by linarith, by linarith, by linarith⟩, Or.inr ?_⟩
      rcases h3 with ⟨_, a2, a3, a4⟩ | ⟨b1, b2, b3, b4, b5, b6, b7⟩
      · rw [a2]
        refine ⟨by simp [Forest.labels], by rw [a3, edep], by rw [a4, ewd],
          by rw [efo]; linarith, by rw [elo]; linarith, by rw [ets]; linarith,
          by rw [ete]; linarith⟩
      · exact ⟨by simp [Forest.labels, b1], b2, b3, b4, b5, b6, b7⟩
    · obtain ⟨h1, ⟨g1, g2, g3, g4, g5⟩, h3⟩ := ih2 par d wdp false _ _ hR
        (fun y hy => hpos y (by simp [Forest.labels, hy])) x hx
      refine ⟨h1, ⟨by linarith, by linarith, by linarith, by linarith, by linarith⟩, ?_⟩
      rcases h3 with ⟨a1, a2, a3, a4⟩ | ⟨b1, b2, b3, b4, b5, b6, b7⟩
      · exact Or.inl ⟨by simp [Forest.roots, a1], a2, a3, a4⟩
      · exact Or.inr ⟨by simp [Forest.labels, b1], b2, b3, b4, b5, b6, b7⟩

/-- Every node of a forest laid out below `par` is a strict descendant of `par`. -/
theorem lay_below (st : weighted_LCA) : ∀ (G : Forest) (par d wdp : Int) (hv : Bool)
    (e0 p0 : Int), Lay st G par d wdp hv e0 p0 → (∀ x ∈ G.labels, 0 ≤ x) →
    ∀ y ∈ G.labels, ∃ k : Nat, kth_parent st (k + 1) y = par := by
  intro G
  induction G with
  | nil => intro _ _ _ _ _ _ _ _ y hy; simp [Forest.labels] at hy
  | cons v w K R ih1 ih2 =>
    intro par d wdp hv e0 p0 hL hpos y hy
    simp only [Lay] at hL
    obtain ⟨⟨r1, _⟩, _, hK, hR⟩ := hL
    have hv0 : 0 ≤ v := hpos v (by simp [Forest.labels])
    simp only [Forest.labels, List.mem_cons, List.mem_append] at hy
    rcases hy with hy | hy | hy
    · subst hy
      exact ⟨0, parent_of_eq hv0 r1⟩
    · obtain ⟨k, hk⟩ := ih1 v _ _ _ _ _ hK (fun z hz => hpos z (by simp [Forest.labels, hz])) y hy
      refine ⟨k + 1, ?_⟩
      rw [kth_parent_succ, hk]
      exact parent_of_eq hv0 r1
    · exact ih2 par _ _ _ _ _ hR (fun z hz => hpos z (by simp [Forest.labels, hz])) y hy

/-- Every position of the Euler tour of a forest holds `par` or a node whose first and
last occurrence enclose the position. -/
theorem lay_entries (st : weighted_LCA) : ∀ (G : Forest) (par d wdp : Int) (hv : Bool)
    (e0 p0 : Int), Lay st G par d wdp hv e0 p0 →
    ∀ j : Int, e0 ≤ j → j < e0 + 2 * G.size →
    ∃ y, rd st.euler j = some y ∧ (y = par ∨ (y ∈ G.labels ∧ fo st y ≤ j ∧ j ≤ lo st y)) := by
  intro G
  induction G with
  | nil =>
    intro par d wdp hv e0 p0 _ j h1 h2
    simp [Forest.size] at h2
    omega
  | cons v w K R ih1 ih2 =>
    intro par d wdp hv e0 p0 hL j h1 h2
    simp only [Lay] at hL
    obtain ⟨⟨r1, r2, r3, r4, r5, r6⟩, ⟨t1, t2, t3, t4, t5, t6, t7⟩, hK, hR⟩ := hL
    have efo : fo st v = e0 := by simp [fo, t1]
    have ess : ssz st v = 1 + K.size := by simp [ssz, r5]
    have elo : lo st v = e0 + 2 * K.size := by rw [lo, efo, ess]; ring
    simp only [Forest.size] at h2
    push_cast at h2
    by_cases c1 : j = e0
    · subst c1
      exact ⟨v, t2, Or.inr ⟨by simp [Forest.labels], by rw [efo], by rw [elo]; omega⟩⟩
    by_cases c2 : j < e0 + 1 + 2 * K.size
    · obtain ⟨y, hy, hy2⟩ := ih1 v _ _ true (e0 + 1) (p0 + 1) hK j (by omega) (by omega)
      refine ⟨y, hy, Or.inr ?_⟩
      rcases hy2 with h | ⟨h, h3, h4⟩
      · rw [h]
        exact ⟨by simp [Forest.labels], by rw [efo]; omega, by rw [elo]; omega⟩
      · exact ⟨by simp [Forest.labels, h], h3, h4⟩
    by_cases c3 : j = e0 + 1 + 2 * K.size
    · subst c3
      exact ⟨par, t3, Or.inl rfl⟩
    · obtain ⟨y, hy, hy2⟩ := ih2 par _ _ false _ _ hR j (by omega) (by omega)
      refine ⟨y, hy, ?_⟩
      rcases hy2 with h | ⟨h, h3, h4⟩
      · exact Or.inl h
      · exact Or.inr ⟨by simp [Forest.labels, h], h3, h4⟩

/-- Between the first and the last occurrence of `u` the Euler tour holds descendants
of `u` only. -/
theorem lay_interval (st : weighted_LCA) : ∀ (G : Forest) (par d wdp : Int) (hv : Bool)
    (e0 p0 : Int), Lay st G par d wdp hv e0 p0 → (∀ x ∈ G.labels, 0 ≤ x) →
    ∀ u ∈ G.labels, ∀ j : Int, fo st u ≤ j → j ≤ lo st u →
    ∃ y, rd st.euler j = some y ∧ y ∈ G.labels ∧ IsAnc st u y := by
  intro G
  induction G with
  | nil => intro _ _ _ _ _ _ _ _ u hu; simp [Forest.labels] at hu
  | cons v w K R ih1 ih2 =>
    intro par d wdp hv e0 p0 hL hpos u hu j h1 h2
    have hL0 := hL
    simp only [Lay] at hL
    obtain ⟨⟨r1, r2, r3, r4, r5, r6⟩, ⟨t1, t2, t3, t4, t5, t6, t7⟩, hK, hR⟩ := hL
    have efo : fo st v = e0 := by simp [fo, t1]
    have ess : ssz st v = 1 + K.size := by simp [ssz, r5]
    have elo : lo st v = e0 + 2 * K.size := by rw [lo, efo, ess]; ring
    have hKpos : ∀ z ∈ K.labels, 0 ≤ z := fun z hz => hpos z (by simp [Forest.labels, hz])
    have hRpos : ∀ z ∈ R.labels, 0 ≤ z := fun z hz => hpos z (by simp [Forest.labels, hz])
    simp only [Forest.labels, List.mem_cons, List.mem_append] at hu
    rcases hu with hu | hu | hu
    · subst hu
      rw [efo] at h1
      rw [elo] at h2
      by_cases c1 : j = e0
      · subst c1
        exact ⟨u, t2, by simp [Forest.labels], IsAnc.refl st u⟩
      · obtain ⟨y, hy, hy2⟩ := lay_entries st K u _ _ true (e0 + 1) (p0 + 1) hK j (by omega)
          (by omega)
        refine ⟨y, hy, ?_⟩
        rcases hy2 with h | ⟨h, _, _⟩
        · rw [h]; exact ⟨by simp [Forest.labels], IsAnc.refl st u⟩
        · obtain ⟨k, hk⟩ := lay_below st K u _ _ _ _ _ hK hKpos y h
          exact ⟨by simp [Forest.labels, h], ⟨k + 1, hk⟩⟩
    · obtain ⟨y, hy, hy2, hy3⟩ := ih1 v _ _ true (e0 + 1) (p0 + 1) hK hKpos u hu j h1 h2
      exact ⟨y, hy, by simp [Forest.labels, hy2], hy3⟩
    · obtain ⟨y, hy, hy2, hy3⟩ := ih2 par _ _ false _ _ hR hRpos u hu j h1 h2
      exact ⟨y, hy, by simp [Forest.labels, hy2], hy3⟩

/-- Every position of `tour_list` inside a forest holds a node of the forest, and the node
starts its tour interval there. -/
theorem lay_pre_entries (st : weighted_LCA) : ∀ (G : Forest) (par d wdp : Int) (hv : Bool)
    (e0 p0 : Int), Lay st G par d wdp hv e0 p0 →
    ∀ q : Int, p0 ≤ q → q < p0 + G.size →
    ∃ y, rd st.tour_list q = some y ∧ y ∈ G.labels ∧ tsk st y = q := by
  intro G
  induction G with
  | nil =>
    intro par d wdp hv e0 p0 _ q h1 h2
    simp [Forest.size] at h2
    omega
  | cons v w K R ih1 ih2 =>
    intro par d wdp hv e0 p0 hL q h1 h2
    simp only [Lay] at hL
    obtain ⟨_, ⟨t1, t2, t3, t4, t5, t6, t7⟩, hK, hR⟩ := hL
    have ets : tsk st v = p0 := by simp [tsk, t4]
    simp only [Forest.size] at h2
    push_cast at h2
    by_cases c1 : q = p0
    · subst c1
      exact ⟨v, t5, by simp [Forest.labels], ets⟩
    by_cases c2 : q < p0 + 1 + K.size
    · obtain ⟨y, hy, hy2, hy3⟩ := ih1 v _ _ true (e0 + 1) (p0 + 1) hK q (by omega) (by omega)
      exact ⟨y, hy, by simp [Forest.labels, hy2], hy3⟩
    · obtain ⟨y, hy, hy2, hy3⟩ := ih2 par _ _ false _ _ hR q (by omega) (by omega)
      exact ⟨y, hy, by simp [Forest.labels, hy2], hy3⟩

/-- The tour interval of `u` holds descendants of `u` only. -/
theorem lay_pre_interval (st : weighted_LCA) : ∀ (G : Forest) (par d wdp : Int) (hv : Bool)
    (e0 p0 : Int), Lay st G par d wdp hv e0 p0 → (∀ x ∈ G.labels, 0 ≤ x) →
    ∀ u ∈ G.labels, ∀ q : Int, tsk st u ≤ q → q < te st u →
    ∃ y, rd st.tour_list q = some y ∧ y ∈ G.labels ∧ tsk st y = q ∧ IsAnc st u y := by
  intro G
  induction G with
  | nil => intro _ _ _ _ _ _ _ _ u hu; simp [Forest.labels] at hu
  | cons v w K R ih1 ih2 =>
    intro par d wdp hv e0 p0 hL hpos u hu q h1 h2
    simp only [Lay] at hL
    obtain ⟨_, ⟨t1, t2, t3, t4, t5, t6, t7⟩, hK, hR⟩ := hL
    have ets : tsk st v = p0 := by simp [tsk, t4]
    have ete : te st v = p0 + 1 + K.size := by simp [te, t6]
    have hKpos : ∀ z ∈ K.labels, 0 ≤ z := fun z hz => hpos z (by simp [Forest.labels, hz])
    have hRpos : ∀ z ∈ R.labels, 0 ≤ z := fun z hz => hpos z (by simp [Forest.labels, hz])
    simp only [Forest.labels, List.mem_cons, List.mem_append] at hu
    rcases hu with hu | hu | hu
    · subst hu
      rw [ets] at h1
      rw [ete] at h2
      by_cases c1 : q = p0
      · subst c1
        exact ⟨u, t5, by simp [Forest.labels], ets, IsAnc.refl st u⟩
      · obtain ⟨y, hy, hy2, hy3⟩ := lay_pre_entries st K u _ _ true (e0 + 1) (p0 + 1) hK q
          (by omega) (by omega)
        obtain ⟨k, hk⟩ := lay_below st K u _ _ _ _ _ hK hKpos y hy2
        exact ⟨y, hy, by simp [Forest.labels, hy2], hy3, ⟨k + 1, hk⟩⟩
    · obtain ⟨y, hy, hy2, hy3⟩ := ih1 v _ _ true (e0 + 1) (p0 + 1) hK hKpos u hu q h1 h2
      exact ⟨y, hy, by simp [Forest.labels, hy2], hy3⟩
    · obtain ⟨y, hy, hy2, hy3⟩ := ih2 par _ _ false _ _ hR hRpos u hu q h1 h2
      exact ⟨y, hy, by simp [Forest.labels, hy2], hy3⟩

/-- The heavy root of a node is the node itself, or that of its parent when the node
comes right after its parent in `tour_list`. -/
theorem lay_heavy (st : weighted_LCA) : ∀ (G : Forest) (par d wdp : Int) (hv : Bool)
    (e0 p0 : Int), Lay st G par d wdp hv e0 p0 → (∀ x ∈ G.labels, 0 ≤ x) →
    ∀ x ∈ G.labels,
      hr st x = x ∨
      (parent_of st x ∈ G.labels ∧ tsk st x = tsk st (parent_of st x) + 1 ∧
        hr st x = hr st (parent_of st x)) ∨
      (hv = true ∧ parent_of st x = par ∧ tsk st x = p0 ∧ hr st x = hr st par) := by
  intro G
  induction G with
  | nil => intro _ _ _ _ _ _ _ _ x hx; simp [Forest.labels] at hx
  | cons v w K R ih1 ih2 =>
    intro par d wdp hv e0 p0 hL hpos x hx
    simp only [Lay] at hL
    obtain ⟨⟨r1, _⟩, ⟨t1, t2, t3, t4, t5, t6, t7⟩, hK, hR⟩ := hL
    have hv0 : 0 ≤ v := hpos v (by simp [Forest.labels])
    have ets : tsk st v = p0 := by simp [tsk, t4]
    have epar : parent_of st v = par := parent_of_eq hv0 r1
    simp only [Forest.labels, List.mem_cons, List.mem_append] at hx
    rcases hx with hx | hx | hx
    · subst hx
      cases hv with
      | false =>
        left
        simp only [Bool.false_eq_true, if_false] at t7
        simp [hr, t7]
      | true =>
        right; right
        simp only [if_true] at t7
        exact ⟨rfl, epar, ets, by simp [hr, t7]⟩
    · rcases ih1 v _ _ true (e0 + 1) (p0 + 1) hK
        (fun z hz => hpos z (by simp [Forest.labels, hz])) x hx with h | ⟨h1, h2, h3⟩ |
        ⟨_, h2, h3, h4⟩
      · exact Or.inl h
      · exact Or.inr (Or.inl ⟨by simp [Forest.labels, h1], h2, h3⟩)
      · right; left
        rw [h2]
        exact ⟨by simp [Forest.labels], by rw [h3, ets], h4⟩
    · rcases ih2 par _ _ false _ _ hR
        (fun z hz => hpos z (by simp [Forest.labels, hz])) x hx with h | ⟨h1, h2, h3⟩ |
        ⟨h1, _⟩
      · exact Or.inl h
      · exact Or.inr (Or.inl ⟨by simp [Forest.labels, h1], h2, h3⟩)
      · simp at h1

theorem rd_getD {vec : List Int} {n : Nat} (hl : vec.length = n) {x : Int} (h0 : 0 ≤ x)
    (h1 : x < n) : rd vec x = some ((rd vec x).getD 0) := by
  obtain ⟨v, hv⟩ := rd_of_bounds vec x h0 (by rw [hl]; exact h1)
  rw [hv]; rfl

theorem rd_depth {st : weighted_LCA} {n : Nat} (h : Sized st n) {x : Int} (h0 : 0 ≤ x)
    (h1 : x < n) : rd st.depth x = some (dep st x) := rd_getD h.2.2.2.1 h0 h1

theorem rd_weight_depth {st : weighted_LCA} {n : Nat} (h : Sized st n) {x : Int} (h0 : 0 ≤ x)
    (h1 : x < n) : rd st.weight_depth x = some (wd st x) := rd_getD h.2.2.2.2.2.1 h0 h1

theorem rd_first_occurrence {st : weighted_LCA} {n : Nat} (h : Sized st n) {x : Int}
    (h0 : 0 ≤ x) (h1 : x < n) : rd st.first_occurrence x = some (fo st x) :=
  rd_getD h.fo h0 h1

theorem rd_tour_start {st : weighted_LCA} {n : Nat} (h : Sized st n) {x : Int} (h0 : 0 ≤ x)
    (h1 : x < n) : rd st.tour_start x = some (tsk st x) := rd_getD h.ts h0 h1

theorem rd_tour_end {st : weighted_LCA} {n : Nat} (h : Sized st n) {x : Int} (h0 : 0 ≤ x)
    (h1 : x < n) : rd st.tour_end x = some (te st x) := rd_getD h.te h0 h1

theorem rd_heavy_root {st : weighted_LCA} {n : Nat} (h : Sized st n) {x : Int} (h0 : 0 ≤ x)
    (h1 : x < n) : rd st.heavy_root x = some (hr st x) := rd_getD h.hr h0 h1

theorem rd_parent {st : weighted_LCA} {n : Nat} (h : Sized st n) {x : Int} (h0 : 0 ≤ x)
    (h1 : x < n) : rd st.parent x = some (parent_of st x) := by
  obtain ⟨v, hv⟩ := rd_of_bounds st.parent x h0 (by rw [h.2.2.1]; exact h1)
  rw [hv, parent_of_eq h0 hv]

/-- Before the first occurrence of a node the Euler tour holds its parent. -/
theorem lay_prev (st : weighted_LCA) : ∀ (G : Forest) (par d wdp : Int) (hv : Bool)
    (e0 p0 : Int), Lay st G par d wdp hv e0 p0 → (∀ x ∈ G.labels, 0 ≤ x) →
    (0 < e0 → rd st.euler (e0 - 1) = some par) →
    ∀ x ∈ G.labels, 0 < fo st x → rd st.euler (fo st x - 1) = some (parent_of st x) := by
  intro G
  induction G with
  | nil => intro _ _ _ _ _ _ _ _ _ x hx; simp [Forest.labels] at hx
  | cons v w K R ih1 ih2 =>
    intro par d wdp hv e0 p0 hL hpos hprev x hx hfx
    simp only [Lay] at hL
    obtain ⟨⟨r1, _⟩, ⟨t1, t2, t3, t4, t5, t6, t7⟩, hK, hR⟩ := hL
    have hv0 : 0 ≤ v := hpos v (by simp [Forest.labels])
    have efo : fo st v = e0 := by simp [fo, t1]
    have epar : parent_of st v = par := parent_of_eq hv0 r1
    simp only [Forest.labels, List.mem_cons, List.mem_append] at hx
    rcases hx with hx | hx | hx
    · subst hx
      rw [efo] at hfx ⊢
      rw [epar]
      exact hprev hfx
    · exact ih1 v _ _ true (e0 + 1) (p0 + 1) hK
        (fun z hz => hpos z (by simp [Forest.labels, hz]))
        (fun _ => by simpa using t2) x hx hfx
    · refine ih2 par _ _ false _ _ hR (fun z hz => hpos z (by simp [Forest.labels, hz]))
        (fun _ => ?_) x hx hfx
      have e : e0 + 2 + 2 * (K.size : Int) - 1 = e0 + 1 + 2 * K.size := by ring
      rw [e]; exact t3

end weighted_LCA

namespace weighted_LCA

variable {adj : List (List edge)} {st : weighted_LCA} {F : Forest}

theorem BuiltOn.mem_iff (hB : BuiltOn adj st F) (x : Int) :
    x ∈ F.labels ↔ 0 ≤ x ∧ x < adj.length :=
  (hB.2.1.mem_iff).trans (mem_range_map _ x)

theorem BuiltOn.sized (hB : BuiltOn adj st F) : Sized st adj.length := hB.1

theorem BuiltOn.lay (hB : BuiltOn adj st F) : Lay st F (-1) 0 0 false 0 0 := hB.2.2.2.2.1

theorem BuiltOn.pos (hB : BuiltOn adj st F) : ∀ x ∈ F.labels, 0 ≤ x :=
  fun x hx => ((hB.mem_iff x).1 hx).1

theorem BuiltOn.size_eq (hB : BuiltOn adj st F) : F.size = adj.length := by
  rw [Forest.size_eq_length_labels, hB.2.1.length_eq]; simp

/-- The facts at one node of a built structure. -/
theorem BuiltOn.node (hB : BuiltOn adj st F) (x : Int) (h0 : 0 ≤ x) (h1 : x < adj.length) :
    (rd st.euler (fo st x) = some x ∧ rd st.tour_list (tsk st x) = some x ∧
      te st x = tsk st x + ssz st x ∧ 1 ≤ ssz st x ∧
      rd st.euler (lo st x + 1) = some (parent_of st x)) ∧
    (0 ≤ fo st x ∧ lo st x + 2 ≤ 2 * adj.length ∧ 0 ≤ tsk st x ∧
      te st x ≤ adj.length ∧ 0 ≤ dep st x) ∧
    ((parent_of st x = -1 ∧ dep st x = 0) ∨
      ((0 ≤ parent_of st x ∧ parent_of st x < adj.length) ∧
        dep st x = dep st (parent_of st x) + 1 ∧
        wd st x = wd st (parent_of st x) + uw st x ∧
        fo st (parent_of st x) < fo st x ∧ lo st x < lo st (parent_of st x) ∧
        tsk st (parent_of st x) < tsk st x ∧ te st x ≤ te st (parent_of st x))) := by
  have hx : x ∈ F.labels := (hB.mem_iff x).2 ⟨h0, h1⟩
  obtain ⟨a, ⟨b1, b2, b3, b4, b5⟩, c⟩ := lay_node st F _ _ _ _ _ _ hB.lay hB.pos x hx
  rw [hB.size_eq] at b2 b4
  refine ⟨a, ⟨by linarith, by linarith, by linarith, by linarith, by linarith⟩, ?_⟩
  rcases c with ⟨_, c2, c3, _⟩ | ⟨d1, d2⟩
  · exact Or.inl ⟨c2, c3⟩
  · exact Or.inr ⟨(hB.mem_iff _).1 d1, d2⟩

theorem BuiltOn.prev (hB : BuiltOn adj st F) (x : Int) (h0 : 0 ≤ x) (h1 : x < adj.length)
    (hfx : 0 < fo st x) : rd st.euler (fo st x - 1) = some (parent_of st x) :=
  lay_prev st F _ _ _ _ _ _ hB.lay hB.pos (fun h => absurd h (lt_irrefl _)) x
    ((hB.mem_iff x).2 ⟨h0, h1⟩) hfx

theorem BuiltOn.interval (hB : BuiltOn adj st F) (u : Int) (h0 : 0 ≤ u)
    (h1 : u < adj.length) (j : Int) (hj0 : fo st u ≤ j) (hj1 : j ≤ lo st u) :
    ∃ y, rd st.euler j = some y ∧ (0 ≤ y ∧ y < adj.length) ∧ IsAnc st u y := by
  obtain ⟨y, a, b, c⟩ := lay_interval st F _ _ _ _ _ _ hB.lay hB.pos u
    ((hB.mem_iff u).2 ⟨h0, h1⟩) j hj0 hj1
  exact ⟨y, a, (hB.mem_iff y).1 b, c⟩

theorem BuiltOn.entries (hB : BuiltOn adj st F) (j : Int) (hj0 : 0 ≤ j)
    (hj1 : j < 2 * adj.length) :
    ∃ y, rd st.euler j = some y ∧
      (y = -1 ∨ ((0 ≤ y ∧ y < adj.length) ∧ fo st y ≤ j ∧ j ≤ lo st y)) := by
  obtain ⟨y, a, b⟩ := lay_entries st F _ _ _ _ _ _ hB.lay j hj0
    (by rw [hB.size_eq]; linarith)
  refine ⟨y, a, ?_⟩
  rcases b with h | ⟨h, h2⟩
  · exact Or.inl h
  · exact Or.inr ⟨(hB.mem_iff y).1 h, h2⟩

theorem BuiltOn.pre_interval (hB : BuiltOn adj st F) (u : Int) (h0 : 0 ≤ u)
    (h1 : u < adj.length) (q : Int) (hq0 : tsk st u ≤ q) (hq1 : q < te st u) :
    ∃ y, rd st.tour_list q = some y ∧ (0 ≤ y ∧ y < adj.length) ∧ tsk st y = q ∧
      IsAnc st u y := by
  obtain ⟨y, a, b, c⟩ := lay_pre_interval st F _ _ _ _ _ _ hB.lay hB.pos u
    ((hB.mem_iff u).2 ⟨h0, h1⟩) q hq0 hq1
  exact ⟨y, a, (hB.mem_iff y).1 b, c⟩

theorem BuiltOn.pre_entries (hB : BuiltOn adj st F) (q : Int) (hq0 : 0 ≤ q)
    (hq1 : q < adj.length) :
    ∃ y, rd st.tour_list q = some y ∧ (0 ≤ y ∧ y < adj.length) ∧ tsk st y = q := by
  obtain ⟨y, a, b, c⟩ := lay_pre_entries st F _ _ _ _ _ _ hB.lay q hq0
    (by rw [hB.size_eq]; linarith)
  exact ⟨y, a, (hB.mem_iff y).1 b, c⟩

theorem BuiltOn.heavy (hB : BuiltOn adj st F) (x : Int) (h0 : 0 ≤ x) (h1 : x < adj.length) :
    hr st x = x ∨
    ((0 ≤ parent_of st x ∧ parent_of st x < adj.length) ∧
      tsk st x = tsk st (parent_of st x) + 1 ∧ hr st x = hr st (parent_of st x)) := by
  rcases lay_heavy st F _ _ _ _ _ _ hB.lay hB.pos x ((hB.mem_iff x).2 ⟨h0, h1⟩) with
    h | ⟨a, b⟩ | ⟨a, _⟩
  · exact Or.inl h
  · exact Or.inr ⟨(hB.mem_iff _).1 a, b⟩
  · simp at a

/-- Following `k` parent links from a node leads to `-1` or to a node `k` levels higher
whose Euler and tour intervals enclose those of the node. -/
theorem BuiltOn.kth (hB : BuiltOn adj st F) (x : Int) (h0 : 0 ≤ x) (h1 : x < adj.length) :
    ∀ k : Nat, (kth_parent st k x = -1 ∧ dep st x < k) ∨
      ((0 ≤ kth_parent st k x ∧ kth_parent st k x < adj.length) ∧
        dep st (kth_parent st k x) + k = dep st x ∧
        fo st (kth_parent st k x) ≤ fo st x ∧ lo st x ≤ lo st (kth_parent st k x) ∧
        tsk st (kth_parent st k x) ≤ tsk st x ∧ te st x ≤ te st (kth_parent st k x)) := by
  intro k
  induction k with
  | zero =>
    right
    exact ⟨⟨h0, h1⟩, by simp [kth_parent], le_refl _, le_refl _, le_refl _, le_refl _⟩
  | succ k ih =>
    rw [kth_parent_succ]
    rcases ih with ⟨a, b⟩ | ⟨⟨a0, a1⟩, b, c, d, e, f⟩
    · left
      rw [a, parent_of_neg st (by omega)]
      exact ⟨rfl, by push_cast; omega⟩
    · obtain ⟨_, _, h3⟩ := hB.node _ a0 a1
      rcases h3 with ⟨p1, p2⟩ | ⟨q0, q1, _, q3, q4, q5, q6⟩
      · left
        exact ⟨p1, by push_cast; omega⟩
      · right
        exact ⟨q0, by push_cast; omega, by omega, by omega, by omega, by omega⟩

theorem euler_depths_det (st : weighted_LCA) (l ed : List Int)
    (h : euler_depths st l = some ed) :
    ed.length = l.length ∧ ∀ (j : Int) (x : Int), rd l j = some x →
      rd ed j = (if x < 0 then some x else rd st.depth x) := by
  induction l generalizing ed with
  | nil =>
    simp only [euler_depths, Option.some.injEq] at h
    subst h
    exact ⟨rfl, fun j x hj => by simp [rd] at hj⟩
  | cons a l ih =>
    simp only [euler_depths, Option.bind_eq_bind, Option.pure_def] at h
    cases hd : (if a < 0 then some a else rd st.depth a) with
    | none =>
      by_cases c : a < 0
      · simp [c] at hd
      · simp only [c, if_false] at hd h
        simp [hd] at h
    | some d =>
      have h2 : (euler_depths st l).bind (fun tl => some (d :: tl)) = some ed := by
        by_cases c : a < 0
        · simp only [c, if_true, Option.some.injEq] at hd h
          subst hd
          simpa using h
        · simp only [c, if_false] at hd h
          simpa [hd] using h
      cases hl : euler_depths st l with
      | none => simp [hl] at h2
      | some tl =>
        simp only [hl, Option.some_bind, Option.some.injEq] at h2
        subst h2
        obtain ⟨e1, e2⟩ := ih tl hl
        refine ⟨by simp [e1], ?_⟩
        intro j x hj
        have hj0 := (rd_bounds hj).1
        by_cases c : j = 0
        · subst c
          rw [rd_cons_zero] at hj ⊢
          injection hj with e
          subst e
          exact hd.symm
        · have e : j = (j - 1) + 1 := by ring
          rw [e, rd_cons_succ _ _ _ (by omega)] at hj ⊢
          exact e2 _ x hj

/-- The values of the RMQ of a built structure are the depths along the Euler tour. -/
theorem BuiltOn.values (hB : BuiltOn adj st F) :
    (st.rmq.values.length : Int) = 2 * adj.length ∧
    ∀ (j : Int) (x : Int), rd st.euler j = some x →
      rd st.rmq.values j = some (if x < 0 then x else dep st x) := by
  obtain ⟨e1, e2⟩ := euler_depths_det st st.euler st.rmq.values hB.2.2.2.2.2.2.2.2.2.1
  refine ⟨by rw [e1]; exact hB.2.2.2.2.2.1, ?_⟩
  intro j x hj
  rw [e2 j x hj]
  by_cases c : x < 0
  · simp [c]
  · simp only [c, if_false]
    obtain ⟨hj0, hj1⟩ := rd_bounds hj
    obtain ⟨y, hy, hy2⟩ := hB.entries j hj0 (by rw [← hB.2.2.2.2.2.1]; exact hj1)
    rw [hj] at hy
    injection hy with e
    subst e
    rcases hy2 with h | ⟨⟨h0, h1⟩, _⟩
    · omega
    · exact rd_depth hB.sized h0 h1

theorem BuiltOn.fo_le_lo (hB : BuiltOn adj st F) (x : Int) (h0 : 0 ≤ x)
    (h1 : x < adj.length) : fo st x ≤ lo st x := by
  obtain ⟨⟨_, _, _, h, _⟩, _, _⟩ := hB.node x h0 h1
  unfold lo
  linarith

/-- An ancestor that is a node encloses the Euler interval of its descendant. -/
theorem BuiltOn.anc_interval (hB : BuiltOn adj st F) (u x : Int) (h0 : 0 ≤ x)
    (h1 : x < adj.length) (hu : 0 ≤ u) (h : IsAnc st u x) :
    (0 ≤ u ∧ u < adj.length) ∧ dep st u ≤ dep st x ∧ fo st u ≤ fo st x ∧
      lo st x ≤ lo st u ∧ tsk st u ≤ tsk st x ∧ te st x ≤ te st u := by
  obtain ⟨k, hk⟩ := h
  rcases hB.kth x h0 h1 k with ⟨a, _⟩ | ⟨a, b, c, d, e, f⟩
  · rw [hk] at a; omega
  · rw [hk] at a b c d e f
    exact ⟨a, by omega, c, d, e, f⟩

/-- The range minimum over the first occurrences of two nodes with a common ancestor
sits at their lowest common ancestor. -/
theorem BuiltOn.lca_aux (hB : BuiltOn adj st F) (a b r : Int) (ha0 : 0 ≤ a)
    (ha1 : a < adj.length) (hb0 : 0 ≤ b) (hb1 : b < adj.length) (hr0 : 0 ≤ r)
    (hra : IsAnc st r a) (hrb : IsAnc st r b) (hab : fo st a ≤ fo st b) (m : Int)
    (hm : RMQ.IsLastMin st.rmq.values (fo st a) (fo st b + 1) m) :
    ∃ c, rd st.euler m = some c ∧ (0 ≤ c ∧ c < adj.length) ∧ IsAnc st c a ∧ IsAnc st c b ∧
      ∀ d, 0 ≤ d → IsAnc st d a → IsAnc st d b → IsAnc st d c := by
  obtain ⟨hm0, hm1, vm, hvm, hmin⟩ := hm
  obtain ⟨⟨hr0, hr1⟩, _, hra2, hra3, _, _⟩ := hB.anc_interval r a ha0 ha1 hr0 hra
  obtain ⟨_, _, _, hrb3, _, _⟩ := hB.anc_interval r b hb0 hb1 hr0 hrb
  have hblo := hB.fo_le_lo b hb0 hb1
  have halo := hB.fo_le_lo a ha0 ha1
  -- every position between the two first occurrences holds a descendant of `r`
  have hin : ∀ j : Int, fo st a ≤ j → j ≤ fo st b →
      ∃ y, rd st.euler j = some y ∧ (0 ≤ y ∧ y < adj.length) ∧
        rd st.rmq.values j = some (dep st y) := by
    intro j h1 h2
    obtain ⟨y, hy, hy2, _⟩ := hB.interval r hr0 hr1 j (by linarith) (by linarith)
    refine ⟨y, hy, hy2, ?_⟩
    rw [hB.values.2 j y hy]
    simp [show ¬ y < 0 by omega]
  obtain ⟨c, hc, ⟨hc0, hc1⟩, hvc⟩ := hin m hm0 (by linarith)
  rw [hvm] at hvc
  injection hvc with hvc
  subst hvc
  obtain ⟨⟨e1, _, _, _, e5⟩, ⟨g1, g2, _, _, _⟩, hpar⟩ := hB.node c hc0 hc1
  -- the position `m` lies between the first and last occurrence of `c`
  have hmc : fo st c ≤ m ∧ m ≤ lo st c := by
    obtain ⟨y, hy, hy2⟩ := hB.entries m (by linarith [(hB.node a ha0 ha1).2.1.1])
      (by linarith [(hB.node b hb0 hb1).2.1.2.1])
    rw [hc] at hy
    injection hy with e
    subst e
    rcases hy2 with h | ⟨_, h⟩
    · omega
    · exact h
  -- a position holding the parent of `c` is not in the range
  have hnopar : ∀ j : Int, fo st a ≤ j → j ≤ fo st b →
      rd st.euler j = some (parent_of st c) → False := by
    intro j h1 h2 h3
    obtain ⟨y, hy, ⟨hy0, hy1⟩, hvy⟩ := hin j h1 h2
    rw [h3] at hy
    injection hy with e
    rcases hpar with ⟨p1, _⟩ | ⟨_, p2, _⟩
    · rw [← e, p1] at hy0; omega
    · have := (hmin j (dep st y) h1 (by linarith) hvy).1
      rw [← e] at this
      omega
  have hfa : fo st c ≤ fo st a := by
    by_contra hcon
    push_neg at hcon
    have hprev := hB.prev c hc0 hc1 (by linarith [(hB.node a ha0 ha1).2.1.1])
    exact hnopar (fo st c - 1) (by omega) (by omega) hprev
  have hfb : fo st b ≤ lo st c := by
    by_contra hcon
    push_neg at hcon
    exact hnopar (lo st c + 1) (by omega) (by omega) e5
  refine ⟨c, hc, ⟨hc0, hc1⟩, ?_, ?_, ?_⟩
  · obtain ⟨y, hy, _, hy3⟩ := hB.interval c hc0 hc1 (fo st a) hfa (by linarith)
    rw [(hB.node a ha0 ha1).1.1] at hy
    injection hy with e
    rw [e]; exact hy3
  · obtain ⟨y, hy, _, hy3⟩ := hB.interval c hc0 hc1 (fo st b) (by linarith) hfb
    rw [(hB.node b hb0 hb1).1.1] at hy
    injection hy with e
    rw [e]; exact hy3
  · intro d hd0 hda hdb
    obtain ⟨⟨hd0, hd1⟩, _, hda2, _, _, _⟩ := hB.anc_interval d a ha0 ha1 hd0 hda
    obtain ⟨_, _, _, hdb3, _, _⟩ := hB.anc_interval d b hb0 hb1 hd0 hdb
    obtain ⟨y, hy, _, hy3⟩ := hB.interval d hd0 hd1 m (by linarith) (by linarith)
    rw [hc] at hy
    injection hy with e
    rw [e]; exact hy3

theorem BuiltOn.query (hB : BuiltOn adj st F) (a b : Int) (ha0 : 0 ≤ a)
    (ha1 : a < adj.length) (hb0 : 0 ≤ b) (hb1 : b < adj.length) (hab : fo st a ≤ fo st b) :
    ∃ m, st.rmq.query_index (fo st a) (fo st b + 1) = some m ∧
      RMQ.IsLastMin st.rmq.values (fo st a) (fo st b + 1) m := by
  have h1 := (hB.node a ha0 ha1).2.1.1
  have h2 := (hB.node b hb0 hb1).2.1.2.1
  have h3 := hB.fo_le_lo b hb0 hb1
  exact RMQ.query_index_spec st.rmq hB.2.2.2.2.2.2.2.2.1 hB.2.2.2.2.2.2.2.2.2.2.1 _ _ h1
    (by linarith) (by rw [hB.values.1]; linarith)

/-- The root of the tree of a node: its ancestor of depth 0. -/
theorem BuiltOn.root (hB : BuiltOn adj st F) (x : Int) (h0 : 0 ≤ x) (h1 : x < adj.length) :
    ∃ r : Int, (0 ≤ r ∧ r < adj.length) ∧ IsAnc st r x ∧ parent_of st r = -1 ∧ dep st r = 0 ∧
      r = kth_parent st (dep st x).toNat x := by
  have hd := (hB.node x h0 h1).2.1.2.2.2.2
  rcases hB.kth x h0 h1 (dep st x).toNat with ⟨_, h⟩ | ⟨hr, h, _⟩
  · exfalso
    have : (((dep st x).toNat : Nat) : Int) = dep st x := Int.toNat_of_nonneg hd
    omega
  · refine ⟨_, hr, ⟨_, rfl⟩, ?_, ?_, rfl⟩
    · have : (((dep st x).toNat : Nat) : Int) = dep st x := Int.toNat_of_nonneg hd
      rcases (hB.node _ hr.1 hr.2).2.2 with ⟨p, _⟩ | ⟨hp, hq, _⟩
      · exact p
      · have := (hB.node _ hp.1 hp.2).2.1.2.2.2.2
        omega
    · have : (((dep st x).toNat : Nat) : Int) = dep st x := Int.toNat_of_nonneg hd
      omega

/-- The range minimum over the first occurrences of two nodes without a common ancestor
sits at a separator. -/
theorem BuiltOn.lca_none_aux (hB : BuiltOn adj st F) (a b : Int) (ha0 : 0 ≤ a)
    (ha1 : a < adj.length) (hb0 : 0 ≤ b) (hb1 : b < adj.length)
    (hno : ¬ ∃ r, 0 ≤ r ∧ IsAnc st r a ∧ IsAnc st r b) (hab : fo st a ≤ fo st b) (m : Int)
    (hm : RMQ.IsLastMin st.rmq.values (fo st a) (fo st b + 1) m) :
    rd st.euler m = some (-1) := by
  obtain ⟨hm0, hm1, vm, hvm, hmin⟩ := hm
  obtain ⟨r, ⟨hr0, hr1⟩, hra, hrp, _, _⟩ := hB.root a ha0 ha1
  obtain ⟨_, _, hra2, hra3, _, _⟩ := hB.anc_interval r a ha0 ha1 hr0 hra
  have halo := hB.fo_le_lo a ha0 ha1
  have hsep : rd st.euler (lo st r + 1) = some (-1) := by
    rw [← hrp]; exact (hB.node r hr0 hr1).1.2.2.2.2
  have hsb : lo st r + 1 ≤ fo st b := by
    by_contra hcon
    push_neg at hcon
    obtain ⟨y, hy, _, hy3⟩ := hB.interval r hr0 hr1 (fo st b) (by linarith) (by linarith)
    rw [(hB.node b hb0 hb1).1.1] at hy
    injection hy with e
    exact hno ⟨r, hr0, hra, by rw [e]; exact hy3⟩
  have hvs : rd st.rmq.values (lo st r + 1) = some (-1) := by
    rw [hB.values.2 _ _ hsep]; simp
  have hle := (hmin _ _ (by linarith) (by linarith) hvs).1
  obtain ⟨y, hy, hy2⟩ := hB.entries m (by linarith [(hB.node a ha0 ha1).2.1.1])
    (by linarith [(hB.node b hb0 hb1).2.1.2.1, hB.fo_le_lo b hb0 hb1])
  rcases hy2 with h | ⟨⟨h0, h1⟩, _⟩
  · rw [hy, h]
  · exfalso
    have hv := hB.values.2 _ _ hy
    simp only [show ¬ y < 0 by omega, if_false] at hv
    rw [hvm] at hv
    injection hv with hv
    have := (hB.node y h0 h1).2.1.2.2.2.2
    omega

theorem BuiltOn.get_lca_unfold (hB : BuiltOn adj st F) (a b : Int) (ha0 : 0 ≤ a)
    (ha1 : a < adj.length) (hb0 : 0 ≤ b) (hb1 : b < adj.length) :
    get_lca st a b = (if fo st b < fo st a then st.rmq.query_index (fo st b) (fo st a + 1)
      else st.rmq.query_index (fo st a) (fo st b + 1)).bind (fun i => rd st.euler i) := by
  unfold get_lca
  have h1 : rd st.first_occurrence a = some (fo st a) := rd_first_occurrence hB.sized ha0 ha1
  have h2 : rd st.first_occurrence b = some (fo st b) := rd_first_occurrence hB.sized hb0 hb1
  by_cases c : fo st b < fo st a
  · simp only [h1, h2, c, if_true, Option.bind_eq_bind, Option.some_bind]
  · simp only [h1, h2, c, if_false, Option.bind_eq_bind, Option.some_bind]

/-- On two nodes with a common ancestor `get_lca` returns their lowest common ancestor. -/
theorem BuiltOn.get_lca_conn (hB : BuiltOn adj st F) (a b r : Int) (ha0 : 0 ≤ a)
    (ha1 : a < adj.length) (hb0 : 0 ≤ b) (hb1 : b < adj.length) (hr0 : 0 ≤ r)
    (hra : IsAnc st r a) (hrb : IsAnc st r b) :
    ∃ c, get_lca st a b = some c ∧ (0 ≤ c ∧ c < adj.length) ∧ IsAnc st c a ∧ IsAnc st c b ∧
      ∀ d, 0 ≤ d → IsAnc st d a → IsAnc st d b → IsAnc st d c := by
  rw [hB.get_lca_unfold a b ha0 ha1 hb0 hb1]
  by_cases hlt : fo st b < fo st a
  · simp only [hlt, if_true]
    obtain ⟨m, hq, hm⟩ := hB.query b a hb0 hb1 ha0 ha1 (le_of_lt hlt)
    obtain ⟨c, h1, h2, h3, h4, h5⟩ := hB.lca_aux b a r hb0 hb1 ha0 ha1 hr0 hrb hra
      (le_of_lt hlt) m hm
    exact ⟨c, by simp [hq, h1], h2, h4, h3, fun d hd h6 h7 => h5 d hd h7 h6⟩
  · simp only [hlt, if_false]
    push_neg at hlt
    obtain ⟨m, hq, hm⟩ := hB.query a b ha0 ha1 hb0 hb1 hlt
    obtain ⟨c, h1, h2, h3, h4, h5⟩ := hB.lca_aux a b r ha0 ha1 hb0 hb1 hr0 hra hrb hlt m hm
    exact ⟨c, by simp [hq, h1], h2, h3, h4, h5⟩

/-- On two nodes without a common ancestor `get_lca` returns `-1`. -/
theorem BuiltOn.get_lca_disc (hB : BuiltOn adj st F) (a b : Int) (ha0 : 0 ≤ a)
    (ha1 : a < adj.length) (hb0 : 0 ≤ b) (hb1 : b < adj.length)
    (hno : ¬ ∃ r, 0 ≤ r ∧ IsAnc st r a ∧ IsAnc st r b) : get_lca st a b = some (-1) := by
  rw [hB.get_lca_unfold a b ha0 ha1 hb0 hb1]
  by_cases hlt : fo st b < fo st a
  · simp only [hlt, if_true]
    obtain ⟨m, hq, hm⟩ := hB.query b a hb0 hb1 ha0 ha1 (le_of_lt hlt)
    have := hB.lca_none_aux b a hb0 hb1 ha0 ha1
      (fun ⟨r, h0, h1, h2⟩ => hno ⟨r, h0, h2, h1⟩) (le_of_lt hlt) m hm
    simp [hq, this]
  · simp only [hlt, if_false]
    push_neg at hlt
    obtain ⟨m, hq, hm⟩ := hB.query a b ha0 ha1 hb0 hb1 hlt
    have := hB.lca_none_aux a b ha0 ha1 hb0 hb1 hno hlt m hm
    simp [hq, this]

/-- The value of `is_ancestor` on two nodes. -/
theorem BuiltOn.is_ancestor_eq (hB : BuiltOn adj st F) (a b : Int) (ha0 : 0 ≤ a)
    (ha1 : a < adj.length) (hb0 : 0 ≤ b) (hb1 : b < adj.length) :
    is_ancestor st a b = some (decide (tsk st a ≤ tsk st b ∧ tsk st b < te st a)) := by
  unfold is_ancestor
  have h1 : rd st.tour_start a = some (tsk st a) := rd_tour_start hB.sized ha0 ha1
  have h2 : rd st.tour_start b = some (tsk st b) := rd_tour_start hB.sized hb0 hb1
  have h3 : rd st.tour_end a = some (te st a) := rd_tour_end hB.sized ha0 ha1
  simp only [h1, h2, h3, Option.bind_eq_bind, Option.some_bind, Option.pure_def]
  by_cases c : tsk st a ≤ tsk st b
  · simp [c]
  · simp [c]

/-- The preorder interval test is the ancestor relation. -/
theorem BuiltOn.anc_iff (hB : BuiltOn adj st F) (a b : Int) (ha0 : 0 ≤ a)
    (ha1 : a < adj.length) (hb0 : 0 ≤ b) (hb1 : b < adj.length) :
    (tsk st a ≤ tsk st b ∧ tsk st b < te st a) ↔ IsAnc st a b := by
  constructor
  · rintro ⟨h1, h2⟩
    obtain ⟨y, hy, _, _, hy3⟩ := hB.pre_interval a ha0 ha1 (tsk st b) h1 h2
    rw [(hB.node b hb0 hb1).1.2.1] at hy
    injection hy with e
    rw [e]; exact hy3
  · intro h
    obtain ⟨_, _, _, _, h5, h6⟩ := hB.anc_interval a b hb0 hb1 ha0 h
    obtain ⟨⟨_, _, h7, h8, _⟩, _, _⟩ := hB.node b hb0 hb1
    exact ⟨h5, by linarith⟩

/-- The positions in the preorder determine the nodes. -/
theorem BuiltOn.tsk_inj (hB : BuiltOn adj st F) (a b : Int) (ha0 : 0 ≤ a)
    (ha1 : a < adj.length) (hb0 : 0 ≤ b) (hb1 : b < adj.length) (h : tsk st a = tsk st b) :
    a = b := by
  have h1 := (hB.node a ha0 ha1).1.2.1
  have h2 := (hB.node b hb0 hb1).1.2.1
  rw [h, h2] at h1
  injection h1 with e
  exact e.symm

end weighted_LCA

namespace weighted_LCA

/-- The top edges of a laid-out forest lead to children of `par` with their weights. -/
theorem lay_top (st : weighted_LCA) : ∀ (G : Forest) (par d wdp : Int) (hv : Bool)
    (e0 p0 : Int), Lay st G par d wdp hv e0 p0 → (∀ x ∈ G.labels, 0 ≤ x) →
    ∀ e ∈ G.topEdges, e.node ∈ G.labels ∧ parent_of st e.node = par ∧
      uw st e.node = e.weight ∧ wd st e.node = wdp + e.weight ∧ dep st e.node = d := by
  intro G
  induction G with
  | nil => intro _ _ _ _ _ _ _ _ e he; simp [Forest.topEdges] at he
  | cons v w K R _ ih2 =>
    intro par d wdp hv e0 p0 hL hpos e he
    simp only [Lay] at hL
    obtain ⟨⟨r1, r2, r3, r4, _⟩, _, _, hR⟩ := hL
    have hv0 : 0 ≤ v := hpos v (by simp [Forest.labels])
    simp only [Forest.topEdges, List.mem_cons] at he
    rcases he with he | he
    · subst he
      exact ⟨by simp [Forest.labels], parent_of_eq hv0 r1, by simp [uw, r4], by simp [wd, r3],
        by simp [dep, r2]⟩
    · obtain ⟨a, b⟩ := ih2 par d wdp false _ _ hR
        (fun z hz => hpos z (by simp [Forest.labels, hz])) e he
      exact ⟨by simp [Forest.labels, a], b⟩

/-- The input row of a node holds the edge to its parent and the edges to its children. -/
theorem lay_rows (adj : List (List edge)) (st : weighted_LCA) : ∀ (G : Forest)
    (par d wdp : Int) (hv : Bool) (e0 p0 : Int), Realizes adj G par →
    Lay st G par d wdp hv e0 p0 → (∀ x ∈ G.labels, 0 ≤ x) →
    ∀ x ∈ G.labels, ∃ row, rd adj x = some row ∧
      (∀ e ∈ row, (0 ≤ parent_of st x ∧ e = ⟨parent_of st x, uw st x⟩) ∨
        (e.node ∈ G.labels ∧ parent_of st e.node = x ∧ uw st e.node = e.weight)) ∧
      (0 ≤ parent_of st x → (⟨parent_of st x, uw st x⟩ : edge) ∈ row) := by
  intro G
  induction G with
  | nil => intro _ _ _ _ _ _ _ _ _ x hx; simp [Forest.labels] at hx
  | cons v w K R ih1 ih2 =>
    intro par d wdp hv e0 p0 hreal hL hpos x hx
    have hL0 := hL
    simp only [Lay] at hL
    simp only [Realizes] at hreal
    obtain ⟨⟨r1, r2, r3, r4, _⟩, _, hK, hR⟩ := hL
    obtain ⟨⟨row, hrow, hperm⟩, hKreal, hRreal⟩ := hreal
    have hv0 : 0 ≤ v := hpos v (by simp [Forest.labels])
    have hKpos : ∀ z ∈ K.labels, 0 ≤ z := fun z hz => hpos z (by simp [Forest.labels, hz])
    have hRpos : ∀ z ∈ R.labels, 0 ≤ z := fun z hz => hpos z (by simp [Forest.labels, hz])
    have epar : parent_of st v = par := parent_of_eq hv0 r1
    have euw : uw st v = w := by simp [uw, r4]
    simp only [Forest.labels, List.mem_cons, List.mem_append] at hx
    rcases hx with hx | hx | hx
    · subst hx
      refine ⟨row, hrow, ?_, ?_⟩
      · intro e he
        have he2 := hperm.mem_iff.1 he
        simp only [List.mem_append] at he2
        rcases he2 with h | h
        · left
          by_cases c : 0 ≤ par
          · simp only [c, if_true, List.mem_singleton] at h
            rw [epar, euw]; exact ⟨c, h⟩
          · simp [c] at h
        · right
          obtain ⟨a, b, c, _⟩ := lay_top st K x _ _ _ _ _ hK hKpos e h
          exact ⟨by simp [Forest.labels, a], b, c⟩
      · intro h
        rw [epar] at h
        rw [epar, euw]
        apply hperm.mem_iff.2
        simp [h]
    · obtain ⟨row1, a, b, c⟩ := ih1 v _ _ _ _ _ hKreal hK hKpos x hx
      refine ⟨row1, a, fun e he => ?_, c⟩
      rcases b e he with h | ⟨h1, h2⟩
      · exact Or.inl h
      · exact Or.inr ⟨by simp [Forest.labels, h1], h2⟩
    · obtain ⟨row1, a, b, c⟩ := ih2 par _ _ _ _ _ hRreal hR hRpos x hx
      refine ⟨row1, a, fun e he => ?_, c⟩
      rcases b e he with h | ⟨h1, h2⟩
      · exact Or.inl h
      · exact Or.inr ⟨by simp [Forest.labels, h1], h2⟩

/-- The input row of the parent of a node holds the edge to the node. -/
theorem lay_rows_down (adj : List (List edge)) (st : weighted_LCA) : ∀ (G : Forest)
    (par d wdp : Int) (hv : Bool) (e0 p0 : Int), Realizes adj G par →
    Lay st G par d wdp hv e0 p0 → (∀ x ∈ G.labels, 0 ≤ x) →
    (0 ≤ par → ∃ rowp, rd adj par = some rowp ∧ ∀ e ∈ G.topEdges, e ∈ rowp) →
    ∀ x ∈ G.labels, 0 ≤ parent_of st x →
      ∃ rowp, rd adj (parent_of st x) = some rowp ∧ (⟨x, uw st x⟩ : edge) ∈ rowp := by
  intro G
  induction G with
  | nil => intro _ _ _ _ _ _ _ _ _ _ x hx; simp [Forest.labels] at hx
  | cons v w K R ih1 ih2 =>
    intro par d wdp hv e0 p0 hreal hL hpos htop x hx hp
    simp only [Lay] at hL
    simp only [Realizes] at hreal
    obtain ⟨⟨r1, r2, r3, r4, _⟩, _, hK, hR⟩ := hL
    obtain ⟨⟨row, hrow, hperm⟩, hKreal, hRreal⟩ := hreal
    have hv0 : 0 ≤ v := hpos v (by simp [Forest.labels])
    have hKpos : ∀ z ∈ K.labels, 0 ≤ z := fun z hz => hpos z (by simp [Forest.labels, hz])
    have hRpos : ∀ z ∈ R.labels, 0 ≤ z := fun z hz => hpos z (by simp [Forest.labels, hz])
    have epar : parent_of st v = par := parent_of_eq hv0 r1
    have euw : uw st v = w := by simp [uw, r4]
    simp only [Forest.labels, List.mem_cons, List.mem_append] at hx
    rcases hx with hx | hx | hx
    · subst hx
      rw [epar] at hp ⊢
      obtain ⟨rowp, h1, h2⟩ := htop hp
      exact ⟨rowp, h1, by rw [euw]; exact h2 _ (by simp [Forest.topEdges])⟩
    · exact ih1 v _ _ _ _ _ hKreal hK hKpos
        (fun _ => ⟨row, hrow, fun e he => hperm.mem_iff.2 (by simp [he])⟩) x hx hp
    · refine ih2 par _ _ _ _ _ hRreal hR hRpos (fun h => ?_) x hx hp
      obtain ⟨rowp, h1, h2⟩ := htop h
      exact ⟨rowp, h1, fun e he => h2 e (by simp [Forest.topEdges, he])⟩

end weighted_LCA

namespace weighted_LCA

variable {adj : List (List edge)} {st : weighted_LCA} {F : Forest}

/-- The edges of the input at a node of a built structure. -/
theorem BuiltOn.rows (hB : BuiltOn adj st F) (x : Int) (h0 : 0 ≤ x) (h1 : x < adj.length) :
    ∃ row, rd adj x = some row ∧
      (∀ e ∈ row, (0 ≤ parent_of st x ∧ e = ⟨parent_of st x, uw st x⟩) ∨
        ((0 ≤ e.node ∧ e.node < adj.length) ∧ parent_of st e.node = x ∧
          uw st e.node = e.weight)) ∧
      (0 ≤ parent_of st x → (⟨parent_of st x, uw st x⟩ : edge) ∈ row) := by
  obtain ⟨row, a, b, c⟩ := lay_rows adj st F _ _ _ _ _ _ hB.2.2.1 hB.lay hB.pos x
    ((hB.mem_iff x).2 ⟨h0, h1⟩)
  refine ⟨row, a, fun e he => ?_, c⟩
  rcases b e he with h | ⟨h1, h2⟩
  · exact Or.inl h
  · exact Or.inr ⟨(hB.mem_iff _).1 h1, h2⟩

theorem BuiltOn.rows_down (hB : BuiltOn adj st F) (x : Int) (h0 : 0 ≤ x)
    (h1 : x < adj.length) (hp : 0 ≤ parent_of st x) :
    ∃ rowp, rd adj (parent_of st x) = some rowp ∧ (⟨x, uw st x⟩ : edge) ∈ rowp :=
  lay_rows_down adj st F _ _ _ _ _ _ hB.2.2.1 hB.lay hB.pos (fun h => absurd h (by omega)) x
    ((hB.mem_iff x).2 ⟨h0, h1⟩) hp

/-- The weighted depth of a root is 0. -/
theorem BuiltOn.root_wd (hB : BuiltOn adj st F) (x : Int) (h0 : 0 ≤ x) (h1 : x < adj.length)
    (hp : parent_of st x = -1) : wd st x = 0 := by
  have hx : x ∈ F.labels := (hB.mem_iff x).2 ⟨h0, h1⟩
  obtain ⟨_, _, c⟩ := lay_node st F _ _ _ _ _ _ hB.lay hB.pos x hx
  rcases c with ⟨c1, _, _, _⟩ | ⟨d1, _⟩
  · rw [Forest.roots_eq_topEdges] at c1
    obtain ⟨e, he, hex⟩ := List.mem_map.1 c1
    obtain ⟨_, _, _, h4, _⟩ := lay_top st F _ _ _ _ _ _ hB.lay hB.pos e he
    rw [hex, hB.2.2.2.2.2.2.2.2.2.2.2.1 e he] at h4
    simpa using h4
  · rw [hp] at d1
    have := hB.pos _ d1
    omega

/-- A node with a parent has the root of its parent. -/
theorem BuiltOn.root_step (hB : BuiltOn adj st F) (x : Int) (h0 : 0 ≤ x)
    (h1 : x < adj.length) (hp : 0 ≤ parent_of st x) :
    kth_parent st (dep st x).toNat x =
      kth_parent st (dep st (parent_of st x)).toNat (parent_of st x) := by
  rcases (hB.node x h0 h1).2.2 with ⟨p, _⟩ | ⟨hpr, hd, _⟩
  · omega
  · have hdp := (hB.node _ hpr.1 hpr.2).2.1.2.2.2.2
    have e : (dep st x).toNat = (dep st (parent_of st x)).toNat + 1 := by omega
    rw [e]
    rfl

/-- A walk along input edges stays among the nodes and inside one tree. -/
theorem BuiltOn.conn_root (hB : BuiltOn adj st F) (a b : Int) (ha0 : 0 ≤ a)
    (ha1 : a < adj.length) (h : Connected adj a b) :
    (0 ≤ b ∧ b < adj.length) ∧
      kth_parent st (dep st a).toNat a = kth_parent st (dep st b).toNat b := by
  induction h with
  | refl => exact ⟨⟨ha0, ha1⟩, rfl⟩
  | @tail x y _ hstep ih =>
    obtain ⟨⟨hx0, hx1⟩, hroot⟩ := ih
    obtain ⟨row, hrow, e, he, hey⟩ := hstep
    obtain ⟨row1, hrow1, hedges, _⟩ := hB.rows x hx0 hx1
    rw [hrow] at hrow1
    injection hrow1 with e1
    subst e1
    rcases hedges e he with ⟨hp, heq⟩ | ⟨hr, hp, _⟩
    · have hy : y = parent_of st x := by rw [← hey, heq]
      rcases (hB.node x hx0 hx1).2.2 with ⟨p, _⟩ | ⟨hpr, _⟩
      · omega
      · rw [hy]
        exact ⟨hpr, by rw [hroot, hB.root_step x hx0 hx1 hp]⟩
    · rw [hey] at hr hp
      refine ⟨hr, ?_⟩
      rw [hroot, hB.root_step y hr.1 hr.2 (by rw [hp]; exact hx0), hp]

/-- A node is joined to each of its ancestors, in both directions. -/
theorem BuiltOn.conn_anc (hB : BuiltOn adj st F) : ∀ (k : Nat) (a : Int), 0 ≤ a →
    a < adj.length → 0 ≤ kth_parent st k a →
    Connected adj a (kth_parent st k a) ∧ Connected adj (kth_parent st k a) a := by
  intro k
  induction k with
  | zero =>
    intro a _ _ _
    exact ⟨Relation.ReflTransGen.refl, Relation.ReflTransGen.refl⟩
  | succ k ih =>
    intro a ha0 ha1 hk
    have hk2 : kth_parent st (k + 1) a = kth_parent st k (parent_of st a) := rfl
    rw [hk2] at hk ⊢
    have hp : 0 ≤ parent_of st a := by
      by_contra hcon
      push_neg at hcon
      rcases (hB.node a ha0 ha1).2.2 with ⟨p, _⟩ | ⟨hpr, _⟩
      · rw [p, kth_parent_neg_one] at hk
        omega
      · omega
    have hpr : parent_of st a < adj.length := by
      rcases (hB.node a ha0 ha1).2.2 with ⟨p, _⟩ | ⟨hpr, _⟩
      · omega
      · exact hpr.2
    obtain ⟨c1, c2⟩ := ih (parent_of st a) hp hpr hk
    obtain ⟨row, hrow, _, hup⟩ := hB.rows a ha0 ha1
    obtain ⟨rowp, hrowp, hdown⟩ := hB.rows_down a ha0 ha1 hp
    constructor
    · exact Relation.ReflTransGen.head ⟨row, hrow, _, hup hp, rfl⟩ c1
    · exact Relation.ReflTransGen.tail c2 ⟨rowp, hrowp, _, hdown, rfl⟩

/-- Two nodes are in one component of the input exactly if they have a common
ancestor. -/
theorem BuiltOn.conn_iff (hB : BuiltOn adj st F) (a b : Int) (ha0 : 0 ≤ a)
    (ha1 : a < adj.length) (hb0 : 0 ≤ b) (hb1 : b < adj.length) :
    Connected adj a b ↔ ∃ r, 0 ≤ r ∧ IsAnc st r a ∧ IsAnc st r b := by
  constructor
  · intro h
    obtain ⟨_, hroot⟩ := hB.conn_root a b ha0 ha1 h
    obtain ⟨r, ⟨hr0, _⟩, hra, _, _, hr⟩ := hB.root a ha0 ha1
    refine ⟨r, hr0, hra, ?_⟩
    rw [hr, hroot]
    exact ⟨_, rfl⟩
  · rintro ⟨r, hr0, ⟨j, hj⟩, ⟨k, hk⟩⟩
    have h1 := (hB.conn_anc j a ha0 ha1 (by rw [hj]; exact hr0)).1
    have h2 := (hB.conn_anc k b hb0 hb1 (by rw [hk]; exact hr0)).2
    rw [hj] at h1
    rw [hk] at h2
    exact h1.trans h2

/-- Nodes that are ancestors of each other are equal. -/
theorem BuiltOn.anc_antisymm (hB : BuiltOn adj st F) (c d : Int) (hc0 : 0 ≤ c)
    (hc1 : c < adj.length) (h1 : IsAnc st c d) (h2 : IsAnc st d c) : d = c := by
  obtain ⟨k, hk⟩ := h2
  rcases hB.kth c hc0 hc1 k with ⟨a, _⟩ | ⟨⟨hd0, hd1⟩, hdep, _⟩
  · rw [hk] at a
    obtain ⟨j, hj⟩ := h1
    rw [a, kth_parent_neg_one] at hj
    omega
  · rw [hk] at hd0 hd1 hdep
    obtain ⟨_, hdep2, _⟩ := hB.anc_interval c d hd0 hd1 hc0 h1
    have : k = 0 := by omega
    subst this
    exact hk.symm

end weighted_LCA

theorem star_adj_isForest : IsForest star_adj := by
  refine ⟨.cons 0 0 (.cons 1 5 .nil (.cons 2 3 .nil (.cons 3 7 .nil .nil))) .nil, by decide, ?_⟩
  simp only [Realizes, Forest.topEdges, and_true]
  exact ⟨⟨_, rfl, by decide⟩, ⟨_, rfl, by decide⟩, trivial, ⟨_, rfl, by decide⟩, trivial,
    ⟨_, rfl, by decide⟩⟩

theorem star_adj_connected (a b : Int) (ha0 : 0 ≤ a) (ha1 : a < star_adj.length)
    (hb0 : 0 ≤ b) (hb1 : b < star_adj.length) : Connected star_adj a b := by
  have key : ∀ x : Int, 0 ≤ x → x < star_adj.length →
      Connected star_adj x 0 ∧ Connected star_adj 0 x := by
    intro x h0 h1
    have hlen : (star_adj.length : Int) = 4 := rfl
    have hx : x = 0 ∨ x = 1 ∨ x = 2 ∨ x = 3 := by omega
    rcases hx with h | h | h | h
    · subst h
      exact ⟨Relation.ReflTransGen.refl, Relation.ReflTransGen.refl⟩
    · subst h
      exact ⟨Relation.ReflTransGen.single ⟨_, rfl, ⟨0, 5⟩, by decide, rfl⟩,
        Relation.ReflTransGen.single ⟨_, rfl, ⟨1, 5⟩, by decide, rfl⟩⟩
    · subst h
      exact ⟨Relation.ReflTransGen.single ⟨_, rfl, ⟨0, 3⟩, by decide, rfl⟩,
        Relation.ReflTransGen.single ⟨_, rfl, ⟨2, 3⟩, by decide, rfl⟩⟩
    · subst h
      exact ⟨Relation.ReflTransGen.single ⟨_, rfl, ⟨0, 7⟩, by decide, rfl⟩,
        Relation.ReflTransGen.single ⟨_, rfl, ⟨3, 7⟩, by decide, rfl⟩⟩
  exact (key a ha0 ha1).1.trans (key b hb0 hb1).2

theorem two_components_adj_isForest : IsForest two_components_adj := by
  refine ⟨.cons 0 0 (.cons 1 5 .nil .nil) (.cons 2 0 (.cons 3 3 .nil .nil) .nil), by decide, ?_⟩
  simp only [Realizes, Forest.topEdges, and_true]
  exact ⟨⟨_, rfl, by decide⟩, ⟨_, rfl, by decide⟩, ⟨_, rfl, by decide⟩, ⟨_, rfl, by decide⟩⟩

theorem two_components_adj_not_connected : ¬ Connected two_components_adj 1 2 := by
  have key : ∀ y, Connected two_components_adj 1 y → y = 0 ∨ y = 1 := by
    intro y h
    induction h with
    | refl => exact Or.inr rfl
    | @tail x y _ hstep ih =>
      obtain ⟨row, hrow, e, he, hey⟩ := hstep
      rcases ih with h | h
      · subst h
        have : row = [⟨1, 5⟩] := by
          have : rd two_components_adj 0 = some [⟨1, 5⟩] := rfl
          rw [this] at hrow
          injection hrow with e1
          exact e1.symm
        subst this
        simp only [List.mem_singleton] at he
        subst he
        exact Or.inr hey.symm
      · subst h
        have : row = [⟨0, 5⟩] := by
          have : rd two_components_adj 1 = some [⟨0, 5⟩] := rfl
          rw [this] at hrow
          injection hrow with e1
          exact e1.symm
        subst this
        simp only [List.mem_singleton] at he
        subst he
        exact Or.inl hey.symm
  intro h
  rcases key 2 h with h | h <;> omega

namespace RMQ

/-- C2: for a value sequence of `n` values (`n` fitting a 32-bit `int`) and a range
`0 <= a < b <= n`, which makes the sequence non-empty, the minimum-mode table is built and `query_index(a, b)` returns an index
`i` of `[a, b)` whose value is at most every value of the range, and which is the largest
index of the range holding that minimum. -/
theorem query_index_returns_last_minimum (vals : List Int)
    (hlt : (vals.length : Int) < 2147483648) (a b : Int) (h0 : 0 ≤ a) (h1 : a < b)
    (h2 : b ≤ vals.length) :
    ∃ r i vi, build false vals = some r ∧ r.query_index a b = some i ∧ a ≤ i ∧ i < b ∧
      rd vals i = some vi ∧
      ∀ j vj, a ≤ j → j < b → rd vals j = some vj → vi ≤ vj ∧ (vj = vi → j ≤ i) := by
  obtain ⟨r, hr, hv, htab⟩ := table_build_spec vals hlt
  obtain ⟨i, hi, hi1, hi2, vi, hvi, hmin⟩ := query_index_spec r htab (by rw [hv]; exact hlt)
    a b h0 h1 (by rw [hv]; exact h2)
  rw [hv] at hvi hmin
  exact ⟨r, i, vi, hr, hi, hi1, hi2, hvi, hmin⟩

theorem query_index_returns_last_minimum_witness :
    ∃ r i vi, build false [3, 1, 4, 1, 5] = some r ∧ r.query_index 0 5 = some i ∧
      (0 : Int) ≤ i ∧ i < 5 ∧ rd ([3, 1, 4, 1, 5] : List Int) i = some vi ∧
      ∀ j vj, (0 : Int) ≤ j → j < 5 → rd ([3, 1, 4, 1, 5] : List Int) j = some vj →
        vi ≤ vj ∧ (vj = vi → j ≤ i) :=
  query_index_returns_last_minimum [3, 1, 4, 1, 5] (by decide) 0 5 (by decide)
    (by decide) (by decide)

end RMQ

namespace weighted_LCA

/-- C8: on a forest (whose Euler tour fits a 32-bit `int`) `build` succeeds, and in the
built structure `is_ancestor(a, b)` returns true exactly if `a` is reached from `b` by
following parent links zero or more times; it is false for nodes of different
components, and `is_ancestor(a, b)` with `is_ancestor(b, a)` gives `a = b`. -/
theorem is_ancestor_iff_parent_links (S : StdSort) (prev : weighted_LCA)
    (adj : List (List edge)) (root : Int)
    (hF : IsForest adj) (hsmall : 2 * (adj.length : Int) < 2147483648) :
    ∃ st, build S (init_adj prev adj) root true = some st ∧
      ∀ a b : Int, 0 ≤ a → a < adj.length → 0 ≤ b → b < adj.length →
        (∃ r, is_ancestor st a b = some r ∧ (r = true ↔ IsAnc st a b)) ∧
        (¬ Connected adj a b → is_ancestor st a b = some false) ∧
        (is_ancestor st a b = some true → is_ancestor st b a = some true → a = b) := by
  obtain ⟨st, F, hb, hB⟩ := build_spec S prev adj root hF hsmall
  refine ⟨st, hb, fun a b ha0 ha1 hb0 hb1 => ⟨?_, ?_, ?_⟩⟩
  · refine ⟨_, hB.is_ancestor_eq a b ha0 ha1 hb0 hb1, ?_⟩
    rw [decide_eq_true_iff]
    exact hB.anc_iff a b ha0 ha1 hb0 hb1
  · intro hno
    rw [hB.is_ancestor_eq a b ha0 ha1 hb0 hb1]
    have : ¬ (tsk st a ≤ tsk st b ∧ tsk st b < te st a) := by
      intro h
      have hanc := (hB.anc_iff a b ha0 ha1 hb0 hb1).1 h
      exact hno ((hB.conn_iff a b ha0 ha1 hb0 hb1).2 ⟨a, ha0, IsAnc.refl st a, hanc⟩)
    simp [this]
  · intro h1 h2
    rw [hB.is_ancestor_eq a b ha0 ha1 hb0 hb1] at h1
    rw [hB.is_ancestor_eq b a hb0 hb1 ha0 ha1] at h2
    injection h1 with h1
    injection h2 with h2
    rw [decide_eq_true_iff] at h1 h2
    exact hB.tsk_inj a b ha0 ha1 hb0 hb1 (le_antisymm h1.1 h2.1)

theorem is_ancestor_iff_parent_links_witness :
    ∃ st, build insertion_sort (init_adj fresh two_components_adj) (-1) true = some st ∧
      ∀ a b : Int, 0 ≤ a → a < two_components_adj.length → 0 ≤ b →
        b < two_components_adj.length →
        (∃ r, is_ancestor st a b = some r ∧ (r = true ↔ IsAnc st a b)) ∧
        (¬ Connected two_components_adj a b → is_ancestor st a b = some false) ∧
        (is_ancestor st a b = some true → is_ancestor st b a = some true → a = b) :=
  is_ancestor_iff_parent_links insertion_sort fresh two_components_adj (-1)
    two_components_adj_isForest (by decide)

/-- C9: on a forest (whose Euler tour fits a 32-bit `int`) `build` succeeds, and in the
built structure `get_lca(a, b)` returns `-1` for every two nodes `a`, `b` of different
components. -/
theorem get_lca_different_components (S : StdSort) (prev : weighted_LCA)
    (adj : List (List edge)) (root : Int)
    (hF : IsForest adj) (hsmall : 2 * (adj.length : Int) < 2147483648) :
    ∃ st, build S (init_adj prev adj) root true = some st ∧
      ∀ a b : Int, 0 ≤ a → a < adj.length → 0 ≤ b → b < adj.length →
        ¬ Connected adj a b → get_lca st a b = some (-1) := by
  obtain ⟨st, F, hb, hB⟩ := build_spec S prev adj root hF hsmall
  refine ⟨st, hb, fun a b ha0 ha1 hb0 hb1 hno => ?_⟩
  exact hB.get_lca_disc a b ha0 ha1 hb0 hb1
    (fun h => hno ((hB.conn_iff a b ha0 ha1 hb0 hb1).2 h))

theorem get_lca_different_components_witness :
    ∃ st, build insertion_sort (init_adj fresh two_components_adj) (-1) true = some st ∧
      get_lca st 1 2 = some (-1) := by
  obtain ⟨st, hb, h⟩ := get_lca_different_components insertion_sort fresh two_components_adj (-1)
    two_components_adj_isForest (by decide)
  exact ⟨st, hb, h 1 2 (by decide) (by decide) (by decide) (by decide)
    two_components_adj_not_connected⟩

/-- C10 (as amended): on a forest (whose Euler tour fits a 32-bit `int`) `build` succeeds,
and in the built structure, for two nodes `a`, `b` of different components, `get_lca`
returns `-1` and `get_dist(a, b)` and `get_weighted_dist(a, b)` use it as an index: the
reads `depth[-1]` and `weight_depth[-1]` are out of range, so both queries fail and
report no sentinel. -/
theorem get_dist_different_components_fails (S : StdSort) (prev : weighted_LCA)
    (adj : List (List edge))
    (root : Int) (hF : IsForest adj) (hsmall : 2 * (adj.length : Int) < 2147483648) :
    ∃ st, build S (init_adj prev adj) root true = some st ∧
      ∀ a b : Int, 0 ≤ a → a < adj.length → 0 ≤ b → b < adj.length →
        ¬ Connected adj a b →
        get_lca st a b = some (-1) ∧ rd st.depth (-1) = none ∧
        rd st.weight_depth (-1) = none ∧ get_dist st a b = none ∧
        get_weighted_dist st a b = none := by
  obtain ⟨st, F, hb, hB⟩ := build_spec S prev adj root hF hsmall
  refine ⟨st, hb, fun a b ha0 ha1 hb0 hb1 hno => ?_⟩
  have hl := hB.get_lca_disc a b ha0 ha1 hb0 hb1
    (fun h => hno ((hB.conn_iff a b ha0 ha1 hb0 hb1).2 h))
  have h1 : rd st.depth (-1) = none := rd_neg _ _ (by omega)
  have h2 : rd st.weight_depth (-1) = none := rd_neg _ _ (by omega)
  refine ⟨hl, h1, h2, ?_, ?_⟩
  · unfold get_dist
    rw [rd_depth hB.sized ha0 ha1, rd_depth hB.sized hb0 hb1, hl]
    simp [h1]
  · unfold get_weighted_dist
    rw [rd_weight_depth hB.sized ha0 ha1, rd_weight_depth hB.sized hb0 hb1, hl]
    simp [h2]

theorem get_dist_different_components_fails_witness :
    ∃ st, build insertion_sort (init_adj fresh two_components_adj) (-1) true = some st ∧
      get_lca st 1 2 = some (-1) ∧ rd st.depth (-1) = none ∧
      rd st.weight_depth (-1) = none ∧ get_dist st 1 2 = none ∧
      get_weighted_dist st 1 2 = none := by
  obtain ⟨st, hb, h⟩ := get_dist_different_components_fails insertion_sort fresh
    two_components_adj (-1) two_components_adj_isForest (by decide)
  exact ⟨st, hb, h 1 2 (by decide) (by decide) (by decide) (by decide)
    two_components_adj_not_connected⟩

/-- C10 fails as stated: with the components {0, 1} and {2, 3}, after `build`, the
queries `get_dist(1, 2)` and `get_weighted_dist(1, 2)` fail. -/
theorem get_dist_different_components_counterexample :
    ((build insertion_sort (init_adj fresh two_components_adj) (-1) true).bind
        (fun st => get_dist st 1 2) = none) ∧
      ((build insertion_sort (init_adj fresh two_components_adj) (-1) true).bind
        (fun st => get_weighted_dist st 1 2) = none) ∧
      (build insertion_sort (init_adj fresh two_components_adj) (-1) true).isSome = true := by
  decide

end weighted_LCA

namespace weighted_LCA

variable {adj : List (List edge)} {st : weighted_LCA} {F : Forest}

/-- The depth of a node is at most its position in the preorder. -/
theorem BuiltOn.dep_le_tsk (hB : BuiltOn adj st F) : ∀ (d : Nat) (x : Int), 0 ≤ x →
    x < adj.length → dep st x = d → (d : Int) ≤ tsk st x := by
  intro d
  induction d with
  | zero =>
    intro x h0 h1 _
    have := (hB.node x h0 h1).2.1.2.2.1
    simpa using this
  | succ d ih =>
    intro x h0 h1 hd
    rcases (hB.node x h0 h1).2.2 with ⟨_, p⟩ | ⟨hp, hdp, _, _, _, ht, _⟩
    · rw [p] at hd
      push_cast at hd
      omega
    · have := ih _ hp.1 hp.2 (by rw [hdp] at hd; push_cast at hd; omega)
      push_cast
      omega

theorem BuiltOn.dep_lt (hB : BuiltOn adj st F) (x : Int) (h0 : 0 ≤ x) (h1 : x < adj.length) :
    dep st x < adj.length := by
  have hd := (hB.node x h0 h1).2.1.2.2.2.2
  have h := hB.dep_le_tsk (dep st x).toNat x h0 h1 (by omega)
  obtain ⟨⟨_, _, h3, h4, _⟩, ⟨_, _, _, h5, _⟩, _⟩ := hB.node x h0 h1
  have : (((dep st x).toNat : Nat) : Int) = dep st x := Int.toNat_of_nonneg hd
  omega

/-- The heavy path above a node: its top is an ancestor, and going up the path is going
back in the preorder. -/
theorem BuiltOn.chain (hB : BuiltOn adj st F) : ∀ (d : Nat) (x : Int), 0 ≤ x →
    x < adj.length → dep st x = d →
    (0 ≤ hr st x ∧ hr st x < adj.length) ∧ dep st (hr st x) ≤ dep st x ∧
    hr st x = kth_parent st (dep st x - dep st (hr st x)).toNat x ∧
    ∀ j : Nat, (j : Int) ≤ dep st x - dep st (hr st x) →
      tsk st (kth_parent st j x) = tsk st x - j := by
  intro d
  induction d with
  | zero =>
    intro x h0 h1 hd
    rcases hB.heavy x h0 h1 with h | ⟨hp, _, _⟩
    · rw [h]
      refine ⟨⟨h0, h1⟩, le_refl _, by simp [kth_parent], fun j hj => ?_⟩
      have : j = 0 := by omega
      subst this
      simp [kth_parent]
    · exfalso
      rcases (hB.node x h0 h1).2.2 with ⟨p, _⟩ | ⟨hpr, hdp, _⟩
      · omega
      · have := (hB.node _ hpr.1 hpr.2).2.1.2.2.2.2
        simp at hd
        omega
  | succ d ih =>
    intro x h0 h1 hd
    rcases hB.heavy x h0 h1 with h | ⟨hp, ht, hh⟩
    · rw [h]
      refine ⟨⟨h0, h1⟩, le_refl _, by simp [kth_parent], fun j hj => ?_⟩
      have : j = 0 := by omega
      subst this
      simp [kth_parent]
    · rcases (hB.node x h0 h1).2.2 with ⟨p, _⟩ | ⟨_, hdp, _⟩
      · omega
      · obtain ⟨a1, a2, a3, a4⟩ := ih _ hp.1 hp.2 (by rw [hdp] at hd; push_cast at hd; omega)
        rw [hh]
        refine ⟨a1, by omega, ?_, ?_⟩
        · have e : (dep st x - dep st (hr st (parent_of st x))).toNat =
              (dep st (parent_of st x) - dep st (hr st (parent_of st x))).toNat + 1 := by
            omega
          rw [e]
          exact a3
        · intro j hj
          cases j with
          | zero => simp [kth_parent]
          | succ j =>
            show tsk st (kth_parent st j (parent_of st x)) = _
            rw [a4 j (by push_cast at hj; omega), ht]
            push_cast
            ring

/-- The loop of `get_kth_ancestor` follows `k` parent links. -/
theorem BuiltOn.kth_ancestor_loop_spec (hB : BuiltOn adj st F) : ∀ (fuel : Nat) (a k : Int),
    (a = -1 ∨ (0 ≤ a ∧ a < adj.length)) → 0 ≤ k → 1 ≤ fuel → (0 ≤ a → dep st a + 2 ≤ fuel) →
    kth_ancestor_loop st fuel a k = some (kth_parent st k.toNat a) := by
  intro fuel
  induction fuel with
  | zero => intro _ _ _ _ h; omega
  | succ fuel ih =>
    intro a k ha hk _ hfuel
    unfold kth_ancestor_loop
    rcases ha with ha | ⟨ha0, ha1⟩
    · subst ha
      simp [kth_parent_neg_one]
    · obtain ⟨⟨hh0, hh1⟩, hdh, hroot, hchain⟩ := hB.chain (dep st a).toNat a ha0 ha1
        (by have := (hB.node a ha0 ha1).2.1.2.2.2.2; omega)
      have hfu := hfuel ha0
      have hkk : ((k.toNat : Nat) : Int) = k := Int.toNat_of_nonneg hk
      simp only [ha0, if_true, rd_heavy_root hB.sized ha0 ha1, rd_depth hB.sized hh0 hh1,
        rd_depth hB.sized ha0 ha1, Option.bind_eq_bind, Option.some_bind]
      by_cases hc : dep st (hr st a) ≤ dep st a - k
      · simp only [hc, if_true, rd_tour_start hB.sized ha0 ha1, Option.some_bind]
        have ht := hchain k.toNat (by omega)
        rw [hkk] at ht
        rw [← ht]
        rcases hB.kth a ha0 ha1 k.toNat with ⟨_, h⟩ | ⟨hr, _⟩
        · have := (hB.node _ hh0 hh1).2.1.2.2.2.2
          omega
        · exact (hB.node _ hr.1 hr.2).1.2.1
      · simp only [hc, if_false, rd_parent hB.sized hh0 hh1, Option.some_bind]
        push_neg at hc
        have hdh0 := (hB.node _ hh0 hh1).2.1.2.2.2.2
        have hpar : parent_of st (hr st a) = -1 ∨
            (0 ≤ parent_of st (hr st a) ∧ parent_of st (hr st a) < adj.length) := by
          rcases (hB.node _ hh0 hh1).2.2 with ⟨p, _⟩ | ⟨hpr, _⟩
          · exact Or.inl p
          · exact Or.inr hpr
        rw [ih _ _ hpar (by omega) (by omega) (fun h => by
          rcases (hB.node _ hh0 hh1).2.2 with ⟨p, _⟩ | ⟨_, hdp, _⟩
          · omega
          · omega)]
        have e : k.toNat = (k - (dep st a - dep st (hr st a) + 1)).toNat +
            ((dep st a - dep st (hr st a)).toNat + 1) := by omega
        rw [e, kth_parent_add, kth_parent_succ, ← hroot]

/-- The value of `get_kth_ancestor` on a node. -/
theorem BuiltOn.get_kth_ancestor_eq (hB : BuiltOn adj st F) (a k : Int) (ha0 : 0 ≤ a)
    (ha1 : a < adj.length) (hk : 0 ≤ k) :
    get_kth_ancestor st a k = some (kth_parent st k.toNat a) := by
  unfold get_kth_ancestor
  have hn : st.n.toNat = adj.length := by rw [hB.sized.1]; simp
  rw [hn]
  exact hB.kth_ancestor_loop_spec _ a k (Or.inr ⟨ha0, ha1⟩) hk (by omega)
    (fun _ => by have := hB.dep_lt a ha0 ha1; omega)

end weighted_LCA

namespace weighted_LCA

/-- C3: on a forest (whose Euler tour fits a 32-bit `int`) `build` succeeds, and in the
built structure, for every node `a` and every `k >= 0`, `get_kth_ancestor(a, k)` is the
result of following the parent link `k` times from `a`, the parent of a root being `-1`
and `-1` being absorbing: `get_kth_ancestor(a, 0) = a`, `get_kth_ancestor(a, depth[a])` is
the root of the component of `a`, and `get_kth_ancestor(a, k) = -1` for `k > depth[a]`. -/
theorem get_kth_ancestor_follows_parent_links (S : StdSort) (prev : weighted_LCA)
    (adj : List (List edge))
    (root : Int) (hF : IsForest adj) (hsmall : 2 * (adj.length : Int) < 2147483648) :
    ∃ st, build S (init_adj prev adj) root true = some st ∧
      ∀ a : Int, 0 ≤ a → a < adj.length →
        (∀ k : Nat, get_kth_ancestor st a k = some (kth_parent st k a)) ∧
        get_kth_ancestor st a 0 = some a ∧
        ∃ d r, rd st.depth a = some d ∧ get_kth_ancestor st a d = some r ∧
          0 ≤ r ∧ parent_of st r = -1 ∧ Connected adj a r ∧
          ∀ k : Int, d < k → get_kth_ancestor st a k = some (-1) := by
  obtain ⟨st, F, hb, hB⟩ := build_spec S prev adj root hF hsmall
  refine ⟨st, hb, fun a ha0 ha1 => ⟨fun k => ?_, ?_, ?_⟩⟩
  · rw [hB.get_kth_ancestor_eq a k ha0 ha1 (by omega)]
    simp
  · rw [hB.get_kth_ancestor_eq a 0 ha0 ha1 (le_refl _)]
    rfl
  · have hd := (hB.node a ha0 ha1).2.1.2.2.2.2
    obtain ⟨r, ⟨hr0, _⟩, _, hrp, _, hr⟩ := hB.root a ha0 ha1
    refine ⟨dep st a, r, rd_depth hB.sized ha0 ha1, ?_, hr0, hrp, ?_, fun k hk => ?_⟩
    · rw [hB.get_kth_ancestor_eq a _ ha0 ha1 hd, hr]
    · rw [hr]
      exact (hB.conn_anc _ a ha0 ha1 (by rw [← hr]; exact hr0)).1
    · rw [hB.get_kth_ancestor_eq a k ha0 ha1 (by omega)]
      rcases hB.kth a ha0 ha1 k.toNat with ⟨h, _⟩ | ⟨hr1, hdep, _⟩
      · rw [h]
      · have := (hB.node _ hr1.1 hr1.2).2.1.2.2.2.2
        omega

theorem get_kth_ancestor_follows_parent_links_witness :
    ∃ st, build insertion_sort (init_adj fresh star_adj) (-1) true = some st ∧
      ∀ a : Int, 0 ≤ a → a < star_adj.length →
        (∀ k : Nat, get_kth_ancestor st a k = some (kth_parent st k a)) ∧
        get_kth_ancestor st a 0 = some a ∧
        ∃ d r, rd st.depth a = some d ∧ get_kth_ancestor st a d = some r ∧
          0 ≤ r ∧ parent_of st r = -1 ∧ Connected star_adj a r ∧
          ∀ k : Int, d < k → get_kth_ancestor st a k = some (-1) :=
  get_kth_ancestor_follows_parent_links insertion_sort fresh star_adj (-1) star_adj_isForest
    (by decide)

end weighted_LCA

namespace weighted_LCA

variable {adj : List (List edge)} {st : weighted_LCA} {F : Forest}

/-- A path that starts at `x` and never visits the parent of `x` only descends. -/
theorem BuiltOn.walk_down (hB : BuiltOn adj st F) : ∀ (es : List edge) (x b : Int),
    0 ≤ x → x < adj.length → IsWalk adj x es b → x ∉ es.map (fun e => e.node) →
    (es.map (fun e => e.node)).Nodup →
    (0 ≤ parent_of st x → parent_of st x ∉ es.map (fun e => e.node)) →
    (0 ≤ b ∧ b < adj.length) ∧ kth_parent st es.length b = x ∧
      (es.map (fun e => e.weight)).sum = wd st b - wd st x ∧
      ∀ t : Nat, t < es.length → kth_parent st t b ∈ es.map (fun e => e.node) := by
  intro es
  induction es with
  | nil =>
    intro x b h0 h1 hw _ _ _
    simp only [IsWalk] at hw
    subst hw
    exact ⟨⟨h0, h1⟩, rfl, by simp, fun t ht => by simp at ht⟩
  | cons e es ih =>
    intro x b h0 h1 hw hx hnd hpar
    simp only [IsWalk] at hw
    obtain ⟨⟨row, hrow, he⟩, hw2⟩ := hw
    obtain ⟨row1, hrow1, hedges, _⟩ := hB.rows x h0 h1
    rw [hrow] at hrow1
    injection hrow1 with e1
    subst e1
    simp only [List.map_cons, List.mem_cons, not_or, List.nodup_cons] at hx hnd hpar
    rcases hedges e he with ⟨hp, heq⟩ | ⟨hr, hp, hu⟩
    · exfalso
      exact (hpar hp).1 (by rw [heq])
    · obtain ⟨hb, hk, hs, hv⟩ := ih e.node b hr.1 hr.2 hw2 hnd.1 hnd.2
        (fun _ => by rw [hp]; exact hx.2)
      refine ⟨hb, ?_, ?_, ?_⟩
      · rw [List.length_cons, kth_parent_succ, hk, hp]
      · rw [List.map_cons, List.sum_cons, hs, ← hu]
        rcases (hB.node _ hr.1 hr.2).2.2 with ⟨p, _⟩ | ⟨_, _, hwd, _⟩
        · rw [hp] at p; omega
        · rw [hp] at hwd
          linarith
      · intro t ht
        simp only [List.length_cons] at ht
        simp only [List.map_cons, List.mem_cons]
        by_cases c : t < es.length
        · exact Or.inr (hv t c)
        · have : t = es.length := by omega
          rw [this, hk]
          exact Or.inl rfl

/-- A path in the input goes up from `a` to a common ancestor and then down to `b`. -/
theorem BuiltOn.walk_shape (hB : BuiltOn adj st F) : ∀ (es : List edge) (a b : Int),
    0 ≤ a → a < adj.length → IsWalk adj a es b → (a :: es.map (fun e => e.node)).Nodup →
    ∃ i j : Nat, i + j = es.length ∧ (0 ≤ b ∧ b < adj.length) ∧
      (0 ≤ kth_parent st i a ∧ kth_parent st i a < adj.length) ∧
      kth_parent st i a = kth_parent st j b ∧
      (es.map (fun e => e.weight)).sum = wd st a + wd st b - 2 * wd st (kth_parent st i a) ∧
      (∀ t : Nat, t < j → kth_parent st t b ∈ es.map (fun e => e.node)) ∧
      (0 < i → 0 < j → kth_parent st (i - 1) a ≠ kth_parent st (j - 1) b) := by
  intro es
  induction es with
  | nil =>
    intro a b h0 h1 hw _
    simp only [IsWalk] at hw
    subst hw
    exact ⟨0, 0, rfl, ⟨h0, h1⟩, ⟨h0, h1⟩, rfl, by simp [kth_parent]; ring,
      fun t ht => by omega, fun h => by omega⟩
  | cons e es ih =>
    intro a b h0 h1 hw hnd
    simp only [IsWalk] at hw
    obtain ⟨⟨row, hrow, he⟩, hw2⟩ := hw
    obtain ⟨row1, hrow1, hedges, _⟩ := hB.rows a h0 h1
    rw [hrow] at hrow1
    injection hrow1 with e1
    subst e1
    simp only [List.map_cons, List.nodup_cons, List.mem_cons, not_or] at hnd
    obtain ⟨⟨hne, hna⟩, hn1, hn2⟩ := hnd
    rcases hedges e he with ⟨hp, heq⟩ | ⟨hr, hp, hu⟩
    · -- the first step goes up
      have hen : e.node = parent_of st a := by rw [heq]
      have hew : e.weight = uw st a := by rw [heq]
      rcases (hB.node a h0 h1).2.2 with ⟨p, _⟩ | ⟨hpr, _, hwd, _⟩
      · omega
      · rw [hen] at hw2 hn1
        obtain ⟨i, j, hij, hb, hc, hcc, hs, hv, hd⟩ := ih (parent_of st a) b hpr.1 hpr.2 hw2
          (List.nodup_cons.2 ⟨hn1, hn2⟩)
        refine ⟨i + 1, j, by simp only [List.length_cons]; omega, hb, hc, hcc, ?_, ?_, ?_⟩
        · rw [List.map_cons, List.sum_cons, hs, hew]
          show _ = wd st a + wd st b - 2 * wd st (kth_parent st i (parent_of st a))
          linarith
        · intro t ht
          exact List.mem_cons_of_mem _ (hv t ht)
        · intro _ hj
          simp only [Nat.add_sub_cancel]
          cases i with
          | zero =>
            intro hcon
            apply hna
            have := hv (j - 1) (by omega)
            rw [← hcon] at this
            exact this
          | succ i =>
            have := hd (by omega) hj
            simpa using this
    · -- the first step goes down
      obtain ⟨hb, hk, hs, hv⟩ := hB.walk_down es e.node b hr.1 hr.2 hw2 hn1 hn2
        (fun _ => by rw [hp]; exact hna)
      have hka : kth_parent st (es.length + 1) b = a := by
        rw [kth_parent_succ, hk, hp]
      refine ⟨0, es.length + 1, by simp, hb, ⟨h0, h1⟩, hka.symm, ?_, ?_, fun h => by omega⟩
      · rw [List.map_cons, List.sum_cons, hs, ← hu]
        show _ = wd st a + wd st b - 2 * wd st a
        rcases (hB.node _ hr.1 hr.2).2.2 with ⟨p, _⟩ | ⟨_, _, hwd, _⟩
        · rw [hp] at p; omega
        · rw [hp] at hwd
          linarith
      · intro t ht
        simp only [List.map_cons, List.mem_cons]
        by_cases c : t < es.length
        · exact Or.inr (hv t c)
        · have : t = es.length := by omega
          rw [this, hk]
          exact Or.inl rfl

/-- The number of parent links to an ancestor is the difference of the depths. -/
theorem BuiltOn.kth_eq (hB : BuiltOn adj st F) (x : Int) (h0 : 0 ≤ x) (h1 : x < adj.length)
    (k : Nat) (hk : 0 ≤ kth_parent st k x) :
    (k : Int) = dep st x - dep st (kth_parent st k x) := by
  rcases hB.kth x h0 h1 k with ⟨h, _⟩ | ⟨_, h, _⟩
  · omega
  · omega

/-- `get_lca` does not depend on the order of its arguments. -/
theorem BuiltOn.get_lca_comm (hB : BuiltOn adj st F) (a b : Int) (ha0 : 0 ≤ a)
    (ha1 : a < adj.length) (hb0 : 0 ≤ b) (hb1 : b < adj.length) :
    get_lca st a b = get_lca st b a := by
  rw [hB.get_lca_unfold a b ha0 ha1 hb0 hb1, hB.get_lca_unfold b a hb0 hb1 ha0 ha1]
  by_cases c1 : fo st b < fo st a
  · have c2 : ¬ fo st a < fo st b := by omega
    simp only [c1, c2, if_true, if_false]
  · by_cases c2 : fo st a < fo st b
    · simp only [c1, c2, if_true, if_false]
    · have : fo st a = fo st b := by omega
      simp only [c1, c2, if_false, this]

/-- The distance queries on a path of the input. -/
theorem BuiltOn.path_dist (hB : BuiltOn adj st F) (a b : Int) (ha0 : 0 ≤ a)
    (ha1 : a < adj.length) (es : List edge) (hpath : IsPath adj a es b) :
    get_weighted_dist st a b = some (es.map (fun e => e.weight)).sum ∧
      get_dist st a b = some (es.length : Int) := by
  obtain ⟨i, j, hij, ⟨hb0, hb1⟩, ⟨hc0, hc1⟩, hcc, hs, _, hd⟩ :=
    hB.walk_shape es a b ha0 ha1 hpath.1 hpath.2
  obtain ⟨c, hl, ⟨hl0, hl1⟩, hla, hlb, hmin⟩ := hB.get_lca_conn a b _ ha0 ha1 hb0 hb1 hc0
    ⟨i, rfl⟩ ⟨j, hcc.symm⟩
  have hi := hB.kth_eq a ha0 ha1 i hc0
  have hj := hB.kth_eq b hb0 hb1 j (by rw [← hcc]; exact hc0)
  rw [← hcc] at hj
  -- the node returned by `get_lca` is where the path turns
  have hceq : c = kth_parent st i a := by
    have hanc : IsAnc st (kth_parent st i a) c := hmin _ hc0 ⟨i, rfl⟩ ⟨j, hcc.symm⟩
    obtain ⟨m, hm⟩ := hanc
    obtain ⟨ia, hia⟩ := hla
    obtain ⟨jb, hjb⟩ := hlb
    have e1 := hB.kth_eq c hl0 hl1 m (by rw [hm]; exact hc0)
    have e2 := hB.kth_eq a ha0 ha1 ia (by rw [hia]; exact hl0)
    have e3 := hB.kth_eq b hb0 hb1 jb (by rw [hjb]; exact hl0)
    rw [hm] at e1
    rw [hia] at e2
    rw [hjb] at e3
    cases m with
    | zero => exact hm
    | succ m =>
      exfalso
      have hi1 : i = m + 1 + ia := by omega
      have hj1 : j = m + 1 + jb := by omega
      apply hd (by omega) (by omega)
      have ei : i - 1 = m + ia := by omega
      have ej : j - 1 = m + jb := by omega
      rw [ei, ej, kth_parent_add, kth_parent_add, hia, hjb]
  subst hceq
  constructor
  · unfold get_weighted_dist
    rw [rd_weight_depth hB.sized ha0 ha1, rd_weight_depth hB.sized hb0 hb1, hl]
    simp only [Option.bind_eq_bind, Option.some_bind, rd_weight_depth hB.sized hc0 hc1,
      Option.pure_def, hs]
  · unfold get_dist
    rw [rd_depth hB.sized ha0 ha1, rd_depth hB.sized hb0 hb1, hl]
    simp only [Option.bind_eq_bind, Option.some_bind, rd_depth hB.sized hc0 hc1,
      Option.pure_def, Option.some.injEq]
    have : ((es.length : Nat) : Int) = (i : Int) + j := by rw [← hij]; push_cast; ring
    omega

end weighted_LCA

theorem isWalk_append (adj : List (List edge)) : ∀ (es1 es2 : List edge) (a m b : Int),
    IsWalk adj a es1 m → IsWalk adj m es2 b → IsWalk adj a (es1 ++ es2) b := by
  intro es1
  induction es1 with
  | nil =>
    intro es2 a m b h1 h2
    simp only [IsWalk] at h1
    subst h1
    exact h2
  | cons e es ih =>
    intro es2 a m b h1 h2
    simp only [IsWalk, List.cons_append] at h1 ⊢
    exact ⟨h1.1, ih es2 _ m b h1.2 h2⟩

namespace weighted_LCA

variable {adj : List (List edge)} {st : weighted_LCA} {F : Forest}

/-- The parent of a node with a non-negative `k + 1`-st ancestor is a node. -/
theorem BuiltOn.parent_range (hB : BuiltOn adj st F) (x : Int) (h0 : 0 ≤ x)
    (h1 : x < adj.length) (k : Nat) (hk : 0 ≤ kth_parent st (k + 1) x) :
    0 ≤ parent_of st x ∧ parent_of st x < adj.length := by
  rcases (hB.node x h0 h1).2.2 with ⟨p, _⟩ | ⟨hpr, _⟩
  · have e : kth_parent st (k + 1) x = kth_parent st k (parent_of st x) := rfl
    rw [e, p, kth_parent_neg_one] at hk
    omega
  · exact hpr

theorem BuiltOn.up_walk (hB : BuiltOn adj st F) : ∀ (k : Nat) (x : Int), 0 ≤ x →
    x < adj.length → 0 ≤ kth_parent st k x →
    IsWalk adj x (up_edges st k x) (kth_parent st k x) ∧
      (up_edges st k x).map (fun e => e.node) =
        (List.range k).map (fun t => kth_parent st (t + 1) x) := by
  intro k
  induction k with
  | zero =>
    intro x _ _ _
    exact ⟨rfl, rfl⟩
  | succ k ih =>
    intro x h0 h1 hk
    obtain ⟨hp0, hp1⟩ := hB.parent_range x h0 h1 k hk
    obtain ⟨row, hrow, _, hup⟩ := hB.rows x h0 h1
    obtain ⟨w1, w2⟩ := ih (parent_of st x) hp0 hp1 hk
    refine ⟨⟨⟨row, hrow, hup hp0⟩, w1⟩, ?_⟩
    simp only [up_edges, List.map_cons, w2, List.range_succ_eq_map, List.map_map]
    rfl

theorem BuiltOn.down_walk (hB : BuiltOn adj st F) : ∀ (k : Nat) (b : Int), 0 ≤ b →
    b < adj.length → 0 ≤ kth_parent st k b →
    IsWalk adj (kth_parent st k b) (down_edges st k b) b ∧
      (down_edges st k b).map (fun e => e.node) =
        ((List.range k).map (fun t => kth_parent st t b)).reverse := by
  intro k
  induction k with
  | zero =>
    intro b _ _ _
    exact ⟨rfl, rfl⟩
  | succ k ih =>
    intro b h0 h1 hk
    obtain ⟨hp0, hp1⟩ := hB.parent_range b h0 h1 k hk
    obtain ⟨rowp, hrowp, hdown⟩ := hB.rows_down b h0 h1 hp0
    obtain ⟨w1, w2⟩ := ih (parent_of st b) hp0 hp1 hk
    refine ⟨isWalk_append adj _ _ _ _ _ w1 ⟨⟨rowp, hrowp, hdown⟩, rfl⟩, ?_⟩
    simp only [down_edges, List.map_append, w2, List.range_succ_eq_map, List.map_cons,
      List.map_map, List.reverse_cons, List.map_nil]
    rfl

/-- Two nodes with a common ancestor are joined by a path of the input. -/
theorem BuiltOn.exists_path (hB : BuiltOn adj st F) (a b r : Int) (ha0 : 0 ≤ a)
    (ha1 : a < adj.length) (hb0 : 0 ≤ b) (hb1 : b < adj.length) (hr0 : 0 ≤ r)
    (hra : IsAnc st r a) (hrb : IsAnc st r b) : ∃ es, IsPath adj a es b := by
  obtain ⟨c, _, ⟨hc0, hc1⟩, ⟨i, hi⟩, ⟨j, hj⟩, hmin⟩ := hB.get_lca_conn a b r ha0 ha1 hb0 hb1
    hr0 hra hrb
  obtain ⟨u1, u2⟩ := hB.up_walk i a ha0 ha1 (by rw [hi]; exact hc0)
  obtain ⟨d1, d2⟩ := hB.down_walk j b hb0 hb1 (by rw [hj]; exact hc0)
  rw [hi] at u1
  rw [hj] at d1
  refine ⟨up_edges st i a ++ down_edges st j b, isWalk_append adj _ _ _ _ _ u1 d1, ?_⟩
  have hup : a :: (up_edges st i a).map (fun e => e.node) =
      (List.range (i + 1)).map (fun t => kth_parent st t a) := by
    rw [u2, List.range_succ_eq_map]
    simp only [List.map_cons, List.map_map]
    rfl
  rw [List.map_append, ← List.cons_append, hup, d2]
  have hia := hB.kth_eq a ha0 ha1 i (by rw [hi]; exact hc0)
  have hjb := hB.kth_eq b hb0 hb1 j (by rw [hj]; exact hc0)
  rw [hi] at hia
  rw [hj] at hjb
  have hnn : ∀ (x : Int), 0 ≤ x → x < adj.length → ∀ (k t : Nat), t ≤ k →
      0 ≤ kth_parent st k x → (0 ≤ kth_parent st t x ∧ kth_parent st t x < adj.length) ∧
        dep st (kth_parent st t x) = dep st x - t := by
    intro x h0 h1 k t htk hk
    have e := hB.kth_eq x h0 h1 k hk
    have hdk : 0 ≤ dep st (kth_parent st k x) := by
      rcases hB.kth x h0 h1 k with ⟨h, _⟩ | ⟨hr, _⟩
      · omega
      · exact (hB.node _ hr.1 hr.2).2.1.2.2.2.2
    rcases hB.kth x h0 h1 t with ⟨_, h⟩ | ⟨hr, h, _⟩
    · omega
    · exact ⟨hr, by omega⟩
  have hinj : ∀ (x : Int), 0 ≤ x → x < adj.length → ∀ (k : Nat), 0 ≤ kth_parent st k x →
      ∀ n : Nat, n ≤ k + 1 → ((List.range n).map (fun t => kth_parent st t x)).Nodup := by
    intro x h0 h1 k hk n hn
    refine List.Nodup.map_on ?_ (List.nodup_range n)
    intro s hs t ht hst
    rw [List.mem_range] at hs ht
    have e1 := (hnn x h0 h1 k s (by omega) hk).2
    have e2 := (hnn x h0 h1 k t (by omega) hk).2
    simp only at hst
    rw [hst] at e1
    omega
  rw [List.nodup_append]
  refine ⟨hinj a ha0 ha1 i (by rw [hi]; exact hc0) _ (le_refl _),
    List.nodup_reverse.2 (hinj b hb0 hb1 j (by rw [hj]; exact hc0) _ (by omega)), ?_⟩
  intro d hd1 hd2
  rw [List.mem_reverse] at hd2
  obtain ⟨s, hs, hsd⟩ := List.mem_map.1 hd1
  obtain ⟨t, ht, htd⟩ := List.mem_map.1 hd2
  rw [List.mem_range] at hs ht
  obtain ⟨hd0, _⟩ := hnn a ha0 ha1 i s (by omega) (by rw [hi]; exact hc0)
  obtain ⟨_, hdep⟩ := hnn b hb0 hb1 j t (by omega) (by rw [hj]; exact hc0)
  rw [hsd] at hd0
  rw [htd] at hdep
  have hanc := hmin d hd0.1 ⟨s, hsd⟩ ⟨t, htd⟩
  obtain ⟨_, hle, _⟩ := hB.anc_interval d c hc0 hc1 hd0.1 hanc
  omega

end weighted_LCA

namespace weighted_LCA

/-- C4: on a forest (whose Euler tour fits a 32-bit `int`) `build` succeeds, and in the
built structure the two distance queries are symmetric, and for two nodes `a`, `b` of one
component there is a path from `a` to `b` in the input, and for every such path
`get_weighted_dist(a, b)` is the sum of the weights of its edges and `get_dist(a, b)` the
number of its edges. -/
theorem get_dist_is_path_length (S : StdSort) (prev : weighted_LCA)
    (adj : List (List edge)) (root : Int)
    (hF : IsForest adj) (hsmall : 2 * (adj.length : Int) < 2147483648) :
    ∃ st, build S (init_adj prev adj) root true = some st ∧
      ∀ a b : Int, 0 ≤ a → a < adj.length → 0 ≤ b → b < adj.length →
        (get_dist st a b = get_dist st b a ∧
          get_weighted_dist st a b = get_weighted_dist st b a) ∧
        (Connected adj a b → (∃ es, IsPath adj a es b) ∧
          ∀ es, IsPath adj a es b →
            get_weighted_dist st a b = some (es.map (fun e => e.weight)).sum ∧
            get_dist st a b = some (es.length : Int)) := by
  obtain ⟨st, F, hb, hB⟩ := build_spec S prev adj root hF hsmall
  refine ⟨st, hb, fun a b ha0 ha1 hb0 hb1 => ⟨⟨?_, ?_⟩, fun hconn => ⟨?_, ?_⟩⟩⟩
  · unfold get_dist
    rw [rd_depth hB.sized ha0 ha1, rd_depth hB.sized hb0 hb1,
      hB.get_lca_comm a b ha0 ha1 hb0 hb1]
    cases get_lca st b a with
    | none => rfl
    | some l =>
      simp only [Option.bind_eq_bind, Option.some_bind, Option.pure_def]
      cases rd st.depth l with
      | none => rfl
      | some dl => simp only [Option.some_bind, add_comm]
  · unfold get_weighted_dist
    rw [rd_weight_depth hB.sized ha0 ha1, rd_weight_depth hB.sized hb0 hb1,
      hB.get_lca_comm a b ha0 ha1 hb0 hb1]
    cases get_lca st b a with
    | none => rfl
    | some l =>
      simp only [Option.bind_eq_bind, Option.some_bind, Option.pure_def]
      cases rd st.weight_depth l with
      | none => rfl
      | some dl => simp only [Option.some_bind, add_comm]
  · obtain ⟨r, hr0, hra, hrb⟩ := (hB.conn_iff a b ha0 ha1 hb0 hb1).1 hconn
    exact hB.exists_path a b r ha0 ha1 hb0 hb1 hr0 hra hrb
  · intro es hes
    exact hB.path_dist a b ha0 ha1 es hes

theorem get_dist_is_path_length_witness :
    ∃ st es, build insertion_sort (init_adj fresh star_adj) (-1) true = some st ∧
      IsPath star_adj 1 es 3 ∧
      get_weighted_dist st 1 3 = some (es.map (fun e => e.weight)).sum ∧
      get_dist st 1 3 = some (es.length : Int) ∧ get_dist st 1 3 = get_dist st 3 1 ∧
      get_weighted_dist st 1 3 = get_weighted_dist st 3 1 := by
  obtain ⟨st, hb, h⟩ := get_dist_is_path_length insertion_sort fresh star_adj (-1)
    star_adj_isForest (by decide)
  obtain ⟨⟨h1, h2⟩, h3⟩ := h 1 3 (by decide) (by decide) (by decide) (by decide)
  obtain ⟨⟨es, hes⟩, h4⟩ := h3 (star_adj_connected 1 3 (by decide) (by decide) (by decide)
    (by decide))
  exact ⟨st, es, hb, hes, (h4 es hes).1, (h4 es hes).2, h1, h2⟩

theorem pair_max_spec (a b : Int × Int) :
    (pair_max a b = a ∨ pair_max a b = b) ∧ a.1 ≤ (pair_max a b).1 ∧
      b.1 ≤ (pair_max a b).1 := by
  unfold pair_max
  by_cases h : pair_lt a b = true
  · rw [if_pos h]
    refine ⟨Or.inr rfl, ?_, le_refl _⟩
    simp only [pair_lt, Bool.or_eq_true, Bool.and_eq_true, decide_eq_true_eq,
      Bool.not_eq_true', decide_eq_false_iff_not] at h
    rcases h with h | ⟨h, _⟩
    · exact le_of_lt h
    · exact not_lt.1 h
  · rw [if_neg h]
    refine ⟨Or.inl rfl, le_refl _, ?_⟩
    simp only [pair_lt, Bool.or_eq_true, Bool.and_eq_true, decide_eq_true_eq,
      Bool.not_eq_true', decide_eq_false_iff_not, not_or] at h
    exact not_lt.1 h.1

theorem triple_max_spec (a b : Int × Int × Int) :
    (triple_max a b = a ∨ triple_max a b = b) ∧ a.1 ≤ (triple_max a b).1 ∧
      b.1 ≤ (triple_max a b).1 := by
  unfold triple_max
  by_cases h : triple_lt a b = true
  · rw [if_pos h]
    refine ⟨Or.inr rfl, ?_, le_refl _⟩
    simp only [triple_lt, Bool.or_eq_true, Bool.and_eq_true, decide_eq_true_eq,
      Bool.not_eq_true', decide_eq_false_iff_not] at h
    rcases h with h | ⟨h, _⟩
    · exact le_of_lt h
    · exact not_lt.1 h
  · rw [if_neg h]
    refine ⟨Or.inl rfl, le_refl _, ?_⟩
    simp only [triple_lt, Bool.or_eq_true, Bool.and_eq_true, decide_eq_true_eq,
      Bool.not_eq_true', decide_eq_false_iff_not, not_or] at h
    exact not_lt.1 h.1

/-- One iteration of the scan. -/
theorem diamInv_step (st : weighted_LCA) (t : Int) (um uxm : Int × Int)
    (uxvm : Int × Int × Int) (node : Int) (hinv : DiamInv st t um uxm uxvm)
    (ht : rd st.euler t = some node) :
    DiamInv st (t + 1) (pair_max um (wd st node, node))
      (pair_max uxm ((pair_max um (wd st node, node)).1 - 2 * wd st node,
        (pair_max um (wd st node, node)).2))
      (triple_max uxvm ((pair_max uxm ((pair_max um (wd st node, node)).1 - 2 * wd st node,
        (pair_max um (wd st node, node)).2)).1 + wd st node,
        (pair_max uxm ((pair_max um (wd st node, node)).1 - 2 * wd st node,
          (pair_max um (wd st node, node)).2)).2, node)) := by
  obtain ⟨a1, ⟨ia, a2, a3, a4, a5⟩, b1, ⟨ib, jb, yb, b2, b3, b4, b5, b6, b7⟩, c1,
    ⟨ic, jc, kc, yc, c2, c3, c4, c5, c6, c7, c8, c9⟩⟩ := hinv
  have ht0 : 0 ≤ t := by omega
  obtain ⟨u1, hu1⟩ : ∃ u1, u1 = pair_max um (wd st node, node) := ⟨_, rfl⟩
  obtain ⟨ux1, hux1⟩ : ∃ ux1, ux1 = pair_max uxm (u1.1 - 2 * wd st node, u1.2) := ⟨_, rfl⟩
  obtain ⟨uxv1, huxv1⟩ : ∃ uxv1, uxv1 = triple_max uxvm (ux1.1 + wd st node, ux1.2, node) :=
    ⟨_, rfl⟩
  rw [← hu1, ← hux1, ← huxv1]
  obtain ⟨p1, p2, p3⟩ := pair_max_spec um (wd st node, node)
  obtain ⟨q1, q2, q3⟩ := pair_max_spec uxm (u1.1 - 2 * wd st node, u1.2)
  obtain ⟨r1, r2, r3⟩ := triple_max_spec uxvm (ux1.1 + wd st node, ux1.2, node)
  rw [← hu1] at p1 p2 p3
  rw [← hux1] at q1 q2 q3
  rw [← huxv1] at r1 r2 r3
  simp only at p3 q3 r3
  -- the largest weighted depth
  have A1 : ∀ i x, 0 ≤ i → i < t + 1 → rd st.euler i = some x → wd st x ≤ u1.1 := by
    intro i x hi0 hi1 hix
    by_cases c : i < t
    · exact le_trans (a1 i x hi0 c hix) p2
    · have : i = t := by omega
      subst this
      rw [ht] at hix
      injection hix with e
      rw [← e]; exact p3
  have A2 : ∃ i, 0 ≤ i ∧ i < t + 1 ∧ rd st.euler i = some u1.2 ∧ wd st u1.2 = u1.1 := by
    rcases p1 with h | h
    · rw [h]; exact ⟨ia, a2, by omega, a4, a5⟩
    · rw [h]; exact ⟨t, ht0, by omega, ht, rfl⟩
  have B1 : ∀ i j x y, 0 ≤ i → i ≤ j → j < t + 1 → rd st.euler i = some x →
      rd st.euler j = some y → wd st x - 2 * wd st y ≤ ux1.1 := by
    intro i j x y hi0 hij hj hix hjy
    by_cases c : j < t
    · exact le_trans (b1 i j x y hi0 hij c hix hjy) q2
    · have : j = t := by omega
      subst this
      rw [ht] at hjy
      injection hjy with e
      have := A1 i x hi0 (by omega) hix
      rw [← e]
      linarith
  have B2 : ∃ i j y, 0 ≤ i ∧ i ≤ j ∧ j < t + 1 ∧ rd st.euler i = some ux1.2 ∧
      rd st.euler j = some y ∧ wd st ux1.2 - 2 * wd st y = ux1.1 := by
    rcases q1 with h | h
    · rw [h]; exact ⟨ib, jb, yb, b2, b3, by omega, b5, b6, b7⟩
    · obtain ⟨i, h1, h2, h3, h4⟩ := A2
      rw [h]
      exact ⟨i, t, node, h1, by omega, by omega, h3, ht, by simp only; rw [h4]⟩
  have C1 : ∀ i j k x y z, 0 ≤ i → i ≤ j → j ≤ k → k < t + 1 → rd st.euler i = some x →
      rd st.euler j = some y → rd st.euler k = some z →
      wd st x - 2 * wd st y + wd st z ≤ uxv1.1 := by
    intro i j k x y z hi0 hij hjk hk hix hjy hkz
    by_cases c : k < t
    · exact le_trans (c1 i j k x y z hi0 hij hjk c hix hjy hkz) r2
    · have : k = t := by omega
      subst this
      rw [ht] at hkz
      injection hkz with e
      have := B1 i j x y hi0 hij (by omega) hix hjy
      rw [← e]
      linarith
  have C2 : ∃ i j k y, 0 ≤ i ∧ i ≤ j ∧ j ≤ k ∧ k < t + 1 ∧ rd st.euler i = some uxv1.2.1 ∧
      rd st.euler j = some y ∧ rd st.euler k = some uxv1.2.2 ∧
      wd st uxv1.2.1 - 2 * wd st y + wd st uxv1.2.2 = uxv1.1 := by
    rcases r1 with h | h
    · rw [h]; exact ⟨ic, jc, kc, yc, c2, c3, c4, by omega, c6, c7, c8, c9⟩
    · obtain ⟨i, j, y, h1, h2, h3, h4, h5, h6⟩ := B2
      rw [h]
      exact ⟨i, j, t, y, h1, h2, by omega, by omega, h4, h5, ht, by simp only; rw [h6]⟩
  exact ⟨A1, A2, B1, B2, C1, C2⟩

/-- The first iteration of the scan, at a node of weighted depth 0. -/
theorem diamInv_first (st : weighted_LCA) (node : Int) (h0 : rd st.euler 0 = some node)
    (hw : wd st node = 0) :
    DiamInv st 1 (pair_max (-1, -1) (wd st node, node))
      (pair_max (-1, -1) ((pair_max (-1, -1) (wd st node, node)).1 - 2 * wd st node,
        (pair_max (-1, -1) (wd st node, node)).2))
      (triple_max (-1, -1, -1)
        ((pair_max (-1, -1) ((pair_max (-1, -1) (wd st node, node)).1 - 2 * wd st node,
          (pair_max (-1, -1) (wd st node, node)).2)).1 + wd st node,
        (pair_max (-1, -1) ((pair_max (-1, -1) (wd st node, node)).1 - 2 * wd st node,
          (pair_max (-1, -1) (wd st node, node)).2)).2, node)) := by
  rw [hw]
  have e1 : pair_max (-1, -1) ((0 : Int), node) = (0, node) := by
    simp [pair_max, pair_lt]
  have e2 : triple_max (-1, -1, -1) ((0 : Int), node, node) = (0, node, node) := by
    simp [triple_max, triple_lt]
  simp only [e1, mul_zero, sub_zero, zero_add, e2]
  have hz : ∀ i x, 0 ≤ i → i < 1 → rd st.euler i = some x → x = node := by
    intro i x hi0 hi1 hix
    have : i = 0 := by omega
    subst this
    rw [h0] at hix
    injection hix with e
    exact e.symm
  refine ⟨?_, ⟨0, le_refl _, by omega, h0, hw⟩, ?_, ⟨0, 0, node, le_refl _, le_refl _,
    by omega, h0, h0, by simp [hw]⟩, ?_, ⟨0, 0, 0, node, le_refl _, le_refl _, le_refl _,
    by omega, h0, h0, h0, by simp [hw]⟩⟩
  · intro i x hi0 hi1 hix
    rw [hz i x hi0 hi1 hix, hw]
  · intro i j x y hi0 hij hj hix hjy
    rw [hz i x hi0 (by omega) hix, hz j y (by omega) hj hjy, hw]
    simp
  · intro i j k x y z hi0 hij hjk hk hix hjy hkz
    rw [hz i x hi0 (by omega) hix, hz j y (by omega) (by omega) hjy,
      hz k z (by omega) hk hkz, hw]
    simp

end weighted_LCA

namespace weighted_LCA

variable {adj : List (List edge)} {st : weighted_LCA} {F : Forest}

/-- The scan of `get_diameter` from position `t` up to the first separator at `m`. -/
theorem BuiltOn.diameter_loop_spec (hB : BuiltOn adj st F) (m : Int)
    (hsep : rd st.euler m = some (-1))
    (hnodes : ∀ j, 0 ≤ j → j < m → ∃ y, rd st.euler j = some y ∧ 0 ≤ y ∧ y < adj.length) :
    ∀ (rest : List Int) (t : Int) (um uxm : Int × Int) (uxvm : Int × Int × Int),
    (∀ k, 0 ≤ k → rd rest k = rd st.euler (t + k)) → 1 ≤ t → t ≤ m →
    DiamInv st t um uxm uxvm →
    ∃ res um1 uxm1, diameter_loop st rest um uxm uxvm = some res ∧
      DiamInv st m um1 uxm1 res := by
  intro rest
  induction rest with
  | nil =>
    intro t um uxm uxvm hrest ht1 htm _
    exfalso
    have h := hrest 0 (le_refl _)
    simp only [add_zero] at h
    by_cases c : t = m
    · rw [c, hsep] at h
      simp [rd] at h
    · obtain ⟨y, hy, _⟩ := hnodes t (by omega) (by omega)
      rw [hy] at h
      simp [rd] at h
  | cons node rest ih =>
    intro t um uxm uxvm hrest ht1 htm hinv
    have h := hrest 0 (le_refl _)
    simp only [add_zero, rd_cons_zero] at h
    unfold diameter_loop
    by_cases c : t = m
    · rw [c, hsep] at h
      injection h with e
      subst e
      subst c
      exact ⟨uxvm, um, uxm, by simp, hinv⟩
    · obtain ⟨y, hy, hy0, hy1⟩ := hnodes t (by omega) (by omega)
      rw [hy] at h
      injection h with e
      subst e
      simp only [show ¬ node < 0 by omega, if_false, rd_weight_depth hB.sized hy0 hy1,
        Option.bind_eq_bind, Option.some_bind]
      refine ih (t + 1) _ _ _ (fun k hk => ?_) (by omega) (by omega)
        (diamInv_step st t um uxm uxvm node hinv hy)
      have := hrest (k + 1) (by omega)
      rw [rd_cons_succ _ _ _ hk] at this
      rw [this]
      congr 1
      ring

/-- The weighted depth does not decrease from a node to its descendants when no weight
of the input is negative. -/
theorem BuiltOn.wd_mono (hB : BuiltOn adj st F) (hw : ∀ row ∈ adj, ∀ e ∈ row, 0 ≤ e.weight) :
    ∀ (k : Nat) (x : Int), 0 ≤ x → x < adj.length → 0 ≤ kth_parent st k x →
    wd st (kth_parent st k x) ≤ wd st x := by
  intro k
  induction k with
  | zero => intro x _ _ _; exact le_refl _
  | succ k ih =>
    intro x h0 h1 hk
    obtain ⟨hp0, hp1⟩ := hB.parent_range x h0 h1 k hk
    have e : kth_parent st (k + 1) x = kth_parent st k (parent_of st x) := rfl
    rw [e] at hk ⊢
    have h1' := ih (parent_of st x) hp0 hp1 hk
    obtain ⟨row, hrow, _, hup⟩ := hB.rows x h0 h1
    have hmem : row ∈ adj := rd_mem hrow
    have huw := hw row hmem _ (hup hp0)
    simp only at huw
    rcases (hB.node x h0 h1).2.2 with ⟨p, _⟩ | ⟨_, _, hwd, _⟩
    · omega
    · linarith

/-- The Euler tour of a non-empty forest starts with a root. -/
theorem BuiltOn.first_root (hB : BuiltOn adj st F) (hne : adj ≠ []) :
    ∃ r0 : Int, (0 ≤ r0 ∧ r0 < adj.length) ∧ fo st r0 = 0 ∧ parent_of st r0 = -1 := by
  have hlay := hB.lay
  have hsize := hB.size_eq
  cases F with
  | nil =>
    exfalso
    simp only [Forest.size] at hsize
    exact hne (List.length_eq_zero.1 hsize.symm)
  | cons v w K R =>
    simp only [Lay] at hlay
    obtain ⟨⟨r1, _⟩, ⟨t1, _⟩, _⟩ := hlay
    have hv := (hB.mem_iff v).1 (by simp [Forest.labels])
    exact ⟨v, hv, by simp [fo, t1], parent_of_eq hv.1 r1⟩

/-- The position in the Euler tour at which `get_lca` finds its result. -/
theorem BuiltOn.lca_position (hB : BuiltOn adj st F) (a b r : Int) (ha0 : 0 ≤ a)
    (ha1 : a < adj.length) (hb0 : 0 ≤ b) (hb1 : b < adj.length) (hr0 : 0 ≤ r)
    (hra : IsAnc st r a) (hrb : IsAnc st r b) (hab : fo st a ≤ fo st b) :
    ∃ c m, get_lca st a b = some c ∧ (0 ≤ c ∧ c < adj.length) ∧ rd st.euler m = some c ∧
      fo st a ≤ m ∧ m ≤ fo st b ∧ IsAnc st c a ∧ IsAnc st c b := by
  obtain ⟨m, hq, hm⟩ := hB.query a b ha0 ha1 hb0 hb1 hab
  obtain ⟨c, h1, h2, h3, h4, _⟩ := hB.lca_aux a b r ha0 ha1 hb0 hb1 hr0 hra hrb hab m hm
  refine ⟨c, m, ?_, h2, h1, hm.1, by have := hm.2.1; omega, h3, h4⟩
  rw [hB.get_lca_unfold a b ha0 ha1 hb0 hb1]
  by_cases hlt : fo st b < fo st a
  · omega
  · simp [hlt, hq, h1]

/-- The value of `get_weighted_dist` on two nodes with lowest common ancestor `c`. -/
theorem BuiltOn.get_weighted_dist_eq (hB : BuiltOn adj st F) (a b c : Int) (ha0 : 0 ≤ a)
    (ha1 : a < adj.length) (hb0 : 0 ≤ b) (hb1 : b < adj.length) (hc0 : 0 ≤ c)
    (hc1 : c < adj.length) (hl : get_lca st a b = some c) :
    get_weighted_dist st a b = some (wd st a + wd st b - 2 * wd st c) := by
  unfold get_weighted_dist
  rw [rd_weight_depth hB.sized ha0 ha1, rd_weight_depth hB.sized hb0 hb1, hl]
  simp only [Option.bind_eq_bind, Option.some_bind, rd_weight_depth hB.sized hc0 hc1,
    Option.pure_def]

/-- On a connected tree without negative weights `get_diameter` returns two nodes at the
largest weighted distance, and that distance. -/
theorem BuiltOn.diameter_spec (hB : BuiltOn adj st F) (hne : adj ≠ [])
    (hconn : ∀ a b : Int, 0 ≤ a → a < adj.length → 0 ≤ b → b < adj.length →
      Connected adj a b)
    (hw : ∀ row ∈ adj, ∀ e ∈ row, 0 ≤ e.weight) :
    ∃ len u v, get_diameter st = some (len, u, v) ∧ (0 ≤ u ∧ u < adj.length) ∧
      (0 ≤ v ∧ v < adj.length) ∧ get_weighted_dist st u v = some len ∧
      ∀ p q : Int, 0 ≤ p → p < adj.length → 0 ≤ q → q < adj.length →
        ∃ d, get_weighted_dist st p q = some d ∧ d ≤ len := by
  obtain ⟨r0, ⟨hr0, hr1⟩, hfo, hpar⟩ := hB.first_root hne
  have hsep : rd st.euler (lo st r0 + 1) = some (-1) := by
    rw [← hpar]; exact (hB.node r0 hr0 hr1).1.2.2.2.2
  have hnodes : ∀ j, 0 ≤ j → j < lo st r0 + 1 →
      ∃ y, rd st.euler j = some y ∧ 0 ≤ y ∧ y < adj.length := by
    intro j hj0 hj1
    obtain ⟨y, hy, hy2, _⟩ := hB.interval r0 hr0 hr1 j (by omega) (by omega)
    exact ⟨y, hy, hy2⟩
  have hdesc : ∀ x : Int, 0 ≤ x → x < adj.length → IsAnc st r0 x := by
    intro x hx0 hx1
    obtain ⟨r, hr, ⟨k, hk⟩, hrx⟩ := (hB.conn_iff r0 x hr0 hr1 hx0 hx1).1
      (hconn r0 x hr0 hr1 hx0 hx1)
    cases k with
    | zero =>
      have : r = r0 := hk.symm
      rw [← this]; exact hrx
    | succ k =>
      have e : kth_parent st (k + 1) r0 = kth_parent st k (parent_of st r0) := rfl
      rw [e, hpar, kth_parent_neg_one] at hk
      omega
  have hin : ∀ x : Int, 0 ≤ x → x < adj.length → 0 ≤ fo st x ∧ fo st x ≤ lo st r0 := by
    intro x hx0 hx1
    obtain ⟨_, _, h3, h4, _⟩ := hB.anc_interval r0 x hx0 hx1 hr0 (hdesc x hx0 hx1)
    have := hB.fo_le_lo x hx0 hx1
    exact ⟨by omega, by omega⟩
  have hlo0 : 0 ≤ lo st r0 := by have := hB.fo_le_lo r0 hr0 hr1; omega
  have hE0 : rd st.euler 0 = some r0 := by
    rw [← hfo]; exact (hB.node r0 hr0 hr1).1.1
  have hwd0 : wd st r0 = 0 := hB.root_wd r0 hr0 hr1 hpar
  -- the scan
  obtain ⟨res, um1, uxm1, hrun, hinv⟩ : ∃ res um1 uxm1, get_diameter st = some res ∧
      DiamInv st (lo st r0 + 1) um1 uxm1 res := by
    unfold get_diameter
    rw [hB.2.2.2.2.2.2.1]
    simp only [if_true]
    cases hE : st.euler with
    | nil => rw [hE] at hE0; simp [rd] at hE0
    | cons node rest =>
      have hnode : node = r0 := by
        rw [hE, rd_cons_zero] at hE0
        injection hE0
      subst hnode
      unfold diameter_loop
      simp only [show ¬ node < 0 by omega, if_false, rd_weight_depth hB.sized hr0 hr1,
        Option.bind_eq_bind, Option.some_bind]
      refine hB.diameter_loop_spec (lo st node + 1) hsep hnodes rest 1 _ _ _ (fun k hk => ?_)
        (le_refl _) (by omega) (diamInv_first st node hE0 hwd0)
      rw [hE, show (1 : Int) + k = k + 1 by ring, rd_cons_succ _ _ _ hk]
  obtain ⟨_, _, _, _, c1, ⟨i, j, k, y, c2, c3, c4, c5, c6, c7, c8, c9⟩⟩ := hinv
  obtain ⟨len, u, v⟩ := res
  simp only at c1 c6 c8 c9
  -- the two nodes returned
  obtain ⟨u', hu', hu0, hu1⟩ := hnodes i c2 (by omega)
  rw [c6] at hu'
  injection hu' with e
  subst e
  obtain ⟨v', hv', hv0, hv1⟩ := hnodes k (by omega) c5
  rw [c8] at hv'
  injection hv' with e
  subst e
  -- every weighted distance is at most `len`
  have hall : ∀ p q : Int, 0 ≤ p → p < adj.length → 0 ≤ q → q < adj.length →
      ∃ c : Int, (0 ≤ c ∧ c < adj.length) ∧ get_lca st p q = some c ∧ IsAnc st c p ∧
        IsAnc st c q ∧ wd st p + wd st q - 2 * wd st c ≤ len := by
    intro p q hp0 hp1 hq0 hq1
    by_cases hpq : fo st p ≤ fo st q
    · obtain ⟨c, m, h1, h2, h3, h4, h5, h6, h7⟩ := hB.lca_position p q r0 hp0 hp1 hq0 hq1 hr0
        (hdesc p hp0 hp1) (hdesc q hq0 hq1) hpq
      refine ⟨c, h2, h1, h6, h7, ?_⟩
      have := c1 (fo st p) m (fo st q) p c q (hin p hp0 hp1).1 h4 h5
        (by have := (hin q hq0 hq1).2; omega) (hB.node p hp0 hp1).1.1 h3
        (hB.node q hq0 hq1).1.1
      linarith
    · obtain ⟨c, m, h1, h2, h3, h4, h5, h6, h7⟩ := hB.lca_position q p r0 hq0 hq1 hp0 hp1 hr0
        (hdesc q hq0 hq1) (hdesc p hp0 hp1) (by omega)
      refine ⟨c, h2, by rw [hB.get_lca_comm p q hp0 hp1 hq0 hq1]; exact h1, h7, h6, ?_⟩
      have := c1 (fo st q) m (fo st p) q c p (hin q hq0 hq1).1 h4 h5
        (by have := (hin p hp0 hp1).2; omega) (hB.node q hq0 hq1).1.1 h3
        (hB.node p hp0 hp1).1.1
      linarith
  refine ⟨len, u, v, hrun, ⟨hu0, hu1⟩, ⟨hv0, hv1⟩, ?_, ?_⟩
  · obtain ⟨c, ⟨hc0, hc1⟩, hl, hcu, hcv, hle⟩ := hall u v hu0 hu1 hv0 hv1
    rw [hB.get_weighted_dist_eq u v c hu0 hu1 hv0 hv1 hc0 hc1 hl]
    -- the middle position holds a descendant of the lowest common ancestor
    obtain ⟨_, _, hcu3, hcu4, _, _⟩ := hB.anc_interval c u hu0 hu1 hc0 hcu
    obtain ⟨_, _, hcv3, hcv4, _, _⟩ := hB.anc_interval c v hv0 hv1 hc0 hcv
    have hiu : fo st u ≤ i ∧ i ≤ lo st u := by
      obtain ⟨y1, hy1, hy2⟩ := hB.entries i c2
        (by have := (hB.node r0 hr0 hr1).2.1.2.1; omega)
      rw [c6] at hy1
      injection hy1 with e
      subst e
      rcases hy2 with h | ⟨_, h⟩
      · omega
      · exact h
    have hkv : fo st v ≤ k ∧ k ≤ lo st v := by
      obtain ⟨y1, hy1, hy2⟩ := hB.entries k (by omega)
        (by have := (hB.node r0 hr0 hr1).2.1.2.1; omega)
      rw [c8] at hy1
      injection hy1 with e
      subst e
      rcases hy2 with h | ⟨_, h⟩
      · omega
      · exact h
    obtain ⟨y2, hy2, ⟨hy0, hy1⟩, ⟨ky, hky⟩⟩ := hB.interval c hc0 hc1 j (by omega) (by omega)
    rw [c7] at hy2
    injection hy2 with e
    subst e
    have hmono := hB.wd_mono hw ky y hy0 hy1 (by rw [hky]; exact hc0)
    rw [hky] at hmono
    congr 1
    linarith
  · intro p q hp0 hp1 hq0 hq1
    obtain ⟨c, ⟨hc0, hc1⟩, hl, _, _, hle⟩ := hall p q hp0 hp1 hq0 hq1
    exact ⟨_, hB.get_weighted_dist_eq p q c hp0 hp1 hq0 hq1 hc0 hc1 hl, hle⟩

end weighted_LCA

namespace weighted_LCA

/-- C5: on a non-empty connected tree without negative edge weights (whose Euler tour
fits a 32-bit `int`) `build` succeeds and `get_diameter` returns endpoints `u`, `v` such
that `get_weighted_dist(p, q) <= get_weighted_dist(u, v)` for every pair of nodes `p`,
`q`. -/
theorem get_diameter_is_maximal (S : StdSort) (prev : weighted_LCA)
    (adj : List (List edge)) (root : Int)
    (hF : IsForest adj) (hsmall : 2 * (adj.length : Int) < 2147483648) (hne : adj ≠ [])
    (hconn : ∀ a b : Int, 0 ≤ a → a < adj.length → 0 ≤ b → b < adj.length →
      Connected adj a b)
    (hw : ∀ row ∈ adj, ∀ e ∈ row, 0 ≤ e.weight) :
    ∃ st len u v duv, build S (init_adj prev adj) root true = some st ∧
      get_diameter st = some (len, u, v) ∧ get_weighted_dist st u v = some duv ∧
      ∀ p q : Int, 0 ≤ p → p < adj.length → 0 ≤ q → q < adj.length →
        ∃ dpq, get_weighted_dist st p q = some dpq ∧ dpq ≤ duv := by
  obtain ⟨st, F, hb, hB⟩ := build_spec S prev adj root hF hsmall
  obtain ⟨len, u, v, h1, _, _, h2, h3⟩ := hB.diameter_spec hne hconn hw
  exact ⟨st, len, u, v, len, hb, h1, h2, h3⟩

theorem get_diameter_is_maximal_witness :
    ∃ st len u v duv, build insertion_sort (init_adj fresh star_adj) (-1) true = some st ∧
      get_diameter st = some (len, u, v) ∧ get_weighted_dist st u v = some duv ∧
      ∀ p q : Int, 0 ≤ p → p < star_adj.length → 0 ≤ q → q < star_adj.length →
        ∃ dpq, get_weighted_dist st p q = some dpq ∧ dpq ≤ duv :=
  get_diameter_is_maximal insertion_sort fresh star_adj (-1) star_adj_isForest (by decide)
    (by decide) star_adj_connected (by decide)

end weighted_LCA

/-- In a list ordered by `key`, two members on both sides of a threshold enclose two
neighbours on both sides of it. -/
theorem exists_crossing {α : Type} (key : α → Int) (t : Int) : ∀ (l : List α),
    l.Pairwise (fun a b => key a ≤ key b) → ∀ a ∈ l, ∀ b ∈ l, key a < t → t ≤ key b →
    ∃ u v, (u, v) ∈ l.zip l.tail ∧ key u < t ∧ t ≤ key v ∧ key a ≤ key u ∧ key v ≤ key b := by
  intro l
  induction l with
  | nil => intro _ a ha; simp at ha
  | cons x tl ih =>
    intro hs a ha b hb hat htb
    cases tl with
    | nil =>
      simp only [List.mem_singleton] at ha hb
      rw [ha] at hat
      rw [hb] at htb
      omega
    | cons y rest =>
      rw [List.pairwise_cons] at hs
      obtain ⟨hx, hs2⟩ := hs
      have hxa : key x ≤ key a := by
        rcases List.mem_cons.1 ha with h | h
        · rw [h]
        · exact hx a h
      have hbt : b ∈ y :: rest := by
        rcases List.mem_cons.1 hb with h | h
        · exfalso
          rw [h] at htb
          omega
        · exact h
      have hyb : key y ≤ key b := by
        rcases List.mem_cons.1 hbt with h | h
        · rw [h]
        · exact (List.pairwise_cons.1 hs2).1 b h
      by_cases hy : t ≤ key y
      · have hax : a = x := by
          rcases List.mem_cons.1 ha with h | h
          · exact h
          · exfalso
            have : key y ≤ key a := by
              rcases List.mem_cons.1 h with h1 | h1
              · rw [h1]
              · exact (List.pairwise_cons.1 hs2).1 a h1
            omega
        subst hax
        exact ⟨a, y, by simp, hat, hy, le_refl _, hyb⟩
      · push_neg at hy
        have step : ∀ a1 ∈ y :: rest, key a1 < t → key a ≤ key a1 →
            ∃ u v, (u, v) ∈ (x :: y :: rest).zip (x :: y :: rest).tail ∧ key u < t ∧
              t ≤ key v ∧ key a ≤ key u ∧ key v ≤ key b := by
          intro a1 ha1 h1 h2
          obtain ⟨u, v, huv, h3, h4, h5, h6⟩ := ih hs2 a1 ha1 b hbt h1 htb
          refine ⟨u, v, ?_, h3, h4, le_trans h2 h5, h6⟩
          simp only [List.tail_cons, List.zip_cons_cons, List.mem_cons]
          exact Or.inr huv
        rcases List.mem_cons.1 ha with h | h
        · subst h
          exact step y (by simp) hy (hx y (by simp))
        · exact step a h hat (le_refl _)

/-- Two neighbours of a strictly ordered list have no member between them. -/
theorem neighbours_strict {α : Type} (key : α → Int) : ∀ (l : List α),
    l.Pairwise (fun a b => key a < key b) → ∀ u v, (u, v) ∈ l.zip l.tail →
    key u < key v ∧ u ∈ l ∧ v ∈ l ∧ ∀ z ∈ l, key z ≤ key u ∨ key v ≤ key z := by
  intro l
  induction l with
  | nil => intro _ u v h; simp at h
  | cons x tl ih =>
    intro hs u v huv
    cases tl with
    | nil => simp at huv
    | cons y rest =>
      rw [List.pairwise_cons] at hs
      obtain ⟨hx, hs2⟩ := hs
      simp only [List.tail_cons, List.zip_cons_cons, List.mem_cons, Prod.mk.injEq] at huv
      rcases huv with ⟨h1, h2⟩ | h
      · subst h1
        subst h2
        refine ⟨hx v (by simp), by simp, by simp, fun z hz => ?_⟩
        rcases List.mem_cons.1 hz with h | h
        · left; rw [h]
        · right
          rcases List.mem_cons.1 h with h1 | h1
          · rw [h1]
          · exact le_of_lt ((List.pairwise_cons.1 hs2).1 z h1)
      · obtain ⟨h1, h2, h3, h4⟩ := ih hs2 u v h
        refine ⟨h1, List.mem_cons_of_mem _ h2, List.mem_cons_of_mem _ h3, fun z hz => ?_⟩
        rcases List.mem_cons.1 hz with h5 | h5
        · left
          rw [h5]
          exact le_of_lt (hx u h2)
        · exact h4 z h5

namespace weighted_LCA

variable {adj : List (List edge)} {st : weighted_LCA} {F : Forest}

/-- Sorting a list of nodes by `compare_tour`. -/
theorem BuiltOn.sort_tour_spec (hB : BuiltOn adj st F) (S : StdSort) (l : List Int)
    (hl : ∀ x ∈ l, 0 ≤ x ∧ x < adj.length) :
    ∃ l1, sort_tour S st l = some l1 ∧ l1.Perm l ∧
      l1.Pairwise (fun a b => tsk st a ≤ tsk st b) := by
  unfold sort_tour
  by_cases h : l.length < 2
  · simp only [h, if_true]
    refine ⟨l, rfl, List.Perm.refl _, ?_⟩
    cases l with
    | nil => exact List.Pairwise.nil
    | cons x tl =>
      cases tl with
      | nil => simp
      | cons y rest =>
        simp only [List.length_cons] at h
        omega
  · simp only [h, if_false]
    have hall : l.all (fun x => (rd st.tour_start x).isSome) = true := by
      rw [List.all_eq_true]
      intro x hx
      rw [rd_tour_start hB.sized (hl x hx).1 (hl x hx).2]
      rfl
    simp only [hall, if_true]
    exact ⟨_, rfl, S.perm _ l, S.sorted (tsk st) l⟩

/-- Merging two ordered lists of nodes. -/
theorem BuiltOn.merge_tour_spec (hB : BuiltOn adj st F) : ∀ (xs ys : List Int),
    (∀ x ∈ xs, 0 ≤ x ∧ x < adj.length) → (∀ y ∈ ys, 0 ≤ y ∧ y < adj.length) →
    xs.Pairwise (fun a b => tsk st a ≤ tsk st b) →
    ys.Pairwise (fun a b => tsk st a ≤ tsk st b) →
    ∃ m, merge_tour st xs ys = some m ∧ m.Perm (xs ++ ys) ∧
      m.Pairwise (fun a b => tsk st a ≤ tsk st b) := by
  intro xs
  induction xs with
  | nil =>
    intro ys _ _ _ hys
    exact ⟨ys, by simp [merge_tour], by simp, hys⟩
  | cons x xs ihx =>
    intro ys
    induction ys with
    | nil =>
      intro _ _ hxs _
      exact ⟨x :: xs, by simp [merge_tour], by simp, hxs⟩
    | cons y ys ihy =>
      intro hxr hyr hxs hys
      have hx := hxr x (by simp)
      have hy := hyr y (by simp)
      have hcmp : compare_tour st y x = some (decide (tsk st y < tsk st x)) := by
        unfold compare_tour
        simp [rd_tour_start hB.sized hy.1 hy.2, rd_tour_start hB.sized hx.1 hx.2]
      rw [merge_tour]
      simp only [hcmp, Option.bind_eq_bind, Option.some_bind, decide_eq_true_eq]
      by_cases c : tsk st y < tsk st x
      · simp only [c, if_true]
        obtain ⟨m, hm, hperm, hsorted⟩ := ihy hxr
          (fun z hz => hyr z (List.mem_cons_of_mem _ hz)) hxs (List.pairwise_cons.1 hys).2
        refine ⟨y :: m, by simp [hm], ?_, ?_⟩
        · refine (hperm.cons y).trans ?_
          exact (List.perm_middle).symm
        · rw [List.pairwise_cons]
          refine ⟨fun z hz => ?_, hsorted⟩
          have hz2 := hperm.mem_iff.1 hz
          rcases List.mem_append.1 hz2 with h | h
          · rcases List.mem_cons.1 h with h1 | h1
            · rw [h1]; exact le_of_lt c
            · have := (List.pairwise_cons.1 hxs).1 z h1
              omega
          · exact (List.pairwise_cons.1 hys).1 z h
      · simp only [c, if_false]
        obtain ⟨m, hm, hperm, hsorted⟩ := ihx (y :: ys)
          (fun z hz => hxr z (List.mem_cons_of_mem _ hz)) hyr (List.pairwise_cons.1 hxs).2 hys
        refine ⟨x :: m, by simp [hm], ?_, ?_⟩
        · exact hperm.cons x
        · rw [List.pairwise_cons]
          refine ⟨fun z hz => ?_, hsorted⟩
          have hz2 := hperm.mem_iff.1 hz
          rcases List.mem_append.1 hz2 with h | h
          · exact (List.pairwise_cons.1 hxs).1 z h
          · rcases List.mem_cons.1 h with h1 | h1
            · rw [h1]; omega
            · have := (List.pairwise_cons.1 hys).1 z h1
              omega

/-- In an ordered list of nodes `unique` leaves every node once. -/
theorem BuiltOn.unique_spec (hB : BuiltOn adj st F) : ∀ (l : List Int),
    (∀ x ∈ l, 0 ≤ x ∧ x < adj.length) → l.Pairwise (fun a b => tsk st a ≤ tsk st b) →
    (unique l).Pairwise (fun a b => tsk st a < tsk st b) ∧ (∀ z, z ∈ unique l ↔ z ∈ l) ∧
      (unique l).length ≤ l.length := by
  intro l
  induction l with
  | nil => intro _ _; simp [unique]
  | cons x tl ih =>
    intro hr hs
    cases tl with
    | nil => simp [unique]
    | cons y rest =>
      obtain ⟨h1, h2, h3⟩ := ih (fun z hz => hr z (List.mem_cons_of_mem _ hz))
        (List.pairwise_cons.1 hs).2
      rw [unique]
      by_cases c : x = y
      · simp only [c, if_true]
        refine ⟨h1, fun z => ?_, by simp only [List.length_cons] at h3 ⊢; omega⟩
        rw [h2 z]
        simp
      · simp only [c, if_false]
        refine ⟨?_, fun z => ?_, by simp only [List.length_cons] at h3 ⊢; omega⟩
        · rw [List.pairwise_cons]
          refine ⟨fun z hz => ?_, h1⟩
          have hz2 := (h2 z).1 hz
          have hxy : tsk st x ≤ tsk st y := (List.pairwise_cons.1 hs).1 y (by simp)
          have hyz : tsk st y ≤ tsk st z := by
            rcases List.mem_cons.1 hz2 with h | h
            · rw [h]
            · exact (List.pairwise_cons.1 (List.pairwise_cons.1 hs).2).1 z h
          have hne : tsk st x ≠ tsk st y := fun e =>
            c (hB.tsk_inj x y (hr x (by simp)).1 (hr x (by simp)).2 (hr y (by simp)).1
              (hr y (by simp)).2 e)
          omega
        · simp only [List.mem_cons]
          rw [h2 z]
          simp

end weighted_LCA

/-- Every member of the tail of a list has a neighbour before it. -/
theorem exists_neighbour_before {α : Type} : ∀ (l : List α) (x : α), x ∈ l.tail →
    ∃ u, (u, x) ∈ l.zip l.tail := by
  intro l
  induction l with
  | nil => intro x hx; simp at hx
  | cons y tl ih =>
    intro x hx
    cases tl with
    | nil => simp at hx
    | cons z rest =>
      simp only [List.tail_cons, List.mem_cons] at hx
      simp only [List.tail_cons, List.zip_cons_cons, List.mem_cons, Prod.mk.injEq]
      rcases hx with h | h
      · exact ⟨y, Or.inl ⟨rfl, h⟩⟩
      · obtain ⟨u, hu⟩ := ih x (by simpa using h)
        exact ⟨u, Or.inr (by simpa using hu)⟩

namespace weighted_LCA

variable {adj : List (List edge)} {st : weighted_LCA} {F : Forest}

/-- The ancestors of a node form a chain. -/
theorem BuiltOn.anc_chain (hB : BuiltOn adj st F) (a b c : Int) (ha0 : 0 ≤ a)
    (ha1 : a < adj.length) (hb0 : 0 ≤ b) (hb1 : b < adj.length) (hc0 : 0 ≤ c)
    (hc1 : c < adj.length) (hac : IsAnc st a c) (hbc : IsAnc st b c) :
    IsAnc st a b ∨ IsAnc st b a := by
  have h1 := (hB.anc_iff a c ha0 ha1 hc0 hc1).2 hac
  have h2 := (hB.anc_iff b c hb0 hb1 hc0 hc1).2 hbc
  by_cases h : tsk st a ≤ tsk st b
  · exact Or.inl ((hB.anc_iff a b ha0 ha1 hb0 hb1).1 ⟨h, by omega⟩)
  · exact Or.inr ((hB.anc_iff b a hb0 hb1 ha0 ha1).1 ⟨by omega, by omega⟩)

/-- The loop of `compress_tree` over the neighbours of the sorted input. -/
theorem BuiltOn.adjacent_lcas_spec (hB : BuiltOn adj st F) (r0 : Int) (hr0 : 0 ≤ r0) :
    ∀ (l : List Int), (∀ x ∈ l, (0 ≤ x ∧ x < adj.length) ∧ IsAnc st r0 x) →
    ∃ L, adjacent_lcas st l = some L ∧ L.length = l.length - 1 ∧
      (∀ c ∈ L, ((0 ≤ c ∧ c < adj.length) ∧ IsAnc st r0 c) ∧ ∃ s ∈ l, IsAnc st c s) ∧
      (∀ u v, (u, v) ∈ l.zip l.tail → ∃ c, get_lca st u v = some c ∧ c ∈ L) := by
  intro l
  induction l with
  | nil =>
    intro _
    exact ⟨[], rfl, rfl, fun c hc => by simp at hc, fun u v h => by simp at h⟩
  | cons x tl ih =>
    intro hl
    cases tl with
    | nil => exact ⟨[], rfl, rfl, fun c hc => by simp at hc, fun u v h => by simp at h⟩
    | cons y rest =>
      obtain ⟨L, h1, h2, h3, h4⟩ := ih (fun z hz => hl z (List.mem_cons_of_mem _ hz))
      obtain ⟨⟨hx0, hx1⟩, hxr⟩ := hl x (by simp)
      obtain ⟨⟨hy0, hy1⟩, hyr⟩ := hl y (by simp)
      obtain ⟨c, hc, hcr, hcx, _, hmin⟩ := hB.get_lca_conn x y r0 hx0 hx1 hy0 hy1 hr0 hxr hyr
      refine ⟨c :: L, ?_, ?_, ?_, ?_⟩
      · rw [adjacent_lcas]
        simp [hc, h1]
      · simp only [List.length_cons] at h2 ⊢
        omega
      · intro d hd
        rcases List.mem_cons.1 hd with h | h
        · subst h
          exact ⟨⟨hcr, hmin r0 hr0 hxr hyr⟩, x, by simp, hcx⟩
        · obtain ⟨a, s, hs, b⟩ := h3 d h
          exact ⟨a, s, List.mem_cons_of_mem _ hs, b⟩
      · intro u v huv
        simp only [List.tail_cons, List.zip_cons_cons, List.mem_cons, Prod.mk.injEq] at huv
        rcases huv with ⟨e1, e2⟩ | h
        · subst e1
          subst e2
          exact ⟨c, hc, by simp⟩
        · obtain ⟨d, hd1, hd2⟩ := h4 u v (by simpa using h)
          exact ⟨d, hd1, List.mem_cons_of_mem _ hd2⟩

/-- The loop of `compress_tree` that links every node to the lowest common ancestor of
it and the node before it. -/
theorem BuiltOn.compress_links_spec (hB : BuiltOn adj st F) (r0 : Int) (hr0 : 0 ≤ r0) :
    ∀ (rest : List Int) (prev : Int),
    (∀ x ∈ prev :: rest, (0 ≤ x ∧ x < adj.length) ∧ IsAnc st r0 x) →
    ∃ links, compress_links st prev rest = some links ∧
      links.map (fun e => e.1) = rest ∧
      ∀ e ∈ links, ∃ u, (u, e.1) ∈ (prev :: rest).zip rest ∧ get_lca st e.1 u = some e.2 := by
  intro rest
  induction rest with
  | nil =>
    intro prev _
    exact ⟨[], rfl, rfl, fun e he => by simp at he⟩
  | cons x rest ih =>
    intro prev hl
    obtain ⟨links, h1, h2, h3⟩ := ih x (fun z hz => hl z (List.mem_cons_of_mem _ hz))
    obtain ⟨⟨hp0, hp1⟩, hpr⟩ := hl prev (by simp)
    obtain ⟨⟨hx0, hx1⟩, hxr⟩ := hl x (by simp)
    obtain ⟨c, hc, _⟩ := hB.get_lca_conn x prev r0 hx0 hx1 hp0 hp1 hr0 hxr hpr
    refine ⟨(x, c) :: links, ?_, by simp [h2], ?_⟩
    · rw [compress_links]
      simp [hc, h1]
    · intro e he
      rcases List.mem_cons.1 he with h | h
      · subst h
        exact ⟨prev, by simp, hc⟩
      · obtain ⟨u, hu1, hu2⟩ := h3 e h
        exact ⟨u, by simp only [List.zip_cons_cons, List.mem_cons]; exact Or.inr hu1, hu2⟩

/-- The link of a node of the compressed tree: the lowest common ancestor of two
neighbours `prev`, `x` of the list `V` is in `V`, is a strict ancestor of `x`, and no
node of `V` lies between it and `x`. -/
theorem BuiltOn.link_spec (hB : BuiltOn adj st F) (r0 : Int) (hr0 : 0 ≤ r0)
    (S L V : List Int) (hS : ∀ x ∈ S, (0 ≤ x ∧ x < adj.length) ∧ IsAnc st r0 x)
    (hSs : S.Pairwise (fun a b => tsk st a ≤ tsk st b))
    (hL : ∀ c ∈ L, ((0 ≤ c ∧ c < adj.length) ∧ IsAnc st r0 c) ∧ ∃ s ∈ S, IsAnc st c s)
    (hadj : ∀ u v, (u, v) ∈ S.zip S.tail → ∃ c, get_lca st u v = some c ∧ c ∈ L)
    (hVs : V.Pairwise (fun a b => tsk st a < tsk st b))
    (hV : ∀ z, z ∈ V ↔ z ∈ S ∨ z ∈ L)
    (prev x p : Int) (hnb : (prev, x) ∈ V.zip V.tail) (hp : get_lca st x prev = some p) :
    p ∈ V ∧ IsAnc st p x ∧ p ≠ x ∧
      ∀ z ∈ V, IsAnc st p z → IsAnc st z x → z = p ∨ z = x := by
  have hVr : ∀ z ∈ V, (0 ≤ z ∧ z < adj.length) ∧ IsAnc st r0 z := by
    intro z hz
    rcases (hV z).1 hz with h | h
    · exact hS z h
    · exact (hL z h).1
  obtain ⟨hlt, hprevV, hxV, hgap⟩ := neighbours_strict (tsk st) V hVs prev x hnb
  obtain ⟨⟨hp0, hp1⟩, hpr⟩ := hVr prev hprevV
  obtain ⟨⟨hx0, hx1⟩, hxr⟩ := hVr x hxV
  obtain ⟨c, hc, ⟨hc0, hc1⟩, hcx, hcp, hmin⟩ := hB.get_lca_conn x prev r0 hx0 hx1 hp0 hp1 hr0
    hxr hpr
  rw [hp] at hc
  injection hc with e
  subst e
  have hne : p ≠ x := by
    intro e
    rw [e] at hcp
    have := (hB.anc_interval x prev hp0 hp1 hx0 hcp).2.2.2.2.1
    omega
  refine ⟨?_, hcx, hne, ?_⟩
  · -- the link is a node of the list
    by_cases hanc : IsAnc st prev x
    · have h1 := hmin prev hp0 hanc (IsAnc.refl st prev)
      rw [← hB.anc_antisymm p prev hc0 hc1 hcp h1]
      exact hprevV
    · have hte : te st prev ≤ tsk st x := by
        by_contra hcon
        exact hanc ((hB.anc_iff prev x hp0 hp1 hx0 hx1).1 ⟨by omega, by omega⟩)
      -- `prev` is one of the given nodes
      have hsub : ∀ w ∈ V, ∃ s ∈ S, IsAnc st w s := by
        intro w hw
        rcases (hV w).1 hw with h | h
        · exact ⟨w, h, IsAnc.refl st w⟩
        · exact (hL w h).2
      obtain ⟨a, haS, haanc⟩ := hsub prev hprevV
      obtain ⟨⟨ha0, ha1⟩, _⟩ := hS a haS
      have hai := (hB.anc_iff prev a hp0 hp1 ha0 ha1).2 haanc
      have haeq : a = prev := by
        apply hB.tsk_inj a prev ha0 ha1 hp0 hp1
        rcases hgap a ((hV a).2 (Or.inl haS)) with h | h
        · omega
        · omega
      subst haeq
      obtain ⟨b, hbS, hbanc⟩ := hsub x hxV
      obtain ⟨⟨hb0, hb1⟩, _⟩ := hS b hbS
      have hbi := (hB.anc_iff x b hx0 hx1 hb0 hb1).2 hbanc
      obtain ⟨u, v, huv, hu1, hv1, hu2, hv2⟩ := exists_crossing (tsk st) (tsk st x) S hSs a haS
        b hbS hlt hbi.1
      have huS : u ∈ S := (List.of_mem_zip huv).1
      have hvS : v ∈ S := List.mem_of_mem_tail (List.of_mem_zip huv).2
      obtain ⟨⟨hu0, hu1'⟩, _⟩ := hS u huS
      obtain ⟨⟨hv0, hv1'⟩, hvr⟩ := hS v hvS
      have hueq : u = a := by
        apply hB.tsk_inj u a hu0 hu1' ha0 ha1
        rcases hgap u ((hV u).2 (Or.inl huS)) with h | h
        · omega
        · omega
      subst hueq
      have hxv : IsAnc st x v := (hB.anc_iff x v hx0 hx1 hv0 hv1').1 ⟨hv1, by omega⟩
      obtain ⟨l, hl, hlL⟩ := hadj u v huv
      obtain ⟨l1, hl1, ⟨hl0, hl1'⟩, hlu, hlv, hlmin⟩ := hB.get_lca_conn u v r0 hu0 hu1' hv0 hv1'
        hr0 hpr hvr
      rw [hl] at hl1
      injection hl1 with e
      subst e
      have hpl : IsAnc st p l := hlmin p hc0 hcp (hcx.trans hxv)
      have hlp : IsAnc st l p := by
        rcases hB.anc_chain l x v hl0 hl1' hx0 hx1 hv0 hv1' hlv hxv with h | h
        · exact hmin l hl0 h hlu
        · exfalso
          have := (hB.anc_interval x u hu0 hu1' hx0 (h.trans hlu)).2.2.2.2.1
          omega
      rw [← hB.anc_antisymm l p hl0 hl1' hlp hpl] at hlL
      exact (hV p).2 (Or.inr hlL)
  · -- no node of the list lies between the link and the node
    intro z hzV hpz hzx
    by_cases hzx2 : z = x
    · exact Or.inr hzx2
    · left
      obtain ⟨⟨hz0, hz1⟩, _⟩ := hVr z hzV
      have hzi := (hB.anc_iff z x hz0 hz1 hx0 hx1).2 hzx
      have htz : tsk st z ≠ tsk st x := fun e => hzx2 (hB.tsk_inj z x hz0 hz1 hx0 hx1 e)
      have hzp : IsAnc st z prev := by
        apply (hB.anc_iff z prev hz0 hz1 hp0 hp1).1
        rcases hgap z hzV with h | h
        · exact ⟨h, by omega⟩
        · omega
      exact hB.anc_antisymm p z hc0 hc1 hpz (hmin z hz0 hzx hzp)

/-- The root of the tree of a node is an ancestor of every ancestor of the node. -/
theorem BuiltOn.root_anc (hB : BuiltOn adj st F) (a r : Int) (ha0 : 0 ≤ a)
    (ha1 : a < adj.length) (hr0 : 0 ≤ r) (hra : IsAnc st r a) :
    IsAnc st (kth_parent st (dep st a).toNat a) r := by
  obtain ⟨k, hk⟩ := hra
  have hke := hB.kth_eq a ha0 ha1 k (by rw [hk]; exact hr0)
  rw [hk] at hke
  obtain ⟨⟨hr0', hr1⟩, _⟩ := hB.anc_interval r a ha0 ha1 hr0 ⟨k, hk⟩
  have hdr := (hB.node r hr0' hr1).2.1.2.2.2.2
  refine ⟨(dep st a).toNat - k, ?_⟩
  rw [← hk, ← kth_parent_add]
  congr 1
  omega

/-- The result of `compress_tree` on a non-empty list of nodes of one component. -/
theorem BuiltOn.compress_tree_spec (hB : BuiltOn adj st F) (S : StdSort) (nodes : List Int)
    (hne : nodes ≠ []) (hr : ∀ x ∈ nodes, 0 ≤ x ∧ x < adj.length)
    (hconn : ∀ a ∈ nodes, ∀ b ∈ nodes, Connected adj a b) :
    ∃ res f links, compress_tree S st nodes = some res ∧ res = (f, -1) :: links ∧
      (∀ s ∈ nodes, s ∈ res.map (fun e => e.1)) ∧ (res.map (fun e => e.1)).Nodup ∧
      res.length + 1 ≤ 2 * nodes.length ∧
      (∀ e ∈ res, IsAnc st f e.1) ∧
      ∀ e ∈ links, e.2 ∈ res.map (fun e => e.1) ∧ IsAnc st e.2 e.1 ∧ e.2 ≠ e.1 ∧
        ∀ z ∈ res.map (fun e => e.1), IsAnc st e.2 z → IsAnc st z e.1 → z = e.2 ∨ z = e.1 := by
  obtain ⟨s0, tl, hnodes⟩ : ∃ s0 tl, nodes = s0 :: tl := by
    cases nodes with
    | nil => exact absurd rfl hne
    | cons s0 tl => exact ⟨s0, tl, rfl⟩
  have hs0 : s0 ∈ nodes := by rw [hnodes]; simp
  obtain ⟨hs00, hs01⟩ := hr s0 hs0
  -- all nodes lie below the root of the first
  obtain ⟨r0, ⟨hr0, _⟩, _, _, _, hr0eq⟩ := hB.root s0 hs00 hs01
  have hT : ∀ x ∈ nodes, (0 ≤ x ∧ x < adj.length) ∧ IsAnc st r0 x := by
    intro x hx
    obtain ⟨hx0, hx1⟩ := hr x hx
    obtain ⟨r, hr', hrs, hrx⟩ := (hB.conn_iff s0 x hs00 hs01 hx0 hx1).1 (hconn s0 hs0 x hx)
    refine ⟨⟨hx0, hx1⟩, IsAnc.trans ?_ hrx⟩
    rw [hr0eq]
    exact hB.root_anc s0 r hs00 hs01 hr' hrs
  -- the steps of `compress_tree`
  obtain ⟨S1, hS1, hS1p, hS1s⟩ := hB.sort_tour_spec S nodes hr
  have hS1T : ∀ x ∈ S1, (0 ≤ x ∧ x < adj.length) ∧ IsAnc st r0 x :=
    fun x hx => hT x (hS1p.mem_iff.1 hx)
  obtain ⟨L, hL, hLlen, hLT, hLadj⟩ := hB.adjacent_lcas_spec r0 hr0 S1 hS1T
  obtain ⟨L1, hL1, hL1p, hL1s⟩ := hB.sort_tour_spec S L (fun c hc => (hLT c hc).1.1)
  obtain ⟨m, hm, hmp, hms⟩ := hB.merge_tour_spec S1 L1 (fun x hx => (hS1T x hx).1)
    (fun c hc => (hLT c (hL1p.mem_iff.1 hc)).1.1) hS1s hL1s
  have hmem : ∀ z, z ∈ m ↔ z ∈ S1 ∨ z ∈ L := by
    intro z
    rw [hmp.mem_iff, List.mem_append, hL1p.mem_iff]
  have hmr : ∀ z ∈ m, 0 ≤ z ∧ z < adj.length := by
    intro z hz
    rcases (hmem z).1 hz with h | h
    · exact (hS1T z h).1
    · exact (hLT z h).1.1
  obtain ⟨hVs, hVmem, hVlen⟩ := hB.unique_spec m hmr hms
  have hVm : ∀ z, z ∈ unique m ↔ z ∈ S1 ∨ z ∈ L := fun z => (hVmem z).trans (hmem z)
  have hVT : ∀ z ∈ unique m, (0 ≤ z ∧ z < adj.length) ∧ IsAnc st r0 z := by
    intro z hz
    rcases (hVm z).1 hz with h | h
    · exact hS1T z h
    · exact (hLT z h).1
  have hs0V : s0 ∈ unique m := (hVm s0).2 (Or.inl (hS1p.mem_iff.2 hs0))
  obtain ⟨f, rest, hV⟩ : ∃ f rest, unique m = f :: rest := by
    cases hu : unique m with
    | nil => rw [hu] at hs0V; simp at hs0V
    | cons f rest => exact ⟨f, rest, rfl⟩
  rw [hV] at hVs hVm hVT
  obtain ⟨links, hlinks, hlmap, hlspec⟩ := hB.compress_links_spec r0 hr0 rest f hVT
  have hresmap : ((f, (-1 : Int)) :: links).map (fun e => e.1) = f :: rest := by
    simp only [List.map_cons, hlmap]
  have hlen : m.length = nodes.length + (nodes.length - 1) := by
    rw [hmp.length_eq, List.length_append, hL1p.length_eq, hLlen, hS1p.length_eq]
  have hnpos : 1 ≤ nodes.length := by rw [hnodes]; simp
  -- the links
  have hlink : ∀ (prev x p : Int), (prev, x) ∈ (f :: rest).zip (f :: rest).tail →
      get_lca st x prev = some p →
      p ∈ f :: rest ∧ IsAnc st p x ∧ p ≠ x ∧
        ∀ z ∈ f :: rest, IsAnc st p z → IsAnc st z x → z = p ∨ z = x :=
    fun prev x p hnb hp => hB.link_spec r0 hr0 S1 L (f :: rest) hS1T hS1s hLT hLadj hVs hVm
      prev x p hnb hp
  -- the first node is an ancestor of every node
  have hfirst : ∀ (k : Nat) (x : Int), x ∈ f :: rest → tsk st x - tsk st f ≤ k →
      IsAnc st f x := by
    intro k
    induction k with
    | zero =>
      intro x hx hk
      rcases List.mem_cons.1 hx with h | h
      · rw [h]; exact IsAnc.refl st f
      · have := (List.pairwise_cons.1 hVs).1 x h
        simp at hk
        omega
    | succ k ih =>
      intro x hx hk
      rcases List.mem_cons.1 hx with h | h
      · rw [h]; exact IsAnc.refl st f
      · obtain ⟨u, hu⟩ := exists_neighbour_before (f :: rest) x h
        obtain ⟨_, huV, _, _⟩ := neighbours_strict (tsk st) (f :: rest) hVs u x hu
        obtain ⟨⟨hx0, hx1⟩, hxr⟩ := hVT x hx
        obtain ⟨⟨hu0, hu1⟩, hur⟩ := hVT u huV
        obtain ⟨p, hp, _⟩ := hB.get_lca_conn x u r0 hx0 hx1 hu0 hu1 hr0 hxr hur
        obtain ⟨hpV, hpx, hpne, _⟩ := hlink u x p hu hp
        obtain ⟨⟨hp0, hp1⟩, _⟩ := hVT p hpV
        have h1 := (hB.anc_interval p x hx0 hx1 hp0 hpx).2.2.2.2.1
        have h2 : tsk st p ≠ tsk st x := fun e => hpne (hB.tsk_inj p x hp0 hp1 hx0 hx1 e)
        exact (ih p hpV (by push_cast at hk; omega)).trans hpx
  refine ⟨(f, -1) :: links, f, links, ?_, rfl, ?_, ?_, ?_, ?_, ?_⟩
  · rw [hnodes]
    simp only [compress_tree]
    rw [← hnodes]
    simp only [hS1, hL, hL1, hm, hV, hlinks, Option.bind_eq_bind, Option.some_bind,
      Option.pure_def]
  · intro s hs
    rw [hresmap]
    exact (hVm s).2 (Or.inl (hS1p.mem_iff.2 hs))
  · rw [hresmap]
    exact hVs.imp (fun h e => by rw [e] at h; omega)
  · have h1 : ((f, (-1 : Int)) :: links).length = (unique m).length := by
      rw [hV, ← hresmap, List.length_map]
    rw [h1]
    omega
  · intro e he
    have hx : e.1 ∈ f :: rest := by
      rw [← hresmap]
      exact List.mem_map_of_mem _ he
    have hf0 := (hVT f (by simp)).1
    have hx0 := (hVT e.1 hx).1
    have := (hB.node e.1 hx0.1 hx0.2).2.1.2.2.1
    exact hfirst (tsk st e.1 - tsk st f).toNat e.1 hx (by omega)
  · intro e he
    obtain ⟨u, hu1, hu2⟩ := hlspec e he
    rw [hresmap]
    exact hlink u e.1 e.2 hu1 hu2

end weighted_LCA

theorem star_nodes_in_range : ∀ x ∈ [(3 : Int), 1], 0 ≤ x ∧ x < star_adj.length := by
  intro x hx
  simp only [List.mem_cons, List.mem_singleton, List.not_mem_nil, or_false] at hx
  rcases hx with h | h <;> subst h <;> decide

namespace weighted_LCA

/-- C6: on a forest (whose Euler tour fits a 32-bit `int`) `build` succeeds, and in the
built structure `compress_tree` of the empty list is the empty list, and for a non-empty
list `nodes` of nodes of one component `compress_tree(nodes)` returns a list of
(node, parent) pairs among whose nodes is every node of `nodes`, in which no node is
listed twice, and which has at most `2 * |nodes| - 1` entries. -/
theorem compress_tree_contains_nodes (S : StdSort) (prev : weighted_LCA)
    (adj : List (List edge)) (root : Int)
    (hF : IsForest adj) (hsmall : 2 * (adj.length : Int) < 2147483648) :
    ∃ st, build S (init_adj prev adj) root true = some st ∧
      compress_tree S st [] = some [] ∧
      ∀ nodes : List Int, nodes ≠ [] → (∀ x ∈ nodes, 0 ≤ x ∧ x < adj.length) →
        (∀ a ∈ nodes, ∀ b ∈ nodes, Connected adj a b) →
        ∃ res, compress_tree S st nodes = some res ∧
          (∀ s ∈ nodes, s ∈ res.map (fun e => e.1)) ∧ (res.map (fun e => e.1)).Nodup ∧
          res.length ≤ 2 * nodes.length - 1 := by
  obtain ⟨st, F, hb, hB⟩ := build_spec S prev adj root hF hsmall
  refine ⟨st, hb, rfl, fun nodes hne hr hconn => ?_⟩
  obtain ⟨res, _, _, h1, _, h2, h3, h4, _⟩ := hB.compress_tree_spec S nodes hne hr hconn
  exact ⟨res, h1, h2, h3, by omega⟩

theorem compress_tree_contains_nodes_witness :
    ∃ st res, build insertion_sort (init_adj fresh star_adj) (-1) true = some st ∧
      compress_tree insertion_sort st [] = some [] ∧
      compress_tree insertion_sort st [3, 1] = some res ∧
      (∀ s ∈ [(3 : Int), 1], s ∈ res.map (fun e => e.1)) ∧ (res.map (fun e => e.1)).Nodup ∧
      res.length ≤ 2 * [(3 : Int), 1].length - 1 := by
  obtain ⟨st, hb, h0, h⟩ := compress_tree_contains_nodes insertion_sort fresh star_adj (-1)
    star_adj_isForest (by decide)
  obtain ⟨res, h1, h2⟩ := h [3, 1] (by simp) star_nodes_in_range
    (fun a ha b hb => star_adj_connected a b (star_nodes_in_range a ha).1
      (star_nodes_in_range a ha).2 (star_nodes_in_range b hb).1 (star_nodes_in_range b hb).2)
  exact ⟨st, res, hb, h0, h1, h2⟩

/-- C7: on a forest (whose Euler tour fits a 32-bit `int`) `build` succeeds, and in the
built structure, for a non-empty list `nodes` of nodes of one component, the first entry
of `compress_tree(nodes)` has parent `-1` and is an ancestor of every returned node, and
every later entry `(x, p)` has `p` among the returned nodes, `p` a strict ancestor of `x`,
and no returned node other than `p` and `x` between `p` and `x` on the parent chain. -/
theorem compress_tree_parent_links (S : StdSort) (prev : weighted_LCA)
    (adj : List (List edge)) (root : Int)
    (hF : IsForest adj) (hsmall : 2 * (adj.length : Int) < 2147483648) :
    ∃ st, build S (init_adj prev adj) root true = some st ∧
      ∀ nodes : List Int, nodes ≠ [] → (∀ x ∈ nodes, 0 ≤ x ∧ x < adj.length) →
        (∀ a ∈ nodes, ∀ b ∈ nodes, Connected adj a b) →
        ∃ f links, compress_tree S st nodes = some ((f, -1) :: links) ∧
          (∀ e ∈ (f, -1) :: links, IsAnc st f e.1) ∧
          ∀ e ∈ links, e.2 ∈ ((f, -1) :: links).map (fun e => e.1) ∧
            IsAnc st e.2 e.1 ∧ e.2 ≠ e.1 ∧
            ∀ z ∈ ((f, -1) :: links).map (fun e => e.1),
              IsAnc st e.2 z → IsAnc st z e.1 → z = e.2 ∨ z = e.1 := by
  obtain ⟨st, F, hb, hB⟩ := build_spec S prev adj root hF hsmall
  refine ⟨st, hb, fun nodes hne hr hconn => ?_⟩
  obtain ⟨res, f, links, h1, h2, _, _, _, h3, h4⟩ := hB.compress_tree_spec S nodes hne hr hconn
  subst h2
  exact ⟨f, links, h1, h3, h4⟩

theorem compress_tree_parent_links_witness :
    ∃ st f links, build insertion_sort (init_adj fresh star_adj) (-1) true = some st ∧
      compress_tree insertion_sort st [3, 1] = some ((f, -1) :: links) ∧
      (∀ e ∈ (f, -1) :: links, IsAnc st f e.1) ∧
      ∀ e ∈ links, e.2 ∈ ((f, -1) :: links).map (fun e => e.1) ∧
        IsAnc st e.2 e.1 ∧ e.2 ≠ e.1 ∧
        ∀ z ∈ ((f, -1) :: links).map (fun e => e.1),
          IsAnc st e.2 z → IsAnc st z e.1 → z = e.2 ∨ z = e.1 := by
  obtain ⟨st, hb, h⟩ := compress_tree_parent_links insertion_sort fresh star_adj (-1)
    star_adj_isForest (by decide)
  obtain ⟨f, links, h1⟩ := h [3, 1] (by simp) star_nodes_in_range
    (fun a ha b hb => star_adj_connected a b (star_nodes_in_range a ha).1
      (star_nodes_in_range a ha).2 (star_nodes_in_range b hb).1 (star_nodes_in_range b hb).2)
  exact ⟨st, f, links, hb, h1⟩

end weighted_LCA

namespace RMQ

/-- An empty RMQ answers no query: the assertion of `query_index` fails. -/
theorem query_index_empty (r : RMQ) (hn : r.n = 0) (x y : Int) : r.query_index x y = none := by
  unfold query_index
  have : ¬ (0 ≤ x ∧ x < y ∧ y ≤ r.n) := by rw [hn]; omega
  simp only [this, if_false]

end RMQ

namespace weighted_LCA

theorem rd_replicate_zero {n : Nat} {i v : Int} (h : rd (List.replicate n (0 : Int)) i = some v) :
    v = 0 := by
  obtain ⟨h0, h1⟩ := rd_bounds h
  rw [rd_replicate n 0 i h0 (by simpa using h1)] at h
  injection h with e
  exact e.symm

/-- The vectors of a newly constructed structure. -/
theorem new_adj_fields (adj : List (List edge)) :
    (new_adj adj).built = false ∧ (new_adj adj).rmq.n = 0 ∧ (new_adj adj).n = adj.length ∧
    (new_adj adj).first_occurrence = List.replicate adj.length 0 ∧
    (new_adj adj).tour_start = List.replicate adj.length 0 ∧
    (new_adj adj).tour_end = List.replicate adj.length 0 ∧
    (new_adj adj).tour_list = List.replicate adj.length 0 ∧
    (new_adj adj).heavy_root = List.replicate adj.length 0 ∧
    (new_adj adj).depth = List.replicate adj.length 0 := by
  simp [new_adj, init_adj, init, fresh, resize]

theorem get_lca_unbuilt (adj : List (List edge)) (a b : Int) :
    get_lca (new_adj adj) a b = none := by
  unfold get_lca
  cases rd (new_adj adj).first_occurrence a with
  | none => rfl
  | some a1 =>
    cases rd (new_adj adj).first_occurrence b with
    | none => rfl
    | some b1 =>
      simp only [Option.bind_eq_bind, Option.some_bind]
      by_cases c : b1 < a1
      · simp only [c, if_true, RMQ.query_index_empty _ (new_adj_fields adj).2.1]
        rfl
      · simp only [c, if_false, RMQ.query_index_empty _ (new_adj_fields adj).2.1]
        rfl

/-- The queries on a newly constructed structure. -/
theorem new_adj_queries (S : StdSort) (adj : List (List edge)) :
    get_diameter (new_adj adj) = none ∧ get_center (new_adj adj) = none ∧
    (∀ a b, get_lca (new_adj adj) a b = none) ∧
    (∀ a b, get_dist (new_adj adj) a b = none) ∧
    (∀ a b, get_weighted_dist (new_adj adj) a b = none) ∧
    (∀ a b k, get_kth_node_on_path (new_adj adj) a b k = none) ∧
    (∀ a b c, get_common_node (new_adj adj) a b c = none) ∧
    (∀ a b : Int, 0 ≤ a → a < adj.length → 0 ≤ b → b < adj.length →
      is_ancestor (new_adj adj) a b = some false) ∧
    (∀ x a b : Int, 0 ≤ x → x < adj.length → 0 ≤ a → a < adj.length → 0 ≤ b →
      b < adj.length → on_path (new_adj adj) x a b = some false) ∧
    (∀ a : Int, 0 ≤ a → a < adj.length → get_kth_ancestor (new_adj adj) a 0 = some 0) ∧
    compress_tree S (new_adj adj) [] = some [] ∧
    ∀ a : Int, compress_tree S (new_adj adj) [a] = some [(a, -1)] := by
  obtain ⟨hb, hrmq, hn, hfo, hts, hte, htl, hhr, hdep⟩ := new_adj_fields adj
  have hdiam : get_diameter (new_adj adj) = none := by
    unfold get_diameter
    simp [hb]
  have hanc : ∀ a b : Int, 0 ≤ a → a < adj.length → 0 ≤ b → b < adj.length →
      is_ancestor (new_adj adj) a b = some false := by
    intro a b ha0 ha1 hb0 hb1
    unfold is_ancestor
    rw [hts, hte, rd_replicate _ _ _ ha0 ha1, rd_replicate _ _ _ hb0 hb1]
    simp
  refine ⟨hdiam, ?_, get_lca_unbuilt adj, ?_, ?_, ?_, ?_, hanc, ?_, ?_, rfl, ?_⟩
  · unfold get_center
    simp [hdiam]
  · intro a b
    unfold get_dist
    rw [get_lca_unbuilt]
    cases rd (new_adj adj).depth a with
    | none => rfl
    | some da =>
      cases rd (new_adj adj).depth b with
      | none => rfl
      | some db => rfl
  · intro a b
    unfold get_weighted_dist
    rw [get_lca_unbuilt]
    cases rd (new_adj adj).weight_depth a with
    | none => rfl
    | some da =>
      cases rd (new_adj adj).weight_depth b with
      | none => rfl
      | some db => rfl
  · intro a b k
    unfold get_kth_node_on_path
    rw [get_lca_unbuilt]
    rfl
  · intro a b c
    unfold get_common_node
    rw [get_lca_unbuilt]
    rfl
  · intro x a b hx0 hx1 ha0 ha1 hb0 hb1
    unfold on_path
    rw [hanc x a hx0 hx1 ha0 ha1, hanc x b hx0 hx1 hb0 hb1]
    rfl
  · intro a ha0 ha1
    unfold get_kth_ancestor
    have hfuel : (new_adj adj).n.toNat + 1 = (adj.length - 1 + 1) + 1 := by
      rw [hn]
      have : 0 < adj.length := by omega
      simp only [Int.toNat_ofNat]
      omega
    rw [hfuel]
    unfold kth_ancestor_loop
    have h0 : (0 : Int) < adj.length := by omega
    simp only [ha0, if_true, hhr, hdep, hts, htl, rd_replicate _ _ _ ha0 ha1,
      rd_replicate _ _ _ (le_refl (0 : Int)) h0, Option.bind_eq_bind, Option.some_bind,
      sub_zero, le_refl]
  · intro a
    simp [compress_tree, sort_tour, adjacent_lcas, merge_tour, unique, compress_links]

theorem compress_tree_small (S : StdSort) (st : weighted_LCA) :
    compress_tree S st [] = some [] ∧ ∀ a : Int, compress_tree S st [a] = some [(a, -1)] := by
  refine ⟨rfl, fun a => ?_⟩
  simp [compress_tree, sort_tour, adjacent_lcas, merge_tour, unique, compress_links]

theorem new_eq_new_adj (k : Nat) : new (k : Int) = new_adj (List.replicate k []) := by
  simp [new, new_adj, init_adj, init]

/-- C11 (as amended): on every structure on which `init` has been called (on any earlier
state `prev`) and `build` has not been called since, `get_diameter` and `get_center`
fail at `assert(built)`, and `compress_tree` returns the empty list on the empty list
and `[(a, -1)]` on a single node.  The other queries have no such guard.  On a newly
constructed structure `get_lca`, `get_dist`, `get_weighted_dist`, `get_kth_node_on_path`
and `get_common_node` fail at the assertion of the empty RMQ, `is_ancestor` and `on_path`
return false on all nodes and `get_kth_ancestor(a, 0)` returns 0.  On a structure that
was built before the `init` they answer from the tables of that build: for the path
0 - 1 - 2 after `build()` and `init(3)`, `built` is false, `is_ancestor(0, 1)` and
`on_path(1, 0, 2)` return true, `get_lca(1, 2)` returns 1, `get_dist(0, 2)` returns 2 and
`get_kth_ancestor(2, 0)` returns 2. -/
theorem queries_on_unbuilt_structure (S : StdSort) (prev : weighted_LCA) (n : Int)
    (adj : List (List edge)) :
    ((init prev n).built = false ∧ (init_adj prev adj).built = false ∧
      get_diameter (init prev n) = none ∧ get_center (init prev n) = none ∧
      get_diameter (init_adj prev adj) = none ∧ get_center (init_adj prev adj) = none ∧
      compress_tree S (init prev n) [] = some [] ∧
      (∀ a : Int, compress_tree S (init prev n) [a] = some [(a, -1)]) ∧
      compress_tree S (init_adj prev adj) [] = some [] ∧
      (∀ a : Int, compress_tree S (init_adj prev adj) [a] = some [(a, -1)])) ∧
    ((∀ k : Nat, new (k : Int) = new_adj (List.replicate k [])) ∧
      (∀ a b, get_lca (new_adj adj) a b = none) ∧
      (∀ a b, get_dist (new_adj adj) a b = none) ∧
      (∀ a b, get_weighted_dist (new_adj adj) a b = none) ∧
      (∀ a b k, get_kth_node_on_path (new_adj adj) a b k = none) ∧
      (∀ a b c, get_common_node (new_adj adj) a b c = none) ∧
      (∀ a b : Int, 0 ≤ a → a < adj.length → 0 ≤ b → b < adj.length →
        is_ancestor (new_adj adj) a b = some false) ∧
      (∀ x a b : Int, 0 ≤ x → x < adj.length → 0 ≤ a → a < adj.length → 0 ≤ b →
        b < adj.length → on_path (new_adj adj) x a b = some false) ∧
      (∀ a : Int, 0 ≤ a → a < adj.length → get_kth_ancestor (new_adj adj) a 0 = some 0)) ∧
    (rebuilt_path.map (fun st => st.built) = some false ∧
      rebuilt_path.bind (fun st => is_ancestor st 0 1) = some true ∧
      rebuilt_path.bind (fun st => on_path st 1 0 2) = some true ∧
      rebuilt_path.bind (fun st => get_lca st 1 2) = some 1 ∧
      rebuilt_path.bind (fun st => get_dist st 0 2) = some 2 ∧
      rebuilt_path.bind (fun st => get_kth_ancestor st 2 0) = some 2) := by
  have hd1 : get_diameter (init prev n) = none := by simp [get_diameter, init]
  have hd2 : get_diameter (init_adj prev adj) = none := by
    simp [get_diameter, init_adj, init]
  obtain ⟨_, _, g3, g4, g5, g6, g7, g8, g9, g10, _, _⟩ := new_adj_queries S adj
  refine ⟨⟨rfl, rfl, hd1, by simp [get_center, hd1], hd2, by simp [get_center, hd2],
    (compress_tree_small S _).1, (compress_tree_small S _).2,
    (compress_tree_small S _).1, (compress_tree_small S _).2⟩,
    ⟨new_eq_new_adj, g3, g4, g5, g6, g7, g8, g9, g10⟩, ?_⟩
  decide

theorem queries_on_unbuilt_structure_witness :
    get_diameter (init fresh 4) = none ∧ get_lca (new_adj star_adj) 1 2 = none ∧
      is_ancestor (new_adj star_adj) 1 2 = some false ∧
      get_kth_ancestor (new_adj star_adj) 1 0 = some 0 ∧
      compress_tree insertion_sort (init fresh 4) [2] = some [(2, -1)] :=
  have h := queries_on_unbuilt_structure insertion_sort fresh 4 star_adj
  ⟨h.1.2.2.1, h.2.1.2.1 1 2,
    h.2.1.2.2.2.2.2.2.1 1 2 (by decide) (by decide) (by decide) (by decide),
    h.2.1.2.2.2.2.2.2.2.2 1 (by decide) (by decide), h.1.2.2.2.2.2.2.2.1 2⟩

/-- C11 fails as stated: after `init(2)` on a new structure and without `build`,
`is_ancestor(0, 1)` returns false, `on_path(0, 1, 1)` returns false,
`get_kth_ancestor(1, 0)` returns 0 and `compress_tree([1])` returns `[(1, -1)]`; and on
the path 0 - 1 - 2 after `build()` and `init(3)`, `is_ancestor(0, 1)` returns true and
`get_lca(1, 2)` returns 1. -/
theorem queries_on_unbuilt_structure_counterexample :
    is_ancestor (new 2) 0 1 = some false ∧ on_path (new 2) 0 1 1 = some false ∧
      get_kth_ancestor (new 2) 1 0 = some 0 ∧
      compress_tree insertion_sort (new 2) [1] = some [(1, -1)] ∧
      (new 2).built = false ∧
      rebuilt_path.map (fun st => st.built) = some false ∧
      rebuilt_path.bind (fun st => is_ancestor st 0 1) = some true ∧
      rebuilt_path.bind (fun st => get_lca st 1 2) = some 1 := by
  refine ⟨by decide, by decide, by decide, ?_, rfl, by decide, by decide, by decide⟩
  simp [compress_tree, sort_tour, adjacent_lcas, merge_tour, unique, compress_links]

/-- C12 (as amended): on a forest (whose Euler tour fits a 32-bit `int`) `build`
succeeds, and in the built structure every node `v` has
`tour_start[v] < tour_end[v]` and `tour_end[v] = tour_start[v] + subtree_size[v]`. -/
theorem tour_end_is_tour_start_plus_subtree_size (S : StdSort) (prev : weighted_LCA)
    (adj : List (List edge))
    (root : Int) (hF : IsForest adj) (hsmall : 2 * (adj.length : Int) < 2147483648) :
    ∃ st, build S (init_adj prev adj) root true = some st ∧
      ∀ v : Int, 0 ≤ v → v < adj.length →
        ∃ s e z, rd st.tour_start v = some s ∧ rd st.tour_end v = some e ∧
          rd st.subtree_size v = some z ∧ s < e ∧ e = s + z := by
  obtain ⟨st, F, hb, hB⟩ := build_spec S prev adj root hF hsmall
  refine ⟨st, hb, fun v hv0 hv1 => ?_⟩
  obtain ⟨⟨_, _, h3, h4, _⟩, _, _⟩ := hB.node v hv0 hv1
  refine ⟨tsk st v, te st v, ssz st v, rd_tour_start hB.sized hv0 hv1,
    rd_tour_end hB.sized hv0 hv1, ?_, by omega, h3⟩
  exact rd_getD hB.sized.2.2.2.2.1 hv0 hv1

theorem tour_end_is_tour_start_plus_subtree_size_witness :
    ∃ st, build insertion_sort (init_adj fresh star_adj) (-1) true = some st ∧
      ∀ v : Int, 0 ≤ v → v < star_adj.length →
        ∃ s e z, rd st.tour_start v = some s ∧ rd st.tour_end v = some e ∧
          rd st.subtree_size v = some z ∧ s < e ∧ e = s + z :=
  tour_end_is_tour_start_plus_subtree_size insertion_sort fresh star_adj (-1) star_adj_isForest
    (by decide)

/-- C12 fails as stated: on the star with centre 0 and leaves 1, 2, 3, after `build`,
`tour_start[0] = 0`, `subtree_size[0] = 4` and `tour_end[0] = 4`, which is not
`0 + 2 * 4 - 1`. -/
theorem tour_end_counterexample :
    (build insertion_sort (init_adj fresh star_adj) (-1) true).bind
        (fun st => rd st.tour_start 0) = some 0 ∧
      (build insertion_sort (init_adj fresh star_adj) (-1) true).bind
        (fun st => rd st.subtree_size 0) = some 4 ∧
      (build insertion_sort (init_adj fresh star_adj) (-1) true).bind
        (fun st => rd st.tour_end 0) = some 4 ∧
      (4 : Int) ≠ 0 + 2 * 4 - 1 := by
  decide

/-- C16: on a non-empty connected tree without negative edge weights (whose Euler tour
fits a 32-bit `int`) `build` succeeds and the length returned by `get_diameter` with the
endpoints `u`, `v` is `get_weighted_dist(u, v)`. -/
theorem get_diameter_length_is_weighted_dist (S : StdSort) (prev : weighted_LCA)
    (adj : List (List edge))
    (root : Int) (hF : IsForest adj) (hsmall : 2 * (adj.length : Int) < 2147483648)
    (hne : adj ≠ [])
    (hconn : ∀ a b : Int, 0 ≤ a → a < adj.length → 0 ≤ b → b < adj.length →
      Connected adj a b)
    (hw : ∀ row ∈ adj, ∀ e ∈ row, 0 ≤ e.weight) :
    ∃ st len u v, build S (init_adj prev adj) root true = some st ∧
      get_diameter st = some (len, u, v) ∧ get_weighted_dist st u v = some len := by
  obtain ⟨st, F, hb, hB⟩ := build_spec S prev adj root hF hsmall
  obtain ⟨len, u, v, h1, _, _, h2, _⟩ := hB.diameter_spec hne hconn hw
  exact ⟨st, len, u, v, hb, h1, h2⟩

theorem get_diameter_length_is_weighted_dist_witness :
    (∃ st len u v, build insertion_sort (init_adj fresh star_adj) (-1) true = some st ∧
      get_diameter st = some (len, u, v) ∧ get_weighted_dist st u v = some len) ∧
    (build insertion_sort (init_adj fresh star_adj) (-1) true).bind get_diameter
      = some (12, 1, 3) :=
  ⟨get_diameter_length_is_weighted_dist insertion_sort fresh star_adj (-1) star_adj_isForest
    (by decide) (by decide) star_adj_connected (by decide), by decide⟩

/-- C18 at the star with centre 0 and leaves 1, 2, 3 of weights 5, 3, 7: `get_diameter`
returns the length 12 with the endpoints 1 and 3, which are 2 edges apart, so the
position `12 / 2 = 6` that `get_center` passes to `get_kth_node_on_path` fails the
assertion `0 <= k <= 2` there, and `get_center` fails. -/
theorem get_center_fails_on_weighted_star :
    (build insertion_sort (init_adj fresh star_adj) (-1) true).bind get_diameter
        = some (12, 1, 3) ∧
      (build insertion_sort (init_adj fresh star_adj) (-1) true).bind
        (fun st => get_dist st 1 3) = some 2 ∧
      (build insertion_sort (init_adj fresh star_adj) (-1) true).bind
        (fun st => get_kth_node_on_path st 1 3 6) = none ∧
      (build insertion_sort (init_adj fresh star_adj) (-1) true).bind get_center = none ∧
      (build insertion_sort (init_adj fresh star_adj) (-1) true).isSome = true := by
  decide

end weighted_LCA

namespace weighted_LCA

variable {adj : List (List edge)} {st : weighted_LCA} {F : Forest}

/-- A common ancestor below which every common ancestor lies is what `get_lca`
returns. -/
theorem BuiltOn.get_lca_unique (hB : BuiltOn adj st F) (a b c : Int) (ha0 : 0 ≤ a)
    (ha1 : a < adj.length) (hb0 : 0 ≤ b) (hb1 : b < adj.length) (hc0 : 0 ≤ c)
    (hca : IsAnc st c a) (hcb : IsAnc st c b)
    (hmin : ∀ d, 0 ≤ d → IsAnc st d a → IsAnc st d b → IsAnc st d c) :
    get_lca st a b = some c := by
  obtain ⟨l, hl, ⟨hl0, hl1⟩, hla, hlb, hlmin⟩ := hB.get_lca_conn a b c ha0 ha1 hb0 hb1 hc0
    hca hcb
  rw [hl, hB.anc_antisymm l c hl0 hl1 (hmin l hl0 hla hlb) (hlmin c hc0 hca hcb)]

/-- The lowest common ancestor of a node and one of its ancestors is the ancestor. -/
theorem BuiltOn.get_lca_anc (hB : BuiltOn adj st F) (a x : Int) (ha0 : 0 ≤ a)
    (ha1 : a < adj.length) (hx0 : 0 ≤ x) (hxa : IsAnc st x a) :
    get_lca st a x = some x ∧ get_lca st x a = some x := by
  obtain ⟨⟨_, hx1⟩, _⟩ := hB.anc_interval x a ha0 ha1 hx0 hxa
  exact ⟨hB.get_lca_unique a x x ha0 ha1 hx0 hx1 hx0 hxa (IsAnc.refl st x)
      (fun d _ _ h => h),
    hB.get_lca_unique x a x hx0 hx1 ha0 ha1 hx0 (IsAnc.refl st x) hxa (fun d _ h _ => h)⟩

/-- The value of `get_dist` on two nodes with lowest common ancestor `c`. -/
theorem BuiltOn.get_dist_eq (hB : BuiltOn adj st F) (a b c : Int) (ha0 : 0 ≤ a)
    (ha1 : a < adj.length) (hb0 : 0 ≤ b) (hb1 : b < adj.length) (hc0 : 0 ≤ c)
    (hc1 : c < adj.length) (hl : get_lca st a b = some c) :
    get_dist st a b = some (dep st a + dep st b - 2 * dep st c) := by
  unfold get_dist
  rw [rd_depth hB.sized ha0 ha1, rd_depth hB.sized hb0 hb1, hl]
  simp only [Option.bind_eq_bind, Option.some_bind, rd_depth hB.sized hc0 hc1,
    Option.pure_def]

/-- The lowest common ancestor of `a` and a node between `b` and the lowest common
ancestor of `a` and `b` is the latter. -/
theorem BuiltOn.get_lca_between (hB : BuiltOn adj st F) (a b c x : Int) (ha0 : 0 ≤ a)
    (ha1 : a < adj.length) (hb0 : 0 ≤ b) (hb1 : b < adj.length) (hc0 : 0 ≤ c)
    (hx0 : 0 ≤ x) (hca : IsAnc st c a)
    (hmin : ∀ d, 0 ≤ d → IsAnc st d a → IsAnc st d b → IsAnc st d c)
    (hxb : IsAnc st x b) (hcx : IsAnc st c x) :
    get_lca st a x = some c ∧ get_lca st x a = some c := by
  obtain ⟨⟨_, hx1⟩, _⟩ := hB.anc_interval x b hb0 hb1 hx0 hxb
  exact ⟨hB.get_lca_unique a x c ha0 ha1 hx0 hx1 hc0 hca hcx
      (fun d hd h1 h2 => hmin d hd h1 (h2.trans hxb)),
    hB.get_lca_unique x a c hx0 hx1 ha0 ha1 hc0 hcx hca
      (fun d hd h1 h2 => hmin d hd h2 (h1.trans hxb))⟩

/-- Of the three pairwise lowest common ancestors of three nodes two are equal and the
third lies below them. -/
theorem BuiltOn.lca_three (hB : BuiltOn adj st F) (a b c x y z : Int) (ha0 : 0 ≤ a)
    (ha1 : a < adj.length) (hb0 : 0 ≤ b) (hb1 : b < adj.length) (hc0 : 0 ≤ c)
    (hc1 : c < adj.length) (hx : 0 ≤ x ∧ x < adj.length) (hy : 0 ≤ y ∧ y < adj.length)
    (hz : 0 ≤ z ∧ z < adj.length)
    (hxa : IsAnc st x a) (hxb : IsAnc st x b)
    (hxm : ∀ d, 0 ≤ d → IsAnc st d a → IsAnc st d b → IsAnc st d x)
    (hyb : IsAnc st y b) (hyc : IsAnc st y c)
    (hym : ∀ d, 0 ≤ d → IsAnc st d b → IsAnc st d c → IsAnc st d y)
    (hzc : IsAnc st z c) (hza : IsAnc st z a)
    (hzm : ∀ d, 0 ≤ d → IsAnc st d c → IsAnc st d a → IsAnc st d z) :
    (x = z ∧ IsAnc st x y) ∨ (x = y ∧ IsAnc st x z) ∨ (y = z ∧ IsAnc st y x) := by
  rcases hB.anc_chain x z a hx.1 hx.2 hz.1 hz.2 ha0 ha1 hxa hza with h | h
  · have hxy : IsAnc st x y := hym x hx.1 hxb (h.trans hzc)
    rcases hB.anc_chain y z c hy.1 hy.2 hz.1 hz.2 hc0 hc1 hyc hzc with h2 | h2
    · have hyx : IsAnc st y x := hxm y hy.1 (h2.trans hza) hyb
      exact Or.inr (Or.inl ⟨(hB.anc_antisymm y x hy.1 hy.2 hyx hxy), h⟩)
    · have hzx : IsAnc st z x := hxm z hz.1 hza (h2.trans hyb)
      exact Or.inl ⟨(hB.anc_antisymm z x hz.1 hz.2 hzx h), hxy⟩
  · have hzy : IsAnc st z y := hym z hz.1 (h.trans hxb) hzc
    rcases hB.anc_chain x y b hx.1 hx.2 hy.1 hy.2 hb0 hb1 hxb hyb with h2 | h2
    · have hxz : IsAnc st x z := hzm x hx.1 (h2.trans hyc) hxa
      exact Or.inl ⟨(hB.anc_antisymm z x hz.1 hz.2 h hxz), h2⟩
    · have hyz : IsAnc st y z := hzm y hy.1 hyc (h2.trans hxa)
      exact Or.inr (Or.inr ⟨hB.anc_antisymm z y hz.1 hz.2 hzy hyz, h2⟩)

/-- An ancestor of a node is determined by its depth. -/
theorem BuiltOn.anc_of_dep (hB : BuiltOn adj st F) (x y a : Int) (ha0 : 0 ≤ a)
    (ha1 : a < adj.length) (hx0 : 0 ≤ x) (hy0 : 0 ≤ y) (hxa : IsAnc st x a)
    (hya : IsAnc st y a) (hd : dep st x = dep st y) : x = y := by
  obtain ⟨i, hi⟩ := hxa
  obtain ⟨j, hj⟩ := hya
  have e1 := hB.kth_eq a ha0 ha1 i (by rw [hi]; exact hx0)
  have e2 := hB.kth_eq a ha0 ha1 j (by rw [hj]; exact hy0)
  rw [hi] at e1
  rw [hj] at e2
  have : i = j := by omega
  rw [← hi, ← hj, this]

end weighted_LCA

theorem int_xor_cancel (x y : Int) (hx : 0 ≤ x) (hy : 0 ≤ y) :
    Int.xor (Int.xor x y) x = y ∧ Int.xor (Int.xor x x) y = y ∧
      Int.xor (Int.xor x y) y = x := by
  obtain ⟨m, rfl⟩ := Int.eq_ofNat_of_zero_le hx
  obtain ⟨n, rfl⟩ := Int.eq_ofNat_of_zero_le hy
  refine ⟨?_, ?_, ?_⟩
  · show ((m ^^^ n ^^^ m : Nat) : Int) = n
    rw [Nat.xor_comm m n, Nat.xor_cancel_right]
  · show ((m ^^^ m ^^^ n : Nat) : Int) = n
    rw [Nat.xor_self, Nat.zero_xor]
  · show ((m ^^^ n ^^^ n : Nat) : Int) = m
    rw [Nat.xor_cancel_right]

namespace weighted_LCA

variable {adj : List (List edge)} {st : weighted_LCA} {F : Forest}

/-- Nodes of the component of `a` lie below the root of `a`. -/
theorem BuiltOn.conn_below_root (hB : BuiltOn adj st F) (a b : Int) (ha0 : 0 ≤ a)
    (ha1 : a < adj.length) (hb0 : 0 ≤ b) (hb1 : b < adj.length) (h : Connected adj a b) :
    IsAnc st (kth_parent st (dep st a).toNat a) b := by
  obtain ⟨r, hr, hra, hrb⟩ := (hB.conn_iff a b ha0 ha1 hb0 hb1).1 h
  exact (hB.root_anc a r ha0 ha1 hr hra).trans hrb

/-- The value of `on_path` on three nodes, `c` being the lowest common ancestor of `a`
and `b`. -/
theorem BuiltOn.on_path_eq (hB : BuiltOn adj st F) (x a b c : Int) (hx0 : 0 ≤ x)
    (hx1 : x < adj.length) (ha0 : 0 ≤ a) (ha1 : a < adj.length) (hb0 : 0 ≤ b)
    (hb1 : b < adj.length) (hc0 : 0 ≤ c) (hc1 : c < adj.length)
    (hl : get_lca st a b = some c) :
    ∃ r, on_path st x a b = some r ∧
      (r = true ↔ (IsAnc st x a ∨ IsAnc st x b) ∧ IsAnc st c x) := by
  have e1 := hB.is_ancestor_eq x a hx0 hx1 ha0 ha1
  have e2 := hB.is_ancestor_eq x b hx0 hx1 hb0 hb1
  have e3 := hB.is_ancestor_eq c x hc0 hc1 hx0 hx1
  have i1 := hB.anc_iff x a hx0 hx1 ha0 ha1
  have i2 := hB.anc_iff x b hx0 hx1 hb0 hb1
  have i3 := hB.anc_iff c x hc0 hc1 hx0 hx1
  rw [← i1, ← i2, ← i3]
  unfold on_path
  rw [e1, e2]
  by_cases h1 : tsk st x ≤ tsk st a ∧ tsk st a < te st x
  · by_cases h3 : tsk st c ≤ tsk st x ∧ tsk st x < te st c
    · exact ⟨true, by simp [h1, hl, e3, h3], by simp [h1, h3]⟩
    · exact ⟨false, by simp [h1, hl, e3, h3], by simp [h3]⟩
  · by_cases h2 : tsk st x ≤ tsk st b ∧ tsk st b < te st x
    · by_cases h3 : tsk st c ≤ tsk st x ∧ tsk st x < te st c
      · exact ⟨true, by simp [h1, h2, hl, e3, h3], by simp [h2, h3]⟩
      · exact ⟨false, by simp [h1, h2, hl, e3, h3], by simp [h3]⟩
    · exact ⟨false, by simp [h1, h2], by simp [h1, h2]⟩

/-- The node `get_kth_node_on_path` returns and its distances from the two ends. -/
theorem BuiltOn.kth_node_on_path_spec (hB : BuiltOn adj st F) (a b : Int) (ha0 : 0 ≤ a)
    (ha1 : a < adj.length) (hb0 : 0 ≤ b) (hb1 : b < adj.length) (hconn : Connected adj a b) :
    ∃ d, get_dist st a b = some d ∧ get_kth_node_on_path st a b 0 = some a ∧
      get_kth_node_on_path st a b d = some b ∧
      ∀ k : Int, 0 ≤ k → k ≤ d →
        ∃ x, get_kth_node_on_path st a b k = some x ∧ get_dist st a x = some k ∧
          get_dist st x b = some (d - k) := by
  obtain ⟨r, hr0, hra, hrb⟩ := (hB.conn_iff a b ha0 ha1 hb0 hb1).1 hconn
  obtain ⟨c, hl, ⟨hc0, hc1⟩, hca, hcb, hmin⟩ := hB.get_lca_conn a b r ha0 ha1 hb0 hb1 hr0
    hra hrb
  have hda := (hB.anc_interval c a ha0 ha1 hc0 hca).2.1
  have hdb := (hB.anc_interval c b hb0 hb1 hc0 hcb).2.1
  have hdist := hB.get_dist_eq a b c ha0 ha1 hb0 hb1 hc0 hc1 hl
  have hmin2 : ∀ d, 0 ≤ d → IsAnc st d b → IsAnc st d a → IsAnc st d c :=
    fun d hd h1 h2 => hmin d hd h2 h1
  -- the value of the query
  have hval : ∀ k : Int, 0 ≤ k → k ≤ dep st a + dep st b - 2 * dep st c →
      get_kth_node_on_path st a b k =
        if k < dep st a - dep st c then some (kth_parent st k.toNat a)
        else some (kth_parent st (dep st a - dep st c + (dep st b - dep st c) - k).toNat b) := by
    intro k hk0 hk1
    unfold get_kth_node_on_path
    simp only [hl, Option.bind_eq_bind, Option.some_bind, rd_depth hB.sized ha0 ha1,
      rd_depth hB.sized hb0 hb1, rd_depth hB.sized hc0 hc1]
    have hcond : 0 ≤ k ∧ k ≤ dep st a - dep st c + (dep st b - dep st c) := ⟨hk0, by omega⟩
    simp only [hcond, and_self, if_true]
    by_cases c1 : k < dep st a - dep st c
    · simp only [c1, if_true]
      exact hB.get_kth_ancestor_eq a k ha0 ha1 hk0
    · simp only [c1, if_false]
      exact hB.get_kth_ancestor_eq b _ hb0 hb1 (by omega)
  -- a node `j` levels above an end, not above `c`
  have hup : ∀ (e : Int), 0 ≤ e → e < adj.length → IsAnc st c e → ∀ j : Int, 0 ≤ j →
      j ≤ dep st e - dep st c →
      (0 ≤ kth_parent st j.toNat e ∧ kth_parent st j.toNat e < adj.length) ∧
      dep st (kth_parent st j.toNat e) = dep st e - j ∧
      IsAnc st (kth_parent st j.toNat e) e ∧ IsAnc st c (kth_parent st j.toNat e) := by
    intro e he0 he1 hce j hj0 hj1
    have hdc := (hB.node c hc0 hc1).2.1.2.2.2.2
    obtain ⟨i, hi⟩ := hce
    have hie := hB.kth_eq e he0 he1 i (by rw [hi]; exact hc0)
    rw [hi] at hie
    rcases hB.kth e he0 he1 j.toNat with ⟨_, h⟩ | ⟨hr1, h, _⟩
    · omega
    · refine ⟨hr1, by omega, ⟨_, rfl⟩, i - j.toNat, ?_⟩
      rw [← kth_parent_add, ← hi]
      congr 1
      omega
  refine ⟨_, hdist, ?_, ?_, ?_⟩
  · rw [hval 0 (le_refl _) (by omega)]
    by_cases c1 : (0 : Int) < dep st a - dep st c
    · simp only [c1, if_true]
      rfl
    · simp only [c1, if_false]
      have hac : c = a := hB.anc_of_dep c a a ha0 ha1 hc0 ha0 hca (IsAnc.refl st a) (by omega)
      obtain ⟨j, hj⟩ := hcb
      have hje := hB.kth_eq b hb0 hb1 j (by rw [hj]; exact hc0)
      rw [hj] at hje
      have : (dep st a - dep st c + (dep st b - dep st c) - 0).toNat = j := by omega
      rw [this, hj, hac]
  · rw [hval _ (by omega) (le_refl _)]
    have c1 : ¬ dep st a + dep st b - 2 * dep st c < dep st a - dep st c := by omega
    simp only [c1, if_false]
    have : (dep st a - dep st c + (dep st b - dep st c) -
        (dep st a + dep st b - 2 * dep st c)).toNat = 0 := by omega
    rw [this]
    rfl
  · intro k hk0 hk1
    rw [hval k hk0 hk1]
    by_cases c1 : k < dep st a - dep st c
    · simp only [c1, if_true]
      obtain ⟨⟨hx0, hx1⟩, hdx, hxa, hcx⟩ := hup a ha0 ha1 hca k hk0 (by omega)
      refine ⟨_, rfl, ?_, ?_⟩
      · rw [hB.get_dist_eq a _ _ ha0 ha1 hx0 hx1 hx0 hx1 (hB.get_lca_anc a _ ha0 ha1 hx0 hxa).1]
        congr 1
        omega
      · rw [hB.get_dist_eq _ b c hx0 hx1 hb0 hb1 hc0 hc1
          (hB.get_lca_between b a c _ hb0 hb1 ha0 ha1 hc0 hx0 hcb hmin2 hxa hcx).2]
        congr 1
        omega
    · simp only [c1, if_false]
      obtain ⟨⟨hx0, hx1⟩, hdx, hxb, hcx⟩ := hup b hb0 hb1 hcb
        (dep st a - dep st c + (dep st b - dep st c) - k) (by omega) (by omega)
      refine ⟨_, rfl, ?_, ?_⟩
      · rw [hB.get_dist_eq a _ c ha0 ha1 hx0 hx1 hc0 hc1
          (hB.get_lca_between a b c _ ha0 ha1 hb0 hb1 hc0 hx0 hca hmin hxb hcx).1]
        congr 1
        omega
      · rw [hB.get_dist_eq _ b _ hx0 hx1 hb0 hb1 hx0 hx1 (hB.get_lca_anc b _ hb0 hb1 hx0 hxb).2]
        congr 1
        omega

/-- C13: on a forest (whose Euler tour fits a 32-bit `int`) `build` succeeds, and in the
built structure, for two nodes `a`, `b` of one component and `0 <= k <= get_dist(a, b)`,
the node `x = get_kth_node_on_path(a, b, k)` has `get_dist(a, x) = k` and
`get_dist(x, b) = get_dist(a, b) - k`; `k = 0` gives `a` and `k = get_dist(a, b)` gives
`b`. -/
theorem get_kth_node_on_path_position (S : StdSort) (prev : weighted_LCA)
    (adj : List (List edge)) (root : Int)
    (hF : IsForest adj) (hsmall : 2 * (adj.length : Int) < 2147483648) :
    ∃ st, build S (init_adj prev adj) root true = some st ∧
      ∀ a b : Int, 0 ≤ a → a < adj.length → 0 ≤ b → b < adj.length → Connected adj a b →
        ∃ d, get_dist st a b = some d ∧ get_kth_node_on_path st a b 0 = some a ∧
          get_kth_node_on_path st a b d = some b ∧
          ∀ k : Int, 0 ≤ k → k ≤ d →
            ∃ x, get_kth_node_on_path st a b k = some x ∧ get_dist st a x = some k ∧
              get_dist st x b = some (d - k) := by
  obtain ⟨st, F, hb, hB⟩ := build_spec S prev adj root hF hsmall
  exact ⟨st, hb, fun a b ha0 ha1 hb0 hb1 hconn =>
    hB.kth_node_on_path_spec a b ha0 ha1 hb0 hb1 hconn⟩

theorem get_kth_node_on_path_position_witness :
    ∃ st d, build insertion_sort (init_adj fresh star_adj) (-1) true = some st ∧
      get_dist st 1 3 = some d ∧ get_kth_node_on_path st 1 3 0 = some 1 ∧
      get_kth_node_on_path st 1 3 d = some 3 ∧
      ∀ k : Int, 0 ≤ k → k ≤ d →
        ∃ x, get_kth_node_on_path st 1 3 k = some x ∧ get_dist st 1 x = some k ∧
          get_dist st x 3 = some (d - k) := by
  obtain ⟨st, hb, h⟩ := get_kth_node_on_path_position insertion_sort fresh star_adj (-1)
    star_adj_isForest (by decide)
  obtain ⟨d, hd⟩ := h 1 3 (by decide) (by decide) (by decide) (by decide)
    (star_adj_connected 1 3 (by decide) (by decide) (by decide) (by decide))
  exact ⟨st, d, hb, hd⟩

/-- C14: on a forest (whose Euler tour fits a 32-bit `int`) `build` succeeds, and in the
built structure, for three nodes `x`, `a`, `b` of one component, `on_path(x, a, b)`
returns true exactly if `get_dist(a, x) + get_dist(x, b) = get_dist(a, b)`. -/
theorem on_path_iff_dist (S : StdSort) (prev : weighted_LCA)
    (adj : List (List edge)) (root : Int)
    (hF : IsForest adj) (hsmall : 2 * (adj.length : Int) < 2147483648) :
    ∃ st, build S (init_adj prev adj) root true = some st ∧
      ∀ x a b : Int, 0 ≤ x → x < adj.length → 0 ≤ a → a < adj.length → 0 ≤ b →
        b < adj.length → Connected adj a b → Connected adj a x →
        ∃ r dax dxb dab, on_path st x a b = some r ∧ get_dist st a x = some dax ∧
          get_dist st x b = some dxb ∧ get_dist st a b = some dab ∧
          (r = true ↔ dax + dxb = dab) := by
  obtain ⟨st, F, hb, hB⟩ := build_spec S prev adj root hF hsmall
  refine ⟨st, hb, fun x a b hx0 hx1 ha0 ha1 hb0 hb1 hab hax => ?_⟩
  obtain ⟨r0, ⟨hr0, _⟩, hr0a, _, _, hr0eq⟩ := hB.root a ha0 ha1
  have hr0b : IsAnc st r0 b := by
    rw [hr0eq]; exact hB.conn_below_root a b ha0 ha1 hb0 hb1 hab
  have hr0x : IsAnc st r0 x := by
    rw [hr0eq]; exact hB.conn_below_root a x ha0 ha1 hx0 hx1 hax
  obtain ⟨p, hp, ⟨hp0, hp1⟩, hpa, hpx, hpm⟩ := hB.get_lca_conn a x r0 ha0 ha1 hx0 hx1 hr0
    hr0a hr0x
  obtain ⟨q, hq, ⟨hq0, hq1⟩, hqx, hqb, hqm⟩ := hB.get_lca_conn x b r0 hx0 hx1 hb0 hb1 hr0
    hr0x hr0b
  obtain ⟨c, hc, ⟨hc0, hc1⟩, hcb, hca, hcm⟩ := hB.get_lca_conn b a r0 hb0 hb1 ha0 ha1 hr0
    hr0b hr0a
  have hcab : get_lca st a b = some c := by
    rw [hB.get_lca_comm a b ha0 ha1 hb0 hb1]; exact hc
  obtain ⟨r, hr, hriff⟩ := hB.on_path_eq x a b c hx0 hx1 ha0 ha1 hb0 hb1 hc0 hc1 hcab
  refine ⟨r, _, _, _, hr, hB.get_dist_eq a x p ha0 ha1 hx0 hx1 hp0 hp1 hp,
    hB.get_dist_eq x b q hx0 hx1 hb0 hb1 hq0 hq1 hq,
    hB.get_dist_eq a b c ha0 ha1 hb0 hb1 hc0 hc1 hcab, ?_⟩
  rw [hriff]
  have hdp := (hB.anc_interval p x hx0 hx1 hp0 hpx).2.1
  have hdq := (hB.anc_interval q x hx0 hx1 hq0 hqx).2.1
  constructor
  · rintro ⟨hxab, hcx⟩
    rcases hxab with hxa | hxb
    · have e1 := (hB.get_lca_anc a x ha0 ha1 hx0 hxa).1
      have e2 := (hB.get_lca_between b a c x hb0 hb1 ha0 ha1 hc0 hx0 hcb hcm hxa hcx).2
      rw [hp] at e1
      rw [hq] at e2
      injection e1 with e1
      injection e2 with e2
      rw [e1, e2]
      ring
    · have e1 := (hB.get_lca_anc b x hb0 hb1 hx0 hxb).2
      have e2 := (hB.get_lca_between a b c x ha0 ha1 hb0 hb1 hc0 hx0 hca
        (fun d hd h1 h2 => hcm d hd h2 h1) hxb hcx).1
      rw [hq] at e1
      rw [hp] at e2
      injection e1 with e1
      injection e2 with e2
      rw [e1, e2]
      ring
  · intro heq
    have heq2 : dep st x + dep st c = dep st p + dep st q := by linarith
    rcases hB.lca_three a x b p q c ha0 ha1 hx0 hx1 hb0 hb1 ⟨hp0, hp1⟩ ⟨hq0, hq1⟩ ⟨hc0, hc1⟩
      hpa hpx hpm hqx hqb hqm hcb hca hcm with ⟨e, hpq⟩ | ⟨e, hpc⟩ | ⟨e, hqp⟩
    · have hxq : q = x := hB.anc_of_dep q x x hx0 hx1 hq0 hx0 hqx (IsAnc.refl st x)
        (by rw [e] at heq2; omega)
      rw [hxq] at hqb
      exact ⟨Or.inr hqb, by rw [← e]; exact hpx⟩
    · have hdc := (hB.anc_interval p c hc0 hc1 hp0 hpc).2.1
      have hxp : p = x := hB.anc_of_dep p x x hx0 hx1 hp0 hx0 hpx (IsAnc.refl st x)
        (by rw [← e] at heq2; omega)
      have hcp : p = c := hB.anc_of_dep p c c hc0 hc1 hp0 hc0 hpc (IsAnc.refl st c)
        (by rw [← e] at heq2; omega)
      rw [hxp] at hpa hcp
      exact ⟨Or.inl hpa, by rw [hcp]; exact IsAnc.refl st c⟩
    · have hxp : p = x := hB.anc_of_dep p x x hx0 hx1 hp0 hx0 hpx (IsAnc.refl st x)
        (by rw [← e] at heq2; omega)
      rw [hxp] at hpa
      exact ⟨Or.inl hpa, by rw [← e]; exact hqx⟩

theorem on_path_iff_dist_witness :
    ∃ st r dax dxb dab, build insertion_sort (init_adj fresh star_adj) (-1) true = some st ∧
      on_path st 0 1 3 = some r ∧ get_dist st 1 0 = some dax ∧
      get_dist st 0 3 = some dxb ∧ get_dist st 1 3 = some dab ∧
      (r = true ↔ dax + dxb = dab) := by
  obtain ⟨st, hb, h⟩ := on_path_iff_dist insertion_sort fresh star_adj (-1) star_adj_isForest
    (by decide)
  obtain ⟨r, dax, dxb, dab, h1⟩ := h 0 1 3 (by decide) (by decide) (by decide) (by decide)
    (by decide) (by decide)
    (star_adj_connected 1 3 (by decide) (by decide) (by decide) (by decide))
    (star_adj_connected 1 0 (by decide) (by decide) (by decide) (by decide))
  exact ⟨st, r, dax, dxb, dab, hb, h1⟩

/-- C15: on a forest (whose Euler tour fits a 32-bit `int`) `build` succeeds, and in the
built structure, for three nodes `a`, `b`, `c` of one component, `get_common_node(a, b, c)`
returns one of `get_lca(a, b)`, `get_lca(b, c)`, `get_lca(c, a)`, and the depth of the
node returned is at least the depth of each of the three. -/
theorem get_common_node_is_deepest_lca (S : StdSort) (prev : weighted_LCA)
    (adj : List (List edge)) (root : Int)
    (hF : IsForest adj) (hsmall : 2 * (adj.length : Int) < 2147483648) :
    ∃ st, build S (init_adj prev adj) root true = some st ∧
      ∀ a b c : Int, 0 ≤ a → a < adj.length → 0 ≤ b → b < adj.length → 0 ≤ c →
        c < adj.length → Connected adj a b → Connected adj a c →
        ∃ x y z res dx dy dz dres, get_lca st a b = some x ∧ get_lca st b c = some y ∧
          get_lca st c a = some z ∧ get_common_node st a b c = some res ∧
          (res = x ∨ res = y ∨ res = z) ∧ rd st.depth x = some dx ∧
          rd st.depth y = some dy ∧ rd st.depth z = some dz ∧
          rd st.depth res = some dres ∧ dx ≤ dres ∧ dy ≤ dres ∧ dz ≤ dres := by
  obtain ⟨st, F, hb, hB⟩ := build_spec S prev adj root hF hsmall
  refine ⟨st, hb, fun a b c ha0 ha1 hb0 hb1 hc0 hc1 hab hac => ?_⟩
  obtain ⟨r0, ⟨hr0, _⟩, hr0a, _, _, hr0eq⟩ := hB.root a ha0 ha1
  have hr0b : IsAnc st r0 b := by
    rw [hr0eq]; exact hB.conn_below_root a b ha0 ha1 hb0 hb1 hab
  have hr0c : IsAnc st r0 c := by
    rw [hr0eq]; exact hB.conn_below_root a c ha0 ha1 hc0 hc1 hac
  obtain ⟨x, hx, hxr, hxa, hxb, hxm⟩ := hB.get_lca_conn a b r0 ha0 ha1 hb0 hb1 hr0 hr0a hr0b
  obtain ⟨y, hy, hyr, hyb, hyc, hym⟩ := hB.get_lca_conn b c r0 hb0 hb1 hc0 hc1 hr0 hr0b hr0c
  obtain ⟨z, hz, hzr, hzc, hza, hzm⟩ := hB.get_lca_conn c a r0 hc0 hc1 ha0 ha1 hr0 hr0c hr0a
  have hres : get_common_node st a b c = some (Int.xor (Int.xor x y) z) := by
    unfold get_common_node
    simp only [hx, hy, hz, Option.bind_eq_bind, Option.some_bind, Option.pure_def]
  have hdx := rd_depth hB.sized hxr.1 hxr.2
  have hdy := rd_depth hB.sized hyr.1 hyr.2
  have hdz := rd_depth hB.sized hzr.1 hzr.2
  rcases hB.lca_three a b c x y z ha0 ha1 hb0 hb1 hc0 hc1 hxr hyr hzr hxa hxb hxm hyb hyc hym
    hzc hza hzm with ⟨e, hanc⟩ | ⟨e, hanc⟩ | ⟨e, hanc⟩
  · have hd := (hB.anc_interval x y hyr.1 hyr.2 hxr.1 hanc).2.1
    rw [← e, (int_xor_cancel x y hxr.1 hyr.1).1] at hres
    exact ⟨x, y, z, y, _, _, _, _, hx, hy, hz, hres, Or.inr (Or.inl rfl), hdx, hdy, hdz, hdy,
      hd, le_refl _, by rw [← e]; exact hd⟩
  · have hd := (hB.anc_interval x z hzr.1 hzr.2 hxr.1 hanc).2.1
    rw [← e, (int_xor_cancel x z hxr.1 hzr.1).2.1] at hres
    exact ⟨x, y, z, z, _, _, _, _, hx, hy, hz, hres, Or.inr (Or.inr rfl), hdx, hdy, hdz, hdz,
      hd, by rw [← e]; exact hd, le_refl _⟩
  · have hd := (hB.anc_interval y x hxr.1 hxr.2 hyr.1 hanc).2.1
    rw [← e, (int_xor_cancel x y hxr.1 hyr.1).2.2] at hres
    exact ⟨x, y, z, x, _, _, _, _, hx, hy, hz, hres, Or.inl rfl, hdx, hdy, hdz, hdx,
      le_refl _, hd, by rw [← e]; exact hd⟩

theorem get_common_node_is_deepest_lca_witness :
    ∃ st x y z res dx dy dz dres, build insertion_sort (init_adj fresh star_adj) (-1) true = some st ∧
      get_lca st 1 2 = some x ∧ get_lca st 2 3 = some y ∧
      get_lca st 3 1 = some z ∧ get_common_node st 1 2 3 = some res ∧
      (res = x ∨ res = y ∨ res = z) ∧ rd st.depth x = some dx ∧
      rd st.depth y = some dy ∧ rd st.depth z = some dz ∧
      rd st.depth res = some dres ∧ dx ≤ dres ∧ dy ≤ dres ∧ dz ≤ dres := by
  obtain ⟨st, hb, h⟩ := get_common_node_is_deepest_lca insertion_sort fresh star_adj (-1)
    star_adj_isForest (by decide)
  obtain ⟨x, y, z, res, dx, dy, dz, dres, h1⟩ := h 1 2 3 (by decide) (by decide) (by decide)
    (by decide) (by decide) (by decide)
    (star_adj_connected 1 2 (by decide) (by decide) (by decide) (by decide))
    (star_adj_connected 1 3 (by decide) (by decide) (by decide) (by decide))
  exact ⟨st, x, y, z, res, dx, dy, dz, dres, hb, h1⟩

/-- The node `child_ancestor` returns for a strict ancestor `a` of `b`. -/
theorem BuiltOn.child_ancestor_spec (hB : BuiltOn adj st F) (a b : Int) (ha0 : 0 ≤ a)
    (ha1 : a < adj.length) (hb0 : 0 ≤ b) (hb1 : b < adj.length) (hne : a ≠ b)
    (hab : IsAnc st a b) :
    ∃ c, child_ancestor st a b = some c ∧ (0 ≤ c ∧ c < adj.length) ∧
      rd st.parent c = some a ∧ IsAnc st c b := by
  obtain ⟨_, _, hfo, hlo, _, _⟩ := hB.anc_interval a b hb0 hb1 ha0 hab
  have hblo := hB.fo_le_lo b hb0 hb1
  have hda := (hB.node a ha0 ha1).2.1.2.2.2.2
  obtain ⟨m, hq, hm0, hm1, vm, hvm, hmin⟩ := hB.query a b ha0 ha1 hb0 hb1 hfo
  -- the positions between the first occurrences hold descendants of `a`
  have hin : ∀ j : Int, fo st a ≤ j → j ≤ fo st b →
      ∃ y, rd st.euler j = some y ∧ (0 ≤ y ∧ y < adj.length) ∧ IsAnc st a y ∧
        rd st.rmq.values j = some (dep st y) ∧ dep st a ≤ dep st y := by
    intro j h1 h2
    obtain ⟨y, hy, hy2, hy3⟩ := hB.interval a ha0 ha1 j h1 (by linarith)
    refine ⟨y, hy, hy2, hy3, ?_, (hB.anc_interval a y hy2.1 hy2.2 ha0 hy3).2.1⟩
    rw [hB.values.2 j y hy]
    simp [show ¬ y < 0 by omega]
  have hEa := (hB.node a ha0 ha1).1.1
  have hEb := (hB.node b hb0 hb1).1.1
  -- the minimum is the depth of `a`
  have hvma : vm = dep st a := by
    obtain ⟨y, hy, _, _, hvy, hdy⟩ := hin m hm0 (by linarith)
    obtain ⟨y2, hy2, _, _, hvy2, _⟩ := hin (fo st a) (le_refl _) hfo
    rw [hEa] at hy2
    injection hy2 with e
    subst e
    have := (hmin _ _ (le_refl _) (by linarith) hvy2).1
    rw [hvm] at hvy
    injection hvy with e2
    omega
  have hatmin : ∀ j y, fo st a ≤ j → j ≤ fo st b → rd st.euler j = some y →
      dep st y = dep st a → y = a ∧ j ≤ m := by
    intro j y h1 h2 hy hd
    obtain ⟨y2, hy2, ⟨hy0, hy1⟩, hanc, hvy, _⟩ := hin j h1 h2
    rw [hy] at hy2
    injection hy2 with e
    subst e
    refine ⟨hB.anc_of_dep y a y hy0 hy1 hy0 ha0 (IsAnc.refl st y) hanc hd, ?_⟩
    exact (hmin j _ h1 (by linarith) hvy).2 (by rw [hvma, hd])
  have hEm : rd st.euler m = some a := by
    obtain ⟨y, hy, _, _, hvy, _⟩ := hin m hm0 (by linarith)
    rw [hvm] at hvy
    injection hvy with e
    rw [hy, (hatmin m y hm0 (by linarith) hy (by omega)).1]
  have hmb : m < fo st b := by
    by_contra hcon
    have : m = fo st b := by omega
    rw [this, hEb] at hEm
    injection hEm with e
    exact hne e.symm
  -- the next position is the first occurrence of a child
  obtain ⟨y, hy, ⟨hy0, hy1⟩, hay, _, hdy⟩ := hin (m + 1) (by linarith) (by linarith)
  have hdy2 : dep st y ≠ dep st a := by
    intro e
    have := (hatmin (m + 1) y (by linarith) (by linarith) hy e).2
    omega
  have hyfo : fo st y = m + 1 := by
    obtain ⟨y2, hy2, hy3⟩ := hB.entries (m + 1) (by linarith [(hB.node a ha0 ha1).2.1.1])
      (by linarith [(hB.node b hb0 hb1).2.1.2.1])
    rw [hy] at hy2
    injection hy2 with e
    subst e
    rcases hy3 with h | ⟨_, h1, h2⟩
    · omega
    · by_contra hcon
      obtain ⟨z, hz, _, hz3⟩ := hB.interval y hy0 hy1 m (by omega) (by omega)
      rw [hEm] at hz
      injection hz with e
      subst e
      exact hdy2 (by rw [hB.anc_antisymm a y ha0 ha1 hay hz3])
  have hpar : parent_of st y = a := by
    have := hB.prev y hy0 hy1 (by linarith [(hB.node a ha0 ha1).2.1.1])
    rw [hyfo, show m + 1 - 1 = m by ring, hEm] at this
    injection this with e
    exact e.symm
  have hyb : IsAnc st y b := by
    have hle : fo st b ≤ lo st y := by
      by_contra hcon
      push_neg at hcon
      have h1 := (hB.node y hy0 hy1).1.2.2.2.2
      rw [hpar] at h1
      have hlo2 := hB.fo_le_lo y hy0 hy1
      have := (hatmin (lo st y + 1) a (by linarith) (by linarith) h1 rfl).2
      omega
    obtain ⟨z, hz, _, hz3⟩ := hB.interval y hy0 hy1 (fo st b) (by omega) hle
    rw [hEb] at hz
    injection hz with e
    rw [e]; exact hz3
  have hrdp : rd st.parent y = some a := by
    rw [rd_parent hB.sized hy0 hy1, hpar]
  refine ⟨y, ?_, ⟨hy0, hy1⟩, hrdp, hyb⟩
  unfold child_ancestor
  have e1 := hB.is_ancestor_eq a b ha0 ha1 hb0 hb1
  have e2 := hB.is_ancestor_eq y b hy0 hy1 hb0 hb1
  have i1 := (hB.anc_iff a b ha0 ha1 hb0 hb1).2 hab
  have i2 := (hB.anc_iff y b hy0 hy1 hb0 hb1).2 hyb
  simp only [hne, if_false, e1, i1, and_self, decide_True, Option.bind_eq_bind,
    Option.some_bind, if_true, rd_first_occurrence hB.sized ha0 ha1,
    rd_first_occurrence hB.sized hb0 hb1, hq, hy, hrdp, e2, i2]

/-- C19: on a forest (whose Euler tour fits a 32-bit `int`) `build` succeeds, and in the
built structure, for a strict ancestor `a` of a node `b`, `child_ancestor(a, b)` passes
its assertions and returns a node `c` with `parent[c] = a` that is an ancestor of `b`,
and `c` is the only such node. -/
theorem child_ancestor_returns_child (S : StdSort) (prev : weighted_LCA)
    (adj : List (List edge)) (root : Int)
    (hF : IsForest adj) (hsmall : 2 * (adj.length : Int) < 2147483648) :
    ∃ st, build S (init_adj prev adj) root true = some st ∧
      ∀ a b : Int, 0 ≤ a → a < adj.length → 0 ≤ b → b < adj.length → a ≠ b →
        IsAnc st a b →
        ∃ c, child_ancestor st a b = some c ∧ rd st.parent c = some a ∧ IsAnc st c b ∧
          ∀ c1 : Int, 0 ≤ c1 → c1 < adj.length → rd st.parent c1 = some a →
            IsAnc st c1 b → c1 = c := by
  obtain ⟨st, F, hb, hB⟩ := build_spec S prev adj root hF hsmall
  refine ⟨st, hb, fun a b ha0 ha1 hb0 hb1 hne hab => ?_⟩
  obtain ⟨c, h1, ⟨hc0, hc1⟩, h2, h3⟩ := hB.child_ancestor_spec a b ha0 ha1 hb0 hb1 hne hab
  refine ⟨c, h1, h2, h3, fun c1 h10 h11 hp hanc => ?_⟩
  have hdep : ∀ y : Int, 0 ≤ y → y < adj.length → rd st.parent y = some a →
      dep st y = dep st a + 1 := by
    intro y hy0 hy1 hy
    have e := parent_of_eq hy0 hy
    rcases (hB.node y hy0 hy1).2.2 with ⟨p, _⟩ | ⟨_, hd, _⟩
    · omega
    · rw [hd, e]
  exact hB.anc_of_dep c1 c b hb0 hb1 h10 hc0 hanc h3
    (by rw [hdep c1 h10 h11 hp, hdep c hc0 hc1 h2])

theorem child_ancestor_returns_child_witness :
    ∃ st c, build insertion_sort (init_adj fresh star_adj) (-1) true = some st ∧
      child_ancestor st 0 3 = some c ∧ rd st.parent c = some 0 ∧ IsAnc st c 3 ∧
      ∀ c1 : Int, 0 ≤ c1 → c1 < star_adj.length → rd st.parent c1 = some 0 →
        IsAnc st c1 3 → c1 = c := by
  obtain ⟨st, hb, h⟩ := child_ancestor_returns_child insertion_sort fresh star_adj (-1)
    star_adj_isForest (by decide)
  have hst : st = (build insertion_sort (init_adj fresh star_adj) (-1) true).get (by decide) := by
    simp [hb]
  have hanc : IsAnc st 0 3 := ⟨1, by rw [hst]; decide⟩
  obtain ⟨c, hc⟩ := h 0 3 (by decide) (by decide) (by decide) (by decide) (by decide) hanc
  exact ⟨st, c, hb, hc⟩

end weighted_LCA

namespace Forest

theorem tourOf_length : ∀ (G : Forest) (par : Int), (tourOf G par).length = 2 * G.size := by
  intro G
  induction G with
  | nil => intro _; rfl
  | cons v w kids rest ih1 ih2 =>
    intro par
    simp only [tourOf, List.length_cons, List.length_append, ih1, ih2, size]
    omega

theorem exists_hasNode : ∀ (G : Forest) (x : Int), x ∈ G.labels → ∃ K, HasNode x K G := by
  intro G
  induction G with
  | nil => intro x hx; simp [labels] at hx
  | cons v w kids rest ih1 ih2 =>
    intro x hx
    simp only [labels, List.mem_cons, List.mem_append] at hx
    rcases hx with h | h | h
    · exact ⟨kids, Or.inl ⟨h.symm, rfl⟩⟩
    · obtain ⟨K, hK⟩ := ih1 x h
      exact ⟨K, Or.inr (Or.inl hK)⟩
    · obtain ⟨K, hK⟩ := ih2 x h
      exact ⟨K, Or.inr (Or.inr hK)⟩

theorem hasNode_labels (x : Int) (K : Forest) : ∀ (G : Forest), HasNode x K G →
    x ∈ G.labels ∧ ∀ y ∈ K.labels, y ∈ G.labels := by
  intro G
  induction G with
  | nil => intro h; exact h.elim
  | cons v w kids rest ih1 ih2 =>
    intro h
    simp only [labels, List.mem_cons, List.mem_append]
    rcases h with ⟨h1, h2⟩ | h | h
    · subst h1; subst h2
      exact ⟨Or.inl rfl, fun y hy => Or.inr (Or.inl hy)⟩
    · obtain ⟨a, b⟩ := ih1 h
      exact ⟨Or.inr (Or.inl a), fun y hy => Or.inr (Or.inl (b y hy))⟩
    · obtain ⟨a, b⟩ := ih2 h
      exact ⟨Or.inr (Or.inr a), fun y hy => Or.inr (Or.inr (b y hy))⟩

theorem hasNode_nodup (x : Int) (K : Forest) : ∀ (G : Forest), HasNode x K G →
    G.labels.Nodup → K.labels.Nodup := by
  intro G
  induction G with
  | nil => intro h; exact h.elim
  | cons v w kids rest ih1 ih2 =>
    intro h hnd
    simp only [labels, List.nodup_cons, List.nodup_append] at hnd
    obtain ⟨_, hk, hr, _⟩ := hnd
    rcases h with ⟨_, h2⟩ | h | h
    · subst h2; exact hk
    · exact ih1 h hk
    · exact ih2 h hr

theorem hasNode_sorted (x : Int) (K : Forest) : ∀ (G : Forest), HasNode x K G →
    G.KidsSorted → K.TopSorted := by
  intro G
  induction G with
  | nil => intro h; exact h.elim
  | cons v w kids rest ih1 ih2 =>
    intro h hs
    obtain ⟨h1, h2, h3⟩ := hs
    rcases h with ⟨_, h⟩ | h | h
    · subst h; exact h1
    · exact ih1 h h2
    · exact ih2 h h3

theorem roots_sublist (G : Forest) : G.roots.Sublist G.labels := by
  induction G with
  | nil => exact List.Sublist.refl _
  | cons v w kids rest _ ih2 =>
    simp only [roots, labels]
    exact (ih2.trans (List.sublist_append_right _ _)).cons₂ v

theorem roots_length (G : Forest) : G.roots.length = G.trees.length := by
  rw [roots_eq_map, List.length_map]

theorem count_tourOf_not_mem (x : Int) : ∀ (G : Forest) (par : Int), x ∉ G.labels →
    (tourOf G par).count x = if x = par then G.trees.length else 0 := by
  intro G
  induction G with
  | nil => intro par _; simp [tourOf, trees]
  | cons v w kids rest ih1 ih2 =>
    intro par hx
    simp only [labels, List.mem_cons, List.mem_append, not_or] at hx
    obtain ⟨hxv, hxk, hxr⟩ := hx
    have hvx : ¬ v = x := fun e => hxv e.symm
    simp only [tourOf, List.count_cons, List.count_append, ih1 v hxk, ih2 par hxr, hxv,
      if_false, beq_iff_eq, hvx, trees, List.length_cons]
    by_cases hp : x = par
    · subst hp
      simp only [if_true]
      omega
    · have hp2 : ¬ par = x := fun e => hp e.symm
      simp only [hp, hp2, if_false]

theorem count_tourOf (x : Int) (K : Forest) : ∀ (G : Forest) (par : Int), HasNode x K G →
    G.labels.Nodup → x ≠ par → (tourOf G par).count x = K.trees.length + 1 := by
  intro G
  induction G with
  | nil => intro _ h; exact h.elim
  | cons v w kids rest ih1 ih2 =>
    intro par h hnd hxp
    simp only [labels, List.nodup_cons, List.mem_append, not_or, List.nodup_append] at hnd
    obtain ⟨⟨hvk, hvr⟩, hk, hr, hdisj⟩ := hnd
    have hp2 : ¬ par = x := fun e => hxp e.symm
    simp only [tourOf, List.count_cons, List.count_append, beq_iff_eq, hp2, if_false]
    rcases h with ⟨h1, h2⟩ | h | h
    · subst h1; subst h2
      rw [count_tourOf_not_mem v kids v hvk, count_tourOf_not_mem v rest par hvr]
      simp only [if_true, hxp, if_false]
    · have hxk : x ∈ kids.labels := (hasNode_labels x K kids h).1
      have hxv : x ≠ v := fun e => hvk (e ▸ hxk)
      have hvx : ¬ v = x := fun e => hxv e.symm
      rw [ih1 v h hk hxv, count_tourOf_not_mem x rest par (fun hm => hdisj hxk hm)]
      simp only [hxp, hvx, if_false]
    · have hxr : x ∈ rest.labels := (hasNode_labels x K rest h).1
      have hxv : x ≠ v := fun e => hvr (e ▸ hxr)
      have hvx : ¬ v = x := fun e => hxv e.symm
      rw [ih2 par h hr hxp, count_tourOf_not_mem x kids v (fun hm => hdisj hm hxr)]
      simp only [hxv, hvx, if_false]
      omega

end Forest

theorem realizes_hasNode (adj : List (List edge)) (x : Int) (K : Forest) :
    ∀ (G : Forest) (par : Int), Realizes adj G par → Forest.HasNode x K G →
    ∃ row, rd adj x = some row ∧ ∀ e ∈ K.topEdges, e ∈ row := by
  intro G
  induction G with
  | nil => intro _ _ h; exact h.elim
  | cons v w kids rest ih1 ih2 =>
    intro par hreal h
    obtain ⟨⟨row, hrd, hperm⟩, hk, hr⟩ := hreal
    rcases h with ⟨h1, h2⟩ | h | h
    · subst h1; subst h2
      exact ⟨row, hrd, fun e he => hperm.mem_iff.2 (List.mem_append_right _ he)⟩
    · exact ih1 v hk h
    · exact ih2 par hr h

namespace weighted_LCA

theorem rep_hasNode (st : weighted_LCA) (x : Int) (K : Forest) :
    ∀ (G : Forest) (par d wdp : Int), Rep st G par d wdp → Forest.HasNode x K G →
    ∃ d1 wd1 : Int, rd st.depth x = some d1 ∧ rd st.weight_depth x = some wd1 ∧
      rd st.subtree_size x = some (1 + (K.size : Int)) ∧
      rd st.adj x = some K.topEdges ∧
      Rep st K x (d1 + 1) wd1 := by
  intro G
  induction G with
  | nil => intro _ _ _ _ h; exact h.elim
  | cons v w kids rest ih1 ih2 =>
    intro par d wdp hrep h
    obtain ⟨⟨_, a2, a3, _, a5, a6⟩, hk, hr⟩ := hrep
    rcases h with ⟨h1, h2⟩ | h | h
    · subst h1; subst h2
      exact ⟨d, wdp + w, a2, a3, by simpa using a5, a6, hk⟩
    · exact ih1 _ _ _ hk h
    · exact ih2 _ _ _ hr h

theorem labels_child_cases : ∀ (G : Forest) (c : Int), c ∈ G.labels →
    c ∈ G.roots ∨ ∃ p K, Forest.HasNode p K G ∧ c ∈ K.roots := by
  intro G
  induction G with
  | nil => intro c hc; simp [Forest.labels] at hc
  | cons v w kids rest ih1 ih2 =>
    intro c hc
    simp only [Forest.labels, List.mem_cons, List.mem_append] at hc
    rcases hc with h | h | h
    · exact Or.inl (by simp [Forest.roots, h])
    · rcases ih1 c h with h1 | ⟨p, K, h1, h2⟩
      · exact Or.inr ⟨v, kids, Or.inl ⟨rfl, rfl⟩, h1⟩
      · exact Or.inr ⟨p, K, Or.inr (Or.inl h1), h2⟩
    · rcases ih2 c h with h1 | ⟨p, K, h1, h2⟩
      · exact Or.inl (by simp [Forest.roots, h1])
      · exact Or.inr ⟨p, K, Or.inr (Or.inr h1), h2⟩

theorem lay_euler (st : weighted_LCA) : ∀ (G : Forest) (par d wdp : Int) (hv : Bool)
    (e0 p0 : Int), Lay st G par d wdp hv e0 p0 → 0 ≤ e0 →
    ∀ (j : Nat) (y : Int), (Forest.tourOf G par)[j]? = some y →
      rd st.euler (e0 + j) = some y := by
  intro G
  induction G with
  | nil => intro _ _ _ _ _ _ _ _ j y h; simp [Forest.tourOf] at h
  | cons v w kids rest ih1 ih2 =>
    intro par d wdp hv e0 p0 hL he0 j y h
    obtain ⟨_, ⟨_, b2, b3, _⟩, hk, hr⟩ := hL
    simp only [Forest.tourOf] at h
    cases j with
    | zero =>
      simp only [List.getElem?_cons_zero, Option.some.injEq] at h
      subst h
      simpa using b2
    | succ j =>
      simp only [List.getElem?_cons_succ] at h
      by_cases hj : j < (Forest.tourOf kids v).length
      · rw [List.getElem?_append_left hj] at h
        have := ih1 _ _ _ _ _ _ hk (by omega) j y h
        rw [← this]
        congr 1
        push_cast; ring
      · rw [List.getElem?_append_right (by omega)] at h
        rw [Forest.tourOf_length] at hj h
        cases hm : j - 2 * kids.size with
        | zero =>
          rw [hm] at h
          simp only [List.getElem?_cons_zero, Option.some.injEq] at h
          subst h
          rw [← b3]
          congr 1
          have : j = 2 * kids.size := by omega
          rw [this]; push_cast; ring
        | succ m =>
          rw [hm] at h
          simp only [List.getElem?_cons_succ] at h
          have := ih2 _ _ _ _ _ _ hr (by omega) m y h
          rw [← this]
          congr 1
          have : j = 2 * kids.size + (m + 1) := by omega
          rw [this]; push_cast; ring

end weighted_LCA

namespace weighted_LCA

variable {adj : List (List edge)} {st : weighted_LCA} {F : Forest}

/-- The Euler tour of the built structure is the tour of its forest. -/
theorem BuiltOn.euler_eq (hB : BuiltOn adj st F) : st.euler = Forest.tourOf F (-1) := by
  have hlen : st.euler.length = (Forest.tourOf F (-1)).length := by
    have h1 := hB.2.2.2.2.2.1
    rw [Forest.tourOf_length, hB.size_eq]
    omega
  apply List.ext_getElem?
  intro j
  by_cases hj : j < (Forest.tourOf F (-1)).length
  · have hy : (Forest.tourOf F (-1))[j]? = some ((Forest.tourOf F (-1))[j]) :=
      List.getElem?_eq_getElem hj
    have := lay_euler st F _ _ _ _ _ _ hB.lay (le_refl _) j _ hy
    rw [hy, ← this]
    simp [rd]
  · rw [List.getElem?_eq_none (by omega), List.getElem?_eq_none (by omega)]

theorem BuiltOn.nodup (hB : BuiltOn adj st F) : F.labels.Nodup :=
  hB.2.1.nodup_iff.2 (nodup_range_map _)

theorem BuiltOn.rep (hB : BuiltOn adj st F) : Rep st F (-1) 0 0 :=
  lay_rep st F _ _ _ _ _ _ hB.lay

/-- The facts of the rooting pass at a node `v` and its children. -/
theorem BuiltOn.kids (hB : BuiltOn adj st F) (v : Int) (h0 : 0 ≤ v) (h1 : v < adj.length) :
    ∃ (K : Forest) (d1 wd1 : Int), Forest.HasNode v K F ∧
      rd st.depth v = some d1 ∧ rd st.weight_depth v = some wd1 ∧
      rd st.subtree_size v = some (1 + (K.size : Int)) ∧ rd st.adj v = some K.topEdges ∧
      Rep st K v (d1 + 1) wd1 ∧ K.roots.Nodup ∧ K.TopSorted ∧
      (∀ c, c ∈ K.roots ↔ rd st.parent c = some v) := by
  obtain ⟨K, hK⟩ := Forest.exists_hasNode F v ((hB.mem_iff v).2 ⟨h0, h1⟩)
  obtain ⟨d1, wd1, a1, a2, a3, a4, a5⟩ := rep_hasNode st v K F _ _ _ hB.rep hK
  refine ⟨K, d1, wd1, hK, a1, a2, a3, a4, a5,
    (Forest.roots_sublist K).nodup (Forest.hasNode_nodup v K F hK hB.nodup),
    Forest.hasNode_sorted v K F hK hB.2.2.2.2.2.2.2.2.2.2.2.2, ?_⟩
  intro c
  constructor
  · intro hc
    exact rep_root_parent st K _ _ _ a5 c hc
  · intro hc
    have hcr := rd_bounds hc
    rw [hB.sized.2.2.1] at hcr
    have hcF : c ∈ F.labels := (hB.mem_iff c).2 hcr
    rcases labels_child_cases F c hcF with h | ⟨p, K2, h2, h3⟩
    · have := rep_root_parent st F _ _ _ hB.rep c h
      rw [hc] at this
      injection this with e
      omega
    · obtain ⟨_, _, _, _, _, b4, b5⟩ := rep_hasNode st p K2 F _ _ _ hB.rep h2
      have := rep_root_parent st K2 _ _ _ b5 c h3
      rw [hc] at this
      injection this with e
      subst e
      rw [a4] at b4
      injection b4 with e2
      rw [Forest.roots_eq_topEdges, e2, ← Forest.roots_eq_topEdges]
      exact h3

/-- The roots of the forest of the built structure are the nodes without parent. -/
theorem BuiltOn.roots_iff (hB : BuiltOn adj st F) (c : Int) :
    c ∈ F.roots ↔ rd st.parent c = some (-1) := by
  constructor
  · intro hc
    exact rep_root_parent st F _ _ _ hB.rep c hc
  · intro hc
    have hcr := rd_bounds hc
    rw [hB.sized.2.2.1] at hcr
    rcases labels_child_cases F c ((hB.mem_iff c).2 hcr) with h | ⟨p, K2, h2, h3⟩
    · exact h
    · obtain ⟨_, _, _, _, _, _, b5⟩ := rep_hasNode st p K2 F _ _ _ hB.rep h2
      have := rep_root_parent st K2 _ _ _ b5 c h3
      rw [hc] at this
      injection this with e
      have := hB.pos p (Forest.hasNode_labels p K2 F h2).1
      omega

end weighted_LCA

namespace weighted_LCA

theorem mem_children (st : weighted_LCA) (v c : Int) :
    c ∈ children st v ↔ rd st.parent c = some v := by
  simp only [children, List.mem_filter, decide_eq_true_eq, mem_range_map]
  constructor
  · intro h; exact h.2
  · intro h; exact ⟨rd_bounds h, h⟩

theorem children_nodup (st : weighted_LCA) (v : Int) : (children st v).Nodup :=
  (nodup_range_map _).filter _

theorem children_length (st : weighted_LCA) (v : Int) (l : List Int) (hl : l.Nodup)
    (h : ∀ c, c ∈ l ↔ rd st.parent c = some v) : (children st v).length = l.length := by
  apply List.Perm.length_eq
  rw [List.perm_ext_iff_of_nodup (children_nodup st v) hl]
  intro c
  rw [mem_children, h]

theorem sum_ssz_trees (st : weighted_LCA) : ∀ (ts : List (Int × Int × Forest)),
    (∀ t ∈ ts, ssz st t.1 = 1 + (t.2.2.size : Int)) →
    ((ts.map (fun t => (⟨t.1, t.2.1⟩ : edge))).map (fun e => ssz st e.node)).sum
      = (((ts.map (fun t => 1 + Forest.size t.2.2)).sum : Nat) : Int) := by
  intro ts
  induction ts with
  | nil => intro _; rfl
  | cons t ts ih =>
    intro h
    simp only [List.map_cons, List.sum_cons]
    rw [ih (fun s hs => h s (List.mem_cons_of_mem _ hs)), h t (List.mem_cons_self _ _)]
    push_cast
    rfl

theorem rep_ssz {st : weighted_LCA} {K : Forest} {par d wdp : Int} (h : Rep st K par d wdp) :
    ∀ t ∈ K.trees, ssz st t.1 = 1 + (t.2.2.size : Int) := by
  intro t ht
  have e1 := ((rep_iff _ _ _ _ _).1 h t ht).1.2.2.2.2.1
  simp [ssz, e1]

/-- C17: on a forest with `n` nodes (whose Euler tour fits a 32-bit `int`) `build`
succeeds, so its assertion holds, and the Euler tour has exactly `2 n` entries; every
node occurs once more than it has children; the number of `-1` entries is the number of
components; and the tour of each component, which starts at the first occurrence of its
root `r` and consists of `2 * subtree_size[r] - 1` nodes of the component, is followed by
a `-1`. -/
theorem euler_tour_counts (S : StdSort) (prev : weighted_LCA)
    (adj : List (List edge)) (root : Int)
    (hF : IsForest adj) (hsmall : 2 * (adj.length : Int) < 2147483648) :
    ∃ st, build S (init_adj prev adj) root true = some st ∧
      (st.euler.length : Int) = 2 * adj.length ∧
      (∀ v : Int, 0 ≤ v → v < adj.length →
        st.euler.count v = (children st v).length + 1) ∧
      st.euler.count (-1) = (children st (-1)).length ∧
      (∀ r : Int, rd st.parent r = some (-1) →
        ∃ f z : Int, rd st.first_occurrence r = some f ∧ rd st.subtree_size r = some z ∧
          (∀ j : Int, f ≤ j → j < f + (2 * z - 1) →
            ∃ y, rd st.euler j = some y ∧ 0 ≤ y ∧ IsAnc st r y) ∧
          rd st.euler (f + (2 * z - 1)) = some (-1)) := by
  obtain ⟨st, F, hb, hB⟩ := build_spec S prev adj root hF hsmall
  refine ⟨st, hb, hB.2.2.2.2.2.1, ?_, ?_, ?_⟩
  · intro v hv0 hv1
    obtain ⟨K, d1, wd1, hK, _, _, _, _, _, hnd, _, hmem⟩ := hB.kids v hv0 hv1
    rw [hB.euler_eq, Forest.count_tourOf v K F (-1) hK hB.nodup (by omega),
      children_length st v K.roots hnd hmem, Forest.roots_length]
  · have hneg : (-1 : Int) ∉ F.labels := fun h => by
      have := hB.pos (-1) h
      omega
    rw [hB.euler_eq, Forest.count_tourOf_not_mem (-1) F (-1) hneg,
      children_length st (-1) F.roots
        ((Forest.roots_sublist F).nodup hB.nodup) hB.roots_iff, Forest.roots_length]
    simp
  · intro r hr
    have hrr := rd_bounds hr
    rw [hB.sized.2.2.1] at hrr
    obtain ⟨⟨_, _, _, _, h5⟩, _, _⟩ := hB.node r hrr.1 hrr.2
    refine ⟨fo st r, ssz st r, rd_first_occurrence hB.sized hrr.1 hrr.2,
      rd_getD hB.sized.2.2.2.2.1 hrr.1 hrr.2, ?_, ?_⟩
    · intro j hj0 hj1
      obtain ⟨y, a, b, c⟩ := hB.interval r hrr.1 hrr.2 j hj0 (by unfold lo; omega)
      exact ⟨y, a, b.1, c⟩
    · rw [parent_of_eq hrr.1 hr] at h5
      rw [← h5]
      congr 1
      unfold lo
      ring

theorem euler_tour_counts_witness :
    ∃ st, build insertion_sort (init_adj fresh two_components_adj) (-1) true = some st ∧
      (st.euler.length : Int) = 2 * two_components_adj.length ∧
      (∀ v : Int, 0 ≤ v → v < two_components_adj.length →
        st.euler.count v = (children st v).length + 1) ∧
      st.euler.count (-1) = (children st (-1)).length ∧
      (∀ r : Int, rd st.parent r = some (-1) →
        ∃ f z : Int, rd st.first_occurrence r = some f ∧ rd st.subtree_size r = some z ∧
          (∀ j : Int, f ≤ j → j < f + (2 * z - 1) →
            ∃ y, rd st.euler j = some y ∧ 0 ≤ y ∧ IsAnc st r y) ∧
          rd st.euler (f + (2 * z - 1)) = some (-1)) :=
  euler_tour_counts insertion_sort fresh two_components_adj (-1) two_components_adj_isForest
    (by decide)

/-- C20: on a forest (whose Euler tour fits a 32-bit `int`) `build` succeeds, and for
every node `v` the row `adj[v]` of the built structure lists exactly the nodes whose
parent is `v`, each once, every entry being an entry of the row of `v` given to `build`
(so with its original weight), in the order of non-increasing `subtree_size`; every
entry `e` has `depth[e.node] = depth[v] + 1` and
`weight_depth[e.node] = weight_depth[v] + e.weight`; and `subtree_size[v]` is 1 plus the
sum of `subtree_size` over the entries. -/
theorem adjacency_after_build (S : StdSort) (prev : weighted_LCA)
    (adj : List (List edge)) (root : Int)
    (hF : IsForest adj) (hsmall : 2 * (adj.length : Int) < 2147483648) :
    ∃ st, build S (init_adj prev adj) root true = some st ∧
      ∀ v : Int, 0 ≤ v → v < adj.length →
        ∃ (row row0 : List edge) (d w z : Int),
          rd st.adj v = some row ∧ rd adj v = some row0 ∧ rd st.depth v = some d ∧
          rd st.weight_depth v = some w ∧ rd st.subtree_size v = some z ∧
          (row.map (fun e => e.node)).Nodup ∧
          (∀ c : Int, c ∈ row.map (fun e => e.node) ↔ rd st.parent c = some v) ∧
          (∀ e ∈ row, e ∈ row0) ∧
          row.Pairwise (fun a b => ssz st b.node ≤ ssz st a.node) ∧
          (∀ e ∈ row, rd st.depth e.node = some (d + 1) ∧
            rd st.weight_depth e.node = some (w + e.weight) ∧
            rd st.subtree_size e.node = some (ssz st e.node)) ∧
          z = 1 + (row.map (fun e => ssz st e.node)).sum := by
  obtain ⟨st, F, hb, hB⟩ := build_spec S prev adj root hF hsmall
  refine ⟨st, hb, fun v hv0 hv1 => ?_⟩
  obtain ⟨K, d1, wd1, hK, a1, a2, a3, a4, hrep, hnd, hsorted, hmem⟩ := hB.kids v hv0 hv1
  obtain ⟨row0, hrow0, hsub⟩ := realizes_hasNode adj v K F (-1) hB.2.2.1 hK
  have hssz := rep_ssz hrep
  refine ⟨K.topEdges, row0, d1, wd1, 1 + K.size, a4, hrow0, a1, a2, a3, ?_, ?_, hsub,
    ?_, ?_, ?_⟩
  · rw [← Forest.roots_eq_topEdges]; exact hnd
  · intro c
    rw [← Forest.roots_eq_topEdges]; exact hmem c
  · rw [Forest.topEdges_eq_map, List.pairwise_map]
    refine List.Pairwise.imp_of_mem ?_ hsorted
    intro s t hs ht hst
    show ssz st t.1 ≤ ssz st s.1
    rw [hssz s hs, hssz t ht]
    omega
  · intro e he
    rw [Forest.topEdges_eq_map] at he
    obtain ⟨t, ht, rfl⟩ := List.mem_map.1 he
    obtain ⟨⟨_, b2, b3, _, b5, _⟩, _⟩ := (rep_iff _ _ _ _ _).1 hrep t ht
    refine ⟨b2, b3, ?_⟩
    show rd st.subtree_size t.1 = some (ssz st t.1)
    rw [hssz t ht]; simpa using b5
  · rw [Forest.topEdges_eq_map, sum_ssz_trees st K.trees hssz, ← Forest.size_eq_sum]

theorem adjacency_after_build_witness :
    ∃ st, build insertion_sort (init_adj fresh star_adj) (-1) true = some st ∧
      ∀ v : Int, 0 ≤ v → v < star_adj.length →
        ∃ (row row0 : List edge) (d w z : Int),
          rd st.adj v = some row ∧ rd star_adj v = some row0 ∧ rd st.depth v = some d ∧
          rd st.weight_depth v = some w ∧ rd st.subtree_size v = some z ∧
          (row.map (fun e => e.node)).Nodup ∧
          (∀ c : Int, c ∈ row.map (fun e => e.node) ↔ rd st.parent c = some v) ∧
          (∀ e ∈ row, e ∈ row0) ∧
          row.Pairwise (fun a b => ssz st b.node ≤ ssz st a.node) ∧
          (∀ e ∈ row, rd st.depth e.node = some (d + 1) ∧
            rd st.weight_depth e.node = some (w + e.weight) ∧
            rd st.subtree_size e.node = some (ssz st e.node)) ∧
          z = 1 + (row.map (fun e => ssz st e.node)).sum :=
  adjacency_after_build insertion_sort fresh star_adj (-1) star_adj_isForest (by decide)

/-- C21: on a forest with `n` nodes (whose Euler tour fits a 32-bit `int`) `build`
succeeds, and in the built structure `tour_start` maps the nodes one-to-one onto the
positions `0 .. n - 1` with `tour_list` as its inverse: `tour_list[tour_start[v]] = v`
for every node `v`, and every position `q` holds a node `y` with `tour_start[y] = q`;
moreover `tour_end[v] = tour_start[v] + subtree_size[v]` for every node `v`. -/
theorem tour_start_bijection (S : StdSort) (prev : weighted_LCA)
    (adj : List (List edge)) (root : Int)
    (hF : IsForest adj) (hsmall : 2 * (adj.length : Int) < 2147483648) :
    ∃ st, build S (init_adj prev adj) root true = some st ∧
      (∀ v : Int, 0 ≤ v → v < adj.length →
        ∃ s e z : Int, rd st.tour_start v = some s ∧ (0 ≤ s ∧ s < adj.length) ∧
          rd st.tour_list s = some v ∧ rd st.tour_end v = some e ∧
          rd st.subtree_size v = some z ∧ e = s + z) ∧
      (∀ q : Int, 0 ≤ q → q < adj.length →
        ∃ y : Int, rd st.tour_list q = some y ∧ (0 ≤ y ∧ y < adj.length) ∧
          rd st.tour_start y = some q) ∧
      (∀ u v : Int, 0 ≤ u → u < adj.length → 0 ≤ v → v < adj.length →
        rd st.tour_start u = rd st.tour_start v → u = v) := by
  obtain ⟨st, F, hb, hB⟩ := build_spec S prev adj root hF hsmall
  refine ⟨st, hb, ?_, ?_, ?_⟩
  · intro v hv0 hv1
    obtain ⟨⟨_, h2, h3, h4, _⟩, ⟨_, _, g3, g4, _⟩, _⟩ := hB.node v hv0 hv1
    exact ⟨tsk st v, te st v, ssz st v, rd_tour_start hB.sized hv0 hv1, ⟨g3, by omega⟩, h2,
      rd_tour_end hB.sized hv0 hv1, rd_getD hB.sized.2.2.2.2.1 hv0 hv1, h3⟩
  · intro q hq0 hq1
    obtain ⟨y, a, b, c⟩ := hB.pre_entries q hq0 hq1
    refine ⟨y, a, b, ?_⟩
    rw [← c]
    exact rd_tour_start hB.sized b.1 b.2
  · intro u v hu0 hu1 hv0 hv1 h
    rw [rd_tour_start hB.sized hu0 hu1, rd_tour_start hB.sized hv0 hv1] at h
    injection h with e
    have a := (hB.node u hu0 hu1).1.2.1
    have b := (hB.node v hv0 hv1).1.2.1
    rw [e, b] at a
    injection a with a
    exact a.symm

theorem tour_start_bijection_witness :
    ∃ st, build insertion_sort (init_adj fresh two_components_adj) (-1) true = some st ∧
      (∀ v : Int, 0 ≤ v → v < two_components_adj.length →
        ∃ s e z : Int, rd st.tour_start v = some s ∧
          (0 ≤ s ∧ s < two_components_adj.length) ∧
          rd st.tour_list s = some v ∧ rd st.tour_end v = some e ∧
          rd st.subtree_size v = some z ∧ e = s + z) ∧
      (∀ q : Int, 0 ≤ q → q < two_components_adj.length →
        ∃ y : Int, rd st.tour_list q = some y ∧ (0 ≤ y ∧ y < two_components_adj.length) ∧
          rd st.tour_start y = some q) ∧
      (∀ u v : Int, 0 ≤ u → u < two_components_adj.length → 0 ≤ v →
        v < two_components_adj.length →
        rd st.tour_start u = rd st.tour_start v → u = v) :=
  tour_start_bijection insertion_sort fresh two_components_adj (-1) two_components_adj_isForest
    (by decide)

end weighted_LCA

